import Mathlib

/-! The grid-drawing MIP of `ILPGridOptimizer::createProblem`

A shallow embedding of `src/src/octi/ilp/ILPGridOptimizer.cpp`.

* Comb nodes and comb edges are pointers in the source; here they are
  identified by a natural number (`id`), which is also what the source prints
  into the row and column names.
* Grid nodes are identified by `n->pl().getId()`.
* A GLPK column is looked up by name (`glp_find_col`); the names are kept as
  structured values (`VarName`) instead of formatted strings.
* `vm.addVar(row, col, val)` always uses a row created a few lines earlier in
  the same loop body, so the matrix entries are stored with their row.
* Costs are `float`/`double` in the source; they are rationals here and
  `none` stands for `std::numeric_limits<float>::infinity()`.
-/

namespace Loom

/-! ## Comb graph -/

/-- A `CombEdge`: `getFrom()`, `getTo()` and the line ids of
`pl().getChilds().front()->pl().getLines()`. -/
structure CombEdge where
  id : Nat
  getFrom : Nat
  getTo : Nat
  lines : List Nat
deriving DecidableEq, Repr

/-- A `CombNode`: its adjacency list and the edges of
`pl().getEdgeOrdering().getOrderedSet()` (first components). -/
structure CombNode where
  id : Nat
  getAdjList : List CombEdge
  getOrderedSet : List CombEdge
deriving DecidableEq, Repr

/-- Degree of a comb node: the size of its adjacency list. -/
def CombNode.getDeg (nd : CombNode) : Nat := nd.getAdjList.length

/-- The comb graph, `cg.getNds()`. -/
structure CombGraph where
  getNds : List CombNode
deriving DecidableEq, Repr

/-- The recurring loop header
`for (auto nd : cg.getNds()) for (auto edg : nd->getAdjList())
   if (edg->getFrom() != nd) continue;`
visits these comb edges, in this order. -/
def combEdges (cg : CombGraph) : List CombEdge :=
  cg.getNds.flatMap fun nd => nd.getAdjList.filter fun edg => edg.getFrom == nd.id

/-! ## Grid graph -/

/-- A directed grid edge. `fromIsSink` is `e->getFrom()->pl().isSink()`,
`toIsSink` is `e->getTo()->pl().isSink()`; the (mutable) cost is kept in the
graph. -/
structure GridEdge where
  getFrom : Nat
  getTo : Nat
  fromIsSink : Bool
  toIsSink : Bool
  isSecondary : Bool
  getId : Nat
deriving DecidableEq, Repr

/-- A grid node with its payload (`getId`, `isSink`, `getX`, `getY`,
`getPort`) and its three adjacency views. -/
structure GridNode where
  getId : Nat
  isSink : Bool
  getX : Nat
  getY : Nat
  getPort : Nat → Nat
  getAdjList : List GridEdge
  getAdjListIn : List GridEdge
  getAdjListOut : List GridEdge

/-- The grid graph as far as `createProblem` reads it. `cost a b` is
`e->pl().cost()` of the edge from node `a` to node `b`. `GridGraph` itself is
not part of the sources at hand; `getCellSize`, `ndMovePen`, `getNeighbor`
and `getNEdg` are taken as they are. `getNEdg` yields the end points of the
edge found. -/
structure GridGraph where
  getNds : List GridNode
  cost : Nat → Nat → Option ℚ
  getCellSize : ℚ
  ndMovePen : Nat → Nat → ℚ
  getNeighbor : Nat → Nat → Nat → Option Nat
  getNEdg : Option Nat → Option Nat → Option (Nat × Nat)

/-- Overwrite the cost of the edge from `a` to `b`. -/
def GridGraph.setCost (g : GridGraph) (a b : Nat) (c : Option ℚ) : GridGraph :=
  { g with cost := fun x y => if x = a ∧ y = b then c else g.cost x y }

/-- Modelled from the spec: `GridGraph::openNodeSinkFr` is not in the sources;
the spec says the open operations set the sink edges of the node to the given
cost, `Fr` being the directional variant for the edges leaving the sink. -/
def openNodeSinkFr (g : GridGraph) (n : GridNode) (c : ℚ) : GridGraph :=
  (List.range 8).foldl (fun g p => g.setCost n.getId (n.getPort p) (some c)) g

/-- Modelled from the spec: `GridGraph::openNodeSinkTo` is not in the sources;
the directional variant of `openNodeSink` for the edges entering the sink. -/
def openNodeSinkTo (g : GridGraph) (n : GridNode) (c : ℚ) : GridGraph :=
  (List.range 8).foldl (fun g p => g.setCost (n.getPort p) n.getId (some c)) g

/-! ## The GLPK problem object -/

/-- Column names: `statpos(n,v)`, `edg(from,to,c)`, `dir(v,c)`, `vuln(v,i)`,
`negdist(a,b)` and the seven angle indicators `names[k](a,b)`, `k = 0..6`. -/
inductive VarName where
  | statpos (n v : Nat)
  | edg (a b c : Nat)
  | dir (v c : Nat)
  | vuln (v i : Nat)
  | negdist (a b : Nat)
  | ang (k a b : Nat)
deriving DecidableEq, Repr

/-- Row names. -/
inductive RowName where
  | oneass (v : Nat)
  | uniqedge (a b : Nat)
  | adjsum (n c : Nat)
  | singlesink (n c : Nat)
  | inneruse (n : Nat)
  | nocross (n : Nat)
  | dirconst (v c : Nat)
  | vulnconst (v : Nat)
  | orderconst (v i : Nat)
  | negconst (a b : Nat)
  | angconst (a b : Nat)
  | angsumconst (a b : Nat)
deriving DecidableEq, Repr

/-- GLPK bound types. -/
inductive BndType where
  | FR | LO | UP | DB | FX
deriving DecidableEq, Repr

/-- Bounds as passed to `glp_set_row_bnds` / `glp_set_col_bnds`. -/
structure Bnd where
  type : BndType
  lb : Int
  ub : Int
deriving DecidableEq, Repr

/-- GLPK's reading of a bound: `GLP_FR` free, `GLP_LO` only `lb`, `GLP_UP`
only `ub`, `GLP_DB` both, `GLP_FX` fixed at `lb`. -/
def Bnd.sat (b : Bnd) (x : Int) : Prop :=
  match b.type with
  | .FR => True
  | .LO => b.lb ≤ x
  | .UP => x ≤ b.ub
  | .DB => b.lb ≤ x ∧ x ≤ b.ub
  | .FX => x = b.lb

instance (b : Bnd) (x : Int) : Decidable (b.sat x) := by
  unfold Bnd.sat
  cases b.type <;> infer_instance

/-- GLPK column kinds. -/
inductive ColKind where
  | CV | IV | BV
deriving DecidableEq, Repr

/-- A column: name, kind, bounds and objective coefficient. -/
structure Col where
  name : VarName
  kind : ColKind
  bnd : Bnd
  obj : ℚ

/-- `glp_add_cols` followed by `glp_set_col_name`: a new column is continuous,
fixed at zero and has objective coefficient zero. -/
def Col.add (name : VarName) : Col :=
  { name := name, kind := .CV, bnd := ⟨.FX, 0, 0⟩, obj := 0 }

/-- `glp_set_col_kind`: `GLP_BV` also sets the bounds to `[0,1]`. -/
def Col.setKind (c : Col) (k : ColKind) : Col :=
  match k with
  | .BV => { c with kind := .BV, bnd := ⟨.DB, 0, 1⟩ }
  | k => { c with kind := k }

/-- `glp_set_col_bnds`. -/
def Col.setBnds (c : Col) (t : BndType) (lb ub : Int) : Col :=
  { c with bnd := ⟨t, lb, ub⟩ }

/-- `glp_set_obj_coef`. -/
def Col.setObj (c : Col) (q : ℚ) : Col := { c with obj := q }

/-- A row: name, bounds, and the `vm.addVar(row, col, val)` entries made for
it, in order. -/
structure Row where
  name : RowName
  bnd : Bnd
  entries : List (VarName × Int)
deriving DecidableEq, Repr

/-- GLPK optimisation directions (`glp_set_obj_dir`). -/
inductive ObjDir where
  | MIN | MAX
deriving DecidableEq, Repr

/-- The problem handed to `glp_load_matrix`: rows, columns (with their
objective coefficients) and the optimisation direction. -/
structure Problem where
  rows : List Row
  cols : List Col
  objDir : ObjDir

/-- `glp_find_col(lp, name) > 0`. -/
def hasCol (cols : List Col) (v : VarName) : Bool :=
  cols.any fun c => c.name == v

/-- Coefficient of a variable in a list of entries (entries on the same
column add up). -/
def coefL (es : List (VarName × Int)) (v : VarName) : Int :=
  ((es.filter fun e => e.1 == v).map Prod.snd).sum

/-- Value of a list of entries under an assignment. -/
def evalL (es : List (VarName × Int)) (σ : VarName → Int) : Int :=
  (es.map fun e => e.2 * σ e.1).sum

/-- Coefficient of a variable in a row. -/
def Row.coef (r : Row) (v : VarName) : Int := coefL r.entries v

/-- Value of the row's linear form under an assignment. -/
def Row.eval (r : Row) (σ : VarName → Int) : Int := evalL r.entries σ

/-- An integral assignment is feasible when every row and every column is
within its bounds. (Every column of the problem is of integer kind.) -/
def Feasible (p : Problem) (σ : VarName → Int) : Prop :=
  (∀ r ∈ p.rows, r.bnd.sat (r.eval σ)) ∧ (∀ c ∈ p.cols, c.bnd.sat (σ c.name))

instance (p : Problem) (σ : VarName → Int) : Decidable (Feasible p σ) := by
  unfold Feasible
  infer_instance

/-! ## createProblem, first loop: station positions (lines 82-119) -/

/-- The test of lines 94-100: `n` is a sink and not `gridD >= maxDis`. -/
def isCand (gg : GridGraph) (dist : Nat → Nat → ℚ) (maxGrDist : ℚ)
    (nd : CombNode) (n : GridNode) : Bool :=
  n.isSink && !(decide (dist n.getId nd.id ≥ gg.getCellSize * maxGrDist))

/-- The grid nodes that pass the test for `nd`, in iteration order. -/
def candNds (gg : GridGraph) (dist : Nat → Nat → ℚ) (maxGrDist : ℚ)
    (nd : CombNode) : List GridNode :=
  gg.getNds.filter (isCand gg dist maxGrDist nd)

/-- Comb nodes not skipped by `if (nd->getDeg() == 0) continue;`. -/
def assignNds (cg : CombGraph) : List CombNode :=
  cg.getNds.filter fun nd => !(nd.getDeg == 0)

/-- The column `statpos(n,nd)` of lines 107-114. -/
def statPosCol (gg : GridGraph) (nd : CombNode) (n : GridNode) : Col :=
  ((Col.add (.statpos n.getId nd.id)).setKind .BV).setObj (gg.ndMovePen nd.id n.getId)

/-- The row `oneass(nd)` with its entries (lines 86-89, 116). -/
def oneassRow (gg : GridGraph) (dist : Nat → Nat → ℚ) (maxGrDist : ℚ)
    (nd : CombNode) : Row :=
  { name := .oneass nd.id
    bnd := ⟨.FX, 1, 1⟩
    entries := (candNds gg dist maxGrDist nd).map fun n => (.statpos n.getId nd.id, 1) }

/-- All rows of the first loop. -/
def oneassRows (gg : GridGraph) (cg : CombGraph) (dist : Nat → Nat → ℚ)
    (maxGrDist : ℚ) : List Row :=
  (assignNds cg).map (oneassRow gg dist maxGrDist)

/-- All columns of the first loop. -/
def statPosCols (gg : GridGraph) (cg : CombGraph) (dist : Nat → Nat → ℚ)
    (maxGrDist : ℚ) : List Col :=
  (assignNds cg).flatMap fun nd => (candNds gg dist maxGrDist nd).map (statPosCol gg nd)

/-- The map `cands` after the first loop, as pairs (comb node, grid node). -/
def candPairs (gg : GridGraph) (cg : CombGraph) (dist : Nat → Nat → ℚ)
    (maxGrDist : ℚ) : List (Nat × Nat) :=
  (assignNds cg).flatMap fun nd => (candNds gg dist maxGrDist nd).map fun n => (nd.id, n.getId)

/-- The grid graph after the first loop: every candidate was opened with
`openNodeSinkFr(n, 0)` and `openNodeSinkTo(n, 0)` (lines 104-105). -/
def openCands (gg : GridGraph) (cg : CombGraph) (dist : Nat → Nat → ℚ)
    (maxGrDist : ℚ) : GridGraph :=
  ((assignNds cg).flatMap (candNds gg dist maxGrDist)).foldl
    (fun g n => openNodeSinkTo (openNodeSinkFr g n 0) n 0) gg

/-! ## createProblem, second loop: edge-use columns (lines 123-162) -/

/-- Objective coefficient of an edge-use column (lines 152-158): the cost,
plus the geo penalty when a map is given and the edge is not secondary. -/
def edgeObj (geoPens : Option (Nat → Nat → ℚ)) (edg : CombEdge) (e : GridEdge)
    (c : ℚ) : ℚ :=
  match geoPens with
  | some gp => if !e.isSecondary then c + gp edg.id e.getId else c
  | none => c

/-- The body of the innermost loop (lines 129-158) for grid edge `e` and comb
edge `edg`: the three `continue`s, then the new column. -/
def edgeUseCol? (gg : GridGraph) (cands : List (Nat × Nat))
    (geoPens : Option (Nat → Nat → ℚ)) (edg : CombEdge) (e : GridEdge) : Option Col :=
  match gg.cost e.getFrom e.getTo with
  | none => none
  | some c =>
    if e.fromIsSink && !(cands.contains (edg.getFrom, e.getFrom)) then none
    else if e.toIsSink && !(cands.contains (edg.getTo, e.getTo)) then none
    else some (((Col.add (.edg e.getFrom e.getTo edg.id)).setKind .BV).setObj
      (edgeObj geoPens edg e c))

/-- All edge-use columns, in creation order. -/
def edgeUseCols (gg : GridGraph) (cg : CombGraph) (cands : List (Nat × Nat))
    (geoPens : Option (Nat → Nat → ℚ)) : List Col :=
  (combEdges cg).flatMap fun edg =>
    gg.getNds.flatMap fun n =>
      (n.getAdjList.filter fun e => e.getFrom == n.getId).filterMap
        (edgeUseCol? gg cands geoPens edg)

/-! ## Edge uniqueness rows (lines 166-199) -/

/-- An entry `(v, a)` if the column `v` exists, nothing otherwise:
`col = glp_find_col(..); if (col > 0) vm.addVar(row, col, a);`. -/
def entryIf (cols : List Col) (v : VarName) (a : Int) : List (VarName × Int) :=
  if hasCol cols v then [(v, a)] else []

/-- Entries of `uniqedge` for one comb edge (lines 186-195); `f`, the edge
from `e->getTo()` to `e->getFrom()`, is named by its end points. -/
def uniqEntries (gg : GridGraph) (cols : List Col) (e : GridEdge) (edg : CombEdge) :
    List (VarName × Int) :=
  if gg.cost e.getFrom e.getTo = none then []
  else entryIf cols (.edg e.getFrom e.getTo edg.id) 1 ++
       entryIf cols (.edg e.getTo e.getFrom edg.id) 1

/-- The row `uniqedge(from,to)` of grid edge `e`. -/
def uniqEdgeRow (gg : GridGraph) (cols : List Col) (cg : CombGraph) (e : GridEdge) : Row :=
  { name := .uniqedge e.getFrom e.getTo
    bnd := ⟨.UP, 1, 1⟩
    entries := (combEdges cg).flatMap (uniqEntries gg cols e) }

/-- The loop over all adjacency entries with the set `proced` of handled
edges (keyed by end points). -/
def uniqEdgeLoop (gg : GridGraph) (cols : List Col) (cg : CombGraph) :
    List (Nat × Nat) → List GridEdge → List Row
  | _, [] => []
  | proced, e :: es =>
    if e.isSecondary then uniqEdgeLoop gg cols cg proced es
    else if proced.contains (e.getFrom, e.getTo) then uniqEdgeLoop gg cols cg proced es
    else uniqEdgeRow gg cols cg e ::
      uniqEdgeLoop gg cols cg ((e.getTo, e.getFrom) :: (e.getFrom, e.getTo) :: proced) es

/-- The edges visited by `for n : gg->getNds() for e : n->getAdjList()`. -/
def allAdj (gg : GridGraph) : List GridEdge :=
  gg.getNds.flatMap fun n => n.getAdjList

/-- All `uniqedge` rows. -/
def uniqEdgeRows (gg : GridGraph) (cols : List Col) (cg : CombGraph) : List Row :=
  uniqEdgeLoop gg cols cg [] (allAdj gg)

/-! ## Flow rows (lines 203-266) -/

/-- `ILPGridOptimizer::nonInfDeg` (lines 836-843). -/
def nonInfDeg (gg : GridGraph) (g : GridNode) : Nat :=
  g.getAdjList.foldl
    (fun ret e => if gg.cost e.getFrom e.getTo ≠ none then ret + 1 else ret) 0

/-- The row `adjsum(n,edg)` (lines 209-263). -/
def adjsumRow (cols : List Col) (n : GridNode) (edg : CombEdge) : Row :=
  let inCost : Int := -1
  let outCost : Int := if n.isSink then 2 else 1
  { name := .adjsum n.getId edg.id
    bnd := ⟨.UP, 0, 0⟩
    entries :=
      (if n.isSink then
        entryIf cols (.statpos n.getId edg.getFrom) (-2) ++
        entryIf cols (.statpos n.getId edg.getTo) 1
       else []) ++
      n.getAdjListIn.flatMap (fun e => entryIf cols (.edg e.getFrom e.getTo edg.id) inCost) ++
      n.getAdjListOut.flatMap (fun e => entryIf cols (.edg e.getFrom e.getTo edg.id) outCost) }

/-- All `adjsum` rows. -/
def adjsumRows (gg : GridGraph) (cols : List Col) (cg : CombGraph) : List Row :=
  (gg.getNds.filter fun n => !(nonInfDeg gg n == 0)).flatMap fun n =>
    (combEdges cg).map (adjsumRow cols n)

/-! ## Single-sink rows (lines 274-317) -/

/-- The row `singlesink(n,e)` (lines 281-314). The edges
`getEdg(n->getPort(p), n)` and `getEdg(n, n->getPort(p))` are named by their
end points. -/
def singleSinkRow (cols : List Col) (cands : List (Nat × Nat)) (n : GridNode)
    (e : CombEdge) : Row :=
  { name := .singlesink n.getId e.id
    bnd := ⟨.FX, 0, 0⟩
    entries :=
      (if !(cands.contains (e.getFrom, n.getId)) && !(cands.contains (e.getTo, n.getId)) then []
       else
        (if cands.contains (e.getTo, n.getId) then
          entryIf cols (.statpos n.getId e.getTo) (-1) else []) ++
        (if cands.contains (e.getFrom, n.getId) then
          entryIf cols (.statpos n.getId e.getFrom) (-1) else [])) ++
      (List.range 8).flatMap fun p =>
        entryIf cols (.edg (n.getPort p) n.getId e.id) 1 ++
        entryIf cols (.edg n.getId (n.getPort p) e.id) 1 }

/-- The sinks of the grid, in iteration order. -/
def sinks (gg : GridGraph) : List GridNode :=
  gg.getNds.filter fun n => n.isSink

/-- All `singlesink` rows. -/
def singleSinkRows (gg : GridGraph) (cols : List Col) (cands : List (Nat × Nat))
    (cg : CombGraph) : List Row :=
  (sinks gg).flatMap fun n => (combEdges cg).map (singleSinkRow cols cands n)

/-! ## Inner-use rows (lines 321-357) -/

/-- The row `inneruse(n)` (lines 324-356); `innerE = getEdg(from, to)` is
named by its end points. -/
def innerUseRow (cols : List Col) (cg : CombGraph) (n : GridNode) : Row :=
  { name := .inneruse n.getId
    bnd := ⟨.UP, 0, 1⟩
    entries :=
      cg.getNds.flatMap (fun nd => entryIf cols (.statpos n.getId nd.id) 1) ++
      (List.range 8).flatMap fun pf =>
        (List.range 8).flatMap fun pt =>
          if n.getPort pf = n.getPort pt then []
          else (combEdges cg).flatMap fun edg =>
            entryIf cols (.edg (n.getPort pf) (n.getPort pt) edg.id) 1 }

/-- All `inneruse` rows. -/
def innerUseRows (gg : GridGraph) (cols : List Col) (cg : CombGraph) : List Row :=
  (sinks gg).map (innerUseRow cols cg)

/-- All results of a list of steps, or `none` as soon as one step fails. -/
def collect {α : Type} : List (Option α) → Option (List α)
  | [] => some []
  | none :: _ => none
  | some a :: l => (collect l).map fun r => a :: r

/-! ## No-cross rows (lines 362-402) -/

/-- Entries of `nocross` for one comb edge (lines 389-399). -/
def nocrossEntries (cols : List Col) (eOr fOr e f : Nat × Nat) (edg : CombEdge) :
    List (VarName × Int) :=
  entryIf cols (.edg eOr.1 eOr.2 edg.id) 1 ++
  entryIf cols (.edg fOr.1 fOr.2 edg.id) 1 ++
  entryIf cols (.edg e.1 e.2 edg.id) 1 ++
  entryIf cols (.edg f.1 f.2 edg.id) 1

/-- The row `nocross(n)` (lines 364-401). The row is added before the two
`continue`s, so it stays empty when a neighbour is missing. `e` and `f` are
used without a null check inside the comb-edge loop: when one of them is
missing and there is a comb edge, nothing is built. -/
def nocrossRow (gg : GridGraph) (cols : List Col) (cg : CombGraph) (n : GridNode) :
    Option Row :=
  let x := n.getX
  let y := n.getY
  let row : Row := { name := .nocross n.getId, bnd := ⟨.UP, 0, 1⟩, entries := [] }
  match gg.getNEdg (some n.getId) (gg.getNeighbor x y 3),
        gg.getNEdg (gg.getNeighbor x y 3) (some n.getId) with
  | some eOr, some fOr =>
    match gg.getNeighbor x y ((3 + 7) % 8), gg.getNeighbor x y ((3 + 1) % 8) with
    | some na, some nb =>
      if (combEdges cg).isEmpty then some row
      else
        match gg.getNEdg (some na) (some nb), gg.getNEdg (some nb) (some na) with
        | some e, some f =>
          some { row with entries := (combEdges cg).flatMap (nocrossEntries cols eOr fOr e f) }
        | _, _ => none
    | _, _ => some row
  | _, _ => some row

/-- All `nocross` rows; `none` when one of them cannot be built. -/
def nocrossRows (gg : GridGraph) (cols : List Col) (cg : CombGraph) : Option (List Row) :=
  collect ((sinks gg).map (nocrossRow gg cols cg))

/-! ## Direction variables and rows (lines 408-448) -/

/-- Comb nodes not skipped by `if (nd->getDeg() < 2) continue;`. -/
def dirNds (cg : CombGraph) : List CombNode :=
  cg.getNds.filter fun nd => !(decide (nd.getDeg < 2))

/-- The column `dir(nd,edg)` (lines 413-417): integer, `GLP_UP` with bounds
arguments 0 and 7. -/
def dirCol (nd : CombNode) (edg : CombEdge) : Col :=
  ((Col.add (.dir nd.id edg.id)).setKind .IV).setBnds .UP 0 7

/-- The sink edge of port `i` at sink `n` used in `dirconst(nd,edg)`:
`getEdg(n, port i)` when `edg->getFrom() == nd`, else `getEdg(port i, n)`. -/
def dirSinkEdge (nd : CombNode) (edg : CombEdge) (n : GridNode) (i : Nat) : VarName :=
  if edg.getFrom = nd.id then .edg n.getId (n.getPort i) edg.id
  else .edg (n.getPort i) n.getId edg.id

/-- The row `dirconst(nd,edg)` (lines 419-446). -/
def dirRow (gg : GridGraph) (cols : List Col) (nd : CombNode) (edg : CombEdge) : Row :=
  { name := .dirconst nd.id edg.id
    bnd := ⟨.FX, 0, 0⟩
    entries :=
      (.dir nd.id edg.id, -1) ::
      (sinks gg).flatMap fun n =>
        ((List.range 8).filter fun i => decide (1 ≤ i)).flatMap fun i =>
          entryIf cols (dirSinkEdge nd edg n i) (i : Int) }

/-- All `dir` columns. -/
def dirCols (cg : CombGraph) : List Col :=
  (dirNds cg).flatMap fun nd => nd.getAdjList.map (dirCol nd)

/-- All `dirconst` rows. The columns looked up are edge-use columns, all
created before this loop. -/
def dirRows (gg : GridGraph) (cols : List Col) (cg : CombGraph) : List Row :=
  (dirNds cg).flatMap fun nd => nd.getAdjList.map (dirRow gg cols nd)

/-! ## Circular order (lines 454-515) -/

/-- The columns `vuln(nd,i)`, `i < deg` (lines 467-475). -/
def vulnCols (nd : CombNode) : List Col :=
  (List.range nd.getDeg).map fun i => (Col.add (.vuln nd.id i)).setKind .BV

/-- The row `vulnconst(nd)` (lines 459-475). -/
def vulnRow (nd : CombNode) : Row :=
  { name := .vulnconst nd.id
    bnd := ⟨.FX, 1, 1⟩
    entries := (List.range nd.getDeg).map fun i => (.vuln nd.id i, 1) }

/-- The edge `edgA` of lines 480-485: the last edge of the ordering for
`i = 0`, the previous one otherwise. -/
def orderEdgA (nd : CombNode) (i : Nat) : Option CombEdge :=
  if i = 0 then nd.getOrderedSet.getLast? else nd.getOrderedSet.get? (i - 1)

/-- The row `orderconst(nd,i)` (lines 500-513) for given `edgA`, `edgB`, with
`M = 8`. -/
def orderRow (nd : CombNode) (i : Nat) (edgA edgB : CombEdge) : Row :=
  { name := .orderconst nd.id i
    bnd := ⟨.LO, 1, 1⟩
    entries := [(.dir nd.id edgB.id, 1), (.dir nd.id edgA.id, -1), (.vuln nd.id i, 8)] }

/-- One iteration of the loop of lines 479-514; `none` when an assertion
fails. Comb edges are pointers in the source, compared here by `id`. -/
def orderStep (cols : List Col) (nd : CombNode) (i : Nat) : Option Row :=
  match orderEdgA nd i, nd.getOrderedSet.get? i with
  | some edgA, some edgB =>
    if edgA.id ≠ edgB.id ∧ hasCol cols (.dir nd.id edgA.id) ∧
        hasCol cols (.dir nd.id edgB.id) ∧ hasCol cols (.vuln nd.id i)
    then some (orderRow nd i edgA edgB) else none
  | _, _ => none

/-- The rows `orderconst(nd,·)` (lines 477-514), after
`assert(order.size() > 2)`. -/
def orderRowsOf (cols : List Col) (nd : CombNode) : Option (List Row) :=
  if 2 < nd.getOrderedSet.length then
    collect ((List.range nd.getOrderedSet.length).map (orderStep cols nd))
  else none

/-- The loop over the comb nodes (lines 455-515), threading the columns
present so far. Result: the new rows and the new columns. -/
def orderLoop : List Col → List CombNode → Option (List Row × List Col)
  | _, [] => some ([], [])
  | cols, nd :: nds =>
    if nd.getDeg < 3 then orderLoop cols nds
    else
      match orderRowsOf (cols ++ vulnCols nd) nd with
      | none => none
      | some rs =>
        match orderLoop (cols ++ vulnCols nd) nds with
        | none => none
        | some (rows, newCols) => some (vulnRow nd :: rs ++ rows, vulnCols nd ++ newCols)

/-! ## Angle indicators (lines 521-611) -/

/-- The counter `sharedLines` of lines 531-538. -/
def sharedLines (edgA edgB : CombEdge) : Nat :=
  edgA.lines.foldl (fun s lo => if edgB.lines.contains lo then s + 1 else s) 0

/-- The vector `pens` of line 593. -/
def pens : List ℚ := [3, 5 / 2, 2, 1, 2, 5 / 2, 3]

/-- The column `negdist(edgA,edgB)` (lines 542-547). -/
def negCol (edgA edgB : CombEdge) : Col :=
  (Col.add (.negdist edgA.id edgB.id)).setKind .BV

/-- The column `names[k](edgA,edgB)` with objective `pens[k]` (lines 596-607). -/
def angCol (edgA edgB : CombEdge) (k : Nat) : Col :=
  ((Col.add (.ang k edgA.id edgB.id)).setKind .BV).setObj (pens.getD k 0)

/-- The row `negconst(edgA,edgB)` (lines 549-569). -/
def negRow (nd : CombNode) (edgA edgB : CombEdge) : Row :=
  { name := .negconst edgA.id edgB.id
    bnd := ⟨.DB, 0, 7⟩
    entries := [(.dir nd.id edgA.id, 1), (.dir nd.id edgB.id, -1),
      (.negdist edgA.id edgB.id, 8)] }

/-- The row `angconst(edgA,edgB)` (lines 571-580, 602). -/
def angRow (nd : CombNode) (edgA edgB : CombEdge) : Row :=
  { name := .angconst edgA.id edgB.id
    bnd := ⟨.FX, 0, 0⟩
    entries := [(.dir nd.id edgA.id, 1), (.dir nd.id edgB.id, -1),
      (.negdist edgA.id edgB.id, 8)] ++
      (List.range 7).map fun (k : Nat) => (VarName.ang k edgA.id edgB.id, -((k : Int) + 1)) }

/-- The row `angsumconst(edgA,edgB)` (lines 582-587, 603). -/
def angSumRow (edgA edgB : CombEdge) : Row :=
  { name := .angsumconst edgA.id edgB.id
    bnd := ⟨.UP, 0, 1⟩
    entries := (List.range 7).map fun k => (.ang k edgA.id edgB.id, 1) }

/-- The body of the pair loop (lines 525-608): the new rows and columns, or
`none` when an assertion fails. The only columns looked up are `dir`
columns; none is created in this loop, so the lookup uses the columns
present when the loop starts. -/
def anglePair (cols : List Col) (nd : CombNode) (edgA edgB : CombEdge) :
    Option (List Row × List Col) :=
  if edgA.id = edgB.id then none
  else if sharedLines edgA edgB = 0 then some ([], [])
  else if hasCol cols (.dir nd.id edgA.id) ∧ hasCol cols (.dir nd.id edgB.id) then
    some ([negRow nd edgA edgB, angRow nd edgA edgB, angSumRow edgA edgB],
      negCol edgA edgB :: (List.range 7).map (angCol edgA edgB))
  else none

/-- The pairs `(l[i], l[j])`, `i < j`, in the order of the two nested loops
of lines 522-525. -/
def pairsOf {α : Type} : List α → List (α × α)
  | [] => []
  | a :: l => l.map (fun b => (a, b)) ++ pairsOf l

/-- All results of the pair loop, node by node. -/
def anglePhase (cols : List Col) (cg : CombGraph) : Option (List (List Row × List Col)) :=
  collect (cg.getNds.flatMap fun nd =>
    (pairsOf nd.getAdjList).map fun ab => anglePair cols nd ab.1 ab.2)

/-! ## The whole of createProblem (lines 66-627) -/

/-- The columns present after the second loop: station positions, then edge
uses (the latter read the grid with the candidates opened). -/
def baseCols (gg : GridGraph) (cg : CombGraph) (geoPens : Option (Nat → Nat → ℚ))
    (maxGrDist : ℚ) (dist : Nat → Nat → ℚ) : List Col :=
  statPosCols gg cg dist maxGrDist ++
    edgeUseCols (openCands gg cg dist maxGrDist) cg (candPairs gg cg dist maxGrDist) geoPens

/-- `ILPGridOptimizer::createProblem`. `dist n v` is the euclidean distance
between the position of grid node `n` and of comb node `v`
(`dist(*n->pl().getGeom(), *nd->pl().getGeom())`). The result is `none` when
the source fails an assertion or dereferences a missing edge. -/
def createProblem (gg : GridGraph) (cg : CombGraph) (geoPens : Option (Nat → Nat → ℚ))
    (maxGrDist : ℚ) (dist : Nat → Nat → ℚ) : Option Problem :=
  let cands := candPairs gg cg dist maxGrDist
  let gg1 := openCands gg cg dist maxGrDist
  let cols2 := baseCols gg cg geoPens maxGrDist dist
  match nocrossRows gg1 cols2 cg with
  | none => none
  | some ncRows =>
    let cols3 := cols2 ++ dirCols cg
    match orderLoop cols3 cg.getNds with
    | none => none
    | some (ordRows, vCols) =>
      match anglePhase (cols3 ++ vCols) cg with
      | none => none
      | some angs =>
        some
          { rows :=
              oneassRows gg cg dist maxGrDist ++ uniqEdgeRows gg1 cols2 cg ++
              adjsumRows gg1 cols2 cg ++ singleSinkRows gg1 cols2 cands cg ++
              innerUseRows gg1 cols2 cg ++ ncRows ++ dirRows gg1 cols2 cg ++
              ordRows ++ angs.flatMap Prod.fst
            cols := cols3 ++ vCols ++ angs.flatMap Prod.snd
            objDir := .MIN }

/-! ## Variables of a sink -/

/-- The station-position variables `statpos(n,·)` of grid node `n`. -/
def isStatVar (n : GridNode) (v : VarName) : Bool :=
  match v with
  | .statpos m _ => m == n.getId
  | _ => false

/-- The edge-use variables of the bend edges of sink `n`: edges between two
different ports of `n`. -/
def isBendVar (n : GridNode) (v : VarName) : Bool :=
  match v with
  | .edg a b _ =>
    ((List.range 8).map n.getPort).contains a && ((List.range 8).map n.getPort).contains b &&
      a != b
  | _ => false

/-- Number of active sink edges of sink `n` for comb edge `c` under `σ`: the
sum of the existing edge-use variables of the 16 edges between `n` and its
ports. -/
def sinkEdgeUse (cols : List Col) (n : GridNode) (c : Nat) (σ : VarName → Int) : Int :=
  ((List.range 8).map fun p =>
    (if hasCol cols (.edg (n.getPort p) n.getId c) then σ (.edg (n.getPort p) n.getId c)
      else 0) +
    (if hasCol cols (.edg n.getId (n.getPort p) c) then σ (.edg n.getId (n.getPort p) c)
      else 0)).sum

/-- Value of `statpos(n,v)` under `σ`, zero when the variable does not exist. -/
def statUse (cols : List Col) (n : GridNode) (v : Nat) (σ : VarName → Int) : Int :=
  if hasCol cols (.statpos n.getId v) then σ (.statpos n.getId v) else 0

/-- The right-hand side of the direction row of comb node `nd` and comb edge
`c` under `σ`: over all sinks and `i = 1..7`, `i` times the edge-use variable
of the sink edge of port `i`, where that variable exists. -/
def dirSum (cols : List Col) (gg : GridGraph) (nd : CombNode) (c : CombEdge)
    (σ : VarName → Int) : Int :=
  ((sinks gg).map fun n =>
    (((List.range 8).filter fun i => decide (1 ≤ i)).map fun i =>
      if hasCol cols (dirSinkEdge nd c n i) then (i : Int) * σ (dirSinkEdge nd c n i)
      else 0).sum).sum

/-- The sum, over the sink nodes `n` of the grid graph and `i = 1, ..., 7`, of
`i` times the value of the variable `var n i` under `σ`, where that variable
has a column. -/
def portSum (cols : List Col) (gg : GridGraph) (var : GridNode → Nat → VarName)
    (σ : VarName → Int) : Int :=
  ((gg.getNds.filter fun n => n.isSink).map fun n =>
    ([1, 2, 3, 4, 5, 6, 7].map fun i =>
      if hasCol cols (var n i) then (i : Int) * σ (var n i) else 0).sum).sum

/-- The row names of the order loop for comb node `v`: `vulnconst(v)` and
`orderconst(v,·)`. -/
def isOrderName (v : Nat) (m : RowName) : Bool :=
  match m with
  | .vulnconst w => w == v
  | .orderconst w _ => w == v
  | _ => false

/-- The `vuln` column names of comb node `v`. -/
def isVulnName (v : Nat) (m : VarName) : Bool :=
  match m with
  | .vuln w _ => decide (w = v)
  | _ => false

/-! ## A concrete octilinear grid

A grid of `w` by `h` cells as the spec describes it: every cell has a sink
(id `9 * (y * w + x)`) and eight ports (the next eight ids), sink edges in
both directions, bend edges between every two ports, and a primary edge from
port `p` to port `(p + 4) % 8` of the neighbour in direction `p`. Sink edges
are closed (infinite), every other edge costs 1. -/

/-- Horizontal offset of direction `i`. -/
def exDx (i : Nat) : Int := if i % 4 = 0 then 0 else if i > 4 then -1 else 1

/-- Vertical offset of direction `i`. -/
def exDy (i : Nat) : Int :=
  if i = 2 ∨ i = 6 then 0 else if i = 3 ∨ i = 4 ∨ i = 5 then -1 else 1

/-- Id of the sink of cell `(x, y)`. -/
def exSinkId (w x y : Nat) : Nat := 9 * (y * w + x)

/-- The sink next to cell `(x, y)` in direction `i`, if inside the grid. -/
def exNeighbor (w h x y i : Nat) : Option Nat :=
  let nx : Int := x + exDx i
  let ny : Int := y + exDy i
  if 0 ≤ nx ∧ nx < w ∧ 0 ≤ ny ∧ ny < h then some (exSinkId w nx.toNat ny.toNat) else none

/-- The sink node of cell `(x, y)`. -/
def exSink (w x y : Nat) : GridNode :=
  let s := exSinkId w x y
  { getId := s, isSink := true, getX := x, getY := y
    getPort := fun p => s + 1 + p
    getAdjList := (List.range 8).map fun p => ⟨s, s + 1 + p, true, false, true, 0⟩
    getAdjListOut := (List.range 8).map fun p => ⟨s, s + 1 + p, true, false, true, 0⟩
    getAdjListIn := (List.range 8).map fun p => ⟨s + 1 + p, s, false, true, true, 0⟩ }

/-- Edges leaving port `p` of cell `(x, y)`. -/
def exPortOut (w h x y p : Nat) : List GridEdge :=
  let s := exSinkId w x y
  [⟨s + 1 + p, s, false, true, true, 0⟩] ++
  ((List.range 8).filter fun q => q != p).map
    (fun q => ⟨s + 1 + p, s + 1 + q, false, false, true, 0⟩) ++
  match exNeighbor w h x y p with
  | some t => [⟨s + 1 + p, t + 1 + (p + 4) % 8, false, false, false, 0⟩]
  | none => []

/-- Edges entering port `p` of cell `(x, y)`. -/
def exPortIn (w h x y p : Nat) : List GridEdge :=
  let s := exSinkId w x y
  [⟨s, s + 1 + p, true, false, true, 0⟩] ++
  ((List.range 8).filter fun q => q != p).map
    (fun q => ⟨s + 1 + q, s + 1 + p, false, false, true, 0⟩) ++
  match exNeighbor w h x y p with
  | some t => [⟨t + 1 + (p + 4) % 8, s + 1 + p, false, false, false, 0⟩]
  | none => []

/-- Port `p` of cell `(x, y)`. -/
def exPort (w h x y p : Nat) : GridNode :=
  { getId := exSinkId w x y + 1 + p, isSink := false, getX := x, getY := y
    getPort := fun _ => 0
    getAdjList := exPortOut w h x y p
    getAdjListOut := exPortOut w h x y p
    getAdjListIn := exPortIn w h x y p }

/-- All nodes of the grid. -/
def exNodes (w h : Nat) : List GridNode :=
  (List.range h).flatMap fun y => (List.range w).flatMap fun x =>
    exSink w x y :: (List.range 8).map (exPort w h x y)

/-- The grid graph of `w` by `h` cells. -/
def exGrid (w h : Nat) : GridGraph :=
  { getNds := exNodes w h
    cost := fun a b => if a % 9 = 0 ∨ b % 9 = 0 then none else some 1
    getCellSize := 1
    ndMovePen := fun _ _ => 0
    getNeighbor := fun x y i => exNeighbor w h x y i
    getNEdg := fun a b =>
      match a, b with
      | some a, some b =>
        ((List.range 8).filter fun d =>
          exNeighbor w h ((a / 9) % w) ((a / 9) / w) d == some b).head?.map
          fun d => (a + 1 + d, b + 1 + (d + 4) % 8)
      | _, _ => none }

/-- One comb edge from comb node 0 to comb node 1, carrying line 7. -/
def exEdge : CombEdge := ⟨0, 0, 1, [7]⟩

/-- The comb graph with two nodes joined by `exEdge`. -/
def exComb : CombGraph := ⟨[⟨0, [exEdge], [exEdge]⟩, ⟨1, [exEdge], [exEdge]⟩]⟩

/-- Distances that put comb node `v` on the sink with id `9 * v` and far from
every other sink. -/
def exDist (n v : Nat) : ℚ := if n = 9 * v then 0 else 5

/-- The problem built for `exComb` on the grid of `w` by `h` cells. -/
def exProblem (w h : Nat) : Option Problem :=
  createProblem (exGrid w h) exComb none 1 exDist

/-- The problem built on the grid of two cells side by side (nothing when
the construction fails). -/
def exP21 : Problem := (exProblem 2 1).getD ⟨[], [], .MIN⟩

/-- The primary edge from port 2 of sink 0 to port 6 of sink 9. -/
def exPrimary : GridEdge := ⟨3, 16, false, false, false, 0⟩

/-- Distances that put comb node 0 on sink 0 and comb node 1 on sink 18. -/
def exDist31 (n v : Nat) : ℚ := if n = 18 * v then 0 else 5

/-- The problem built on the grid of three cells in a row, the two comb nodes
on the outer cells (nothing when the construction fails). -/
def exP31 : Problem := (createProblem (exGrid 3 1) exComb none 1 exDist31).getD ⟨[], [], .MIN⟩

/-- The drawing on three cells: from sink 0 through its port 2, through the
middle cell by the bend edge from its port 6 to its port 2, into sink 18
through its port 6. -/
def exSol31 (v : VarName) : Int :=
  if v = .statpos 0 0 ∨ v = .statpos 18 1 ∨ v = .edg 0 3 0 ∨ v = .edg 3 16 0 ∨
    v = .edg 16 12 0 ∨ v = .edg 12 25 0 ∨ v = .edg 25 18 0 then 1 else 0

/-- The sink of the middle cell of the grid of three cells. -/
def exSink9 : GridNode := exSink 3 1 0

/-- Distances that put comb node 0 on sink 18 and comb node 1 on sink 9. -/
def exDist22 (n v : Nat) : ℚ := if (v = 0 ∧ n = 18) ∨ (v = 1 ∧ n = 9) then 0 else 5

/-- The problem built on the grid of two by two cells, the comb nodes on the
cells `(0, 1)` and `(1, 0)` (nothing when the construction fails). -/
def exP22 : Problem := (createProblem (exGrid 2 2) exComb none 1 exDist22).getD ⟨[], [], .MIN⟩

/-- The sink of cell `(0, 1)` of the grid of two by two cells. -/
def exSink18 : GridNode := exSink 2 0 1

/-- First edge of the path: from comb node 0 to comb node 1, line 7. -/
def exEdgeA : CombEdge := ⟨0, 0, 1, [7]⟩

/-- Second edge of the path: from comb node 1 to comb node 2, line 7. -/
def exEdgeB : CombEdge := ⟨1, 1, 2, [7]⟩

/-- The middle node of the path, of degree 2. -/
def exMid : CombNode := ⟨1, [exEdgeA, exEdgeB], [exEdgeA, exEdgeB]⟩

/-- The comb graph that is a path of three nodes. -/
def exPath : CombGraph := ⟨[⟨0, [exEdgeA], [exEdgeA]⟩, exMid, ⟨2, [exEdgeB], [exEdgeB]⟩]⟩

/-- The problem built for the path on the grid of three cells in a row, comb
node `v` on the sink `9 * v` (nothing when the construction fails). -/
def exPathP : Problem := (createProblem (exGrid 3 1) exPath none 1 exDist).getD ⟨[], [], .MIN⟩

/-- First edge of the star: from the centre (comb node 0) to comb node 1,
line 7. -/
def exStarA : CombEdge := ⟨0, 0, 1, [7]⟩

/-- Second edge of the star: from the centre to comb node 2, line 7. -/
def exStarB : CombEdge := ⟨1, 0, 2, [7]⟩

/-- Third edge of the star: from the centre to comb node 3, line 8. -/
def exStarC : CombEdge := ⟨2, 0, 3, [8]⟩

/-- The three edges of the star: the first two share line 7, the third
carries line 8 only. -/
def exStarEdges : List CombEdge := [exStarA, exStarB, exStarC]

/-- The centre of the star, of degree 3. -/
def exCentre : CombNode := ⟨0, exStarEdges, exStarEdges⟩

/-- The star: a centre with three leaves. -/
def exStar : CombGraph :=
  ⟨[exCentre, ⟨1, [exStarA], [exStarA]⟩, ⟨2, [exStarB], [exStarB]⟩,
    ⟨3, [exStarC], [exStarC]⟩]⟩

/-- The problem built for the star on the grid of two by two cells, comb node
`v` on the sink `9 * v` (nothing when the construction fails). -/
def exStarP : Problem := (createProblem (exGrid 2 2) exStar none 1 exDist).getD ⟨[], [], .MIN⟩

/-- Direction and indicator values at the centre of the star when its first
two edges leave in opposite directions: direction 6 for edge 0, direction 2
for the others, indicator `d180` set. -/
def exAngles (v : VarName) : Int :=
  match v with
  | .dir _ c => if c = 0 then 6 else 2
  | .ang k _ _ => if k = 3 then 1 else 0
  | _ => 0

/-- Groups the rows of an example problem for checking: the flow rows by the
cell of their grid node, the inner-use rows, the single-sink rows, the rest. -/
def exChunk (r : Row) : Nat :=
  match r.name with
  | .adjsum n _ => 3 + n / 9
  | .inneruse _ => 2
  | .singlesink _ _ => 1
  | _ => 0

/-- The rows of group `k`. -/
def exRows (p : Problem) (k : Nat) : List Row :=
  p.rows.filter fun r => exChunk r == k

/-- The sink of cell `(0, 0)` of the grid of two cells. -/
def exSink0 : GridNode := exSink 2 0 0

/-- The assignment that only sets `statpos(0,0)`. -/
def exStat (v : VarName) : Int := if v = .statpos 0 0 then 1 else 0

/-- The drawing that routes `exEdge` from sink 0 through its port 2 and port
6 of sink 9 into sink 9. -/
def exSol (v : VarName) : Int :=
  if v = .statpos 0 0 ∨ v = .statpos 9 1 ∨ v = .edg 0 3 0 ∨ v = .edg 3 16 0 ∨
    v = .edg 16 9 0 then 1 else 0

/-! ## Octilinearizer::getOrdering (Octilinearizer.cpp, lines 396-431) -/

/-- Modelled from the spec: `Edge::getOtherNd` is not in the sources; it is
the end point of the edge that is not the given node. -/
def CombEdge.getOtherNd (e : CombEdge) (n : Nat) : Nat :=
  if e.getFrom = n then e.getTo else e.getFrom

/-- The comb node behind a node pointer, found by its id. -/
def findNd (cg : CombGraph) (n : Nat) : Option CombNode :=
  cg.getNds.find? fun nd => nd.id == n

/-- `NodePQ::push`: the queue is kept as a list with the top at its head. The
comparator `lt` of `NodePQ` is not in the sources and is taken as it is; a
new element goes in front of the first element that compares below it. -/
def pqPush (lt : Nat → Nat → Bool) (x : Nat) : List Nat → List Nat
  | [] => [x]
  | y :: q => if lt y x then x :: y :: q else y :: pqPush lt x q

/-- The local variables of `getOrdering`: the queue `dangling`, the sets
`settled` and `done`, the vector `order`, and the number of calls of
`std::random_shuffle` made so far. -/
structure OrdState where
  dangling : List Nat
  settled : List Nat
  done : List CombEdge
  order : List CombEdge
  shuffles : Nat

/-- The body of `for (auto ee : odSet)` (lines 419-425) at node `n`. -/
def emitStep (lt : Nat → Nat → Bool) (n : Nat) (st : OrdState) (ee : CombEdge) : OrdState :=
  if st.done.contains ee then st
  else { st with
    done := ee :: st.done
    dangling := pqPush lt (ee.getOtherNd n) st.dangling
    order := st.order ++ [ee] }

/-- The loop `while (!dangling.empty())` (lines 409-428). `shuffle k l` is the
outcome of the `k`-th call of `std::random_shuffle` on `l`. The result is
`none` when the fuel runs out or a node is not found. -/
def danglingLoop (cg : CombGraph) (lt : Nat → Nat → Bool)
    (shuffle : Nat → List CombEdge → List CombEdge) : Nat → OrdState → Option OrdState
  | 0, _ => none
  | fuel + 1, st =>
    match st.dangling with
    | [] => some st
    | n :: rest =>
      if st.settled.contains n then
        danglingLoop cg lt shuffle fuel { st with dangling := rest }
      else
        match findNd cg n with
        | none => none
        | some nd =>
          let odSet := shuffle st.shuffles nd.getOrderedSet
          let st1 := odSet.foldl (emitStep lt n)
            { st with dangling := rest, shuffles := st.shuffles + 1 }
          danglingLoop cg lt shuffle fuel { st1 with settled := n :: st1.settled }

/-- The loop `while (!globalPq.empty())` (lines 404-429) over the nodes in
the order in which `globalPq` yields them. -/
def globalLoop (cg : CombGraph) (lt : Nat → Nat → Bool)
    (shuffle : Nat → List CombEdge → List CombEdge) (fuel : Nat) :
    List Nat → OrdState → Option OrdState
  | [], st => some st
  | n :: q, st =>
    match danglingLoop cg lt shuffle fuel { st with dangling := pqPush lt n st.dangling } with
    | none => none
    | some st1 => globalLoop cg lt shuffle fuel q st1

/-- All entries of all edge orderings of the graph. -/
def allOrdered (cg : CombGraph) : List CombEdge :=
  cg.getNds.flatMap fun nd => nd.getOrderedSet

/-- `Octilinearizer::getOrdering`. The inner loop runs at most once per
element ever pushed to `dangling`, that is once for the node taken from
`globalPq` and once per emitted edge, which bounds the fuel. -/
def getOrdering (cg : CombGraph) (lt : Nat → Nat → Bool)
    (shuffle : Nat → List CombEdge → List CombEdge) : Option (List CombEdge) :=
  let globalPq := cg.getNds.foldl (fun q nd => pqPush lt nd.id q) []
  (globalLoop cg lt shuffle ((allOrdered cg).length + 2) globalPq
    ⟨[], [], [], [], 0⟩).map fun st => st.order

/-- Termination measure of the inner loop of `getOrdering`: the size of
`dangling` plus the number of ordering entries not yet in `done`. -/
def ordMeasure (cg : CombGraph) (st : OrdState) : Nat :=
  st.dangling.length + (allOrdered cg).dedup.countP fun e => !st.done.contains e

/-- Loop invariant of `getOrdering`: `order` has no duplicates and holds the
elements of `done`, which are ordering entries of the graph; `dangling` holds
nodes of the graph; every entry of the ordering of a settled node is done. -/
def OrdInv (cg : CombGraph) (st : OrdState) : Prop :=
  st.order.Nodup ∧ (∀ e, e ∈ st.order ↔ e ∈ st.done) ∧
  (∀ e ∈ st.done, e ∈ allOrdered cg) ∧
  (∀ n ∈ st.dangling, ∃ nd ∈ cg.getNds, nd.id = n) ∧
  (∀ nd ∈ cg.getNds, nd.id ∈ st.settled → ∀ e ∈ nd.getOrderedSet, e ∈ st.done)

/-! ## Octilinearizer::draw, the retry phase (Octilinearizer.cpp, lines 98-138)

The drawings are values of a type `D` with a score; what a call of
`draw(order, gg, &drawing)` yields (whether an embedding was found, and the
drawing) is given from outside. In the function as it stands, the block of
lines 82-92 calls the ILP optimizer and `exit(0)` before these lines are
reached; the retry phase and the local search are modelled as written. -/

/-- The operations the local search calls. `draw s test p a run` is
`draw(test, p, gg, &run)` with `p` the position forced for `a` (if any): it
yields `found`, the drawing `run` afterwards and the grid afterwards. -/
structure LocalOps (D S : Type) where
  score : D → ℚ
  getGrNd : D → Nat → Option (Nat × Nat)
  drawn : D → CombEdge → Bool
  eraseEdg : D → CombEdge → D
  eraseNd : D → Nat → D
  eraseFromGrid : S → D → CombEdge → S
  eraseAllFromGrid : S → D → S
  applyToGrid : S → D → CombEdge → S
  applyAllToGrid : S → D → S
  unSettleNd : S → Nat → S
  isSettled : S → Nat → Bool
  settleNd : S → Option (Nat × Nat) → Nat → S
  draw : S → List CombEdge → Option (Nat × Nat) → CombNode → D → (Bool × D) × S

/-- Addition of `size_t` values. -/
def sizeAdd (a b : Nat) : Nat := (a + b) % 2 ^ 64

/-- Subtraction of `size_t` values. -/
def sizeSub (a b : Nat) : Nat := (a + (2 ^ 64 - b % 2 ^ 64)) % 2 ^ 64

/-- The entry `p[a]` after lines 171-181, for the loop counter `pos`. -/
def forcedPos (origX origY pos : Nat) : Option (Nat × Nat) :=
  let p : Option (Nat × Nat) := none
  let p := if pos = 1 then some (sizeAdd origX 1, sizeAdd origY 1) else p
  let p := if pos = 2 then some (sizeAdd origX 1, origY) else p
  let p := if pos = 3 then some (sizeAdd origX 1, sizeSub origY 1) else p
  let p := if pos = 7 then some (sizeSub origX 1, sizeAdd origY 1) else p
  let p := if pos = 6 then some (sizeSub origX 1, origY) else p
  let p := if pos = 5 then some (sizeSub origX 1, sizeSub origY 1) else p
  let p := if pos = 0 then some (origX, sizeAdd origY 1) else p
  let p := if pos = 8 then some (origX, origY) else p
  let p := if pos = 4 then some (origX, sizeSub origY 1) else p
  p

/-- One call of `draw` made by the local search: the node, the edges handed
over, the forced position, and what the call yielded. -/
structure TryCall (D : Type) where
  node : Nat
  test : List CombEdge
  pos : Option (Nat × Nat)
  found : Bool
  run : D

/-- State of one iteration: the grid, `bestFromIter`, and the calls of `draw`
made so far. -/
structure IterState (D S : Type) where
  grid : S
  best : D
  calls : List (TryCall D)

/-- The loop `for (auto ce : a->getAdjList())` of lines 156-162 on (`gg`,
`drawingCp`, `test`); `none` when `assert(drawingCp.drawn(ce))` fails. -/
def revertEdges {D S : Type} (ops : LocalOps D S) :
    List CombEdge → S × D × List CombEdge → Option (S × D × List CombEdge)
  | [], acc => some acc
  | ce :: rest, (s, cp, test) =>
    if ops.drawn cp ce then
      revertEdges ops rest (ops.eraseFromGrid s cp ce, ops.eraseEdg cp ce, test ++ [ce])
    else none

/-- The body of `for (size_t pos = 0; pos < 9; pos++)` (lines 167-193). -/
def posStep {D S : Type} (ops : LocalOps D S) (a : CombNode) (origX origY : Nat)
    (drawingCp : D) (test : List CombEdge) (st : IterState D S) (pos : Nat) : IterState D S :=
  let p := forcedPos origX origY pos
  let r := ops.draw st.grid test p a drawingCp
  let found := r.1.1
  let run := r.1.2
  let best := if found && decide (ops.score st.best > ops.score run) then run else st.best
  let s := a.getAdjList.foldl (fun s ce => ops.eraseFromGrid s run ce) r.2
  let s := if ops.isSettled s a.id then ops.unSettleNd s a.id else s
  { grid := s, best := best, calls := st.calls ++ [⟨a.id, test, p, found, run⟩] }

/-- The body of `for (auto a : *cg.getNds())` (lines 146-199); `none` when an
assertion fails. -/
def nodeStep {D S : Type} (ops : LocalOps D S) (drawing : D) (st : IterState D S)
    (a : CombNode) : Option (IterState D S) :=
  if a.getDeg = 0 then some st
  else
    match ops.getGrNd drawing a.id with
    | none => none
    | some (origX, origY) =>
      match revertEdges ops a.getAdjList (st.grid, drawing, []) with
      | none => none
      | some (s, cp, test) =>
        let cp := ops.eraseNd cp a.id
        let s := ops.unSettleNd s a.id
        let st1 := (List.range 9).foldl (posStep ops a origX origY cp test)
          { st with grid := s }
        let s := ops.settleNd st1.grid (ops.getGrNd drawing a.id) a.id
        let s := a.getAdjList.foldl (fun s ce => ops.applyToGrid s drawing ce) s
        some { st1 with grid := s }

/-- The loop over the nodes of one iteration. -/
def nodeLoop {D S : Type} (ops : LocalOps D S) (drawing : D) :
    List CombNode → IterState D S → Option (IterState D S)
  | [], st => some st
  | a :: rest, st =>
    match nodeStep ops drawing st a with
    | none => none
    | some st1 => nodeLoop ops drawing rest st1

/-- One executed iteration of the local search: the drawing it started from,
its `bestFromIter`, and the calls of `draw` it made. -/
structure IterRecord (D : Type) where
  start : D
  best : D
  calls : List (TryCall D)

/-- The loop `for (; iters < 100; iters++)` with `k` iterations left: the
records of the iterations executed, the drawing at the end, the grid at the
end; `none` when an assertion fails. -/
def localSearchLoop {D S : Type} (ops : LocalOps D S) (cg : CombGraph) :
    Nat → D → S → Option (List (IterRecord D) × D × S)
  | 0, drawing, s => some ([], drawing, s)
  | k + 1, drawing, s =>
    match nodeLoop ops drawing cg.getNds ⟨s, drawing, []⟩ with
    | none => none
    | some st =>
      let imp := ops.score drawing - ops.score st.best
      if imp < 1 / 20 then some ([⟨drawing, st.best, st.calls⟩], drawing, st.grid)
      else
        let s1 := ops.applyAllToGrid (ops.eraseAllFromGrid st.grid drawing) st.best
        match localSearchLoop ops cg k st.best s1 with
        | none => none
        | some (recs, d, s2) => some (⟨drawing, st.best, st.calls⟩ :: recs, d, s2)

/-- Lines 142-211. -/
def localSearch {D S : Type} (ops : LocalOps D S) (cg : CombGraph) (drawing : D) (s : S) :
    Option (List (IterRecord D) × D × S) :=
  localSearchLoop ops cg 100 drawing s

/-- What holds of `bestFromIter` and the calls made so far, in an iteration
that started from `start`: the best is at most as costly as `start`; it is
`start` itself or the drawing of a successful call that is strictly cheaper
than `start` and than the drawing of every successful call made before it;
and no successful call yielded a cheaper drawing. -/
def BestInv {D S : Type} (ops : LocalOps D S) (start : D) (best : D)
    (calls : List (TryCall D)) : Prop :=
  ops.score best ≤ ops.score start ∧
  (best = start ∨ ∃ pre c post, calls = pre ++ c :: post ∧ c.found = true ∧
    best = c.run ∧ ops.score c.run < ops.score start ∧
    ∀ c2 ∈ pre, c2.found = true → ops.score c.run < ops.score c2.run) ∧
  ∀ c ∈ calls, c.found = true → ops.score best ≤ ops.score c.run

/-- A drawing is complete for the comb graph when every comb node of non-zero
degree has a grid node and every comb edge of its adjacency list is drawn. -/
def Complete {D S : Type} (ops : LocalOps D S) (cg : CombGraph) (d : D) : Prop :=
  ∀ a ∈ cg.getNds, a.getDeg ≠ 0 →
    (ops.getGrNd d a.id).isSome = true ∧ ∀ ce ∈ a.getAdjList, ops.drawn d ce = true

/-- An example drawing: the cells of the comb nodes placed (by node id) and
the comb edges drawn. -/
structure ExDrawing where
  cells : List (Nat × (Nat × Nat))
  edges : List CombEdge
deriving DecidableEq, Repr

/-- The cell of comb node `n` in an example drawing. -/
def ExDrawing.getGrNd (d : ExDrawing) (n : Nat) : Option (Nat × Nat) :=
  (d.cells.find? fun c => c.1 == n).map fun c => c.2

/-- The score of an example drawing: over the edges drawn, the number of grid
steps (in `x` plus in `y`) between the cells of the two end points, 0 when an
end point has no cell. -/
def ExDrawing.score (d : ExDrawing) : ℚ :=
  (d.edges.map fun ce =>
    match d.getGrNd ce.getFrom, d.getGrNd ce.getTo with
    | some (x1, y1), some (x2, y2) =>
      (((x1 - x2) + (x2 - x1) + ((y1 - y2) + (y2 - y1)) : Nat) : ℚ)
    | _, _ => 0).sum

/-- Example operations for the local search on a grid of `w` by `h` cells:
erasing a comb edge or a comb node removes it from the drawing, and `draw`
succeeds when the forced position is a cell of the grid that holds no other
comb node; it then places the node there and draws the edges handed over. -/
def exLocalOps (w h : Nat) : LocalOps ExDrawing Unit :=
  { score := ExDrawing.score
    getGrNd := ExDrawing.getGrNd
    drawn := fun d ce => decide (ce ∈ d.edges)
    eraseEdg := fun d ce => ⟨d.cells, d.edges.filter fun e => decide (e ≠ ce)⟩
    eraseNd := fun d n => ⟨d.cells.filter fun c => decide (c.1 ≠ n), d.edges⟩
    eraseFromGrid := fun s _ _ => s
    eraseAllFromGrid := fun s _ => s
    applyToGrid := fun s _ _ => s
    applyAllToGrid := fun s _ => s
    unSettleNd := fun s _ => s
    isSettled := fun _ _ => false
    settleNd := fun s _ _ => s
    draw := fun s test p a run =>
      match p with
      | none => ((false, run), s)
      | some c =>
        if c.1 < w ∧ c.2 < h ∧ ∀ o ∈ run.cells, o.2 ≠ c then
          ((true, ⟨(a.id, c) :: run.cells, run.edges ++ test⟩), s)
        else ((false, run), s) }

/-- The two nodes of `exComb` drawn on the cells `(0, 0)` and `(3, 0)`. -/
def exDrawing0 : ExDrawing := ⟨[(0, (0, 0)), (1, (3, 0))], [exEdge]⟩

/-- The fields of `Penalties` read by `draw`. -/
structure Penalties where
  p_45 : ℚ
  p_135 : ℚ
  diagonalPen : ℚ
  horizontalPen : ℚ

/-- A call that changes the grid graph or the drawing. -/
inductive GridCall where
  | openNodeSink (n : Nat) (cost : ℚ)
  | closeNodeSink (n : Nat)
  | addCostVector (n : Nat) (origNode : Nat) (e : CombEdge)
  | draw (e : CombEdge) (path : List GridEdge) (reversed : Bool)
  | settleNd (grNd : Nat) (nd : Nat)
  | settleEdg (a b : Nat) (e : CombEdge)
deriving DecidableEq, Repr

/-- The functions `draw` calls. Grid nodes and comb nodes are given by their
ids; `dist n v` is `dist(*n->pl().getGeom(), *v->pl().getGeom())`;
`shortestPath g fr tos` yields the lists `eL` and `nL`; `getParent` is
`pl().getParent()` of a grid node. -/
structure DrawOps (G Dr C : Type) where
  getPenalties : G → Penalties
  getCellSize : G → ℚ
  isSettled : G → Nat → Bool
  getSettled : G → Nat → Option Nat
  getNode : G → Nat → Nat → Option Nat
  isClosed : G → Nat → Bool
  getGridNodeFrom : G → Nat → ℚ → Option Nat
  getGridNodesTo : G → Nat → ℚ → Option Nat → List Nat
  dist : Nat → Nat → ℚ
  openNodeSink : G → Nat → ℚ → G
  closeNodeSink : G → Nat → G
  zeroCost : C
  addCost : C → C → C
  topoBlockPenalty : G → Nat → Nat → CombEdge → C
  nodeBendPenalty : G → Nat → CombEdge → C
  addCostVector : G → Nat → C → G
  shortestPath : G → Nat → List Nat → List GridEdge × List Nat
  getParent : Nat → Nat
  settleNd : G → Nat → Nat → G
  settleEdg : G → Nat → Nat → CombEdge → G
  drawEdge : Dr → CombEdge → List GridEdge → Bool → Dr

/-- The grid graph, the drawing, and the calls made so far. -/
structure DrawState (G Dr : Type) where
  gg : G
  drawing : Dr
  calls : List GridCall
deriving DecidableEq

/-- `Octilinearizer::getMaxDis` (lines 58-60). -/
def getMaxDis (gridSize : ℚ) : ℚ := gridSize * 3

/-- `Octilinearizer::writeNdCosts` (lines 237-244). -/
def writeNdCosts {G Dr C : Type} (ops : DrawOps G Dr C) (st : DrawState G Dr) (n origNode : Nat)
    (e : CombEdge) : DrawState G Dr :=
  let c := ops.zeroCost
  let c := ops.addCost c (ops.topoBlockPenalty st.gg n origNode e)
  let c := ops.addCost c (ops.nodeBendPenalty st.gg n e)
  { st with gg := ops.addCostVector st.gg n c, calls := st.calls ++ [.addCostVector n origNode e] }

/-- What step 1 of the loop body (lines 259-315) settles for a comb edge:
whether the end points were swapped, the routing source and target, the
source grid node and the target candidates. -/
structure Selection where
  reversed : Bool
  frCmbNd : Nat
  toCmbNd : Nat
  frGrNd : Nat
  toGrNds : List Nat
deriving DecidableEq, Repr

/-- The loop `while (!toGrNds.size())` of lines 300-306 together with the
call before it; `none` when the fuel runs out. -/
def searchTargets {G Dr C : Type} (ops : DrawOps G Dr C) (g : G) (toCmbNd : Nat)
    (frGrNd : Option Nat) : Nat → ℚ → Option (List Nat)
  | 0, _ => none
  | fuel + 1, maxDis =>
    let toGrNds := ops.getGridNodesTo g toCmbNd maxDis frGrNd
    if toGrNds.isEmpty then searchTargets ops g toCmbNd frGrNd fuel (maxDis * 2)
    else some toGrNds

/-- Lines 259-315. The outer `none` stands for a failed assertion or fuel
that ran out, the inner `none` for `fail = true; break;`. -/
def selectNodes {G Dr C : Type} (ops : DrawOps G Dr C) (settled : Nat → Option (Nat × Nat))
    (fuel : Nat) (g : G) (cmbEdg : CombEdge) : Option (Option Selection) :=
  let swap := !ops.isSettled g cmbEdg.getFrom && ops.isSettled g cmbEdg.getTo
  let frCmbNd := if swap then cmbEdg.getTo else cmbEdg.getFrom
  let toCmbNd := if swap then cmbEdg.getFrom else cmbEdg.getTo
  let reversed := if swap then true else false
  let frSel : Option (Option Nat) :=
    match ops.getSettled g frCmbNd with
    | some n => some (some n)
    | none =>
      match settled frCmbNd with
      | some (x, y) =>
        match ops.getNode g x y with
        | none => none
        | some n => if ops.isClosed g n then none else some (some n)
      | none => some (ops.getGridNodeFrom g frCmbNd (ops.getCellSize g * (17 / 10)))
  match frSel with
  | none => some none
  | some frGrNd =>
    let toSel : Option (Option (List Nat)) :=
      match ops.getSettled g toCmbNd with
      | some n => some (some [n])
      | none =>
        match settled toCmbNd with
        | some (x, y) =>
          match ops.getNode g x y with
          | none => some none
          | some t => if some t = frGrNd ∨ ops.isClosed g t = true then some none else some (some [t])
        | none =>
          (searchTargets ops g toCmbNd frGrNd fuel (getMaxDis (ops.getCellSize g))).map some
    match toSel with
    | none => none
    | some none => some none
    | some (some toGrNds) =>
      match frGrNd with
      | none => some none
      | some fr =>
        if toGrNds.length = 0 then some none
        else if toGrNds.all (fun t => t != fr) then
          some (some ⟨reversed, frCmbNd, toCmbNd, fr, toGrNds⟩)
        else none

/-- One call of `openNodeSink` for the grid node `n` as a position of the
comb node `cmbNd` (lines 324-333 and 337-344): cost 0 when `cmbNd` is settled,
else the floored distance in grid cells times `penPerGrid`. -/
def openNode {G Dr C : Type} (ops : DrawOps G Dr C) (penPerGrid : ℚ) (cmbNd : Nat)
    (st : DrawState G Dr) (n : Nat) : DrawState G Dr :=
  let gridD := ((Int.floor (ops.dist n cmbNd) : Int) : ℚ) / ops.getCellSize st.gg
  let cost := if ops.isSettled st.gg cmbNd then 0 else gridD * penPerGrid
  { st with gg := ops.openNodeSink st.gg n cost, calls := st.calls ++ [.openNodeSink n cost] }

/-- Lines 346-348: the node costs of the source node, written when the
routing source is settled. -/
def writeSource {G Dr C : Type} (ops : DrawOps G Dr C) (cmbEdg : CombEdge) (sel : Selection)
    (st : DrawState G Dr) : DrawState G Dr :=
  if ops.isSettled st.gg sel.frCmbNd then
    writeNdCosts ops st sel.frGrNd sel.frCmbNd cmbEdg
  else st

/-- Lines 350-354: the node costs of the target node, written when there is
one target candidate and the routing target is settled. -/
def writeTarget {G Dr C : Type} (ops : DrawOps G Dr C) (cmbEdg : CombEdge) (sel : Selection)
    (st : DrawState G Dr) : DrawState G Dr :=
  match sel.toGrNds with
  | [t] => if ops.isSettled st.gg sel.toCmbNd then writeNdCosts ops st t sel.toCmbNd cmbEdg else st
  | _ => st

/-- Lines 319-354: opening the target nodes and the source node, and writing
the node costs. -/
def openSinks {G Dr C : Type} (ops : DrawOps G Dr C) (c_0 : ℚ) (cmbEdg : CombEdge)
    (sel : Selection) (st : DrawState G Dr) : DrawState G Dr :=
  let penPerGrid := 5 + c_0 +
    max (ops.getPenalties st.gg).diagonalPen (ops.getPenalties st.gg).horizontalPen
  let st := sel.toGrNds.foldl (openNode ops penPerGrid sel.toCmbNd) st
  let st := openNode ops penPerGrid sel.frCmbNd st sel.frGrNd
  writeTarget ops cmbEdg sel (writeSource ops cmbEdg sel st)

/-- One call of `closeNodeSink`. -/
def closeNode {G Dr C : Type} (ops : DrawOps G Dr C) (st : DrawState G Dr) (n : Nat) :
    DrawState G Dr :=
  { st with gg := ops.closeNodeSink st.gg n, calls := st.calls ++ [.closeNodeSink n] }

/-- One round of the loop of `settleRes` (lines 229-233). -/
def settleStep {G Dr C : Type} (ops : DrawOps G Dr C) (e : CombEdge) (st : DrawState G Dr)
    (f : GridEdge) : DrawState G Dr :=
  if f.isSecondary then st
  else
    { st with
      gg := ops.settleEdg st.gg (ops.getParent f.getFrom) (ops.getParent f.getTo) e
      calls := st.calls ++ [.settleEdg (ops.getParent f.getFrom) (ops.getParent f.getTo) e] }

/-- `Octilinearizer::settleRes` (lines 222-234). -/
def settleRes {G Dr C : Type} (ops : DrawOps G Dr C) (st : DrawState G Dr)
    (frGrNd toGrNd frCmbNd toCmbNd : Nat) (res : List GridEdge) (e : CombEdge) :
    DrawState G Dr :=
  let st : DrawState G Dr :=
    { st with
      gg := ops.settleNd st.gg toGrNd toCmbNd
      calls := st.calls ++ [.settleNd toGrNd toCmbNd] }
  let st : DrawState G Dr :=
    { st with
      gg := ops.settleNd st.gg frGrNd frCmbNd
      calls := st.calls ++ [.settleNd frGrNd frCmbNd] }
  res.foldl (settleStep ops e) st

/-- Closing the target nodes and the source node (lines 371-372 and
381-384). -/
def closeSinks {G Dr C : Type} (ops : DrawOps G Dr C) (sel : Selection)
    (st : DrawState G Dr) : DrawState G Dr :=
  closeNode ops (sel.toGrNds.foldl (closeNode ops) st) sel.frGrNd

/-- The call `drawing->draw(cmbEdg, eL, reversed)` of line 379. -/
def drawPath {G Dr C : Type} (ops : DrawOps G Dr C) (st : DrawState G Dr) (cmbEdg : CombEdge)
    (eL : List GridEdge) (reversed : Bool) : DrawState G Dr :=
  { st with
    drawing := ops.drawEdge st.drawing cmbEdg eL reversed
    calls := st.calls ++ [.draw cmbEdg eL reversed] }

/-- The body of `for (auto cmbEdg : ord)` (lines 263-390). The flag is
`!fail`; `none` stands for a failed assertion or fuel that ran out. -/
def routeEdge {G Dr C : Type} (ops : DrawOps G Dr C) (settled : Nat → Option (Nat × Nat))
    (fuel : Nat) (c_0 : ℚ) (st : DrawState G Dr) (cmbEdg : CombEdge) :
    Option (Bool × DrawState G Dr) :=
  match selectNodes ops settled fuel st.gg cmbEdg with
  | none => none
  | some none => some (false, st)
  | some (some sel) =>
    let st1 := openSinks ops c_0 cmbEdg sel st
    let r := ops.shortestPath st1.gg sel.frGrNd sel.toGrNds
    match r.2 with
    | [] => some (false, closeSinks ops sel st1)
    | toGrNd :: _ =>
      let st2 := drawPath ops st1 cmbEdg r.1 sel.reversed
      let st3 := closeSinks ops sel st2
      some (true, settleRes ops st3 sel.frGrNd toGrNd sel.frCmbNd sel.toCmbNd r.1 cmbEdg)

/-- The loop `for (auto cmbEdg : ord)` with its `break`s, and the returned
`!fail`. -/
def drawLoop {G Dr C : Type} (ops : DrawOps G Dr C) (settled : Nat → Option (Nat × Nat))
    (fuel : Nat) (c_0 : ℚ) : List CombEdge → DrawState G Dr → Option (Bool × DrawState G Dr)
  | [], st => some (true, st)
  | cmbEdg :: rest, st =>
    match routeEdge ops settled fuel c_0 st cmbEdg with
    | none => none
    | some (false, st1) => some (false, st1)
    | some (true, st1) => drawLoop ops settled fuel c_0 rest st1

/-- `Octilinearizer::draw(ord, settled, gg, drawing)` (lines 254-393); `fuel`
bounds the number of rounds of each loop `while (!toGrNds.size())`. -/
def draw {G Dr C : Type} (ops : DrawOps G Dr C) (settled : Nat → Option (Nat × Nat))
    (fuel : Nat) (ord : List CombEdge) (st : DrawState G Dr) :
    Option (Bool × DrawState G Dr) :=
  let c_0 := (ops.getPenalties st.gg).p_45 - (ops.getPenalties st.gg).p_135
  drawLoop ops settled fuel c_0 ord st

/-- Example functions for `draw` on three cells in a row: the grid graph is
the list of settled pairs (comb node, grid node); comb node `v` belongs on
the sink `9 * v`; the search finds the direct path (a sink edge, the primary
edge, a sink edge) unless it starts at sink 9 and heads for sink 0, where it
finds nothing. -/
def exDrawOps : DrawOps (List (Nat × Nat)) (List (CombEdge × Bool)) Unit :=
  { getPenalties := fun _ => ⟨1, 3, 1 / 2, 0⟩
    getCellSize := fun _ => 1
    isSettled := fun g v => g.any fun s => s.1 == v
    getSettled := fun g v => (g.find? fun s => s.1 == v).map Prod.snd
    getNode := fun _ x y => some (9 * (y * 3 + x))
    isClosed := fun _ _ => false
    getGridNodeFrom := fun _ v _ => some (9 * v)
    getGridNodesTo := fun _ v _ _ => [9 * v]
    dist := fun _ _ => 0
    openNodeSink := fun g _ _ => g
    closeNodeSink := fun g _ => g
    zeroCost := ()
    addCost := fun _ _ => ()
    topoBlockPenalty := fun _ _ _ _ => ()
    nodeBendPenalty := fun _ _ _ => ()
    addCostVector := fun g _ _ => g
    shortestPath := fun _ fr tos =>
      if fr = 9 ∧ tos = [0] then ([], [])
      else
        ([⟨tos.headD 0 + 7, tos.headD 0, false, true, true, 0⟩,
          ⟨fr + 3, tos.headD 0 + 7, false, false, false, 0⟩,
          ⟨fr, fr + 3, true, false, true, 0⟩], [tos.headD 0, fr])
    getParent := fun n => n / 9 * 9
    settleNd := fun g n v => (v, n) :: g
    settleEdg := fun g _ _ _ => g
    drawEdge := fun d e _ r => d ++ [(e, r)] }

/-- The state before the first comb edge is routed. -/
def exDrawStart : DrawState (List (Nat × Nat)) (List (CombEdge × Bool)) := ⟨[], [], []⟩

/-- The state after the second edge of the path has been routed (nothing
when that fails). -/
def exDrawAfterB : DrawState (List (Nat × Nat)) (List (CombEdge × Bool)) :=
  ((draw exDrawOps (fun _ => none) 3 [exEdgeB] exDrawStart).map Prod.snd).getD exDrawStart

/-! ## LineGraph::contractEdges (LineGraph.cpp, lines 941-1099)

The graph class underneath `LineGraph` is not part of the sources at hand.
Nodes are given by their ids. The payload of an edge is a value of a type
`P`; connection exceptions, geometry and the grids of nodes and edges do not
decide which nodes and edges exist and are left out. -/

/-- A line edge: its end points and its payload. -/
structure LineEdge (P : Type) where
  getFrom : Nat
  getTo : Nat
  pl : P
deriving DecidableEq, Repr

/-- The line graph: the nodes, the number of stops of each node
(`pl().stops().size()`), and the edges in the order of their creation. -/
structure LineGraph (P : Type) where
  nds : List Nat
  stops : Nat → Nat
  edgs : List (LineEdge P)

/-- Whether the edge has the node as an end point. -/
def LineEdge.touches {P : Type} (e : LineEdge P) (n : Nat) : Bool :=
  e.getFrom == n || e.getTo == n

/-- Whether the edge joins the two nodes, in either direction. -/
def LineEdge.joins {P : Type} (e : LineEdge P) (a b : Nat) : Bool :=
  (e.getFrom == a && e.getTo == b) || (e.getFrom == b && e.getTo == a)

/-- Modelled from the spec: `Edge::getOtherNd` is not in the sources; it is
the end point of the edge that is not the given node. -/
def LineEdge.getOtherNd {P : Type} (e : LineEdge P) (n : Nat) : Nat :=
  if e.getFrom = n then e.getTo else e.getFrom

/-- Modelled from the spec: `Node::getAdjList` is not in the sources; the
line graph is undirected, the adjacency list of a node holds the edges that
have it as an end point. -/
def LineGraph.getAdjList {P : Type} (g : LineGraph P) (n : Nat) : List (LineEdge P) :=
  g.edgs.filter fun e => e.touches n

/-- Modelled from the spec: `Graph::getEdg` is not in the sources; it is the
edge between the two nodes, if there is one. -/
def LineGraph.getEdg {P : Type} (g : LineGraph P) (a b : Nat) : Option (LineEdge P) :=
  g.edgs.find? fun e => e.joins a b

/-- Modelled from the spec: `UndirGraph::addEdg` is not in the sources; the
line graph has no parallel edges: an edge between the two nodes is returned
if there is one, else a new edge with the given payload is added. -/
def LineGraph.addEdg {P : Type} (g : LineGraph P) (a b : Nat) (pl : P) :
    LineGraph P × LineEdge P :=
  match g.getEdg a b with
  | some e => (g, e)
  | none => ({ g with edgs := g.edgs ++ [⟨a, b, pl⟩] }, ⟨a, b, pl⟩)

/-- Modelled from the spec: `Graph::delEdg` is not in the sources; it removes
the edge between the two nodes. -/
def LineGraph.delEdg {P : Type} [DecidableEq P] (g : LineGraph P) (a b : Nat) : LineGraph P :=
  match g.getEdg a b with
  | some e => { g with edgs := g.edgs.erase e }
  | none => g

/-- Modelled from the spec: `Graph::delNd` is not in the sources; it removes
the node and the edges that have it as an end point. -/
def LineGraph.delNd {P : Type} (g : LineGraph P) (n : Nat) : LineGraph P :=
  { g with nds := g.nds.erase n, edgs := g.edgs.filter fun e => !e.touches n }

/-- Replaces the payload of the edge `e` of the graph. -/
def LineGraph.setPl {P : Type} [DecidableEq P] (g : LineGraph P) (e : LineEdge P) (pl : P) :
    LineGraph P :=
  { g with edgs := g.edgs.map fun x => if x = e then { x with pl := pl } else x }

/-- The functions of the edge payload used by the contraction:
`dontContract()`, `getPolyline().getLength()`, and the payload of `newE`
after lines 1011-1019 (respectively 1029-1037) of `mergeNds`: `relink new old
ex a b` is the payload `new` with the lines of `old` added when `ex` holds,
and with the line directions `a` replaced by `b`. -/
structure EdgeOps (P : Type) where
  dontContract : P → Bool
  length : P → ℚ
  relink : P → P → Bool → Nat → Nat → P

/-- One round of the loop of lines 1005-1020 of `mergeNds(a, b)`, for an edge
`e` of `a` that starts at `a` and does not end at `b`. -/
def moveOut {P : Type} [DecidableEq P] (ops : EdgeOps P) (a b : Nat) (g : LineGraph P)
    (e : LineEdge P) : LineGraph P :=
  let ex := g.getEdg b e.getTo
  let r := g.addEdg b e.getTo e.pl
  r.1.setPl r.2 (ops.relink r.2.pl e.pl ex.isSome a b)

/-- One round of the loop of lines 1022-1038 of `mergeNds(a, b)`, for an edge
`e` of `a` that ends at `a` and does not start at `b`. -/
def moveIn {P : Type} [DecidableEq P] (ops : EdgeOps P) (a b : Nat) (g : LineGraph P)
    (e : LineEdge P) : LineGraph P :=
  let ex := g.getEdg e.getFrom b
  let r := g.addEdg e.getFrom b e.pl
  r.1.setPl r.2 (ops.relink r.2.pl e.pl ex.isSome a b)

/-- `LineGraph::mergeNds` (lines 974-1050): the graph afterwards; the node
returned is `b`. Each of the two loops runs over the adjacency list of `a` as
it is when the loop starts. -/
def mergeNds {P : Type} [DecidableEq P] (ops : EdgeOps P) (g : LineGraph P) (a b : Nat) :
    LineGraph P :=
  let g1 := if (g.getEdg a b).isSome then g.delEdg a b else g
  let g2 := ((g1.getAdjList a).filter fun e => e.getFrom == a && !(e.getTo == b)).foldl
    (moveOut ops a b) g1
  let g3 := ((g2.getAdjList a).filter fun e => e.getTo == a && !(e.getFrom == b)).foldl
    (moveIn ops a b) g2
  g3.delNd a

/-- `LineGraph::contractEdge` (lines 941-971): the node that has stops is
kept. -/
def contractEdge {P : Type} [DecidableEq P] (ops : EdgeOps P) (g : LineGraph P)
    (e : LineEdge P) : LineGraph P :=
  if g.stops e.getTo > 0 then mergeNds ops g e.getFrom e.getTo
  else if g.stops e.getFrom > 0 then mergeNds ops g e.getTo e.getFrom
  else mergeNds ops g e.getTo e.getFrom

/-- The test of lines 1082-1095 of `contractEdges` for the edge `e` found at
the node `n1`. -/
def contractible {P : Type} (ops : EdgeOps P) (g : LineGraph P) (d : ℚ)
    (onlyNonStatConns : Bool) (n1 : Nat) (e : LineEdge P) : Bool :=
  if !(e.getFrom == n1) then false
  else if onlyNonStatConns && (g.stops e.getFrom != 0 || g.stops e.getTo != 0) then false
  else
    !ops.dontContract e.pl && decide (ops.length e.pl < d) &&
      (decide ((g.getAdjList (e.getOtherNd n1)).length > 1) &&
        decide ((g.getAdjList n1).length > 1) &&
        (g.stops n1 == 0 || g.stops (e.getOtherNd n1) == 0))

/-- The first edge that the two loops of `contractEdges` contract, if any. -/
def findContractible {P : Type} (ops : EdgeOps P) (g : LineGraph P) (d : ℚ)
    (onlyNonStatConns : Bool) : Option (LineEdge P) :=
  (g.nds.flatMap fun n1 =>
    (g.getAdjList n1).filter (contractible ops g d onlyNonStatConns n1)).head?

/-- The loop of `contractEdges` with its `goto breakfor`: every round scans
the graph and contracts the first edge found; `none` when the fuel runs
out. -/
def contractLoop {P : Type} [DecidableEq P] (ops : EdgeOps P) (d : ℚ)
    (onlyNonStatConns : Bool) : Nat → LineGraph P → Option (LineGraph P)
  | 0, _ => none
  | fuel + 1, g =>
    match findContractible ops g d onlyNonStatConns with
    | none => some g
    | some e => contractLoop ops d onlyNonStatConns fuel (contractEdge ops g e)

/-- `LineGraph::contractEdges(d, onlyNonStatConns)` (lines 1072-1099). Every
contraction removes an edge, so one round more than there are edges is
enough. -/
def contractEdges {P : Type} [DecidableEq P] (ops : EdgeOps P) (g : LineGraph P) (d : ℚ)
    (onlyNonStatConns : Bool) : Option (LineGraph P) :=
  contractLoop ops d onlyNonStatConns (g.edgs.length + 1) g

/-! ## ILPGridOptimizer::extractFeasibleSol (lines 846-925)

The function reads the drawing of the heuristic from the grid graph:
`getSettled v` is the grid node settled for the comb node `v`
(`gg->getSettled(nd)`), `getResEdg e` the comb edge routed over the grid edge
`e` (`gg->getResEdg(grEdg)`). Both belong to `GridGraph`, which is not part
of the sources at hand, and are taken as they are. The result is the list of
lines written to the `.mst` file, a variable name and a value each. -/

/-- The grid node behind a node pointer, found by its id. -/
def findGridNd (gg : GridGraph) (id : Nat) : Option GridNode :=
  gg.getNds.find? fun n => n.getId == id

/-- The comb edges visited by
`for (auto cEdg : nd->getAdjList()) if (cEdg->getFrom() != nd) continue;`. -/
def leaving (nd : CombNode) : List CombEdge :=
  nd.getAdjList.filter fun cEdg => cEdg.getFrom == nd.id

/-- Lines 869-882: the lines written for the comb node `nd` at the candidate
`gnd` that is its settled grid node. -/
def settledLines (gg : GridGraph) (nd : CombNode) (gnd : GridNode) : List (VarName × Int) :=
  (.statpos gnd.getId nd.id, 1) ::
    (List.range 8).flatMap fun p =>
      match findGridNd gg (gnd.getPort p) with
      | none => []
      | some portNd =>
        (portNd.getAdjList.filter fun bendEdg => bendEdg.isSecondary).flatMap fun bendEdg =>
          (leaving nd).map fun cEdg => (.edg bendEdg.getFrom bendEdg.getTo cEdg.id, 0)

/-- Lines 884-896: the lines written for the comb node `nd` at a candidate
`gnd` that is not its settled grid node; `none` when
`assert(sinkEdg->pl().isSecondary())` fails. -/
def unsettledLines (nd : CombNode) (gnd : GridNode) : Option (List (VarName × Int)) :=
  if gnd.getAdjList.all fun sinkEdg => sinkEdg.isSecondary then
    some ((.statpos gnd.getId nd.id, 0) ::
      gnd.getAdjList.flatMap fun sinkEdg =>
        (leaving nd).map fun cEdg => (.edg sinkEdg.getFrom sinkEdg.getTo cEdg.id, 0))
  else none

/-- The body of the loop over the grid nodes that pass the distance test
(lines 867-897). -/
def nodeLines (gg : GridGraph) (getSettled : Nat → Option Nat) (nd : CombNode)
    (gnd : GridNode) : Option (List (VarName × Int)) :=
  if getSettled nd.id = some gnd.getId then some (settledLines gg nd gnd)
  else unsettledLines nd gnd

/-- Lines 901-922: the lines written for a grid edge that is not secondary. -/
def edgeLines (cg : CombGraph) (getResEdg : GridEdge → Option CombEdge) (grEdg : GridEdge) :
    List (VarName × Int) :=
  match getResEdg grEdg with
  | some resEdg => [(.edg grEdg.getFrom grEdg.getTo resEdg.id, 1)]
  | none => (combEdges cg).map fun cEdg => (.edg grEdg.getFrom grEdg.getTo cEdg.id, 0)

/-- `ILPGridOptimizer::extractFeasibleSol`: the lines written, in order, or
`none` when the assertion fails. -/
def extractFeasibleSol (gg : GridGraph) (cg : CombGraph) (maxGrDist : ℚ)
    (dist : Nat → Nat → ℚ) (getSettled : Nat → Option Nat)
    (getResEdg : GridEdge → Option CombEdge) : Option (List (VarName × Int)) :=
  match collect ((assignNds cg).flatMap fun nd =>
      (candNds gg dist maxGrDist nd).map (nodeLines gg getSettled nd)) with
  | none => none
  | some part1 =>
    some (part1.flatten ++
      ((gg.getNds.flatMap fun grNd => grNd.getAdjListOut).filter
        fun grEdg => !grEdg.isSecondary).flatMap (edgeLines cg getResEdg))

/-- Modelled from the spec: the comb edge with id `c` is routed over a grid
edge from `a` to `b`, as recorded by the grid graph. -/
def routedOver (gg : GridGraph) (getResEdg : GridEdge → Option CombEdge) (a b c : Nat) : Bool :=
  (gg.getNds.flatMap fun n => n.getAdjListOut).any fun e =>
    e.getFrom == a && e.getTo == b && ((getResEdg e).map CombEdge.id == some c)

/-- Modelled from the spec: what the warm start is said to hold. Every
station-position and edge-use variable of the problem has a value: 1 for
`x_{n,v}` with `n` the settled sink of `v` and for `y_{e,c}` with `c` the comb
edge routed over `e`, 0 for every other one. -/
def specMst (gg : GridGraph) (p : Problem) (getSettled : Nat → Option Nat)
    (getResEdg : GridEdge → Option CombEdge) (v : VarName) : Option Int :=
  if hasCol p.cols v then
    match v with
    | .statpos n c => some (if getSettled c = some n then 1 else 0)
    | .edg a b c => some (if routedOver gg getResEdg a b c then 1 else 0)
    | _ => none
  else none

/-- The heuristic drawing on two cells: comb node 0 on sink 0, comb node 1
on sink 9. -/
def exSettled (v : Nat) : Option Nat := if v = 0 then some 0 else if v = 1 then some 9 else none

/-- The heuristic drawing on two cells: the comb edge runs over the primary
edge from port 2 of sink 0 to port 6 of sink 9. -/
def exResEdg (e : GridEdge) : Option CombEdge := if e = exPrimary then some exEdge else none

/-- The lines written for the drawing on two cells. -/
def exMst : List (VarName × Int) :=
  (extractFeasibleSol (exGrid 2 1) exComb 1 exDist exSettled exResEdg).getD []


/-! ## The warm start after a comb edge was routed against its direction

`Octilinearizer::draw(ord, settled, gg, drawing)` swaps the end points of a
comb edge whose from-node is not settled while its to-node is (lines 267-272),
routes from the grid node of the to-node, and `settleRes` hands every primary
edge of the path to `settleEdg` in routing direction (lines 229-233). -/

/-- Modelled from the spec: `GridGraph::settleEdg(a, b, e)` is not in the
sources; the spec says it records that the grid edge between the adjacent
sinks `a` and `b` is used by the comb edge `e`. The record is the function
read by `getResEdg`; the edge is `getNEdg(a, b)`, named by its end points. -/
def settleEdg (gg : GridGraph) (a b : Nat) (e : CombEdge)
    (res : GridEdge → Option CombEdge) : GridEdge → Option CombEdge :=
  fun ge => if gg.getNEdg (some a) (some b) = some (ge.getFrom, ge.getTo) then some e else res ge

/-- What the first two passes read of a feature: of a `Point` its `id`, of a
`LineString` whether `lines` is present and not empty and the properties
`from` and `to`. -/
inductive Feature where
  | point (id : String)
  | lineString (hasLines : Bool) (fromId toId : String)
deriving DecidableEq, Repr

/-- The state of the reader: `idMap`, the number of nodes added so far, the
pairs of end points handed to `addEdg`, and the ids reported with
`LOG(ERROR)`. -/
structure ReadState where
  idMap : List (String × Option Nat)
  numNds : Nat
  edges : List (Option Nat × Option Nat)
  errors : List String
deriving DecidableEq, Repr

/-- The expression `idMap[id]` of a `std::map`: the pointer stored, a null
pointer stored on the spot when the id is missing. -/
def ReadState.lookup (st : ReadState) (id : String) : Option Nat × ReadState :=
  match st.idMap.find? fun p => p.1 == id with
  | some p => (p.2, st)
  | none => (none, { st with idMap := st.idMap ++ [(id, none)] })

/-- The call `addNd(...)`: the new pointer and the state. -/
def ReadState.addNd (st : ReadState) : Nat × ReadState :=
  (st.numNds, { st with numNds := st.numNds + 1 })

/-- First pass (lines 164-190): a `Point` adds a node and stores it under its
id. -/
def readPoint (st : ReadState) (f : Feature) : ReadState :=
  match f with
  | .point id =>
    let r := st.addNd
    { r.2 with idMap := (r.2.idMap.filter fun p => p.1 != id) ++ [(id, some r.1)] }
  | .lineString _ _ _ => st

/-- Lines 226-236, the part about `to`, with the value of `fromN` so far: the
test after `toN = idMap[to]` is `if (!fromN)`, and an empty `to` assigns the
new node to `fromN`; then line 236, `addEdg(fromN, toN, pl)`. -/
def readTo (st : ReadState) (fromN : Option Nat) (toId : String) : ReadState :=
  if toId.length ≠ 0 then
    let r := st.lookup toId
    if fromN.isNone then { r.2 with errors := r.2.errors ++ [toId] }
    else { r.2 with edges := r.2.edges ++ [(fromN, r.1)] }
  else
    let r := st.addNd
    { r.2 with edges := r.2.edges ++ [(some r.1, none)] }

/-- Second pass (lines 193-236), one feature, up to the call of `addEdg`. -/
def readEdge (st : ReadState) (f : Feature) : ReadState :=
  match f with
  | .point _ => st
  | .lineString hasLines fromId toId =>
    if !hasLines then st
    else if fromId.length ≠ 0 then
      let r := st.lookup fromId
      if r.1.isNone then { r.2 with errors := r.2.errors ++ [fromId] }
      else readTo r.2 r.1 toId
    else
      let r := st.addNd
      readTo r.2 (some r.1) toId

/-- The first two passes of `LineGraph::readFromGeoJson`. -/
def readFromGeoJson (features : List Feature) : ReadState :=
  features.foldl readEdge (features.foldl readPoint ⟨[], 0, [], []⟩)

/-! ## Lines on the edges: nodeRpl and topologizeIsects (LineGraph.cpp, lines 420-465, 858-870)

The payload of a line edge, as far as the directions of its lines go, is the
list of its line occurrences. A line occurs at most once on an edge. -/

/-- A line occurrence: the line and the node it is directed to, if any. -/
structure LineOcc where
  line : Nat
  direction : Option Nat
deriving DecidableEq, Repr

/-- `LineGraph::nodeRpl` (lines 858-870) on the lines of the edge: every
occurrence directed to `oldN` is directed to `newN`. -/
def nodeRpl (lines : List LineOcc) (oldN newN : Nat) : List LineOcc :=
  lines.map fun ro => if ro.direction = some oldN then { ro with direction := some newN } else ro

/-- `nodeRpl(e, oldN, newN)` on an edge of the graph. -/
def LineGraph.nodeRpl (g : LineGraph (List LineOcc)) (e : LineEdge (List LineOcc))
    (oldN newN : Nat) : LineGraph (List LineOcc) :=
  g.setPl e (Loom.nodeRpl e.pl oldN newN)

/-- One round of the loop of `LineGraph::topologizeIsects` (lines 423-463) for
the intersection of the edges `a` and `b` (`i.a`, `i.b`), `x` being the node
added at the intersection. The polylines, the edge grid and the connection
exceptions (`edgeRpl`) are left out. -/
def topologizeStep (g : LineGraph (List LineOcc)) (a b : LineEdge (List LineOcc)) (x : Nat) :
    LineGraph (List LineOcc) :=
  let g0 : LineGraph (List LineOcc) := { g with nds := g.nds ++ [x] }
  let ba := g0.addEdg b.getFrom x b.pl
  let bb := ba.1.addEdg x b.getTo b.pl
  let g1 := (bb.1.nodeRpl ba.2 b.getTo x).nodeRpl bb.2 b.getFrom x
  let aa := g1.addEdg a.getFrom x a.pl
  let ab := aa.1.addEdg x a.getTo a.pl
  let g2 := (ab.1.nodeRpl aa.2 b.getTo x).nodeRpl ab.2 b.getFrom x
  (g2.delEdg a.getFrom a.getTo).delEdg b.getFrom b.getTo

/-- An edge from node 1 to node 2 with line 7 directed to node 2 and line 9
directed to node 1. -/
def exIsectA : LineEdge (List LineOcc) := ⟨1, 2, [⟨7, some 2⟩, ⟨9, some 1⟩]⟩

/-- An edge from node 3 to node 4 with line 8 directed to node 4 and line 10
directed to node 3. -/
def exIsectB : LineEdge (List LineOcc) := ⟨3, 4, [⟨8, some 4⟩, ⟨10, some 3⟩]⟩

/-- Two edges that cross. -/
def exIsect : LineGraph (List LineOcc) := ⟨[1, 2, 3, 4], fun _ => 0, [exIsectA, exIsectB]⟩

/-! ## LineGraph::lineCtd (LineGraph.cpp, lines 530-548) -/

/-- What `lineCtd` reads of the graph, for edges of a type `E`:
`sharedNode(frEdg, toEdg)` (`none` for the null pointer), `getDeg()` of a
node, the connection exceptions recorded at a node as triples (line, edge,
edge), and the line occurrences of an edge. -/
structure CtdGraph (E : Type) where
  sharedNode : E → E → Option Nat
  getDeg : Nat → Nat
  connExc : Nat → List (Nat × E × E)
  getLines : E → List LineOcc

/-- Modelled from the spec: `LineNodePL::connOccurs` is not in the sources; a
line continues between two edges at a node unless the exception triple (line,
edge, edge) is recorded at the node. -/
def CtdGraph.connOccurs {E : Type} [DecidableEq E] (g : CtdGraph E) (n line : Nat)
    (a b : E) : Bool :=
  !(g.connExc n).contains (line, a, b)

/-- Modelled from the spec: `LineEdgePL::hasLine` is not in the sources;
whether the line occurs on the edge. -/
def hasLine (lines : List LineOcc) (line : Nat) : Bool :=
  lines.any fun lo => lo.line == line

/-- Modelled from the spec: `LineEdgePL::lineOcc` is not in the sources; the
occurrence of the line on the edge. -/
def lineOcc (lines : List LineOcc) (line : Nat) : LineOcc :=
  (lines.find? fun lo => lo.line == line).getD ⟨line, none⟩

/-- `LineGraph::lineCtd(frEdg, frLn, toEdg, toLn)` (lines 539-548). -/
def lineCtd {E : Type} [DecidableEq E] (g : CtdGraph E) (frEdg : E) (frLn : LineOcc)
    (toEdg : E) (toLn : LineOcc) : Bool :=
  if frLn.line ≠ toLn.line then false
  else
    match g.sharedNode frEdg toEdg with
    | none => false
    | some n =>
      if g.getDeg n = 1 then false
      else
        (frLn.direction == none || toLn.direction == none ||
          (frLn.direction == some n && toLn.direction != some n) ||
          (frLn.direction != some n && toLn.direction == some n)) &&
        g.connOccurs n frLn.line frEdg toEdg

/-- `LineGraph::lineCtd(frEdg, toEdg, line)` (lines 530-536). -/
def lineCtdLine {E : Type} [DecidableEq E] (g : CtdGraph E) (frEdg toEdg : E) (line : Nat) :
    Bool :=
  if !hasLine (g.getLines frEdg) line || !hasLine (g.getLines toEdg) line then false
  else lineCtd g frEdg (lineOcc (g.getLines frEdg) line) toEdg (lineOcc (g.getLines toEdg) line)

/-! ## The circular order read off an assignment -/

/-- The value of the direction variable of the `i`-th edge of the ordering of
`nd` under `σ`. -/
def dirAt (σ : VarName → Int) (nd : CombNode) (i : Nat) : Int :=
  match nd.getOrderedSet.get? i with
  | some e => σ (.dir nd.id e.id)
  | none => 0

/-- The directions of the edges of `nd` under `σ` wrap exactly once: one
index `j` has its `vuln` variable at 1, all others at 0; read cyclically from
`j` the directions increase strictly; they are pairwise different. -/
def CyclicOrder (σ : VarName → Int) (nd : CombNode) : Prop :=
  ∃ j, j < nd.getDeg ∧ σ (.vuln nd.id j) = 1 ∧
    (∀ i, i < nd.getDeg → i ≠ j → σ (.vuln nd.id i) = 0) ∧
    (∀ s t, s < t → t < nd.getDeg →
      dirAt σ nd ((j + s) % nd.getDeg) < dirAt σ nd ((j + t) % nd.getDeg)) ∧
    (∀ a b, a < nd.getDeg → b < nd.getDeg → a ≠ b → dirAt σ nd a ≠ dirAt σ nd b)

/-- Directions and `vuln` values at the centre of the star: the first edge in
direction 2, the second in direction 0, the third in direction 1, the wrap at
the second edge. -/
def exOrder (v : VarName) : Int :=
  match v with
  | .dir _ c => if c = 0 then 2 else if c = 1 then 0 else 1
  | .vuln _ i => if i = 1 then 1 else 0
  | _ => 0

/-! ## OptGraph::simplify (OptGraph.cpp, lines 95-183)

`OptGraph.h` is not part of the sources at hand. Nodes and transit edges are
given by numbers. The sets `_nodes` and `adjList` are ordered by the addresses
of the objects; here the nodes and the edges are lists in that order, and the
adjacency list of a node holds the edges that have the node as an end point,
as `build` and `simplifyStep` keep it. -/

/-- An `EtgPart`: the edge of the transit graph and the direction flag. -/
structure EtgPart where
  etg : Nat
  dir : Bool
deriving DecidableEq, Repr

/-- An `OptEdge`: the members `from`, `to` and `etgs`. -/
structure OptEdge where
  fromNd : Nat
  toNd : Nat
  etgs : List EtgPart
deriving DecidableEq, Repr

/-- The optimisation graph. -/
structure OptGraph where
  nodes : List Nat
  edges : List OptEdge
deriving DecidableEq, Repr

/-- The member `adjList` of the node `n`. -/
def OptGraph.adjList (g : OptGraph) (n : Nat) : List OptEdge :=
  g.edges.filter fun e => e.fromNd == n || e.toNd == n

/-- What `simplifyStep` takes from outside: the value of `equal` computed in
lines 114-125 from the transit graph, and the place among the edges that the
address of the new edge gives it. -/
structure OptOps where
  equal : Nat → OptEdge → OptEdge → Bool
  place : List OptEdge → OptEdge → List OptEdge

/-- The edge built in lines 151-161. -/
def mergedEdge (n : Nat) (first second : OptEdge) : OptEdge :=
  { fromNd := if first.toNd ≠ n then first.toNd else first.fromNd
    toNd := if second.toNd ≠ n then second.toNd else second.fromNd
    etgs :=
      (first.etgs.map fun p => ⟨p.etg, xor p.dir (decide (first.toNd ≠ n))⟩) ++
      (second.etgs.map fun p => ⟨p.etg, xor p.dir (decide (¬ second.toNd ≠ n))⟩) }

/-- The loop of `simplifyStep` over the nodes still to visit; `none` when an
assertion fails. The result is the value returned and the graph. -/
def simplifyNodes (ops : OptOps) (g : OptGraph) : List Nat → Option (Bool × OptGraph)
  | [] => some (false, g)
  | n :: ns =>
    match g.adjList n with
    | [first, second] =>
      if ops.equal n first second then
        if (mergedEdge n first second).fromNd = (mergedEdge n first second).toNd then
          simplifyNodes ops g ns
        else if (mergedEdge n first second).fromNd = n ∨ (mergedEdge n first second).toNd = n then
          none
        else
          some (true,
            { nodes := g.nodes.erase n
              edges := ops.place ((g.edges.erase first).erase second)
                (mergedEdge n first second) })
      else simplifyNodes ops g ns
    | _ => simplifyNodes ops g ns

/-- `OptGraph::simplifyStep` (lines 101-183). -/
def simplifyStep (ops : OptOps) (g : OptGraph) : Option (Bool × OptGraph) :=
  simplifyNodes ops g g.nodes

/-- The loop `while (simplifyStep()) {}`: `none` when the fuel runs out,
`some none` when an assertion fails. -/
def simplifyLoop (ops : OptOps) : Nat → OptGraph → Option (Option OptGraph)
  | 0, _ => none
  | fuel + 1, g =>
    match simplifyStep ops g with
    | none => some none
    | some (true, g1) => simplifyLoop ops fuel g1
    | some (false, g1) => some (some g1)

/-- `OptGraph::simplify` (lines 95-98). Every round that goes on removes a
node, so one round more than there are nodes is enough. -/
def simplify (ops : OptOps) (g : OptGraph) : Option (Option OptGraph) :=
  simplifyLoop ops (g.nodes.length + 1) g

/-- The transit edges under the edges of the graph. -/
def OptGraph.etgs (g : OptGraph) : List Nat :=
  g.edges.flatMap fun e => e.etgs.map EtgPart.etg

/-- A path of three nodes: the transit edge 10 from 1 to 2 and the transit
edge 11 from 3 to 2. -/
def exOpt : OptGraph := ⟨[1, 2, 3], [⟨1, 2, [⟨10, true⟩]⟩, ⟨3, 2, [⟨11, true⟩]⟩]⟩

/-- Every two edges pass the test, the new edge is the first in the order of
addresses. -/
def exOptOps : OptOps := ⟨fun _ _ _ => true, fun l e => e :: l⟩

/-! ## ILPGridOptimizer::extractSolution, the walk (ILPGridOptimizer.cpp, lines 800-832)

For one comb edge `edg` the walk reads the set `gridEdgs[edg]` of the grid
edges used, here the list `S` without repetitions, and the grid nodes
`grStart` and `grEnd` chosen for the end points of `edg`, here given by
their ids. -/

/-- Modelled from the spec: `Edge::getOtherNd` is not in the sources; it is
the end point of the edge that is not the given node. -/
def GridEdge.getOtherNd (e : GridEdge) (n : Nat) : Nat :=
  if e.getFrom = n then e.getTo else e.getFrom

/-- The variables of the walk: `curNode`, `last` (`none` for the null
pointer), `i` and the vector `edges` (`none` for a null pointer). -/
structure WalkState where
  curNode : Nat
  last : Option GridEdge
  i : Nat
  edges : List (Option GridEdge)
deriving DecidableEq, Repr

/-- One round of the `while` loop (lines 817-826): the `for` loop takes the
first edge of the adjacency list of `curNode` that is not `last` and is in
`S`; when there is none the variables stay as they are. `none` when `curNode`
is no node of the graph or when the write `edges[edges.size() - i]` is outside
the vector. -/
def walkStep (gg : GridGraph) (S : List GridEdge) (st : WalkState) : Option WalkState :=
  match findGridNd gg st.curNode with
  | none => none
  | some nd =>
    match nd.getAdjList.find? fun adj => some adj != st.last && S.contains adj with
    | none => some st
    | some adj =>
      if st.i + 1 ≤ st.edges.length then
        some
          { curNode := adj.getOtherNd st.curNode
            last := some adj
            i := st.i + 1
            edges := st.edges.set (st.edges.length - (st.i + 1)) (some adj) }
      else none

/-- The loop `while (curNode != grEnd)`: `none` when the fuel runs out,
`some none` when a round fails. -/
def walkLoop (gg : GridGraph) (S : List GridEdge) (grEnd : Nat) :
    Nat → WalkState → Option (Option WalkState)
  | 0, _ => none
  | fuel + 1, st =>
    if st.curNode = grEnd then some (some st)
    else
      match walkStep gg S st with
      | none => some none
      | some st1 => walkLoop gg S grEnd fuel st1

/-- Lines 804-830 for one comb edge: the vector handed to `Drawing::draw`.
`none` when the fuel runs out, `some none` when a round fails or the
assertion `i == edges.size()` does. -/
def extractSolutionEdge (gg : GridGraph) (S : List GridEdge) (grStart grEnd fuel : Nat) :
    Option (Option (List (Option GridEdge))) :=
  match walkLoop gg S grEnd fuel ⟨grStart, none, 0, List.replicate S.length none⟩ with
  | none => none
  | some none => some none
  | some (some st) => if st.i = st.edges.length then some (some st.edges) else some none

/-- The edges `steps`, each with the node it reaches, lead on from the node
`u`: each edge is in the adjacency list of the node it leaves and joins it to
the node it reaches, and every edge in the adjacency list of a node on the way
has that node as an end point. -/
def isPath (gg : GridGraph) : Nat → List (GridEdge × Nat) → Bool
  | _, [] => true
  | u, (e, v) :: rest =>
    (match findGridNd gg u with
      | none => false
      | some nd =>
        nd.getAdjList.contains e &&
          nd.getAdjList.all fun x => x.getFrom == u || x.getTo == u) &&
      e.getOtherNd u == v && isPath gg v rest

/-- On the grid of two cells: from sink 0 to its port 2, over the primary
edge to port 6 of sink 9, and into sink 9. -/
def exWalk : List (GridEdge × Nat) :=
  [(⟨0, 3, true, false, true, 0⟩, 3), (exPrimary, 16), (⟨16, 9, false, true, true, 0⟩, 9)]

/-! ## LineGraph::splitNode and splitNodes (LineGraph.cpp, lines 712-793)

The payload of an edge is the list of its line occurrences. The connection
exceptions of a node are triples (line, edge, edge), an edge being named by
its end points `(getFrom, getTo)`. The geometry is left out: the circular
order of the edges at a node, which `edgeOrdering` computes from it, is taken
as it is. -/

/-- Modelled from the spec: `Node::getDeg` is not in the sources; the degree
of a node is the number of edges in its adjacency list. -/
def LineGraph.getDeg {P : Type} (g : LineGraph P) (n : Nat) : Nat :=
  (g.getAdjList n).length

/-- The name of an edge in the connection exceptions: its end points. -/
def LineEdge.key {P : Type} (e : LineEdge P) : Nat × Nat := (e.getFrom, e.getTo)

/-- The line graph with the connection exceptions of its nodes
(`pl().getConnExc()`). -/
structure SplitGraph where
  g : LineGraph (List LineOcc)
  connExc : Nat → List (Nat × (Nat × Nat) × (Nat × Nat))

/-- Modelled from the spec: `Graph::addNd` is not in the sources; it adds a
new node, here with an id above every id of the graph, without stops. -/
def LineGraph.addNd {P : Type} (g : LineGraph P) : LineGraph P × Nat :=
  ({ g with
      nds := g.nds ++ [g.nds.foldl max 0 + 1]
      stops := fun m => if m = g.nds.foldl max 0 + 1 then 0 else g.stops m },
    g.nds.foldl max 0 + 1)

/-- Modelled from the spec: `LineEdgePL::addLine` is not in the sources; a
line occurs at most once on an edge, a new line is put at the end, and a line
that is there with another direction loses its direction. -/
def addLine (lines : List LineOcc) (line : Nat) (dir : Option Nat) : List LineOcc :=
  if hasLine lines line then
    lines.map fun lo =>
      if lo.line = line ∧ lo.direction ≠ none ∧ lo.direction ≠ dir then
        { lo with direction := none }
      else lo
  else lines ++ [⟨line, dir⟩]

/-- Modelled from the spec: `LineNodePL::addConnExc` is not in the sources;
the exception says that the line does not continue between the two edges, and
is recorded for both orders of the edges. -/
def addConnExc (exc : List (Nat × (Nat × Nat) × (Nat × Nat))) (line : Nat)
    (a b : Nat × Nat) : List (Nat × (Nat × Nat) × (Nat × Nat)) :=
  let exc1 := if exc.contains (line, a, b) then exc else exc ++ [(line, a, b)]
  if exc1.contains (line, b, a) then exc1 else exc1 ++ [(line, b, a)]

/-- `LineGraph::edgeRpl` (lines 825-855) on the exceptions of the node: for a
line that has exceptions from `oldE`, these become the exceptions from `newE`
and those `newE` had are dropped (lines 829-839); then `oldE` is replaced by
`newE` as the second edge (lines 842-854). -/
def edgeRpl (exc : List (Nat × (Nat × Nat) × (Nat × Nat))) (oldE newE : Nat × Nat) :
    List (Nat × (Nat × Nat) × (Nat × Nat)) :=
  if oldE = newE then exc
  else
    ((exc.filter fun t =>
        !((exc.any fun s => s.1 == t.1 && s.2.1 == oldE) && t.2.1 == newE)).map fun t =>
        if t.2.1 = oldE then (t.1, newE, t.2.2) else t).map fun t =>
      if t.2.2 = oldE then (t.1, t.2.1, newE) else t

/-- The edge that takes the place of the edge `eo` of `n` at the new node
`cn` (lines 742-749): the end point `n` and the line directions `n` are
replaced by `cn`. -/
def movedEdge (n cn : Nat) (eo : LineEdge (List LineOcc)) : LineEdge (List LineOcc) :=
  if eo.getFrom = n then ⟨cn, eo.getOtherNd n, nodeRpl eo.pl n cn⟩
  else ⟨eo.getOtherNd n, cn, nodeRpl eo.pl n cn⟩

/-- One round of the loop of lines 741-765 for the edge `eo` of `combine`;
`s.2` is the trunk edge `ce` as it is in the graph. -/
def splitMove (n cn : Nat) (s : SplitGraph × LineEdge (List LineOcc))
    (eo : LineEdge (List LineOcc)) : SplitGraph × LineEdge (List LineOcc) :=
  let r :=
    if eo.getFrom = n then s.1.g.addEdg cn (eo.getOtherNd n) eo.pl
    else s.1.g.addEdg (eo.getOtherNd n) cn eo.pl
  let g1 := r.1.nodeRpl r.2 n cn
  let exc1 := fun m =>
    if m = eo.getOtherNd n then edgeRpl (s.1.connExc m) eo.key r.2.key else s.1.connExc m
  let pl := eo.pl.foldl (fun ls lo => addLine ls lo.line none) s.2.pl
  let g2 := g1.setPl s.2 pl
  let exc2 := fun m => if m = n then edgeRpl (exc1 m) eo.key s.2.key else exc1 m
  (⟨g2.delEdg eo.getFrom eo.getTo, exc2⟩, { s.2 with pl := pl })

/-- The exceptions added in lines 768-777: for every line of the trunk edge
`ce` and every two edges of the adjacency list of `cn` that are not `ce` and
not the same edge. -/
def trunkExc (adj : List (LineEdge (List LineOcc))) (ce : LineEdge (List LineOcc)) :
    List (Nat × (Nat × Nat) × (Nat × Nat)) :=
  ce.pl.flatMap fun lo =>
    adj.flatMap fun ea =>
      if ea = ce then []
      else
        adj.flatMap fun eb =>
          if eb = ce then [] else if ea = eb then [] else [(lo.line, ea.key, eb.key)]

/-- Lines 715-765 of `splitNode(n, maxDeg)` for a node with more than
`maxDeg` edges: the new node and the trunk edge are added and the edges of
`combine` are moved. The result is the graph and the trunk edge `ce`; the new
node `cn` is `st.g.addNd.2`. `order g n` is
`edgeOrdering(n, true).getOrderedSet()`. -/
def splitLoop (order : LineGraph (List LineOcc) → Nat → List (LineEdge (List LineOcc)))
    (st : SplitGraph) (n maxDeg : Nat) : SplitGraph × LineEdge (List LineOcc) :=
  ((order st.g n).drop (maxDeg - 1)).foldl (splitMove n st.g.addNd.2)
    (⟨(st.g.addNd.1.addEdg n st.g.addNd.2 []).1,
      fun m => if m = st.g.addNd.2 then [] else st.connExc m⟩,
      (st.g.addNd.1.addEdg n st.g.addNd.2 []).2)

/-- Lines 715-777 of `splitNode(n, maxDeg)` for a node with more than
`maxDeg` edges: after the loop the exceptions of lines 768-777 are recorded at
the new node. The result is the graph, the new node `cn` and the trunk edge
`ce`. -/
def splitOnce (order : LineGraph (List LineOcc) → Nat → List (LineEdge (List LineOcc)))
    (st : SplitGraph) (n maxDeg : Nat) : SplitGraph × Nat × LineEdge (List LineOcc) :=
  (⟨(splitLoop order st n maxDeg).1.g, fun m =>
      if m = st.g.addNd.2 then
        (trunkExc ((splitLoop order st n maxDeg).1.g.getAdjList st.g.addNd.2)
          (splitLoop order st n maxDeg).2).foldl
          (fun exc t => addConnExc exc t.1 t.2.1 t.2.2)
          ((splitLoop order st n maxDeg).1.connExc st.g.addNd.2)
      else (splitLoop order st n maxDeg).1.connExc m⟩,
    st.g.addNd.2, (splitLoop order st n maxDeg).2)

/-- `LineGraph::splitNode` (lines 712-784): `none` when the fuel runs out,
`some none` when an assertion fails. -/
def splitNode (order : LineGraph (List LineOcc) → Nat → List (LineEdge (List LineOcc)))
    (maxDeg : Nat) : Nat → SplitGraph → Nat → Option (Option SplitGraph)
  | 0, _, _ => none
  | fuel + 1, st, n =>
    if ¬ 2 < maxDeg then some none
    else if maxDeg < (st.g.getAdjList n).length then
      if ¬ (splitOnce order st n maxDeg).1.g.getDeg n ≤ maxDeg then some none
      else if maxDeg < (splitOnce order st n maxDeg).1.g.getDeg (splitOnce order st n maxDeg).2.1
      then
        splitNode order maxDeg fuel (splitOnce order st n maxDeg).1
          (splitOnce order st n maxDeg).2.1
      else some (some (splitOnce order st n maxDeg).1)
    else some (some st)

/-- The loop `for (auto n : toSplit) splitNode(n, maxDeg)` of `splitNodes`.
Every call of `splitNode` for a new node is for a node of smaller degree, so
one round more than there are edges is enough for a call. -/
def splitList (order : LineGraph (List LineOcc) → Nat → List (LineEdge (List LineOcc)))
    (maxDeg : Nat) : List Nat → SplitGraph → Option (Option SplitGraph)
  | [], st => some (some st)
  | n :: ns, st =>
    match splitNode order maxDeg (st.g.edgs.length + 1) st n with
    | some (some st1) => splitList order maxDeg ns st1
    | r => r

/-- `LineGraph::splitNodes` (lines 787-793). -/
def splitNodes (order : LineGraph (List LineOcc) → Nat → List (LineEdge (List LineOcc)))
    (st : SplitGraph) (maxDeg : Nat) : Option (Option SplitGraph) :=
  splitList order maxDeg (st.g.nds.filter fun n => decide (maxDeg < st.g.getDeg n)) st

/-- The predicate on end points behind `LineEdge.joins`. -/
def joinsQ (a b x y : Nat) : Bool := (x == a && y == b) || (x == b && y == a)

/-- The predicate on end points behind `LineEdge.touches`. -/
def touchQ (m x y : Nat) : Bool := x == m || y == m

/-- The invariants of the line graph: no self-loops, at most one edge
between two nodes, and the end points of the edges are nodes of the graph. -/
structure LineGraph.Wf {P : Type} (g : LineGraph P) : Prop where
  loop : ∀ e ∈ g.edgs, e.getFrom ≠ e.getTo
  par : ∀ a b, g.edgs.countP (fun x => joinsQ a b x.getFrom x.getTo) ≤ 1
  closed : ∀ e ∈ g.edgs, e.getFrom ∈ g.nds ∧ e.getTo ∈ g.nds

/-- A node with four edges: node 0 is joined to the nodes 1, 2, 3 and 4; line
7 runs on the edges to 1 and 4, line 8 on the edge to 2, line 9 on the edge
from 3. -/
def exSplit : SplitGraph :=
  ⟨⟨[0, 1, 2, 3, 4], fun _ => 0,
      [⟨0, 1, [⟨7, none⟩]⟩, ⟨0, 2, [⟨8, some 2⟩]⟩, ⟨3, 0, [⟨9, some 0⟩]⟩,
        ⟨0, 4, [⟨7, some 0⟩]⟩]⟩,
    fun _ => []⟩

/-- The edges of a node in the order of the adjacency list. -/
def exSplitOrder (g : LineGraph (List LineOcc)) (n : Nat) : List (LineEdge (List LineOcc)) :=
  g.getAdjList n

/-! ## The order of getOrdering and the connected components -/

/-- Two nodes that are the end points of a comb edge of the graph. -/
def CombGraph.Adj (cg : CombGraph) (a b : Nat) : Prop :=
  ∃ nd ∈ cg.getNds, ∃ e ∈ nd.getAdjList,
    (e.getFrom = a ∧ e.getTo = b) ∨ (e.getFrom = b ∧ e.getTo = a)

/-- Two nodes of the same connected component. -/
def CombGraph.Conn (cg : CombGraph) (a b : Nat) : Prop :=
  Relation.ReflTransGen cg.Adj a b

/-- The end points of the edges of a list. -/
def endsOf (l : List CombEdge) : List Nat :=
  l.flatMap fun e => [e.getFrom, e.getTo]

/-- Every edge of the sequence has an end point that is an end point of an
edge before it, or no end point of an edge before it is in its connected
component. -/
def OrdGood (cg : CombGraph) (order : List CombEdge) : Prop :=
  ∀ pre e post, order = pre ++ e :: post →
    (e.getFrom ∈ endsOf pre ∨ e.getTo ∈ endsOf pre) ∨
      ∀ m ∈ endsOf pre, ¬ cg.Conn m e.getFrom

/-- Invariant of the inner loop of `getOrdering` for the sequence: the end
points of the edges emitted are settled or in `dangling`; and the nodes in
`dangling` are end points of edges emitted, unless `dangling` holds only the
node just taken from `globalPq`, which is settled or in a connected component
without an edge emitted. -/
def OrdConn (cg : CombGraph) (st : OrdState) : Prop :=
  (∀ m ∈ endsOf st.order, m ∈ st.settled ∨ m ∈ st.dangling) ∧
  OrdGood cg st.order ∧
  ((∀ m ∈ st.dangling, m ∈ endsOf st.order) ∨
    ∃ n0, st.dangling = [n0] ∧ (n0 ∈ st.settled ∨ ∀ m ∈ endsOf st.order, ¬ cg.Conn m n0))

/-- Invariant of the loop over the edges of the node `n` (lines 419-425). -/
def EmitConn (cg : CombGraph) (n : Nat) (st : OrdState) : Prop :=
  (∀ m ∈ endsOf st.order, m ∈ st.settled ∨ m ∈ st.dangling ∨ m = n) ∧
  OrdGood cg st.order ∧
  (∀ m ∈ st.dangling, m ∈ endsOf st.order) ∧
  (n ∈ endsOf st.order ∨ ∀ m ∈ endsOf st.order, ¬ cg.Conn m n)

/-- Modelled from the spec: `GridGraph::settleNd` and `GridGraph::isSettled`
are not in the sources; `settleNd` records that the comb node is settled at
the grid node, and the other calls of `draw` that change the grid graph leave
the settled comb nodes as they are. -/
structure SettleSpec {G Dr C : Type} (ops : DrawOps G Dr C) : Prop where
  settleNd : ∀ g n nd v, ops.isSettled (ops.settleNd g n nd) v = (v == nd || ops.isSettled g v)
  openNodeSink : ∀ g n c v, ops.isSettled (ops.openNodeSink g n c) v = ops.isSettled g v
  closeNodeSink : ∀ g n v, ops.isSettled (ops.closeNodeSink g n) v = ops.isSettled g v
  addCostVector : ∀ g n c v, ops.isSettled (ops.addCostVector g n c) v = ops.isSettled g v
  settleEdg : ∀ g a b e v, ops.isSettled (ops.settleEdg g a b e) v = ops.isSettled g v

/-! ## Structure of the problem built -/

/-- Which loop of `createProblem` a row name belongs to. -/
def RowName.tag : RowName → Nat
  | .oneass _ => 0
  | .uniqedge _ _ => 1
  | .adjsum _ _ => 2
  | .singlesink _ _ => 3
  | .inneruse _ => 4
  | .nocross _ => 5
  | .dirconst _ _ => 6
  | .vulnconst _ => 7
  | .orderconst _ _ => 8
  | .negconst _ _ => 9
  | .angconst _ _ => 10
  | .angsumconst _ _ => 11

/-- Which loop of `createProblem` a column name belongs to. -/
def VarName.tag : VarName → Nat
  | .statpos _ _ => 0
  | .edg _ _ _ => 1
  | .dir _ _ => 2
  | .vuln _ _ => 3
  | .negdist _ _ => 4
  | .ang _ _ _ => 5

theorem collect_some {α : Type} : ∀ {l : List (Option α)} {r : List α},
    collect l = some r → l = r.map some
  | [], r, h => by
    simp only [collect, Option.some.injEq] at h
    subst h; rfl
  | none :: l, r, h => by simp [collect] at h
  | some a :: l, r, h => by
    simp only [collect, Option.map_eq_some'] at h
    obtain ⟨r', hr', rfl⟩ := h
    simp [collect_some hr']

theorem collect_map_mem {α β : Type} {f : α → Option β} {xs : List α} {r : List β}
    (h : collect (xs.map f) = some r) {y : β} (hy : y ∈ r) : ∃ x ∈ xs, f x = some y := by
  have h1 := collect_some h
  have h2 : some y ∈ xs.map f := by rw [h1]; exact List.mem_map_of_mem _ hy
  obtain ⟨x, hx, hxy⟩ := List.mem_map.1 h2
  exact ⟨x, hx, hxy⟩

theorem collect_map_mem_of {α β : Type} {f : α → Option β} {xs : List α} {r : List β}
    (h : collect (xs.map f) = some r) {x : α} (hx : x ∈ xs) : ∃ y ∈ r, f x = some y := by
  have h1 := collect_some h
  have h2 : f x ∈ r.map some := by rw [← h1]; exact List.mem_map_of_mem _ hx
  obtain ⟨y, hy, hxy⟩ := List.mem_map.1 h2
  exact ⟨y, hy, hxy.symm⟩

section Pieces

variable {gg : GridGraph} {cg : CombGraph} {geoPens : Option (Nat → Nat → ℚ)}
  {maxGrDist : ℚ} {dist : Nat → Nat → ℚ} {p : Problem}

/-- The pieces of a problem that was built. -/
theorem createProblem_some (h : createProblem gg cg geoPens maxGrDist dist = some p) :
    ∃ ncRows ordRows vCols angs,
      nocrossRows (openCands gg cg dist maxGrDist) (baseCols gg cg geoPens maxGrDist dist) cg
        = some ncRows ∧
      orderLoop (baseCols gg cg geoPens maxGrDist dist ++ dirCols cg) cg.getNds
        = some (ordRows, vCols) ∧
      anglePhase (baseCols gg cg geoPens maxGrDist dist ++ dirCols cg ++ vCols) cg
        = some angs ∧
      p.rows = oneassRows gg cg dist maxGrDist ++
          uniqEdgeRows (openCands gg cg dist maxGrDist)
            (baseCols gg cg geoPens maxGrDist dist) cg ++
          adjsumRows (openCands gg cg dist maxGrDist)
            (baseCols gg cg geoPens maxGrDist dist) cg ++
          singleSinkRows (openCands gg cg dist maxGrDist)
            (baseCols gg cg geoPens maxGrDist dist) (candPairs gg cg dist maxGrDist) cg ++
          innerUseRows (openCands gg cg dist maxGrDist)
            (baseCols gg cg geoPens maxGrDist dist) cg ++
          ncRows ++
          dirRows (openCands gg cg dist maxGrDist) (baseCols gg cg geoPens maxGrDist dist) cg ++
          ordRows ++ angs.flatMap Prod.fst ∧
      p.cols = baseCols gg cg geoPens maxGrDist dist ++ dirCols cg ++ vCols ++
          angs.flatMap Prod.snd := by
  unfold createProblem at h
  simp only at h
  split at h
  · exact absurd h (by simp)
  · rename_i ncRows hnc
    split at h
    · exact absurd h (by simp)
    · rename_i ordRows vCols hord
      split at h
      · exact absurd h (by simp)
      · rename_i angs hang
        simp only [Option.some.injEq] at h
        subst h
        exact ⟨ncRows, ordRows, vCols, angs, hnc, hord, hang, rfl, rfl⟩

/-! ### Names produced by each loop -/

theorem mem_oneassRows {r : Row} :
    r ∈ oneassRows gg cg dist maxGrDist ↔
      ∃ nd ∈ cg.getNds, nd.getDeg ≠ 0 ∧ r = oneassRow gg dist maxGrDist nd := by
  simp only [oneassRows, assignNds, List.mem_map, List.mem_filter]
  constructor
  · rintro ⟨nd, ⟨h1, h2⟩, rfl⟩
    exact ⟨nd, h1, by simpa using h2, rfl⟩
  · rintro ⟨nd, h1, h2, rfl⟩
    exact ⟨nd, ⟨h1, by simpa using h2⟩, rfl⟩

theorem uniqEdgeLoop_mem {cols : List Col} {r : Row} :
    ∀ {es : List GridEdge} {proced : List (Nat × Nat)},
      r ∈ uniqEdgeLoop gg cols cg proced es →
      ∃ e ∈ es, e.isSecondary = false ∧ r = uniqEdgeRow gg cols cg e
  | [], _, h => by simp [uniqEdgeLoop] at h
  | e :: es, proced, h => by
    unfold uniqEdgeLoop at h
    split at h
    · obtain ⟨e', he', h'⟩ := uniqEdgeLoop_mem h
      exact ⟨e', List.mem_cons_of_mem _ he', h'⟩
    · rename_i hsec
      split at h
      · obtain ⟨e', he', h'⟩ := uniqEdgeLoop_mem h
        exact ⟨e', List.mem_cons_of_mem _ he', h'⟩
      · rcases List.mem_cons.1 h with h | h
        · exact ⟨e, List.mem_cons_self _ _, by simpa using hsec, h⟩
        · obtain ⟨e', he', h'⟩ := uniqEdgeLoop_mem h
          exact ⟨e', List.mem_cons_of_mem _ he', h'⟩

theorem tag_uniqEdgeRows {g : GridGraph} {cols : List Col} {r : Row}
    (h : r ∈ uniqEdgeRows g cols cg) : r.name.tag = 1 := by
  obtain ⟨e, -, -, rfl⟩ := uniqEdgeLoop_mem h
  rfl

theorem tag_oneassRows {r : Row} (h : r ∈ oneassRows gg cg dist maxGrDist) :
    r.name.tag = 0 := by
  obtain ⟨nd, -, -, rfl⟩ := mem_oneassRows.1 h
  rfl

theorem tag_adjsumRows {g : GridGraph} {cols : List Col} {r : Row}
    (h : r ∈ adjsumRows g cols cg) : r.name.tag = 2 := by
  simp only [adjsumRows, List.mem_flatMap, List.mem_map] at h
  obtain ⟨n, -, c, -, rfl⟩ := h
  rfl

theorem tag_singleSinkRows {g : GridGraph} {cols : List Col} {cands : List (Nat × Nat)}
    {r : Row} (h : r ∈ singleSinkRows g cols cands cg) : r.name.tag = 3 := by
  simp only [singleSinkRows, List.mem_flatMap, List.mem_map] at h
  obtain ⟨n, -, c, -, rfl⟩ := h
  rfl

theorem tag_innerUseRows {g : GridGraph} {cols : List Col} {r : Row}
    (h : r ∈ innerUseRows g cols cg) : r.name.tag = 4 := by
  simp only [innerUseRows, List.mem_map] at h
  obtain ⟨n, -, rfl⟩ := h
  rfl

theorem nocrossRow_name {g : GridGraph} {cols : List Col} {n : GridNode} {r : Row}
    (h : nocrossRow g cols cg n = some r) :
    r.name = .nocross n.getId ∧ r.bnd = ⟨.UP, 0, 1⟩ := by
  unfold nocrossRow at h
  simp only at h
  split at h
  · split at h
    · split at h
      · simp only [Option.some.injEq] at h; subst h; exact ⟨rfl, rfl⟩
      · split at h
        · simp only [Option.some.injEq] at h; subst h; exact ⟨rfl, rfl⟩
        · exact absurd h (by simp)
    · simp only [Option.some.injEq] at h; subst h; exact ⟨rfl, rfl⟩
  · simp only [Option.some.injEq] at h; subst h; exact ⟨rfl, rfl⟩

theorem tag_nocrossRows {g : GridGraph} {cols : List Col} {rs : List Row} {r : Row}
    (h : nocrossRows g cols cg = some rs) (hr : r ∈ rs) : r.name.tag = 5 := by
  obtain ⟨n, -, hn⟩ := collect_map_mem h hr
  rw [(nocrossRow_name hn).1]
  rfl

theorem tag_dirRows {g : GridGraph} {cols : List Col} {r : Row}
    (h : r ∈ dirRows g cols cg) : r.name.tag = 6 := by
  simp only [dirRows, List.mem_flatMap, List.mem_map] at h
  obtain ⟨n, -, c, -, rfl⟩ := h
  rfl

theorem orderStep_some {cols : List Col} {nd : CombNode} {i : Nat} {r : Row}
    (h : orderStep cols nd i = some r) :
    ∃ edgA edgB, orderEdgA nd i = some edgA ∧ nd.getOrderedSet.get? i = some edgB ∧
      edgA.id ≠ edgB.id ∧ hasCol cols (.dir nd.id edgA.id) = true ∧
      hasCol cols (.dir nd.id edgB.id) = true ∧ hasCol cols (.vuln nd.id i) = true ∧
      r = orderRow nd i edgA edgB := by
  unfold orderStep at h
  split at h
  · rename_i edgA edgB hA hB
    split at h
    · rename_i hc
      simp only [Option.some.injEq] at h
      exact ⟨edgA, edgB, hA, hB, hc.1, hc.2.1, hc.2.2.1, hc.2.2.2, h.symm⟩
    · exact absurd h (by simp)
  · exact absurd h (by simp)

theorem orderRowsOf_some {cols : List Col} {nd : CombNode} {rs : List Row}
    (h : orderRowsOf cols nd = some rs) :
    2 < nd.getOrderedSet.length ∧
      collect ((List.range nd.getOrderedSet.length).map (orderStep cols nd)) = some rs := by
  unfold orderRowsOf at h
  split at h
  · rename_i h2
    exact ⟨h2, h⟩
  · exact absurd h (by simp)

/-- What the order loop returns: for every node of degree at least 3, in
order, its `vulnconst` row, its `orderconst` rows and its `vuln` columns. -/
theorem orderLoop_some : ∀ {nds : List CombNode} {cols : List Col} {rows : List Row}
    {newCols : List Col}, orderLoop cols nds = some (rows, newCols) →
    newCols = (nds.filter fun nd => !(decide (nd.getDeg < 3))).flatMap vulnCols ∧
    (∀ r ∈ rows, ∃ nd ∈ nds, ¬ nd.getDeg < 3 ∧
      (r = vulnRow nd ∨ ∃ i cs, i < nd.getOrderedSet.length ∧ orderStep cs nd i = some r)) ∧
    (∀ nd ∈ nds, ¬ nd.getDeg < 3 → vulnRow nd ∈ rows ∧ 2 < nd.getOrderedSet.length ∧
      ∀ i, i < nd.getOrderedSet.length → ∃ r ∈ rows, ∃ cs, orderStep cs nd i = some r)
  | [], cols, rows, newCols, h => by
    simp only [orderLoop, Option.some.injEq, Prod.mk.injEq] at h
    obtain ⟨rfl, rfl⟩ := h
    simp
  | nd :: nds, cols, rows, newCols, h => by
    unfold orderLoop at h
    split at h
    · rename_i hdeg
      obtain ⟨h1, h2, h3⟩ := orderLoop_some h
      refine ⟨?_, ?_, ?_⟩
      · rw [h1, List.filter_cons]
        simp [hdeg]
      · intro r hr
        obtain ⟨nd', hnd', h'⟩ := h2 r hr
        exact ⟨nd', List.mem_cons_of_mem _ hnd', h'⟩
      · intro nd' hnd' hd'
        rcases List.mem_cons.1 hnd' with rfl | hnd'
        · exact absurd hdeg hd'
        · exact h3 nd' hnd' hd'
    · rename_i hdeg
      split at h
      · exact absurd h (by simp)
      · rename_i rs hrs
        split at h
        · exact absurd h (by simp)
        · rename_i rows' newCols' hrec
          simp only [Option.some.injEq, Prod.mk.injEq] at h
          obtain ⟨rfl, rfl⟩ := h
          obtain ⟨h1, h2, h3⟩ := orderLoop_some hrec
          obtain ⟨hlen, hcol⟩ := orderRowsOf_some hrs
          refine ⟨?_, ?_, ?_⟩
          · rw [h1, List.filter_cons]
            simp [hdeg]
          · intro r hr
            rcases List.mem_cons.1 hr with rfl | hr
            · exact ⟨nd, List.mem_cons_self _ _, hdeg, Or.inl rfl⟩
            · rcases List.mem_append.1 hr with hr | hr
              · obtain ⟨i, hi, hir⟩ := collect_map_mem hcol hr
                exact ⟨nd, List.mem_cons_self _ _, hdeg,
                  Or.inr ⟨i, _, List.mem_range.1 hi, hir⟩⟩
              · obtain ⟨nd', hnd', h'⟩ := h2 r hr
                exact ⟨nd', List.mem_cons_of_mem _ hnd', h'⟩
          · intro nd' hnd' hd'
            rcases List.mem_cons.1 hnd' with rfl | hnd'
            · refine ⟨List.mem_cons_self _ _, hlen, ?_⟩
              intro i hi
              obtain ⟨r, hr, hir⟩ := collect_map_mem_of hcol (List.mem_range.2 hi)
              exact ⟨r, List.mem_cons_of_mem _ (List.mem_append_left _ hr), _, hir⟩
            · obtain ⟨ha, hb, hc⟩ := h3 nd' hnd' hd'
              refine ⟨List.mem_cons_of_mem _ (List.mem_append_right _ ha), hb, ?_⟩
              intro i hi
              obtain ⟨r, hr, hir⟩ := hc i hi
              exact ⟨r, List.mem_cons_of_mem _ (List.mem_append_right _ hr), hir⟩

theorem tag_orderRows {nds : List CombNode} {cols : List Col} {rows : List Row}
    {newCols : List Col} (h : orderLoop cols nds = some (rows, newCols)) {r : Row}
    (hr : r ∈ rows) : r.name.tag = 7 ∨ r.name.tag = 8 := by
  obtain ⟨nd, -, -, h'⟩ := (orderLoop_some h).2.1 r hr
  rcases h' with rfl | ⟨i, cs, -, hi⟩
  · exact Or.inl rfl
  · obtain ⟨a, b, -, -, -, -, -, -, rfl⟩ := orderStep_some hi
    exact Or.inr rfl

theorem tag_vulnCols {nds : List CombNode} {cols : List Col} {rows : List Row}
    {newCols : List Col} (h : orderLoop cols nds = some (rows, newCols)) {c : Col}
    (hc : c ∈ newCols) : c.name.tag = 3 := by
  rw [(orderLoop_some h).1] at hc
  simp only [List.mem_flatMap, vulnCols, List.mem_map] at hc
  obtain ⟨nd, -, i, -, rfl⟩ := hc
  rfl

theorem anglePair_some {cols : List Col} {nd : CombNode} {a b : CombEdge}
    {res : List Row × List Col} (h : anglePair cols nd a b = some res) :
    a.id ≠ b.id ∧
    ((sharedLines a b = 0 ∧ res = ([], [])) ∨
     (sharedLines a b ≠ 0 ∧ hasCol cols (.dir nd.id a.id) = true ∧
       hasCol cols (.dir nd.id b.id) = true ∧
       res = ([negRow nd a b, angRow nd a b, angSumRow a b],
         negCol a b :: (List.range 7).map (angCol a b)))) := by
  unfold anglePair at h
  split at h
  · exact absurd h (by simp)
  · rename_i hne
    refine ⟨hne, ?_⟩
    split at h
    · rename_i h0
      simp only [Option.some.injEq] at h
      exact Or.inl ⟨h0, h.symm⟩
    · rename_i h0
      split at h
      · rename_i hc
        simp only [Option.some.injEq] at h
        exact Or.inr ⟨h0, hc.1, hc.2, h.symm⟩
      · exact absurd h (by simp)

theorem tag_angRows {cols : List Col} {angs : List (List Row × List Col)}
    (h : anglePhase cols cg = some angs) {r : Row} (hr : r ∈ angs.flatMap Prod.fst) :
    9 ≤ r.name.tag := by
  obtain ⟨res, hres, hr⟩ := List.mem_flatMap.1 hr
  have h1 := collect_some h
  have h2 : some res ∈ (cg.getNds.flatMap fun nd =>
      (pairsOf nd.getAdjList).map fun ab => anglePair cols nd ab.1 ab.2) := by
    rw [h1]; exact List.mem_map_of_mem _ hres
  obtain ⟨nd, -, h3⟩ := List.mem_flatMap.1 h2
  obtain ⟨ab, -, h4⟩ := List.mem_map.1 h3
  obtain ⟨-, h5 | h5⟩ := anglePair_some h4
  · rw [h5.2] at hr; simp at hr
  · rw [h5.2.2.2] at hr
    simp only [List.mem_cons, List.mem_singleton, List.not_mem_nil, or_false] at hr
    rcases hr with rfl | rfl | rfl <;> simp [negRow, angRow, angSumRow, RowName.tag]

theorem tag_angCols {cols : List Col} {angs : List (List Row × List Col)}
    (h : anglePhase cols cg = some angs) {c : Col} (hc : c ∈ angs.flatMap Prod.snd) :
    4 ≤ c.name.tag := by
  obtain ⟨res, hres, hc⟩ := List.mem_flatMap.1 hc
  have h1 := collect_some h
  have h2 : some res ∈ (cg.getNds.flatMap fun nd =>
      (pairsOf nd.getAdjList).map fun ab => anglePair cols nd ab.1 ab.2) := by
    rw [h1]; exact List.mem_map_of_mem _ hres
  obtain ⟨nd, -, h3⟩ := List.mem_flatMap.1 h2
  obtain ⟨ab, -, h4⟩ := List.mem_map.1 h3
  obtain ⟨-, h5 | h5⟩ := anglePair_some h4
  · rw [h5.2] at hc; simp at hc
  · rw [h5.2.2.2] at hc
    simp only [List.mem_cons, List.mem_map] at hc
    rcases hc with rfl | ⟨k, -, rfl⟩ <;>
      simp [negCol, angCol, Col.setKind, Col.setObj, Col.add, VarName.tag]

theorem tag_statPosCols {c : Col} (hc : c ∈ statPosCols gg cg dist maxGrDist) :
    c.name.tag = 0 := by
  simp only [statPosCols, List.mem_flatMap, List.mem_map] at hc
  obtain ⟨nd, -, n, -, rfl⟩ := hc
  rfl

theorem edgeUseCol?_some {g : GridGraph} {cands : List (Nat × Nat)} {edg : CombEdge}
    {e : GridEdge} {c : Col} (h : edgeUseCol? g cands geoPens edg e = some c) :
    ∃ q, g.cost e.getFrom e.getTo = some q ∧
      (e.fromIsSink = true → (edg.getFrom, e.getFrom) ∈ cands) ∧
      (e.toIsSink = true → (edg.getTo, e.getTo) ∈ cands) ∧
      c = ((Col.add (.edg e.getFrom e.getTo edg.id)).setKind .BV).setObj
        (edgeObj geoPens edg e q) := by
  unfold edgeUseCol? at h
  split at h
  · exact absurd h (by simp)
  · rename_i q hq
    split at h
    · exact absurd h (by simp)
    · rename_i h1
      split at h
      · exact absurd h (by simp)
      · rename_i h2
        simp only [Option.some.injEq] at h
        refine ⟨q, hq, ?_, ?_, h.symm⟩
        · intro hs; simpa [hs] using h1
        · intro hs; simpa [hs] using h2

theorem tag_edgeUseCols {g : GridGraph} {cands : List (Nat × Nat)} {c : Col}
    (hc : c ∈ edgeUseCols g cg cands geoPens) : c.name.tag = 1 := by
  simp only [edgeUseCols, List.mem_flatMap, List.mem_filterMap] at hc
  obtain ⟨edg, -, n, -, e, -, he⟩ := hc
  obtain ⟨q, -, -, -, rfl⟩ := edgeUseCol?_some he
  rfl

theorem tag_dirCols {c : Col} (hc : c ∈ dirCols cg) : c.name.tag = 2 := by
  simp only [dirCols, List.mem_flatMap, List.mem_map] at hc
  obtain ⟨nd, -, e, -, rfl⟩ := hc
  rfl

/-! ### Looking up rows and columns of the problem -/

theorem hasCol_iff {cols : List Col} {v : VarName} :
    hasCol cols v = true ↔ ∃ c ∈ cols, c.name = v := by
  simp [hasCol]

theorem hasCol_append (l1 l2 : List Col) (v : VarName) :
    hasCol (l1 ++ l2) v = (hasCol l1 v || hasCol l2 v) := by
  simp [hasCol]

theorem hasCol_false_of_tag {l : List Col} {v : VarName}
    (h : ∀ c ∈ l, c.name.tag ≠ v.tag) : hasCol l v = false := by
  rw [← Bool.not_eq_true, hasCol_iff]
  rintro ⟨c, hc, rfl⟩
  exact h c hc rfl

theorem filter_name_nil {l : List Row} {P : RowName → Bool} (k : Nat)
    (hP : ∀ m, P m = true → m.tag = k) (h : ∀ r ∈ l, r.name.tag ≠ k) :
    l.filter (fun r => P r.name) = [] := by
  rw [List.filter_eq_nil_iff]
  intro r hr hn
  exact h r hr (hP _ hn)

theorem filter_eq_singleton {α β : Type} [DecidableEq β] (f : α → β) :
    ∀ (l : List α), (l.map f).Nodup → ∀ a ∈ l, l.filter (fun x => decide (f x = f a)) = [a]
  | [], _, a, ha => by simp at ha
  | b :: l, hnd, a, ha => by
    rw [List.map_cons, List.nodup_cons] at hnd
    rcases List.mem_cons.1 ha with rfl | ha
    · rw [List.filter_cons_of_pos (by simp)]
      congr 1
      rw [List.filter_eq_nil_iff]
      intro x hx
      simp only [decide_eq_true_eq]
      intro hfx
      exact hnd.1 (hfx ▸ List.mem_map_of_mem f hx)
    · have hne : f b ≠ f a := fun hba => hnd.1 (hba ▸ List.mem_map_of_mem f ha)
      rw [List.filter_cons_of_neg (by simpa using hne)]
      exact filter_eq_singleton f l hnd.2 a ha

theorem hasCol_base_statpos (n v : Nat) :
    hasCol (baseCols gg cg geoPens maxGrDist dist) (.statpos n v) =
      hasCol (statPosCols gg cg dist maxGrDist) (.statpos n v) := by
  rw [baseCols, hasCol_append,
    hasCol_false_of_tag (l := edgeUseCols _ _ _ _)
      (fun c hc => by rw [tag_edgeUseCols hc]; simp [VarName.tag]), Bool.or_false]

theorem hasCol_base_edg (a b c : Nat) :
    hasCol (baseCols gg cg geoPens maxGrDist dist) (.edg a b c) =
      hasCol (edgeUseCols (openCands gg cg dist maxGrDist) cg
        (candPairs gg cg dist maxGrDist) geoPens) (.edg a b c) := by
  rw [baseCols, hasCol_append,
    hasCol_false_of_tag (l := statPosCols _ _ _ _)
      (fun c hc => by rw [tag_statPosCols hc]; simp [VarName.tag]), Bool.false_or]

/-- A column of the problem with a station-position or edge-use name is one
of the base columns. -/
theorem hasCol_problem_base (h : createProblem gg cg geoPens maxGrDist dist = some p)
    (v : VarName) (hv : v.tag ≤ 1) :
    hasCol p.cols v = hasCol (baseCols gg cg geoPens maxGrDist dist) v := by
  obtain ⟨ncRows, ordRows, vCols, angs, -, hord, hang, -, hcols⟩ := createProblem_some h
  rw [hcols, hasCol_append, hasCol_append, hasCol_append,
    hasCol_false_of_tag (l := angs.flatMap Prod.snd)
      (fun c hc => by have := tag_angCols hang hc; omega),
    hasCol_false_of_tag (l := vCols)
      (fun c hc => by rw [tag_vulnCols hord hc]; omega),
    hasCol_false_of_tag (l := dirCols cg)
      (fun c hc => by rw [tag_dirCols hc]; omega)]
  simp

/-- The rows of the problem whose name passes a test that only names of
loop `k` pass, for the loops before the order loop. -/
theorem rows_filter (h : createProblem gg cg geoPens maxGrDist dist = some p)
    (P : RowName → Bool) (k : Nat) (hk : k ≤ 6) (hP : ∀ m, P m = true → m.tag = k) :
    ∃ ncRows, nocrossRows (openCands gg cg dist maxGrDist)
        (baseCols gg cg geoPens maxGrDist dist) cg = some ncRows ∧
      p.rows.filter (fun r => P r.name) =
        (if k = 0 then oneassRows gg cg dist maxGrDist
         else if k = 1 then uniqEdgeRows (openCands gg cg dist maxGrDist)
            (baseCols gg cg geoPens maxGrDist dist) cg
         else if k = 2 then adjsumRows (openCands gg cg dist maxGrDist)
            (baseCols gg cg geoPens maxGrDist dist) cg
         else if k = 3 then singleSinkRows (openCands gg cg dist maxGrDist)
            (baseCols gg cg geoPens maxGrDist dist) (candPairs gg cg dist maxGrDist) cg
         else if k = 4 then innerUseRows (openCands gg cg dist maxGrDist)
            (baseCols gg cg geoPens maxGrDist dist) cg
         else if k = 5 then ncRows
         else dirRows (openCands gg cg dist maxGrDist)
            (baseCols gg cg geoPens maxGrDist dist) cg).filter
          (fun r => P r.name) := by
  obtain ⟨ncRows, ordRows, vCols, angs, hnc, hord, hang, hrows, -⟩ := createProblem_some h
  refine ⟨ncRows, hnc, ?_⟩
  rw [hrows]
  simp only [List.filter_append]
  rw [filter_name_nil (l := ordRows) k hP
      (fun r hr => by rcases tag_orderRows hord hr with h | h <;> omega),
    filter_name_nil (l := angs.flatMap Prod.fst) k hP
      (fun r hr => by have := tag_angRows hang hr; omega)]
  have h0 := fun (ht : k ≠ 0) => filter_name_nil (l := oneassRows gg cg dist maxGrDist)
    k hP (fun r hr => by rw [tag_oneassRows hr]; omega)
  have h1 := fun (ht : k ≠ 1) => filter_name_nil
    (l := uniqEdgeRows (openCands gg cg dist maxGrDist)
      (baseCols gg cg geoPens maxGrDist dist) cg)
    k hP (fun r hr => by rw [tag_uniqEdgeRows hr]; omega)
  have h2 := fun (ht : k ≠ 2) => filter_name_nil
    (l := adjsumRows (openCands gg cg dist maxGrDist)
      (baseCols gg cg geoPens maxGrDist dist) cg)
    k hP (fun r hr => by rw [tag_adjsumRows hr]; omega)
  have h3 := fun (ht : k ≠ 3) => filter_name_nil
    (l := singleSinkRows (openCands gg cg dist maxGrDist)
      (baseCols gg cg geoPens maxGrDist dist) (candPairs gg cg dist maxGrDist) cg)
    k hP (fun r hr => by rw [tag_singleSinkRows hr]; omega)
  have h4 := fun (ht : k ≠ 4) => filter_name_nil
    (l := innerUseRows (openCands gg cg dist maxGrDist)
      (baseCols gg cg geoPens maxGrDist dist) cg)
    k hP (fun r hr => by rw [tag_innerUseRows hr]; omega)
  have h5 := fun (ht : k ≠ 5) => filter_name_nil (l := ncRows)
    k hP (fun r hr => by rw [tag_nocrossRows hnc hr]; omega)
  have h6 := fun (ht : k ≠ 6) => filter_name_nil
    (l := dirRows (openCands gg cg dist maxGrDist)
      (baseCols gg cg geoPens maxGrDist dist) cg)
    k hP (fun r hr => by rw [tag_dirRows hr]; omega)
  have hcases : k = 0 ∨ k = 1 ∨ k = 2 ∨ k = 3 ∨ k = 4 ∨ k = 5 ∨ k = 6 := by omega
  rcases hcases with ht | ht | ht | ht | ht | ht | ht
  · rw [h1 (by omega), h2 (by omega), h3 (by omega), h4 (by omega), h5 (by omega),
      h6 (by omega)]
    simp [ht]
  · rw [h0 (by omega), h2 (by omega), h3 (by omega), h4 (by omega), h5 (by omega),
      h6 (by omega)]
    simp [ht]
  · rw [h0 (by omega), h1 (by omega), h3 (by omega), h4 (by omega), h5 (by omega),
      h6 (by omega)]
    simp [ht]
  · rw [h0 (by omega), h1 (by omega), h2 (by omega), h4 (by omega), h5 (by omega),
      h6 (by omega)]
    simp [ht]
  · rw [h0 (by omega), h1 (by omega), h2 (by omega), h3 (by omega), h5 (by omega),
      h6 (by omega)]
    simp [ht]
  · rw [h0 (by omega), h1 (by omega), h2 (by omega), h3 (by omega), h4 (by omega),
      h6 (by omega)]
    simp [ht]
  · rw [h0 (by omega), h1 (by omega), h2 (by omega), h3 (by omega), h4 (by omega),
      h5 (by omega)]
    simp [ht]

/-- Every row of the problem with a name of a loop before the order loop is
a row of that loop. -/
theorem mem_rows_of_tag (h : createProblem gg cg geoPens maxGrDist dist = some p)
    {r : Row} (hr : r ∈ p.rows) (k : Nat) (hk : k ≤ 6) (ht : r.name.tag = k) :
    ∃ ncRows, nocrossRows (openCands gg cg dist maxGrDist)
        (baseCols gg cg geoPens maxGrDist dist) cg = some ncRows ∧
      r ∈ (if k = 0 then oneassRows gg cg dist maxGrDist
         else if k = 1 then uniqEdgeRows (openCands gg cg dist maxGrDist)
            (baseCols gg cg geoPens maxGrDist dist) cg
         else if k = 2 then adjsumRows (openCands gg cg dist maxGrDist)
            (baseCols gg cg geoPens maxGrDist dist) cg
         else if k = 3 then singleSinkRows (openCands gg cg dist maxGrDist)
            (baseCols gg cg geoPens maxGrDist dist) (candPairs gg cg dist maxGrDist) cg
         else if k = 4 then innerUseRows (openCands gg cg dist maxGrDist)
            (baseCols gg cg geoPens maxGrDist dist) cg
         else if k = 5 then ncRows
         else dirRows (openCands gg cg dist maxGrDist)
            (baseCols gg cg geoPens maxGrDist dist) cg) := by
  obtain ⟨ncRows, hnc, hf⟩ := rows_filter h (fun m => decide (m.tag = k)) k hk
    (fun m hm => by simpa using hm)
  refine ⟨ncRows, hnc, ?_⟩
  have : r ∈ p.rows.filter (fun r => (fun m : RowName => decide (m.tag = k)) r.name) := by
    rw [List.mem_filter]
    exact ⟨hr, by simpa using ht⟩
  rw [hf] at this
  exact (List.mem_filter.1 this).1

/-- Every row of one of the loops is a row of the problem. -/
theorem rows_sub (h : createProblem gg cg geoPens maxGrDist dist = some p) :
    ∃ ncRows, nocrossRows (openCands gg cg dist maxGrDist)
        (baseCols gg cg geoPens maxGrDist dist) cg = some ncRows ∧
      ∀ r, (r ∈ oneassRows gg cg dist maxGrDist ∨
        r ∈ uniqEdgeRows (openCands gg cg dist maxGrDist)
            (baseCols gg cg geoPens maxGrDist dist) cg ∨
        r ∈ adjsumRows (openCands gg cg dist maxGrDist)
            (baseCols gg cg geoPens maxGrDist dist) cg ∨
        r ∈ singleSinkRows (openCands gg cg dist maxGrDist)
            (baseCols gg cg geoPens maxGrDist dist) (candPairs gg cg dist maxGrDist) cg ∨
        r ∈ innerUseRows (openCands gg cg dist maxGrDist)
            (baseCols gg cg geoPens maxGrDist dist) cg ∨
        r ∈ ncRows ∨
        r ∈ dirRows (openCands gg cg dist maxGrDist)
            (baseCols gg cg geoPens maxGrDist dist) cg) → r ∈ p.rows := by
  obtain ⟨ncRows, ordRows, vCols, angs, hnc, hord, hang, hrows, -⟩ := createProblem_some h
  refine ⟨ncRows, hnc, ?_⟩
  intro r hr
  rw [hrows]
  simp only [List.mem_append]
  tauto

/-! ### Station positions and the assignment rows -/

theorem isCand_iff {nd : CombNode} {n : GridNode} :
    isCand gg dist maxGrDist nd n = true ↔
      n.isSink = true ∧ dist n.getId nd.id < maxGrDist * gg.getCellSize := by
  simp [isCand, mul_comm]

theorem mem_candNds {nd : CombNode} {n : GridNode} :
    n ∈ candNds gg dist maxGrDist nd ↔
      n ∈ gg.getNds ∧ n.isSink = true ∧ dist n.getId nd.id < maxGrDist * gg.getCellSize := by
  rw [candNds, List.mem_filter, isCand_iff]

theorem hasCol_statPosCols {n v : Nat} :
    hasCol (statPosCols gg cg dist maxGrDist) (.statpos n v) = true ↔
      ∃ nd ∈ cg.getNds, nd.id = v ∧ 0 < nd.getDeg ∧
        ∃ gn ∈ gg.getNds, gn.getId = n ∧ gn.isSink = true ∧
          dist n v < maxGrDist * gg.getCellSize := by
  rw [hasCol_iff]
  simp only [statPosCols, assignNds, List.mem_flatMap, List.mem_map, List.mem_filter]
  constructor
  · rintro ⟨c, ⟨nd, ⟨hnd, hdeg⟩, gn, hgn, rfl⟩, hc⟩
    simp only [statPosCol, Col.setObj, Col.setKind, Col.add, VarName.statpos.injEq] at hc
    obtain ⟨rfl, rfl⟩ := hc
    obtain ⟨h1, h2, h3⟩ := mem_candNds.1 hgn
    refine ⟨nd, hnd, rfl, ?_, gn, h1, rfl, h2, h3⟩
    have : nd.getDeg ≠ 0 := by simpa using hdeg
    omega
  · rintro ⟨nd, hnd, rfl, hdeg, gn, hgn, rfl, h2, h3⟩
    refine ⟨_, ⟨nd, ⟨hnd, ?_⟩, gn, mem_candNds.2 ⟨hgn, h2, h3⟩, rfl⟩, rfl⟩
    have : nd.getDeg ≠ 0 := by omega
    simpa using this

/-- Coefficient of a variable in a row all of whose entries have value one:
the number of entries on that variable. -/
theorem coef_map_one {α : Type} (nm : RowName) (b : Bnd) (g : α → VarName) (x : VarName) :
    ∀ l : List α, (Row.coef ⟨nm, b, l.map fun a => (g a, 1)⟩ x) =
      ((l.filter fun a => decide (g a = x)).length : Int)
  | [] => by simp [Row.coef, coefL]
  | a :: l => by
    have ih := coef_map_one nm b g x l
    simp only [Row.coef, coefL, List.map_cons, List.filter_cons] at ih ⊢
    by_cases hx : g a = x
    · simp only [hx, beq_self_eq_true, ↓reduceIte, List.map_cons, List.sum_cons,
        decide_True, List.length_cons, Nat.cast_add, Nat.cast_one]
      rw [ih]; ring
    · have hx' : (g a == x) = false := by simpa using hx
      simp only [hx', Bool.false_eq_true, ↓reduceIte, hx, decide_False]
      exact ih

theorem nodup_candNds (hgg : (gg.getNds.map GridNode.getId).Nodup) (nd : CombNode) :
    ((candNds gg dist maxGrDist nd).map GridNode.getId).Nodup :=
  hgg.sublist (List.Sublist.map _ (List.filter_sublist _))

theorem oneassRow_coef_one (hgg : (gg.getNds.map GridNode.getId).Nodup) (nd : CombNode)
    {n : GridNode} (hn : n ∈ candNds gg dist maxGrDist nd) :
    (oneassRow gg dist maxGrDist nd).coef (.statpos n.getId nd.id) = 1 := by
  rw [oneassRow, coef_map_one]
  have h1 : ((candNds gg dist maxGrDist nd).filter
      fun a => decide (VarName.statpos a.getId nd.id = VarName.statpos n.getId nd.id)) =
      (candNds gg dist maxGrDist nd).filter fun a => decide (a.getId = n.getId) := by
    congr 1
    funext a
    simp
  rw [h1, filter_eq_singleton GridNode.getId _ (nodup_candNds hgg nd) n hn]
  rfl

theorem oneassRow_coef_ne_zero (nd : CombNode) {x : VarName}
    (hx : (oneassRow gg dist maxGrDist nd).coef x ≠ 0) :
    ∃ n ∈ candNds gg dist maxGrDist nd, x = .statpos n.getId nd.id := by
  rw [oneassRow, coef_map_one] at hx
  have h1 : (List.filter (fun a => decide (VarName.statpos a.getId nd.id = x))
      (candNds gg dist maxGrDist nd)) ≠ [] := by
    intro h0
    rw [h0] at hx
    exact hx rfl
  obtain ⟨n, hn⟩ := List.exists_mem_of_ne_nil _ h1
  rw [List.mem_filter] at hn
  have h2 := hn.2
  simp only [decide_eq_true_eq] at h2
  exact ⟨n, hn.1, h2.symm⟩

/-! ### Coefficients and values of entry lists -/

@[simp] theorem coefL_nil (v : VarName) : coefL [] v = 0 := rfl

theorem coefL_cons (e : VarName × Int) (es : List (VarName × Int)) (v : VarName) :
    coefL (e :: es) v = (if e.1 = v then e.2 else 0) + coefL es v := by
  unfold coefL
  by_cases h : e.1 = v
  · simp [List.filter_cons, h]
  · have h' : (e.1 == v) = false := by simpa using h
    simp [List.filter_cons, h, h']

theorem coefL_append (l1 l2 : List (VarName × Int)) (v : VarName) :
    coefL (l1 ++ l2) v = coefL l1 v + coefL l2 v := by
  simp [coefL, List.filter_append]

theorem coefL_flatMap {α : Type} (f : α → List (VarName × Int)) (v : VarName) :
    ∀ l : List α, coefL (l.flatMap f) v = (l.map fun a => coefL (f a) v).sum
  | [] => rfl
  | a :: l => by
    rw [List.flatMap_cons, coefL_append, coefL_flatMap f v l]
    simp

theorem coefL_entryIf (cols : List Col) (w : VarName) (a : Int) (v : VarName) :
    coefL (entryIf cols w a) v = if hasCol cols w = true ∧ w = v then a else 0 := by
  unfold entryIf
  by_cases h : hasCol cols w = true
  · by_cases h2 : w = v
    · subst h2
      simp [h, coefL_cons]
    · simp [h, h2, coefL_cons]
  · simp [h]

theorem coefL_ne_zero : ∀ {es : List (VarName × Int)} {v : VarName},
    coefL es v ≠ 0 → ∃ e ∈ es, e.1 = v
  | [], v, h => by simp at h
  | e :: es, v, h => by
    rw [coefL_cons] at h
    by_cases h1 : e.1 = v
    · exact ⟨e, List.mem_cons_self _ _, h1⟩
    · simp only [h1, ↓reduceIte, zero_add] at h
      obtain ⟨e', he', h'⟩ := coefL_ne_zero h
      exact ⟨e', List.mem_cons_of_mem _ he', h'⟩

@[simp] theorem evalL_nil (σ : VarName → Int) : evalL [] σ = 0 := rfl

theorem evalL_cons (e : VarName × Int) (es : List (VarName × Int)) (σ : VarName → Int) :
    evalL (e :: es) σ = e.2 * σ e.1 + evalL es σ := by
  simp [evalL]

theorem evalL_append (l1 l2 : List (VarName × Int)) (σ : VarName → Int) :
    evalL (l1 ++ l2) σ = evalL l1 σ + evalL l2 σ := by
  simp [evalL]

theorem evalL_flatMap {α : Type} (f : α → List (VarName × Int)) (σ : VarName → Int) :
    ∀ l : List α, evalL (l.flatMap f) σ = (l.map fun a => evalL (f a) σ).sum
  | [] => rfl
  | a :: l => by
    rw [List.flatMap_cons, evalL_append, evalL_flatMap f σ l]
    simp

theorem evalL_entryIf (cols : List Col) (w : VarName) (a : Int) (σ : VarName → Int) :
    evalL (entryIf cols w a) σ = if hasCol cols w = true then a * σ w else 0 := by
  unfold entryIf
  by_cases h : hasCol cols w = true
  · simp [h, evalL_cons]
  · simp [h]

theorem mem_entryIf {cols : List Col} {w : VarName} {a : Int} {e : VarName × Int} :
    e ∈ entryIf cols w a ↔ hasCol cols w = true ∧ e = (w, a) := by
  unfold entryIf
  by_cases h : hasCol cols w = true <;> simp [h]

/-- With all terms non-negative, the value of a list of entries is at least
the contribution of any two different variables. -/
theorem evalL_two_le {σ : VarName → Int} {v1 v2 : VarName} (hne : v1 ≠ v2) :
    ∀ es : List (VarName × Int), (∀ e ∈ es, 0 ≤ e.2 ∧ 0 ≤ σ e.1) →
      coefL es v1 * σ v1 + coefL es v2 * σ v2 ≤ evalL es σ
  | [], _ => by simp
  | e :: es, h => by
    have ih := evalL_two_le hne es (fun e he => h e (List.mem_cons_of_mem _ he))
    have he := h e (List.mem_cons_self _ _)
    have hpos : 0 ≤ e.2 * σ e.1 := mul_nonneg he.1 he.2
    rw [coefL_cons, coefL_cons, evalL_cons]
    by_cases h1 : e.1 = v1
    · have h2 : e.1 ≠ v2 := fun h2 => hne (h1.symm.trans h2)
      simp only [h1, ↓reduceIte, if_neg (h1 ▸ h2), zero_add]
      rw [h1] at hpos
      linarith
    · by_cases h2 : e.1 = v2
      · have h1' : ¬ v2 = v1 := fun h' => hne h'.symm
        rw [h2] at hpos
        simp only [h2, h1', ↓reduceIte, zero_add]
        linarith
      · simp only [h1, h2, ↓reduceIte, zero_add]
        linarith

/-- With all terms non-negative, the value of a list of entries is at least
the contribution of any one variable. -/
theorem evalL_one_le {σ : VarName → Int} {v : VarName} :
    ∀ es : List (VarName × Int), (∀ e ∈ es, 0 ≤ e.2 ∧ 0 ≤ σ e.1) →
      coefL es v * σ v ≤ evalL es σ
  | [], _ => by simp
  | e :: es, h => by
    have ih := evalL_one_le (v := v) es (fun e he => h e (List.mem_cons_of_mem _ he))
    have he := h e (List.mem_cons_self _ _)
    have hpos : 0 ≤ e.2 * σ e.1 := mul_nonneg he.1 he.2
    rw [coefL_cons, evalL_cons]
    by_cases h1 : e.1 = v
    · simp only [h1, ↓reduceIte]
      rw [h1] at hpos
      linarith
    · simp only [h1, ↓reduceIte, zero_add]
      linarith

/-- Sum of a family that is zero except at the one element with a given key. -/
theorem sum_map_single {α β : Type} [DecidableEq β] (f : α → β) (g : α → Int) :
    ∀ (l : List α), (l.map f).Nodup → ∀ a ∈ l, (∀ b ∈ l, f b ≠ f a → g b = 0) →
      (l.map g).sum = g a
  | [], _, a, ha, _ => by simp at ha
  | b :: l, hnd, a, ha, hz => by
    rw [List.map_cons, List.nodup_cons] at hnd
    rw [List.map_cons, List.sum_cons]
    have hrest : ∀ c ∈ l, f c ≠ f b → g c = 0 → True := fun _ _ _ _ => trivial
    rcases List.mem_cons.1 ha with rfl | ha'
    · have : (l.map g).sum = 0 := by
        apply List.sum_eq_zero
        intro x hx
        obtain ⟨c, hc, rfl⟩ := List.mem_map.1 hx
        exact hz c (List.mem_cons_of_mem _ hc)
          (fun hcb => hnd.1 (hcb ▸ List.mem_map_of_mem f hc))
      rw [this, add_zero]
    · have hb : g b = 0 :=
        hz b (List.mem_cons_self _ _) (fun hba => hnd.1 (hba ▸ List.mem_map_of_mem f ha'))
      rw [hb, zero_add]
      exact sum_map_single f g l hnd.2 a ha'
        (fun c hc hne => hz c (List.mem_cons_of_mem _ hc) hne)

/-! ### Binary columns -/

theorem bnd_statPosCols {c : Col} (hc : c ∈ statPosCols gg cg dist maxGrDist) :
    c.bnd = ⟨.DB, 0, 1⟩ := by
  simp only [statPosCols, List.mem_flatMap, List.mem_map] at hc
  obtain ⟨nd, -, n, -, rfl⟩ := hc
  rfl

theorem bnd_edgeUseCols {g : GridGraph} {cands : List (Nat × Nat)} {c : Col}
    (hc : c ∈ edgeUseCols g cg cands geoPens) : c.bnd = ⟨.DB, 0, 1⟩ := by
  simp only [edgeUseCols, List.mem_flatMap, List.mem_filterMap] at hc
  obtain ⟨edg, -, n, -, e, -, he⟩ := hc
  obtain ⟨q, -, -, -, rfl⟩ := edgeUseCol?_some he
  rfl

theorem baseCols_sub (h : createProblem gg cg geoPens maxGrDist dist = some p) {c : Col}
    (hc : c ∈ baseCols gg cg geoPens maxGrDist dist) : c ∈ p.cols := by
  obtain ⟨ncRows, ordRows, vCols, angs, -, -, -, -, hcols⟩ := createProblem_some h
  rw [hcols]
  simp only [List.mem_append]
  tauto

/-- In a feasible assignment every station-position and edge-use variable
that exists is 0 or 1. -/
theorem feasible_binary (h : createProblem gg cg geoPens maxGrDist dist = some p)
    {σ : VarName → Int} (hσ : Feasible p σ) {v : VarName}
    (hv : hasCol (baseCols gg cg geoPens maxGrDist dist) v = true) :
    0 ≤ σ v ∧ σ v ≤ 1 := by
  obtain ⟨c, hc, rfl⟩ := hasCol_iff.1 hv
  have hb : c.bnd = ⟨.DB, 0, 1⟩ := by
    rcases List.mem_append.1 hc with hc | hc
    · exact bnd_statPosCols hc
    · exact bnd_edgeUseCols hc
  have := hσ.2 c (baseCols_sub h hc)
  rw [hb] at this
  exact this

/-! ### Opening the candidates only touches sink edges -/

theorem foldl_setCost_getNds (f : Nat → Nat × Nat) (c : Option ℚ) :
    ∀ (l : List Nat) (g : GridGraph),
      (l.foldl (fun g p => g.setCost (f p).1 (f p).2 c) g).getNds = g.getNds
  | [], _ => rfl
  | a :: l, g => by
    rw [List.foldl_cons, foldl_setCost_getNds f c l]
    rfl

theorem foldl_setCost_cost (f : Nat → Nat × Nat) (c : Option ℚ) (a b : Nat) :
    ∀ (l : List Nat) (g : GridGraph), (∀ p ∈ l, ¬ (a = (f p).1 ∧ b = (f p).2)) →
      (l.foldl (fun g p => g.setCost (f p).1 (f p).2 c) g).cost a b = g.cost a b
  | [], _, _ => rfl
  | x :: l, g, h => by
    rw [List.foldl_cons, foldl_setCost_cost f c a b l _
      (fun p hp => h p (List.mem_cons_of_mem _ hp))]
    simp only [GridGraph.setCost]
    rw [if_neg (h x (List.mem_cons_self _ _))]

theorem openNode_getNds (g : GridGraph) (n : GridNode) (c : ℚ) :
    (openNodeSinkTo (openNodeSinkFr g n c) n c).getNds = g.getNds := by
  unfold openNodeSinkTo openNodeSinkFr
  rw [foldl_setCost_getNds (fun p => (n.getPort p, n.getId)),
    foldl_setCost_getNds (fun p => (n.getId, n.getPort p))]

theorem openNode_cost (g : GridGraph) (n : GridNode) (c : ℚ) (a b : Nat)
    (ha : a ≠ n.getId) (hb : b ≠ n.getId) :
    (openNodeSinkTo (openNodeSinkFr g n c) n c).cost a b = g.cost a b := by
  unfold openNodeSinkTo openNodeSinkFr
  rw [foldl_setCost_cost (fun p => (n.getPort p, n.getId)) _ a b _ _
      (fun p _ hp => hb hp.2),
    foldl_setCost_cost (fun p => (n.getId, n.getPort p)) _ a b _ _
      (fun p _ hp => ha hp.1)]

theorem foldl_open_getNds : ∀ (l : List GridNode) (g : GridGraph),
    (l.foldl (fun g n => openNodeSinkTo (openNodeSinkFr g n 0) n 0) g).getNds = g.getNds
  | [], _ => rfl
  | n :: l, g => by
    rw [List.foldl_cons, foldl_open_getNds l, openNode_getNds]

theorem foldl_open_cost (a b : Nat) : ∀ (l : List GridNode) (g : GridGraph),
    (∀ n ∈ l, a ≠ n.getId ∧ b ≠ n.getId) →
    (l.foldl (fun g n => openNodeSinkTo (openNodeSinkFr g n 0) n 0) g).cost a b = g.cost a b
  | [], _, _ => rfl
  | n :: l, g, h => by
    rw [List.foldl_cons, foldl_open_cost a b l _ (fun m hm => h m (List.mem_cons_of_mem _ hm)),
      openNode_cost _ _ _ _ _ (h n (List.mem_cons_self _ _)).1 (h n (List.mem_cons_self _ _)).2]

@[simp] theorem openCands_getNds :
    (openCands gg cg dist maxGrDist).getNds = gg.getNds := by
  unfold openCands
  exact foldl_open_getNds _ _

/-- The cost of an edge that does not touch a sink is not changed by opening
the candidates. -/
theorem openCands_cost {a b : Nat}
    (h : ∀ n ∈ gg.getNds, n.isSink = true → a ≠ n.getId ∧ b ≠ n.getId) :
    (openCands gg cg dist maxGrDist).cost a b = gg.cost a b := by
  unfold openCands
  apply foldl_open_cost
  intro n hn
  obtain ⟨nd, -, hn⟩ := List.mem_flatMap.1 hn
  obtain ⟨h1, h2, -⟩ := mem_candNds.1 hn
  exact h n h1 h2

@[simp] theorem allAdj_openCands :
    allAdj (openCands gg cg dist maxGrDist) = allAdj gg := by
  simp [allAdj]

@[simp] theorem sinks_openCands :
    sinks (openCands gg cg dist maxGrDist) = sinks gg := by
  simp [sinks]

/-! ### Edge-use columns -/

theorem hasCol_edgeUseCols {g : GridGraph} {cands : List (Nat × Nat)} {a b c : Nat} :
    hasCol (edgeUseCols g cg cands geoPens) (.edg a b c) = true ↔
      ∃ edg ∈ combEdges cg, edg.id = c ∧ ∃ n ∈ g.getNds, ∃ e ∈ n.getAdjList,
        e.getFrom = n.getId ∧ e.getFrom = a ∧ e.getTo = b ∧ g.cost a b ≠ none ∧
        (e.fromIsSink = true → (edg.getFrom, a) ∈ cands) ∧
        (e.toIsSink = true → (edg.getTo, b) ∈ cands) := by
  rw [hasCol_iff]
  simp only [edgeUseCols, List.mem_flatMap, List.mem_filterMap, List.mem_filter]
  constructor
  · rintro ⟨col, ⟨edg, hedg, n, hn, e, ⟨he, hfr⟩, hcol⟩, hname⟩
    obtain ⟨q, hq, h1, h2, rfl⟩ := edgeUseCol?_some hcol
    simp only [Col.setObj, Col.setKind, Col.add, VarName.edg.injEq] at hname
    obtain ⟨rfl, rfl, rfl⟩ := hname
    exact ⟨edg, hedg, rfl, n, hn, e, he, by simpa using hfr, rfl, rfl, by simp [hq], h1, h2⟩
  · rintro ⟨edg, hedg, rfl, n, hn, e, he, hfr, rfl, rfl, hcost, h1, h2⟩
    obtain ⟨q, hq⟩ := Option.ne_none_iff_exists'.1 hcost
    refine ⟨((Col.add (.edg e.getFrom e.getTo edg.id)).setKind .BV).setObj
      (edgeObj geoPens edg e q), ⟨edg, hedg, n, hn, e, ⟨he, by simpa using hfr⟩, ?_⟩, rfl⟩
    unfold edgeUseCol?
    rw [hq]
    simp only
    by_cases hs1 : e.fromIsSink = true
    · have h1' := h1 hs1
      by_cases hs2 : e.toIsSink = true
      · have h2' := h2 hs2
        simp [hs1, hs2, h1', h2']
      · simp [hs1, hs2, h1']
    · by_cases hs2 : e.toIsSink = true
      · have h2' := h2 hs2
        simp [hs1, hs2, h2']
      · simp [hs1, hs2]

/-! ### Edge uniqueness rows -/

/-- The rows of the loop named after an edge or its reverse: none when the
edge was handled before, else the row of the first primary edge of the list
with these end points. -/
theorem uniqEdgeLoop_filter {g : GridGraph} {cols : List Col} (a b : Nat) :
    ∀ (es : List GridEdge) (proced : List (Nat × Nat)),
      (∀ x y, (x, y) ∈ proced → (y, x) ∈ proced) →
      (uniqEdgeLoop g cols cg proced es).filter
          (fun r => decide (r.name = .uniqedge a b ∨ r.name = .uniqedge b a)) =
        if (a, b) ∈ proced then []
        else
          match es.find? (fun e => !e.isSecondary &&
              (decide (e.getFrom = a ∧ e.getTo = b) || decide (e.getFrom = b ∧ e.getTo = a))) with
          | some e => [uniqEdgeRow g cols cg e]
          | none => []
  | [], proced, _ => by simp [uniqEdgeLoop]
  | e :: es, proced, hsw => by
    unfold uniqEdgeLoop
    by_cases hsec : e.isSecondary = true
    · rw [if_pos hsec, uniqEdgeLoop_filter a b es proced hsw, List.find?_cons]
      simp [hsec]
    · rw [if_neg hsec]
      have hsec' : e.isSecondary = false := by simpa using hsec
      by_cases hpro : (e.getFrom, e.getTo) ∈ proced
      · have hc : proced.contains (e.getFrom, e.getTo) = true := by simpa using hpro
        rw [if_pos hc, uniqEdgeLoop_filter a b es proced hsw, List.find?_cons]
        by_cases hab : (a, b) ∈ proced
        · simp [hab]
        · have h1 : ¬ (e.getFrom = a ∧ e.getTo = b) := by
            rintro ⟨rfl, rfl⟩; exact hab hpro
          have h2 : ¬ (e.getFrom = b ∧ e.getTo = a) := by
            rintro ⟨rfl, rfl⟩; exact hab (hsw _ _ hpro)
          simp [hab, h1, h2]
      · have hc : ¬ proced.contains (e.getFrom, e.getTo) = true := by simpa using hpro
        rw [if_neg hc, List.filter_cons]
        have hsw' : ∀ x y, (x, y) ∈ (e.getTo, e.getFrom) :: (e.getFrom, e.getTo) :: proced →
            (y, x) ∈ (e.getTo, e.getFrom) :: (e.getFrom, e.getTo) :: proced := by
          intro x y hxy
          simp only [List.mem_cons, Prod.mk.injEq] at hxy ⊢
          rcases hxy with ⟨rfl, rfl⟩ | ⟨rfl, rfl⟩ | hxy
          · simp
          · simp
          · exact Or.inr (Or.inr (hsw _ _ hxy))
        rw [uniqEdgeLoop_filter a b es _ hsw', List.find?_cons]
        by_cases h1 : e.getFrom = a ∧ e.getTo = b
        · obtain ⟨rfl, rfl⟩ := h1
          simp [uniqEdgeRow, hsec', hpro]
        · by_cases h2 : e.getFrom = b ∧ e.getTo = a
          · obtain ⟨rfl, rfl⟩ := h2
            have hab : ¬ (e.getTo, e.getFrom) ∈ proced := fun hh => hpro (hsw _ _ hh)
            simp [uniqEdgeRow, hsec', hab]
          · have h1' : ¬ (a = e.getFrom ∧ b = e.getTo) := fun hh => h1 ⟨hh.1.symm, hh.2.symm⟩
            have h2' : ¬ (a = e.getTo ∧ b = e.getFrom) := fun hh => h2 ⟨hh.2.symm, hh.1.symm⟩
            simp [uniqEdgeRow, hsec', h1, h2, h1', h2']

/-- Coefficient of an edge-use variable of the edge itself in its row. -/
theorem uniqEdgeRow_coef_fwd {g : GridGraph} {cols : List Col} {e : GridEdge}
    (hce : ((combEdges cg).map CombEdge.id).Nodup) (hne : e.getFrom ≠ e.getTo)
    {c : CombEdge} (hc : c ∈ combEdges cg) (hcost : g.cost e.getFrom e.getTo ≠ none)
    (hcol : hasCol cols (.edg e.getFrom e.getTo c.id) = true) :
    (uniqEdgeRow g cols cg e).coef (.edg e.getFrom e.getTo c.id) = 1 := by
  simp only [Row.coef, uniqEdgeRow]
  rw [coefL_flatMap, sum_map_single CombEdge.id _ _ hce c hc]
  · simp [uniqEntries, hcost, coefL_append, coefL_entryIf, hcol, hne, hne.symm]
  · intro c' _ hne'
    simp [uniqEntries, hcost, coefL_append, coefL_entryIf, hne', hne, hne.symm]

/-- Coefficient of an edge-use variable of the reverse edge in the row. -/
theorem uniqEdgeRow_coef_bwd {g : GridGraph} {cols : List Col} {e : GridEdge}
    (hce : ((combEdges cg).map CombEdge.id).Nodup) (hne : e.getFrom ≠ e.getTo)
    {c : CombEdge} (hc : c ∈ combEdges cg) (hcost : g.cost e.getFrom e.getTo ≠ none)
    (hcol : hasCol cols (.edg e.getTo e.getFrom c.id) = true) :
    (uniqEdgeRow g cols cg e).coef (.edg e.getTo e.getFrom c.id) = 1 := by
  simp only [Row.coef, uniqEdgeRow]
  rw [coefL_flatMap, sum_map_single CombEdge.id _ _ hce c hc]
  · simp [uniqEntries, hcost, coefL_append, coefL_entryIf, hcol, hne, hne.symm]
  · intro c' _ hne'
    simp [uniqEntries, hcost, coefL_append, coefL_entryIf, hne', hne, hne.symm]

/-- Every entry of a uniqueness row is an existing edge-use variable of the
edge or of its reverse, with value one. -/
theorem mem_uniqEdgeRow_entries {g : GridGraph} {cols : List Col} {e : GridEdge}
    {x : VarName × Int} (hx : x ∈ (uniqEdgeRow g cols cg e).entries) :
    hasCol cols x.1 = true ∧ x.2 = 1 ∧
      ∃ c, x.1 = .edg e.getFrom e.getTo c ∨ x.1 = .edg e.getTo e.getFrom c := by
  simp only [uniqEdgeRow, List.mem_flatMap, uniqEntries] at hx
  obtain ⟨c, -, hx⟩ := hx
  split at hx
  · simp at hx
  · rcases List.mem_append.1 hx with hx | hx
    · obtain ⟨h1, rfl⟩ := mem_entryIf.1 hx
      exact ⟨h1, rfl, c.id, Or.inl rfl⟩
    · obtain ⟨h1, rfl⟩ := mem_entryIf.1 hx
      exact ⟨h1, rfl, c.id, Or.inr rfl⟩

/-! ### Rows indexed by two loops -/

/-- Among the rows made by an outer and an inner loop over distinct keys,
the test that singles out one pair of keys leaves exactly that row. -/
theorem filter_flatMap_map {α β γ κ1 κ2 : Type} [DecidableEq κ1] [DecidableEq κ2]
    (F : α → β → γ) (P : γ → Bool) (k1 : α → κ1) (k2 : β → κ2) (l2 : α → List β)
    (a : α) (b : β) (hb : b ∈ l2 a) (hn2 : ((l2 a).map k2).Nodup) :
    ∀ (l1 : List α), a ∈ l1 → (l1.map k1).Nodup →
      (∀ a' ∈ l1, ∀ b' ∈ l2 a', (P (F a' b') = true ↔ k1 a' = k1 a ∧ k2 b' = k2 b)) →
      (l1.flatMap fun a' => (l2 a').map (F a')).filter P = [F a b]
  | [], ha, _, _ => by simp at ha
  | x :: l1, ha, hn1, hP => by
    rw [List.map_cons, List.nodup_cons] at hn1
    rw [List.flatMap_cons, List.filter_append]
    have hnil : ∀ (l : List α), (∀ y ∈ l, y ∈ x :: l1) → (∀ y ∈ l, k1 y ≠ k1 a) →
        (l.flatMap fun a' => (l2 a').map (F a')).filter P = [] := by
      intro l hsub hl
      rw [List.filter_eq_nil_iff]
      intro r hr hPr
      obtain ⟨y, hy, hr⟩ := List.mem_flatMap.1 hr
      obtain ⟨z, hz, rfl⟩ := List.mem_map.1 hr
      exact hl y hy ((hP y (hsub y hy) z hz).1 hPr).1
    rcases List.mem_cons.1 ha with rfl | ha'
    · rw [hnil l1 (fun y hy => List.mem_cons_of_mem _ hy)
        (fun y hy hya => hn1.1 (hya ▸ List.mem_map_of_mem k1 hy)), List.append_nil,
        List.filter_map]
      have hfun : (l2 a).filter (P ∘ F a) = (l2 a).filter (fun z => decide (k2 z = k2 b)) := by
        apply List.filter_congr
        intro z hz
        have := hP a (List.mem_cons_self _ _) z hz
        simp only [Function.comp]
        by_cases hk : k2 z = k2 b
        · simp [hk, this.2 ⟨rfl, hk⟩]
        · have : ¬ P (F a z) = true := fun hh => hk (this.1 hh).2
          simp [hk, this]
      rw [hfun, filter_eq_singleton k2 _ hn2 b hb]
      rfl
    · have hx : k1 x ≠ k1 a := fun hxa => hn1.1 (hxa ▸ List.mem_map_of_mem k1 ha')
      have h0 : ((l2 x).map (F x)).filter P = [] := by
        have := hnil [x] (by simp) (by simpa using hx)
        simpa using this
      rw [h0, List.nil_append]
      exact filter_flatMap_map F P k1 k2 l2 a b hb hn2 l1 ha' hn1.2
        (fun a' ha'' b' hb' => hP a' (List.mem_cons_of_mem _ ha'') b' hb')

/-- Coefficient in a run of conditional entries over a list with distinct
keys: the value, at the variable of a listed element whose column exists. -/
theorem coefL_flatMap_entryIf_single {α κ : Type} [DecidableEq κ] (cols : List Col)
    (key : α → κ) (g : α → VarName) (a : Int) (l : List α) (hn : (l.map key).Nodup)
    (x : α) (hx : x ∈ l) (hg : ∀ y ∈ l, g y = g x → key y = key x)
    (hcol : hasCol cols (g x) = true) :
    coefL (l.flatMap fun y => entryIf cols (g y) a) (g x) = a := by
  rw [coefL_flatMap, sum_map_single key _ l hn x hx]
  · rw [coefL_entryIf]; simp [hcol]
  · intro y hy hne
    rw [coefL_entryIf]
    have : g y ≠ g x := fun hh => hne (hg y hy hh)
    simp [this]

/-- Coefficient in a run of conditional entries, at a variable none of them
is on. -/
theorem coefL_flatMap_entryIf_zero {α : Type} (cols : List Col) (g : α → VarName)
    (a : α → Int) (l : List α) (v : VarName) (h : ∀ y ∈ l, g y ≠ v) :
    coefL (l.flatMap fun y => entryIf cols (g y) (a y)) v = 0 := by
  rw [coefL_flatMap]
  apply List.sum_eq_zero
  intro z hz
  obtain ⟨y, hy, rfl⟩ := List.mem_map.1 hz
  rw [coefL_entryIf]
  simp [h y hy]

/-! ### Flow rows -/

theorem adjsumRow_entries (cols : List Col) (n : GridNode) (c : CombEdge) :
    (adjsumRow cols n c).entries =
      (if n.isSink then
        entryIf cols (.statpos n.getId c.getFrom) (-2) ++
        entryIf cols (.statpos n.getId c.getTo) 1
       else []) ++
      n.getAdjListIn.flatMap (fun e => entryIf cols (.edg e.getFrom e.getTo c.id) (-1)) ++
      n.getAdjListOut.flatMap (fun e => entryIf cols (.edg e.getFrom e.getTo c.id)
        ((fun _ => if n.isSink then 2 else 1) e)) := rfl

theorem adjsumRow_coef_in {cols : List Col} {n : GridNode} {c : CombEdge}
    (hin : (n.getAdjListIn.map fun e => (e.getFrom, e.getTo)).Nodup)
    (hout : ∀ e ∈ n.getAdjListOut, e.getFrom = n.getId ∧ e.getTo ≠ n.getId)
    {e : GridEdge} (he : e ∈ n.getAdjListIn) (hen : e.getTo = n.getId ∧ e.getFrom ≠ n.getId)
    (hcol : hasCol cols (.edg e.getFrom e.getTo c.id) = true) :
    (adjsumRow cols n c).coef (.edg e.getFrom e.getTo c.id) = -1 := by
  rw [Row.coef, adjsumRow_entries, coefL_append, coefL_append,
    coefL_flatMap_entryIf_single cols (fun e : GridEdge => (e.getFrom, e.getTo))
      (fun e => VarName.edg e.getFrom e.getTo c.id) (-1) _ hin e he
      (fun y _ hy => by
        simp only [VarName.edg.injEq] at hy
        simp [hy.1, hy.2.1]) hcol,
    coefL_flatMap_entryIf_zero cols (fun e : GridEdge => VarName.edg e.getFrom e.getTo c.id)
      (fun _ => if n.isSink then 2 else 1) _ _
      (fun y hy hh => by
        simp only [VarName.edg.injEq] at hh
        exact hen.2 (hh.1 ▸ (hout y hy).1))]
  split <;> simp [coefL_append, coefL_entryIf]

theorem adjsumRow_coef_out {cols : List Col} {n : GridNode} {c : CombEdge}
    (hout : (n.getAdjListOut.map fun e => (e.getFrom, e.getTo)).Nodup)
    (hin : ∀ e ∈ n.getAdjListIn, e.getTo = n.getId ∧ e.getFrom ≠ n.getId)
    {e : GridEdge} (he : e ∈ n.getAdjListOut) (hen : e.getFrom = n.getId ∧ e.getTo ≠ n.getId)
    (hcol : hasCol cols (.edg e.getFrom e.getTo c.id) = true) :
    (adjsumRow cols n c).coef (.edg e.getFrom e.getTo c.id) = if n.isSink then 2 else 1 := by
  rw [Row.coef, adjsumRow_entries, coefL_append, coefL_append,
    coefL_flatMap_entryIf_zero cols (fun e : GridEdge => VarName.edg e.getFrom e.getTo c.id)
      (fun _ => -1) _ _
      (fun y hy hh => by
        simp only [VarName.edg.injEq] at hh
        exact hen.2 (hh.2.1 ▸ (hin y hy).1))]
  have h3 := coefL_flatMap_entryIf_single cols (fun e : GridEdge => (e.getFrom, e.getTo))
      (fun e => VarName.edg e.getFrom e.getTo c.id) (if n.isSink then 2 else 1) _ hout e he
      (fun y _ hy => by
        simp only [VarName.edg.injEq] at hy
        simp [hy.1, hy.2.1]) hcol
  simp only at h3 ⊢
  rw [h3]
  split <;> simp [coefL_append, coefL_entryIf]

theorem adjsumRow_coef_statpos {cols : List Col} {n : GridNode} {c : CombEdge} (m v : Nat) :
    (adjsumRow cols n c).coef (.statpos m v) =
      if n.isSink then
        (if hasCol cols (.statpos n.getId c.getFrom) = true ∧ n.getId = m ∧ c.getFrom = v
          then -2 else 0) +
        (if hasCol cols (.statpos n.getId c.getTo) = true ∧ n.getId = m ∧ c.getTo = v
          then 1 else 0)
      else 0 := by
  rw [Row.coef, adjsumRow_entries, coefL_append, coefL_append,
    coefL_flatMap_entryIf_zero cols (fun e : GridEdge => VarName.edg e.getFrom e.getTo c.id)
      (fun _ => -1) _ _ (fun y _ hh => by simp at hh),
    coefL_flatMap_entryIf_zero cols (fun e : GridEdge => VarName.edg e.getFrom e.getTo c.id)
      (fun _ => if n.isSink then 2 else 1) _ _ (fun y _ hh => by simp at hh)]
  split <;> simp [coefL_append, coefL_entryIf]

theorem mem_adjsumRow_entries {cols : List Col} {n : GridNode} {c : CombEdge}
    {x : VarName × Int} (hx : x ∈ (adjsumRow cols n c).entries) :
    hasCol cols x.1 = true ∧
      ((n.isSink = true ∧ (x.1 = .statpos n.getId c.getFrom ∨ x.1 = .statpos n.getId c.getTo)) ∨
       ∃ e, (e ∈ n.getAdjListIn ∨ e ∈ n.getAdjListOut) ∧
         x.1 = .edg e.getFrom e.getTo c.id) := by
  rw [adjsumRow_entries] at hx
  simp only [List.mem_append, List.mem_flatMap] at hx
  rcases hx with (hx | ⟨e, he, hx⟩) | ⟨e, he, hx⟩
  · split at hx
    · rename_i hs
      rcases List.mem_append.1 hx with hx | hx
      · obtain ⟨h1, rfl⟩ := mem_entryIf.1 hx
        exact ⟨h1, Or.inl ⟨hs, Or.inl rfl⟩⟩
      · obtain ⟨h1, rfl⟩ := mem_entryIf.1 hx
        exact ⟨h1, Or.inl ⟨hs, Or.inr rfl⟩⟩
    · simp at hx
  · obtain ⟨h1, rfl⟩ := mem_entryIf.1 hx
    exact ⟨h1, Or.inr ⟨e, Or.inl he, rfl⟩⟩
  · obtain ⟨h1, rfl⟩ := mem_entryIf.1 hx
    exact ⟨h1, Or.inr ⟨e, Or.inr he, rfl⟩⟩

theorem mem_adjsumRows {g : GridGraph} {cols : List Col} {r : Row} :
    r ∈ adjsumRows g cols cg ↔
      ∃ n ∈ g.getNds, nonInfDeg g n ≠ 0 ∧ ∃ c ∈ combEdges cg, r = adjsumRow cols n c := by
  simp only [adjsumRows, List.mem_flatMap, List.mem_map, List.mem_filter]
  constructor
  · rintro ⟨n, ⟨hn, hdeg⟩, c, hc, rfl⟩
    exact ⟨n, hn, by simpa using hdeg, c, hc, rfl⟩
  · rintro ⟨n, hn, hdeg, c, hc, rfl⟩
    exact ⟨n, ⟨hn, by simpa using hdeg⟩, c, hc, rfl⟩

/-! ### Inner-use rows -/

theorem coefL_eq_zero {es : List (VarName × Int)} {v : VarName}
    (h : ∀ e ∈ es, e.1 ≠ v) : coefL es v = 0 := by
  by_contra hne
  obtain ⟨e, he, hev⟩ := coefL_ne_zero hne
  exact h e he hev

theorem mem_innerUseRow_entries {cols : List Col} {n : GridNode} {x : VarName × Int}
    (hx : x ∈ (innerUseRow cols cg n).entries) :
    hasCol cols x.1 = true ∧ x.2 = 1 ∧
      ((∃ nd ∈ cg.getNds, x.1 = .statpos n.getId nd.id) ∨
       ∃ pf pt, pf < 8 ∧ pt < 8 ∧ n.getPort pf ≠ n.getPort pt ∧
         ∃ c ∈ combEdges cg, x.1 = .edg (n.getPort pf) (n.getPort pt) c.id) := by
  simp only [innerUseRow, List.mem_append, List.mem_flatMap, List.mem_range] at hx
  rcases hx with ⟨nd, hnd, hx⟩ | ⟨pf, hpf, pt, hpt, hx⟩
  · obtain ⟨h1, rfl⟩ := mem_entryIf.1 hx
    exact ⟨h1, rfl, Or.inl ⟨nd, hnd, rfl⟩⟩
  · split at hx
    · simp at hx
    · rename_i hne
      obtain ⟨c, hc, hx⟩ := List.mem_flatMap.1 hx
      obtain ⟨h1, rfl⟩ := mem_entryIf.1 hx
      exact ⟨h1, rfl, Or.inr ⟨pf, pt, hpf, hpt, hne, c, hc, rfl⟩⟩

theorem innerUseRow_coef_stat {cols : List Col} {n : GridNode}
    (hcg : (cg.getNds.map CombNode.id).Nodup) {nd : CombNode} (hnd : nd ∈ cg.getNds)
    (hcol : hasCol cols (.statpos n.getId nd.id) = true) :
    (innerUseRow cols cg n).coef (.statpos n.getId nd.id) = 1 := by
  simp only [Row.coef, innerUseRow]
  rw [coefL_append,
    coefL_flatMap_entryIf_single cols CombNode.id (fun nd => VarName.statpos n.getId nd.id)
      1 _ hcg nd hnd (fun y _ hy => by simpa using hy) hcol,
    coefL_eq_zero]
  · rfl
  · intro e he
    simp only [List.mem_flatMap] at he
    obtain ⟨pf, -, pt, -, he⟩ := he
    split at he
    · simp at he
    · obtain ⟨c, -, he⟩ := List.mem_flatMap.1 he
      obtain ⟨-, rfl⟩ := mem_entryIf.1 he
      simp

theorem innerUseRow_coef_bend {cols : List Col} {n : GridNode}
    (hce : ((combEdges cg).map CombEdge.id).Nodup)
    (hport : ∀ a b, a < 8 → b < 8 → n.getPort a = n.getPort b → a = b)
    {pf pt : Nat} (hpf : pf < 8) (hpt : pt < 8) (hne : pf ≠ pt)
    {c : CombEdge} (hc : c ∈ combEdges cg)
    (hcol : hasCol cols (.edg (n.getPort pf) (n.getPort pt) c.id) = true) :
    (innerUseRow cols cg n).coef (.edg (n.getPort pf) (n.getPort pt) c.id) = 1 := by
  simp only [Row.coef, innerUseRow]
  rw [coefL_append, coefL_eq_zero, zero_add, coefL_flatMap,
    sum_map_single id _ _ (by simpa using List.nodup_range 8) pf (List.mem_range.2 hpf),
    coefL_flatMap,
    sum_map_single id _ _ (by simpa using List.nodup_range 8) pt (List.mem_range.2 hpt),
    if_neg (fun hh => hne (hport pf pt hpf hpt hh)),
    coefL_flatMap_entryIf_single cols CombEdge.id
      (fun c : CombEdge => VarName.edg (n.getPort pf) (n.getPort pt) c.id) 1 _ hce c hc
      (fun y _ hy => by simpa using hy) hcol]
  · intro b hb hbne
    rw [coefL_eq_zero]
    intro e he
    split at he
    · simp at he
    · obtain ⟨c', -, he⟩ := List.mem_flatMap.1 he
      obtain ⟨-, rfl⟩ := mem_entryIf.1 he
      simp only [ne_eq, VarName.edg.injEq, true_and, not_and]
      intro h2
      exact absurd (hport b pt (List.mem_range.1 hb) hpt h2) hbne
  · intro b hb hbne
    rw [coefL_eq_zero]
    intro e he
    obtain ⟨pt', -, he⟩ := List.mem_flatMap.1 he
    split at he
    · simp at he
    · obtain ⟨c', -, he⟩ := List.mem_flatMap.1 he
      obtain ⟨-, rfl⟩ := mem_entryIf.1 he
      simp only [ne_eq, VarName.edg.injEq, not_and]
      intro h2
      exact absurd (hport b pf (List.mem_range.1 hb) hpf h2) hbne
  · intro e he
    obtain ⟨nd, -, he⟩ := List.mem_flatMap.1 he
    obtain ⟨-, rfl⟩ := mem_entryIf.1 he
    simp

theorem isBendVar_iff {n : GridNode} {v : VarName} :
    isBendVar n v = true ↔
      ∃ pf pt c, pf < 8 ∧ pt < 8 ∧ n.getPort pf ≠ n.getPort pt ∧
        v = .edg (n.getPort pf) (n.getPort pt) c := by
  cases v with
  | edg a b c =>
    simp only [isBendVar, Bool.and_eq_true, List.contains_eq_any_beq, List.any_eq_true,
      List.mem_map, List.mem_range, beq_iff_eq, bne_iff_ne, ne_eq, VarName.edg.injEq]
    constructor
    · rintro ⟨⟨⟨_, ⟨pf, hpf, rfl⟩, rfl⟩, ⟨_, ⟨pt, hpt, rfl⟩, rfl⟩⟩, hne⟩
      exact ⟨pf, pt, c, hpf, hpt, hne, rfl, rfl, rfl⟩
    · rintro ⟨pf, pt, c', hpf, hpt, hne, rfl, rfl, rfl⟩
      exact ⟨⟨⟨_, ⟨pf, hpf, rfl⟩, rfl⟩, ⟨_, ⟨pt, hpt, rfl⟩, rfl⟩⟩, hne⟩
  | _ => simp [isBendVar]

theorem isStatVar_iff {n : GridNode} {v : VarName} :
    isStatVar n v = true ↔ ∃ w, v = .statpos n.getId w := by
  cases v <;> simp [isStatVar]

/-! ### Single-sink rows -/

theorem mem_candPairs {v n : Nat} :
    (v, n) ∈ candPairs gg cg dist maxGrDist ↔
      hasCol (statPosCols gg cg dist maxGrDist) (.statpos n v) = true := by
  rw [hasCol_iff]
  simp only [candPairs, statPosCols, List.mem_flatMap, List.mem_map, Prod.mk.injEq]
  constructor
  · rintro ⟨nd, hnd, gn, hgn, rfl, rfl⟩
    exact ⟨_, ⟨nd, hnd, gn, hgn, rfl⟩, rfl⟩
  · rintro ⟨c, ⟨nd, hnd, gn, hgn, rfl⟩, hc⟩
    simp only [statPosCol, Col.setObj, Col.setKind, Col.add, VarName.statpos.injEq] at hc
    exact ⟨nd, hnd, gn, hgn, hc.2, hc.1⟩

/-- The station part of a single-sink row: the entries for the target and
the source comb node, each present exactly when its variable exists. -/
theorem singleSinkRow_entries (n : GridNode) (c : CombEdge) :
    (singleSinkRow (baseCols gg cg geoPens maxGrDist dist)
        (candPairs gg cg dist maxGrDist) n c).entries =
      (entryIf (baseCols gg cg geoPens maxGrDist dist) (.statpos n.getId c.getTo) (-1) ++
        entryIf (baseCols gg cg geoPens maxGrDist dist) (.statpos n.getId c.getFrom) (-1)) ++
      (List.range 8).flatMap fun p =>
        entryIf (baseCols gg cg geoPens maxGrDist dist) (.edg (n.getPort p) n.getId c.id) 1 ++
        entryIf (baseCols gg cg geoPens maxGrDist dist) (.edg n.getId (n.getPort p) c.id) 1 := by
  unfold singleSinkRow
  simp only
  congr 1
  have h1 : (candPairs gg cg dist maxGrDist).contains (c.getFrom, n.getId) =
      hasCol (baseCols gg cg geoPens maxGrDist dist) (.statpos n.getId c.getFrom) := by
    rw [hasCol_base_statpos, Bool.eq_iff_iff, ← mem_candPairs]
    simp
  have h2 : (candPairs gg cg dist maxGrDist).contains (c.getTo, n.getId) =
      hasCol (baseCols gg cg geoPens maxGrDist dist) (.statpos n.getId c.getTo) := by
    rw [hasCol_base_statpos, Bool.eq_iff_iff, ← mem_candPairs]
    simp
  rw [h1, h2]
  unfold entryIf
  cases hasCol (baseCols gg cg geoPens maxGrDist dist) (.statpos n.getId c.getFrom) <;>
    cases hasCol (baseCols gg cg geoPens maxGrDist dist) (.statpos n.getId c.getTo) <;> simp

theorem singleSinkRow_eval (n : GridNode) (c : CombEdge) (σ : VarName → Int) :
    (singleSinkRow (baseCols gg cg geoPens maxGrDist dist)
        (candPairs gg cg dist maxGrDist) n c).eval σ =
      sinkEdgeUse (baseCols gg cg geoPens maxGrDist dist) n c.id σ -
        statUse (baseCols gg cg geoPens maxGrDist dist) n c.getFrom σ -
        statUse (baseCols gg cg geoPens maxGrDist dist) n c.getTo σ := by
  rw [Row.eval, singleSinkRow_entries, evalL_append, evalL_append, evalL_entryIf,
    evalL_entryIf, evalL_flatMap]
  have h1 : ((List.range 8).map fun a =>
      evalL (entryIf (baseCols gg cg geoPens maxGrDist dist)
          (.edg (n.getPort a) n.getId c.id) 1 ++
        entryIf (baseCols gg cg geoPens maxGrDist dist)
          (.edg n.getId (n.getPort a) c.id) 1) σ) =
      (List.range 8).map fun p =>
        (if hasCol (baseCols gg cg geoPens maxGrDist dist) (.edg (n.getPort p) n.getId c.id)
          then σ (.edg (n.getPort p) n.getId c.id) else 0) +
        (if hasCol (baseCols gg cg geoPens maxGrDist dist) (.edg n.getId (n.getPort p) c.id)
          then σ (.edg n.getId (n.getPort p) c.id) else 0) := by
    apply List.map_congr_left
    intro a _
    rw [evalL_append, evalL_entryIf, evalL_entryIf]
    simp
  rw [h1]
  unfold sinkEdgeUse statUse
  split <;> split <;> ring

theorem mem_singleSinkRow_entries {n : GridNode} {c : CombEdge} {x : VarName × Int}
    (hx : x ∈ (singleSinkRow (baseCols gg cg geoPens maxGrDist dist)
        (candPairs gg cg dist maxGrDist) n c).entries) :
    hasCol (baseCols gg cg geoPens maxGrDist dist) x.1 = true ∧
      (x.1 = .statpos n.getId c.getTo ∨ x.1 = .statpos n.getId c.getFrom ∨
        ∃ q, q < 8 ∧ (x.1 = .edg (n.getPort q) n.getId c.id ∨
          x.1 = .edg n.getId (n.getPort q) c.id)) := by
  rw [singleSinkRow_entries] at hx
  simp only [List.mem_append, List.mem_flatMap, List.mem_range] at hx
  rcases hx with (hx | hx) | ⟨q, hq, hx | hx⟩
  · obtain ⟨h1, rfl⟩ := mem_entryIf.1 hx
    exact ⟨h1, Or.inl rfl⟩
  · obtain ⟨h1, rfl⟩ := mem_entryIf.1 hx
    exact ⟨h1, Or.inr (Or.inl rfl)⟩
  · obtain ⟨h1, rfl⟩ := mem_entryIf.1 hx
    exact ⟨h1, Or.inr (Or.inr ⟨q, hq, Or.inl rfl⟩)⟩
  · obtain ⟨h1, rfl⟩ := mem_entryIf.1 hx
    exact ⟨h1, Or.inr (Or.inr ⟨q, hq, Or.inr rfl⟩)⟩

theorem singleSinkRow_coef_stat {n : GridNode} {c : CombEdge} (v : Nat) :
    (singleSinkRow (baseCols gg cg geoPens maxGrDist dist)
        (candPairs gg cg dist maxGrDist) n c).coef (.statpos n.getId v) =
      (if hasCol (baseCols gg cg geoPens maxGrDist dist) (.statpos n.getId c.getTo) = true ∧
          c.getTo = v then -1 else 0) +
      (if hasCol (baseCols gg cg geoPens maxGrDist dist) (.statpos n.getId c.getFrom) = true ∧
          c.getFrom = v then -1 else 0) := by
  rw [Row.coef, singleSinkRow_entries, coefL_append, coefL_append, coefL_entryIf,
    coefL_entryIf, coefL_eq_zero]
  · simp
  · intro e he
    obtain ⟨q, -, he⟩ := List.mem_flatMap.1 he
    rcases List.mem_append.1 he with he | he <;>
      obtain ⟨-, rfl⟩ := mem_entryIf.1 he <;> simp

/-- Coefficient of a sink-edge variable in the single-sink row. -/
theorem singleSinkRow_coef_edge {n : GridNode} {c : CombEdge}
    (hport : ∀ a b, a < 8 → b < 8 → n.getPort a = n.getPort b → a = b)
    (hself : ∀ a, a < 8 → n.getPort a ≠ n.getId)
    {q : Nat} (hq : q < 8) {x : VarName}
    (hx : x = .edg (n.getPort q) n.getId c.id ∨ x = .edg n.getId (n.getPort q) c.id)
    (hcol : hasCol (baseCols gg cg geoPens maxGrDist dist) x = true) :
    (singleSinkRow (baseCols gg cg geoPens maxGrDist dist)
        (candPairs gg cg dist maxGrDist) n c).coef x = 1 := by
  rw [Row.coef, singleSinkRow_entries, coefL_append, coefL_append, coefL_entryIf,
    coefL_entryIf, coefL_flatMap,
    sum_map_single id _ _ (by simpa using List.nodup_range 8) q (List.mem_range.2 hq)]
  · rw [coefL_append, coefL_entryIf, coefL_entryIf]
    have hs := hself q hq
    rcases hx with rfl | rfl
    · simp [hcol, hs, hs.symm]
    · simp [hcol, hs, hs.symm]
  · intro b hb hbne
    have hbq : n.getPort b ≠ n.getPort q :=
      fun hh => hbne (hport b q (List.mem_range.1 hb) hq hh)
    have hsb := hself b (List.mem_range.1 hb)
    have hs := hself q hq
    rw [coefL_append, coefL_entryIf, coefL_entryIf]
    rcases hx with rfl | rfl
    · simp [hbq, hsb, hs.symm]
    · simp [hbq, hsb, hs]

/-- In a feasible solution two different station variables of one sink sum
to at most one (inner-use row). -/
theorem innerUse_stat_pair (h : createProblem gg cg geoPens maxGrDist dist = some p)
    (hcg : (cg.getNds.map CombNode.id).Nodup)
    {σ : VarName → Int} (hσ : Feasible p σ) {n : GridNode} (hn : n ∈ gg.getNds)
    (hs : n.isSink = true) {v w : Nat} (hvw : v ≠ w) :
    statUse (baseCols gg cg geoPens maxGrDist dist) n v σ +
      statUse (baseCols gg cg geoPens maxGrDist dist) n w σ ≤ 1 := by
  have hrow : innerUseRow (baseCols gg cg geoPens maxGrDist dist) cg n ∈ p.rows := by
    obtain ⟨_, -, hsub⟩ := rows_sub h
    apply hsub
    right; right; right; right; left
    rw [innerUseRows, sinks_openCands]
    exact List.mem_map_of_mem _ (by rw [sinks, List.mem_filter]; exact ⟨hn, hs⟩)
  have hle : (innerUseRow (baseCols gg cg geoPens maxGrDist dist) cg n).eval σ ≤ 1 :=
    hσ.1 _ hrow
  have hnn : ∀ en ∈ (innerUseRow (baseCols gg cg geoPens maxGrDist dist) cg n).entries,
      0 ≤ en.2 ∧ 0 ≤ σ en.1 := by
    intro en hen
    obtain ⟨h1, h2, -⟩ := mem_innerUseRow_entries hen
    exact ⟨by rw [h2]; decide, (feasible_binary h hσ h1).1⟩
  have hco : ∀ u, hasCol (baseCols gg cg geoPens maxGrDist dist) (.statpos n.getId u) = true →
      coefL (innerUseRow (baseCols gg cg geoPens maxGrDist dist) cg n).entries
        (.statpos n.getId u) = 1 := by
    intro u hu
    have hu' := hu
    rw [hasCol_base_statpos, hasCol_statPosCols] at hu'
    obtain ⟨nd, hnd, rfl, -⟩ := hu'
    exact innerUseRow_coef_stat hcg hnd hu
  simp only [Row.eval] at hle
  unfold statUse
  by_cases hv : hasCol (baseCols gg cg geoPens maxGrDist dist) (.statpos n.getId v) = true
  · by_cases hw : hasCol (baseCols gg cg geoPens maxGrDist dist) (.statpos n.getId w) = true
    · have hne : VarName.statpos n.getId v ≠ VarName.statpos n.getId w := by simpa using hvw
      have h2 := evalL_two_le hne _ hnn
      rw [hco v hv, hco w hw] at h2
      rw [if_pos hv, if_pos hw]
      omega
    · have := (feasible_binary h hσ hv).2
      rw [if_pos hv, if_neg hw]
      omega
  · by_cases hw : hasCol (baseCols gg cg geoPens maxGrDist dist) (.statpos n.getId w) = true
    · have := (feasible_binary h hσ hw).2
      rw [if_neg hv, if_pos hw]
      omega
    · rw [if_neg hv, if_neg hw]
      omega

/-! ### No-cross rows -/

theorem foldl_setCost_nbr (f : Nat → Nat × Nat) (c : Option ℚ) :
    ∀ (l : List Nat) (g : GridGraph),
      (l.foldl (fun g p => g.setCost (f p).1 (f p).2 c) g).getNEdg = g.getNEdg ∧
      (l.foldl (fun g p => g.setCost (f p).1 (f p).2 c) g).getNeighbor = g.getNeighbor
  | [], _ => ⟨rfl, rfl⟩
  | a :: l, g => by
    rw [List.foldl_cons]
    exact foldl_setCost_nbr f c l _

theorem foldl_open_nbr : ∀ (l : List GridNode) (g : GridGraph),
    (l.foldl (fun g n => openNodeSinkTo (openNodeSinkFr g n 0) n 0) g).getNEdg = g.getNEdg ∧
    (l.foldl (fun g n => openNodeSinkTo (openNodeSinkFr g n 0) n 0) g).getNeighbor =
      g.getNeighbor
  | [], _ => ⟨rfl, rfl⟩
  | n :: l, g => by
    rw [List.foldl_cons]
    have h1 := foldl_open_nbr l (openNodeSinkTo (openNodeSinkFr g n 0) n 0)
    have h2 := foldl_setCost_nbr (fun p => (n.getPort p, n.getId)) (some 0) (List.range 8)
      (openNodeSinkFr g n 0)
    have h3 := foldl_setCost_nbr (fun p => (n.getId, n.getPort p)) (some 0) (List.range 8) g
    unfold openNodeSinkTo at h1 ⊢
    unfold openNodeSinkFr at h1 h2 ⊢
    exact ⟨h1.1.trans (h2.1.trans h3.1), h1.2.trans (h2.2.trans h3.2)⟩

@[simp] theorem openCands_getNEdg :
    (openCands gg cg dist maxGrDist).getNEdg = gg.getNEdg := by
  unfold openCands
  exact (foldl_open_nbr _ _).1

@[simp] theorem openCands_getNeighbor :
    (openCands gg cg dist maxGrDist).getNeighbor = gg.getNeighbor := by
  unfold openCands
  exact (foldl_open_nbr _ _).2

/-- Among the results of a run of steps that all succeeded, on inputs with
distinct keys, the rows named after one input are the one row of its step. -/
theorem collect_filter_singleton {α κ : Type} [DecidableEq κ] (f : α → Option Row)
    (key : α → κ) (N : κ → RowName) (hN : ∀ k k', N k = N k' → k = k')
    (hname : ∀ a r, f a = some r → r.name = N (key a)) :
    ∀ (l : List α) (rs : List Row), collect (l.map f) = some rs → (l.map key).Nodup →
      ∀ a ∈ l, ∀ r, f a = some r → rs.filter (fun x => decide (x.name = N (key a))) = [r]
  | [], _, _, _, a, ha, _, _ => by simp at ha
  | b :: l, rs, hcol, hnd, a, ha, r, hr => by
    rw [List.map_cons, List.nodup_cons] at hnd
    rw [List.map_cons] at hcol
    cases hfb : f b with
    | none => rw [hfb] at hcol; simp [collect] at hcol
    | some rb =>
      rw [hfb] at hcol
      simp only [collect, Option.map_eq_some'] at hcol
      obtain ⟨rs', hrs', rfl⟩ := hcol
      have hnil : ∀ (l' : List α) (rs'' : List Row), collect (l'.map f) = some rs'' →
          (∀ y ∈ l', key y ≠ key a) →
          rs''.filter (fun x => decide (x.name = N (key a))) = [] := by
        intro l' rs'' hc hk
        rw [List.filter_eq_nil_iff]
        intro x hx
        obtain ⟨y, hy, hfy⟩ := collect_map_mem hc hx
        simp only [decide_eq_true_eq]
        intro hxn
        exact hk y hy (hN _ _ ((hname y x hfy).symm.trans hxn))
      rcases List.mem_cons.1 ha with rfl | ha'
      · rw [hfb] at hr
        simp only [Option.some.injEq] at hr
        subst hr
        rw [List.filter_cons_of_pos (by simpa using hname _ _ hfb),
          hnil l rs' hrs' (fun y hy hya => hnd.1 (hya ▸ List.mem_map_of_mem key hy))]
      · have hne : key b ≠ key a := fun hba => hnd.1 (hba ▸ List.mem_map_of_mem key ha')
        rw [List.filter_cons_of_neg (by
          simp only [decide_eq_true_eq]
          intro hh
          exact hne (hN _ _ ((hname _ _ hfb).symm.trans hh)))]
        exact collect_filter_singleton f key N hN hname l rs' hrs' hnd.2 a ha' r hr

/-- The entries of a no-cross row whose neighbours and edges are all there. -/
theorem nocrossRow_entries {g : GridGraph} {cols : List Col} {n : GridNode} {r : Row}
    {eOr fOr e f : Nat × Nat} {na nb : Nat}
    (h : nocrossRow g cols cg n = some r)
    (hE : g.getNEdg (some n.getId) (g.getNeighbor n.getX n.getY 3) = some eOr)
    (hF : g.getNEdg (g.getNeighbor n.getX n.getY 3) (some n.getId) = some fOr)
    (hna : g.getNeighbor n.getX n.getY 2 = some na)
    (hnb : g.getNeighbor n.getX n.getY 4 = some nb)
    (he : g.getNEdg (some na) (some nb) = some e)
    (hf : g.getNEdg (some nb) (some na) = some f) :
    r.entries = (combEdges cg).flatMap (nocrossEntries cols eOr fOr e f) := by
  unfold nocrossRow at h
  simp only [Nat.reduceAdd, Nat.reduceMod] at h
  rw [hE, hF] at h
  simp only at h
  rw [hna, hnb] at h
  simp only at h
  rw [he, hf] at h
  simp only at h
  split at h
  · rename_i hemp
    simp only [Option.some.injEq] at h
    subst h
    simp only [List.isEmpty_iff] at hemp
    rw [hemp]
    rfl
  · simp only [Option.some.injEq] at h
    subst h
    rfl

theorem mem_nocrossEntries {cols : List Col} {eOr fOr e f : Nat × Nat} {c : CombEdge}
    {x : VarName × Int} (hx : x ∈ nocrossEntries cols eOr fOr e f c) :
    hasCol cols x.1 = true ∧ x.2 = 1 ∧
      ∃ k ∈ [eOr, fOr, e, f], x.1 = .edg k.1 k.2 c.id := by
  simp only [nocrossEntries, List.mem_append] at hx
  rcases hx with ((hx | hx) | hx) | hx <;> obtain ⟨h1, rfl⟩ := mem_entryIf.1 hx
  · exact ⟨h1, rfl, eOr, by simp, rfl⟩
  · exact ⟨h1, rfl, fOr, by simp, rfl⟩
  · exact ⟨h1, rfl, e, by simp, rfl⟩
  · exact ⟨h1, rfl, f, by simp, rfl⟩

theorem nocrossEntries_coef {cols : List Col} {eOr fOr e f : Nat × Nat}
    (hd : [eOr, fOr, e, f].Nodup) (hce : ((combEdges cg).map CombEdge.id).Nodup)
    {k : Nat × Nat} (hk : k ∈ [eOr, fOr, e, f]) {c : CombEdge} (hc : c ∈ combEdges cg)
    (hcol : hasCol cols (.edg k.1 k.2 c.id) = true) :
    coefL ((combEdges cg).flatMap (nocrossEntries cols eOr fOr e f)) (.edg k.1 k.2 c.id) = 1 := by
  rw [coefL_flatMap, sum_map_single CombEdge.id _ _ hce c hc]
  · simp only [nocrossEntries, coefL_append, coefL_entryIf, VarName.edg.injEq, and_true]
    simp only [List.nodup_cons, List.mem_cons, List.mem_singleton, not_or, List.not_mem_nil,
      not_false_eq_true, List.nodup_nil, and_true] at hd
    obtain ⟨⟨h1, h2, h3⟩, ⟨h4, h5⟩, h6⟩ := hd
    have hpe : ∀ a b : Nat × Nat, a ≠ b → ¬ (a.1 = b.1 ∧ a.2 = b.2) :=
      fun a b hab hh => hab (Prod.ext hh.1 hh.2)
    simp only [List.mem_cons, List.mem_singleton, List.not_mem_nil, or_false] at hk
    rcases hk with rfl | rfl | rfl | rfl
    · simp [hcol, hpe _ _ (Ne.symm h1), hpe _ _ (Ne.symm h2), hpe _ _ (Ne.symm h3)]
    · simp [hcol, hpe _ _ h1, hpe _ _ (Ne.symm h4), hpe _ _ (Ne.symm h5)]
    · simp [hcol, hpe _ _ h2, hpe _ _ h4, hpe _ _ (Ne.symm h6)]
    · simp [hcol, hpe _ _ h3, hpe _ _ h5, hpe _ _ h6]
  · intro c' _ hne
    simp [nocrossEntries, coefL_append, coefL_entryIf, hne]

/-! ### Direction rows -/

theorem dirRow_eval (g : GridGraph) (cols : List Col) (nd : CombNode) (c : CombEdge)
    (σ : VarName → Int) :
    (dirRow g cols nd c).eval σ = dirSum cols g nd c σ - σ (.dir nd.id c.id) := by
  simp only [Row.eval, dirRow, evalL_cons, evalL_flatMap, evalL_entryIf, dirSum]
  ring

theorem dirSinkEdge_tag (nd : CombNode) (c : CombEdge) (n : GridNode) (i : Nat) :
    (dirSinkEdge nd c n i).tag = 1 := by
  unfold dirSinkEdge
  split <;> rfl

/-- For the from-node of the comb edge the direction sum runs over the grid
edges from the sinks to their ports. -/
theorem dirSum_from {cols : List Col} {g : GridGraph} {nd : CombNode} {c : CombEdge}
    (hc : c.getFrom = nd.id) (σ : VarName → Int) :
    dirSum cols g nd c σ =
      portSum cols g (fun n i => .edg n.getId (n.getPort i) c.id) σ := by
  have hr : ((List.range 8).filter fun i => decide (1 ≤ i)) = [1, 2, 3, 4, 5, 6, 7] := by
    decide
  simp only [dirSum, portSum, sinks, dirSinkEdge, if_pos hc, hr]

/-- For the to-node of the comb edge the direction sum runs over the grid
edges from the ports to their sinks. -/
theorem dirSum_to {cols : List Col} {g : GridGraph} {nd : CombNode} {c : CombEdge}
    (hc : c.getFrom ≠ nd.id) (σ : VarName → Int) :
    dirSum cols g nd c σ =
      portSum cols g (fun n i => .edg (n.getPort i) n.getId c.id) σ := by
  have hr : ((List.range 8).filter fun i => decide (1 ≤ i)) = [1, 2, 3, 4, 5, 6, 7] := by
    decide
  simp only [dirSum, portSum, sinks, dirSinkEdge, if_neg hc, hr]

/-- The direction sum is between 0 and anything the variables allow: it is
non-negative in a feasible solution. -/
theorem dirSum_nonneg (h : createProblem gg cg geoPens maxGrDist dist = some p)
    {σ : VarName → Int} (hσ : Feasible p σ) (nd : CombNode) (c : CombEdge) :
    0 ≤ dirSum (baseCols gg cg geoPens maxGrDist dist) gg nd c σ := by
  unfold dirSum
  apply List.sum_nonneg
  intro x hx
  obtain ⟨n, -, rfl⟩ := List.mem_map.1 hx
  apply List.sum_nonneg
  intro y hy
  obtain ⟨i, -, rfl⟩ := List.mem_map.1 hy
  split
  · rename_i hc
    have := (feasible_binary h hσ hc).1
    positivity
  · exact le_refl 0

theorem mem_dirCols {c : Col} :
    c ∈ dirCols cg ↔ ∃ nd ∈ cg.getNds, 2 ≤ nd.getDeg ∧ ∃ e ∈ nd.getAdjList, c = dirCol nd e := by
  simp only [dirCols, dirNds, List.mem_flatMap, List.mem_map, List.mem_filter]
  constructor
  · rintro ⟨nd, ⟨hnd, hdeg⟩, e, he, rfl⟩
    refine ⟨nd, hnd, ?_, e, he, rfl⟩
    simpa using hdeg
  · rintro ⟨nd, hnd, hdeg, e, he, rfl⟩
    exact ⟨nd, ⟨hnd, by simpa using hdeg⟩, e, he, rfl⟩

/-- A column of the problem with a direction name is one of the direction
columns. -/
theorem mem_cols_dir (h : createProblem gg cg geoPens maxGrDist dist = some p) {c : Col}
    (hc : c ∈ p.cols) (ht : c.name.tag = 2) : c ∈ dirCols cg := by
  obtain ⟨ncRows, ordRows, vCols, angs, -, hord, hang, -, hcols⟩ := createProblem_some h
  rw [hcols, baseCols] at hc
  simp only [List.mem_append] at hc
  rcases hc with (((hc | hc) | hc) | hc) | hc
  · rw [tag_statPosCols hc] at ht; omega
  · rw [tag_edgeUseCols hc] at ht; omega
  · exact hc
  · rw [tag_vulnCols hord hc] at ht; omega
  · have := tag_angCols hang hc; omega

theorem dirCols_sub (h : createProblem gg cg geoPens maxGrDist dist = some p) {c : Col}
    (hc : c ∈ dirCols cg) : c ∈ p.cols := by
  obtain ⟨ncRows, ordRows, vCols, angs, -, -, -, -, hcols⟩ := createProblem_some h
  rw [hcols]
  simp only [List.mem_append]
  tauto

/-! ### Circular order rows and columns -/

theorem filter_col_nil {l : List Col} {P : VarName → Bool} (k : Nat)
    (hP : ∀ m, P m = true → m.tag = k) (h : ∀ c ∈ l, c.name.tag ≠ k) :
    l.filter (fun c => P c.name) = [] := by
  rw [List.filter_eq_nil_iff]
  intro c hc hn
  exact h c hc (hP _ hn)

/-- The rows and columns of the problem that carry names of the order loop
are those the order loop returned. -/
theorem filter_order (h : createProblem gg cg geoPens maxGrDist dist = some p) :
    ∃ ordRows vCols,
      orderLoop (baseCols gg cg geoPens maxGrDist dist ++ dirCols cg) cg.getNds
        = some (ordRows, vCols) ∧
      (∀ P : RowName → Bool, (∀ m, P m = true → m.tag = 7 ∨ m.tag = 8) →
        p.rows.filter (fun r => P r.name) = ordRows.filter (fun r => P r.name)) ∧
      (∀ P : VarName → Bool, (∀ m, P m = true → m.tag = 3) →
        p.cols.filter (fun c => P c.name) = vCols.filter (fun c => P c.name)) := by
  obtain ⟨ncRows, ordRows, vCols, angs, hnc, hord, hang, hrows, hcols⟩ := createProblem_some h
  refine ⟨ordRows, vCols, hord, ?_, ?_⟩
  · intro P hP
    have hnil : ∀ l : List Row, (∀ r ∈ l, r.name.tag ≠ 7 ∧ r.name.tag ≠ 8) →
        l.filter (fun r => P r.name) = [] := by
      intro l hl
      rw [List.filter_eq_nil_iff]
      intro r hr hn
      rcases hP _ hn with h7 | h8
      · exact (hl r hr).1 h7
      · exact (hl r hr).2 h8
    rw [hrows]
    simp only [List.filter_append]
    rw [hnil (oneassRows gg cg dist maxGrDist)
        (fun r hr => by rw [tag_oneassRows hr]; omega),
      hnil (uniqEdgeRows _ _ _) (fun r hr => by rw [tag_uniqEdgeRows hr]; omega),
      hnil (adjsumRows _ _ _) (fun r hr => by rw [tag_adjsumRows hr]; omega),
      hnil (singleSinkRows _ _ _ _) (fun r hr => by rw [tag_singleSinkRows hr]; omega),
      hnil (innerUseRows _ _ _) (fun r hr => by rw [tag_innerUseRows hr]; omega),
      hnil ncRows (fun r hr => by rw [tag_nocrossRows hnc hr]; omega),
      hnil (dirRows _ _ _) (fun r hr => by rw [tag_dirRows hr]; omega),
      hnil (angs.flatMap Prod.fst) (fun r hr => by have := tag_angRows hang hr; omega)]
    simp
  · intro P hP
    rw [hcols, baseCols]
    simp only [List.filter_append]
    rw [filter_col_nil (l := statPosCols gg cg dist maxGrDist) 3 hP
        (fun c hc => by rw [tag_statPosCols hc]; omega),
      filter_col_nil (l := edgeUseCols _ _ _ _) 3 hP
        (fun c hc => by rw [tag_edgeUseCols hc]; omega),
      filter_col_nil (l := dirCols cg) 3 hP
        (fun c hc => by rw [tag_dirCols hc]; omega),
      filter_col_nil (l := angs.flatMap Prod.snd) 3 hP
        (fun c hc => by have := tag_angCols hang hc; omega)]
    simp

/-- A run of lists of which only the one of a given key is not empty. -/
theorem flatMap_single {α β κ : Type} [DecidableEq κ] (key : α → κ) (F : α → List β) :
    ∀ (l : List α), (l.map key).Nodup → ∀ a ∈ l, (∀ b ∈ l, key b ≠ key a → F b = []) →
      l.flatMap F = F a
  | [], _, a, ha, _ => by simp at ha
  | b :: l, hnd, a, ha, hz => by
    rw [List.map_cons, List.nodup_cons] at hnd
    rw [List.flatMap_cons]
    rcases List.mem_cons.1 ha with rfl | ha'
    · have : l.flatMap F = [] := by
        rw [List.flatMap_eq_nil_iff]
        intro x hx
        exact hz x (List.mem_cons_of_mem _ hx)
          (fun hxa => hnd.1 (hxa ▸ List.mem_map_of_mem key hx))
      rw [this, List.append_nil]
    · rw [hz b (List.mem_cons_self _ _)
        (fun hba => hnd.1 (hba ▸ List.mem_map_of_mem key ha')), List.nil_append]
      exact flatMap_single key F l hnd.2 a ha'
        (fun c hc hne => hz c (List.mem_cons_of_mem _ hc) hne)

/-- The `vuln` columns of one comb node among the columns of the order loop. -/
theorem vulnCols_filter {nds : List CombNode} {cols : List Col} {rows : List Row}
    {newCols : List Col} (h : orderLoop cols nds = some (rows, newCols))
    (hnd : (nds.map CombNode.id).Nodup) {nd : CombNode} (hmem : nd ∈ nds) :
    newCols.filter (fun c => isVulnName nd.id c.name) =
      if nd.getDeg < 3 then [] else vulnCols nd := by
  rw [(orderLoop_some h).1, List.filter_flatMap]
  have hother : ∀ b : CombNode, b.id ≠ nd.id →
      (vulnCols b).filter (fun c => isVulnName nd.id c.name) = [] := by
    intro b hb
    rw [List.filter_eq_nil_iff]
    intro c hc
    simp only [vulnCols, List.mem_map] at hc
    obtain ⟨i, -, rfl⟩ := hc
    simpa [Col.setKind, Col.add, isVulnName] using hb
  have hself : (vulnCols nd).filter (fun c => isVulnName nd.id c.name) = vulnCols nd := by
    rw [List.filter_eq_self]
    intro c hc
    simp only [vulnCols, List.mem_map] at hc
    obtain ⟨i, -, rfl⟩ := hc
    simp [Col.setKind, Col.add, isVulnName]
  by_cases hdeg : nd.getDeg < 3
  · rw [if_pos hdeg, List.flatMap_eq_nil_iff]
    intro b hb
    rw [List.mem_filter] at hb
    apply hother
    intro hid
    have : b = nd := List.inj_on_of_nodup_map hnd hb.1 hmem hid
    rw [this] at hb
    simp [hdeg] at hb
  · rw [if_neg hdeg]
    have hnd' : ((nds.filter fun nd => !(decide (nd.getDeg < 3))).map CombNode.id).Nodup :=
      hnd.sublist (List.Sublist.map _ (List.filter_sublist _))
    rw [flatMap_single CombNode.id _ _ hnd' nd
      (by rw [List.mem_filter]; exact ⟨hmem, by simpa using hdeg⟩)
      (fun b _ hb => hother b hb), hself]

theorem orderLoop_isOrderName {nds : List CombNode} {cols : List Col} {rows : List Row}
    {newCols : List Col} (h : orderLoop cols nds = some (rows, newCols)) {r : Row}
    (hr : r ∈ rows) : ∃ nd ∈ nds, ¬ nd.getDeg < 3 ∧ ∀ v, isOrderName v r.name = true →
      nd.id = v := by
  obtain ⟨nd, hnd, hdeg, h'⟩ := (orderLoop_some h).2.1 r hr
  refine ⟨nd, hnd, hdeg, ?_⟩
  intro v hv
  rcases h' with rfl | ⟨i, cs, -, hi⟩
  · simpa [isOrderName, vulnRow] using hv
  · obtain ⟨a, b, -, -, -, -, -, -, rfl⟩ := orderStep_some hi
    simpa [isOrderName, orderRow] using hv

theorem orderRowsOf_names {cols : List Col} {nd : CombNode} {rs : List Row}
    (h : orderRowsOf cols nd = some rs) {r : Row} (hr : r ∈ rs) :
    ∃ i, i < nd.getOrderedSet.length ∧ orderStep cols nd i = some r ∧
      r.name = .orderconst nd.id i := by
  obtain ⟨-, hcol⟩ := orderRowsOf_some h
  obtain ⟨i, hi, hir⟩ := collect_map_mem hcol hr
  refine ⟨i, List.mem_range.1 hi, hir, ?_⟩
  obtain ⟨a, b, -, -, -, -, -, -, rfl⟩ := orderStep_some hir
  rfl

/-- The rows of the order loop that carry names of one comb node of degree at
least 3: its `vulnconst` row followed by its `orderconst` rows. -/
theorem orderLoop_filter : ∀ {nds : List CombNode} {cols : List Col} {rows : List Row}
    {newCols : List Col}, orderLoop cols nds = some (rows, newCols) →
    (nds.map CombNode.id).Nodup → ∀ nd ∈ nds, ¬ nd.getDeg < 3 →
    ∃ rs cs, orderRowsOf cs nd = some rs ∧
      ∀ P : RowName → Bool, (∀ m, P m = true → isOrderName nd.id m = true) →
        rows.filter (fun r => P r.name) = (vulnRow nd :: rs).filter (fun r => P r.name)
  | [], _, _, _, _, _, nd, hnd, _ => by simp at hnd
  | nd0 :: nds, cols, rows, newCols, h, hnodup, nd, hnd, hdeg => by
    have h' := h
    unfold orderLoop at h
    rw [List.map_cons, List.nodup_cons] at hnodup
    split at h
    · rename_i hdeg0
      rcases List.mem_cons.1 hnd with rfl | hmem
      · exact absurd hdeg0 hdeg
      · exact orderLoop_filter h hnodup.2 nd hmem hdeg
    · rename_i hdeg0
      split at h
      · exact absurd h (by simp)
      · rename_i rs0 hrs0
        split at h
        · exact absurd h (by simp)
        · rename_i rows' newCols' hrec
          simp only [Option.some.injEq, Prod.mk.injEq] at h
          obtain ⟨rfl, rfl⟩ := h
          -- rows of the other nodes never carry a name of a node not among them
          have htail : ∀ v, (∀ x ∈ nds, x.id ≠ v) → ∀ P : RowName → Bool,
              (∀ m, P m = true → isOrderName v m = true) →
              rows'.filter (fun r => P r.name) = [] := by
            intro v hv P hP
            rw [List.filter_eq_nil_iff]
            intro r hr hPr
            obtain ⟨x, hx, -, hname⟩ := orderLoop_isOrderName hrec hr
            exact hv x hx (hname v (hP _ hPr))
          rcases List.mem_cons.1 hnd with rfl | hmem
          · refine ⟨rs0, _, hrs0, ?_⟩
            intro P hP
            have ht := htail nd.id
              (fun x hx hid => hnodup.1 (hid ▸ List.mem_map_of_mem _ hx)) P hP
            simp only [List.cons_append, List.filter_cons, List.filter_append, ht,
              List.append_nil]
          · obtain ⟨rs, cs, hrs, hfil⟩ := orderLoop_filter hrec hnodup.2 nd hmem hdeg
            refine ⟨rs, cs, hrs, ?_⟩
            intro P hP
            have hne : nd0.id ≠ nd.id :=
              fun hid => hnodup.1 (hid ▸ List.mem_map_of_mem _ hmem)
            have h1 : ¬ P (vulnRow nd0).name = true := by
              intro hh
              have := hP _ hh
              simp only [vulnRow, isOrderName, beq_iff_eq] at this
              exact hne this
            have h2 : rs0.filter (fun r => P r.name) = [] := by
              rw [List.filter_eq_nil_iff]
              intro r hr hh
              obtain ⟨i, -, -, hname⟩ := orderRowsOf_names hrs0 hr
              have := hP _ hh
              rw [hname] at this
              simp only [isOrderName, beq_iff_eq] at this
              exact hne this
            simp only [List.cons_append, List.filter_cons, h1, List.filter_append, h2,
              List.nil_append, hfil P hP, Bool.false_eq_true, ↓reduceIte]

/-! ### Angle rows and columns -/

theorem mem_pairsOf {α : Type} {x y : α} : ∀ {l : List α}, (x, y) ∈ pairsOf l → x ∈ l ∧ y ∈ l
  | [], h => by simp [pairsOf] at h
  | a :: l, h => by
    simp only [pairsOf, List.mem_append, List.mem_map, Prod.mk.injEq] at h
    rcases h with ⟨b, hb, rfl, rfl⟩ | h
    · exact ⟨List.mem_cons_self _ _, List.mem_cons_of_mem _ hb⟩
    · obtain ⟨h1, h2⟩ := mem_pairsOf h
      exact ⟨List.mem_cons_of_mem _ h1, List.mem_cons_of_mem _ h2⟩

/-- Every pair of the pair loop has its result among the collected ones. -/
theorem anglePhase_mem {cols : List Col} {angs : List (List Row × List Col)}
    (h : anglePhase cols cg = some angs) {nd : CombNode} (hnd : nd ∈ cg.getNds)
    {ab : CombEdge × CombEdge} (hab : ab ∈ pairsOf nd.getAdjList) :
    ∃ res ∈ angs, anglePair cols nd ab.1 ab.2 = some res := by
  have h1 := collect_some h
  have h2 : anglePair cols nd ab.1 ab.2 ∈ (cg.getNds.flatMap fun nd =>
      (pairsOf nd.getAdjList).map fun ab => anglePair cols nd ab.1 ab.2) :=
    List.mem_flatMap.2 ⟨nd, hnd, List.mem_map.2 ⟨ab, hab, rfl⟩⟩
  rw [h1] at h2
  obtain ⟨res, hres, heq⟩ := List.mem_map.1 h2
  exact ⟨res, hres, heq.symm⟩

/-- Every collected result comes from a pair of the pair loop. -/
theorem anglePhase_mem_of {cols : List Col} {angs : List (List Row × List Col)}
    (h : anglePhase cols cg = some angs) {res : List Row × List Col} (hres : res ∈ angs) :
    ∃ nd ∈ cg.getNds, ∃ ab ∈ pairsOf nd.getAdjList, anglePair cols nd ab.1 ab.2 = some res := by
  have h1 := collect_some h
  have h2 : some res ∈ (cg.getNds.flatMap fun nd =>
      (pairsOf nd.getAdjList).map fun ab => anglePair cols nd ab.1 ab.2) := by
    rw [h1]; exact List.mem_map_of_mem _ hres
  obtain ⟨nd, hnd, h3⟩ := List.mem_flatMap.1 h2
  obtain ⟨ab, hab, h4⟩ := List.mem_map.1 h3
  exact ⟨nd, hnd, ab, hab, h4⟩

theorem angs_sub (h : createProblem gg cg geoPens maxGrDist dist = some p) :
    ∃ vCols angs,
      anglePhase (baseCols gg cg geoPens maxGrDist dist ++ dirCols cg ++ vCols) cg
        = some angs ∧
      (∀ r ∈ angs.flatMap Prod.fst, r ∈ p.rows) ∧
      (∀ c ∈ angs.flatMap Prod.snd, c ∈ p.cols) ∧
      (∀ c ∈ p.cols, 4 ≤ c.name.tag → c ∈ angs.flatMap Prod.snd) := by
  obtain ⟨ncRows, ordRows, vCols, angs, -, hord, hang, hrows, hcols⟩ := createProblem_some h
  refine ⟨vCols, angs, hang, ?_, ?_, ?_⟩
  · intro r hr
    rw [hrows]
    exact List.mem_append_right _ hr
  · intro c hc
    rw [hcols]
    exact List.mem_append_right _ hc
  · intro c hc ht
    rw [hcols, baseCols] at hc
    simp only [List.mem_append] at hc
    rcases hc with (((hc | hc) | hc) | hc) | hc
    · rw [tag_statPosCols hc] at ht; omega
    · rw [tag_edgeUseCols hc] at ht; omega
    · rw [tag_dirCols hc] at ht; omega
    · rw [tag_vulnCols hord hc] at ht; omega
    · exact hc

theorem negRow_eval (nd : CombNode) (a b : CombEdge) (σ : VarName → Int) :
    (negRow nd a b).eval σ =
      σ (.dir nd.id a.id) - σ (.dir nd.id b.id) + 8 * σ (.negdist a.id b.id) := by
  simp only [Row.eval, negRow, evalL, List.map_cons, List.map_nil, List.sum_cons, List.sum_nil]
  ring

theorem angRow_eval (nd : CombNode) (a b : CombEdge) (σ : VarName → Int) :
    (angRow nd a b).eval σ =
      σ (.dir nd.id a.id) - σ (.dir nd.id b.id) + 8 * σ (.negdist a.id b.id) -
        (1 * σ (.ang 0 a.id b.id) + 2 * σ (.ang 1 a.id b.id) + 3 * σ (.ang 2 a.id b.id) +
          4 * σ (.ang 3 a.id b.id) + 5 * σ (.ang 4 a.id b.id) + 6 * σ (.ang 5 a.id b.id) +
          7 * σ (.ang 6 a.id b.id)) := by
  simp only [Row.eval, angRow, evalL, List.range, List.range.loop, List.map_cons, List.map_nil,
    List.cons_append, List.nil_append, List.sum_cons, List.sum_nil]
  push_cast
  ring

theorem angSumRow_eval (a b : CombEdge) (σ : VarName → Int) :
    (angSumRow a b).eval σ =
      σ (.ang 0 a.id b.id) + σ (.ang 1 a.id b.id) + σ (.ang 2 a.id b.id) +
        σ (.ang 3 a.id b.id) + σ (.ang 4 a.id b.id) + σ (.ang 5 a.id b.id) +
        σ (.ang 6 a.id b.id) := by
  simp only [Row.eval, angSumRow, evalL, List.range, List.range.loop, List.map_cons,
    List.map_nil, List.sum_cons, List.sum_nil]
  ring

/-- Every column of the pair loop is the `negdist` column or an indicator
column of a pair that shares a line. -/
theorem angCols_mem {cols : List Col} {angs : List (List Row × List Col)}
    (h : anglePhase cols cg = some angs) {c : Col} (hc : c ∈ angs.flatMap Prod.snd) :
    ∃ nd ∈ cg.getNds, ∃ ab ∈ pairsOf nd.getAdjList, sharedLines ab.1 ab.2 ≠ 0 ∧
      (c = negCol ab.1 ab.2 ∨ ∃ k, k < 7 ∧ c = angCol ab.1 ab.2 k) := by
  obtain ⟨res, hres, hc⟩ := List.mem_flatMap.1 hc
  obtain ⟨nd, hnd, ab, hab, hp⟩ := anglePhase_mem_of h hres
  rcases (anglePair_some hp).2 with ⟨-, rfl⟩ | ⟨hs, -, -, rfl⟩
  · simp at hc
  · refine ⟨nd, hnd, ab, hab, hs, ?_⟩
    simp only [List.mem_cons, List.mem_map, List.mem_range] at hc
    rcases hc with rfl | ⟨k, hk, rfl⟩
    · exact Or.inl rfl
    · exact Or.inr ⟨k, hk, rfl⟩

/-- The arithmetic of the three angle rows: the indicators encode the
difference of the two directions modulo 8. -/
theorem angle_arith (x y n : Int) (i : Nat → Int)
    (hx : 0 ≤ x ∧ x ≤ 7) (hy : 0 ≤ y ∧ y ≤ 7) (hn : n = 0 ∨ n = 1)
    (hi : ∀ k, k < 7 → i k = 0 ∨ i k = 1)
    (hneg : 0 ≤ x - y + 8 * n ∧ x - y + 8 * n ≤ 7)
    (hang : x - y + 8 * n -
      (1 * i 0 + 2 * i 1 + 3 * i 2 + 4 * i 3 + 5 * i 4 + 6 * i 5 + 7 * i 6) = 0)
    (hsum : i 0 + i 1 + i 2 + i 3 + i 4 + i 5 + i 6 ≤ 1) :
    (∀ k, k < 7 → (i k = 1 ↔ (x - y) % 8 = (k : Int) + 1)) ∧
    (∀ k l, k < 7 → l < 7 → k ≠ l → ¬ (i k = 1 ∧ i l = 1)) ∧
    ((∀ k, k < 7 → i k = 0) ↔ x = y) := by
  have h0 := hi 0 (by omega)
  have h1 := hi 1 (by omega)
  have h2 := hi 2 (by omega)
  have h3 := hi 3 (by omega)
  have h4 := hi 4 (by omega)
  have h5 := hi 5 (by omega)
  have h6 := hi 6 (by omega)
  clear hi
  have shape : (i 0 = 0 ∧ i 1 = 0 ∧ i 2 = 0 ∧ i 3 = 0 ∧ i 4 = 0 ∧ i 5 = 0 ∧ i 6 = 0) ∨
      (i 0 = 1 ∧ i 1 = 0 ∧ i 2 = 0 ∧ i 3 = 0 ∧ i 4 = 0 ∧ i 5 = 0 ∧ i 6 = 0) ∨
      (i 0 = 0 ∧ i 1 = 1 ∧ i 2 = 0 ∧ i 3 = 0 ∧ i 4 = 0 ∧ i 5 = 0 ∧ i 6 = 0) ∨
      (i 0 = 0 ∧ i 1 = 0 ∧ i 2 = 1 ∧ i 3 = 0 ∧ i 4 = 0 ∧ i 5 = 0 ∧ i 6 = 0) ∨
      (i 0 = 0 ∧ i 1 = 0 ∧ i 2 = 0 ∧ i 3 = 1 ∧ i 4 = 0 ∧ i 5 = 0 ∧ i 6 = 0) ∨
      (i 0 = 0 ∧ i 1 = 0 ∧ i 2 = 0 ∧ i 3 = 0 ∧ i 4 = 1 ∧ i 5 = 0 ∧ i 6 = 0) ∨
      (i 0 = 0 ∧ i 1 = 0 ∧ i 2 = 0 ∧ i 3 = 0 ∧ i 4 = 0 ∧ i 5 = 1 ∧ i 6 = 0) ∨
      (i 0 = 0 ∧ i 1 = 0 ∧ i 2 = 0 ∧ i 3 = 0 ∧ i 4 = 0 ∧ i 5 = 0 ∧ i 6 = 1) := by
    rcases h0 with e0 | e0
    · rcases h1 with e1 | e1
      · rcases h2 with e2 | e2
        · rcases h3 with e3 | e3
          · rcases h4 with e4 | e4
            · rcases h5 with e5 | e5
              · rcases h6 with e6 | e6
                · exact Or.inl ⟨e0, e1, e2, e3, e4, e5, e6⟩
                · exact Or.inr (Or.inr (Or.inr (Or.inr (Or.inr (Or.inr (Or.inr
                    ⟨e0, e1, e2, e3, e4, e5, e6⟩))))))
              · exact Or.inr (Or.inr (Or.inr (Or.inr (Or.inr (Or.inr (Or.inl
                  ⟨e0, e1, e2, e3, e4, e5, by omega⟩))))))
            · exact Or.inr (Or.inr (Or.inr (Or.inr (Or.inr (Or.inl
                ⟨e0, e1, e2, e3, e4, by omega, by omega⟩)))))
          · exact Or.inr (Or.inr (Or.inr (Or.inr (Or.inl
              ⟨e0, e1, e2, e3, by omega, by omega, by omega⟩))))
        · exact Or.inr (Or.inr (Or.inr (Or.inl
            ⟨e0, e1, e2, by omega, by omega, by omega, by omega⟩)))
      · exact Or.inr (Or.inr (Or.inl
          ⟨e0, e1, by omega, by omega, by omega, by omega, by omega⟩))
    · exact Or.inr (Or.inl ⟨e0, by omega, by omega, by omega, by omega, by omega, by omega⟩)
  clear h0 h1 h2 h3 h4 h5 h6 hsum
  have hn2 : 0 ≤ n ∧ n ≤ 1 := by rcases hn with h | h <;> rw [h] <;> omega
  clear hn
  rcases shape with ⟨e0, e1, e2, e3, e4, e5, e6⟩ | ⟨e0, e1, e2, e3, e4, e5, e6⟩ |
    ⟨e0, e1, e2, e3, e4, e5, e6⟩ | ⟨e0, e1, e2, e3, e4, e5, e6⟩ |
    ⟨e0, e1, e2, e3, e4, e5, e6⟩ | ⟨e0, e1, e2, e3, e4, e5, e6⟩ |
    ⟨e0, e1, e2, e3, e4, e5, e6⟩ | ⟨e0, e1, e2, e3, e4, e5, e6⟩ <;>
  · rw [e0, e1, e2, e3, e4, e5, e6] at hang
    refine ⟨?_, ?_, ?_⟩
    · intro k hk
      interval_cases k <;> simp only [Nat.cast_ofNat, Nat.cast_zero, Nat.cast_one] <;> omega
    · intro k l hk hl hkl
      interval_cases k <;> interval_cases l <;> omega
    · constructor
      · intro hall
        have a0 := hall 0 (by omega)
        have a1 := hall 1 (by omega)
        have a2 := hall 2 (by omega)
        have a3 := hall 3 (by omega)
        have a4 := hall 4 (by omega)
        have a5 := hall 5 (by omega)
        have a6 := hall 6 (by omega)
        omega
      · intro hxy k hk
        interval_cases k <;> omega

end Pieces

/-! ## The example problems -/

/-- A problem checked group by group is feasible. -/
theorem feasible_of_groups (p : Problem) (σ : VarName → Int) (K : Nat)
    (hK : ∀ r ∈ p.rows, exChunk r < K)
    (hrows : ∀ k, k < K → ∀ r ∈ exRows p k, r.bnd.sat (r.eval σ))
    (hcols : ∀ c ∈ p.cols, c.bnd.sat (σ c.name)) : Feasible p σ := by
  refine ⟨?_, hcols⟩
  intro r hr
  apply hrows (exChunk r) (hK r hr)
  rw [exRows, List.mem_filter]
  exact ⟨hr, by simp⟩

theorem exProblem_isSome_21 : (exProblem 2 1).isSome = true := by decide!

theorem exProblem_eq_21 : exProblem 2 1 = some exP21 := by
  have h := exProblem_isSome_21
  unfold exP21
  revert h
  cases exProblem 2 1 <;> simp

theorem exComb_edges_nodup : ((combEdges exComb).map CombEdge.id).Nodup := by decide

theorem exPrimary_mem : exPrimary ∈ allAdj (exGrid 2 1) := by decide!

theorem exGrid_primary_21 : ∀ e ∈ allAdj (exGrid 2 1), e.isSecondary = false →
    e.getFrom ≠ e.getTo ∧
    ∀ n ∈ (exGrid 2 1).getNds, n.isSink = true → e.getFrom ≠ n.getId ∧ e.getTo ≠ n.getId := by
  decide!

theorem exGrid_sym_21 : ∀ e ∈ allAdj (exGrid 2 1), e.isSecondary = false →
    (exGrid 2 1).cost e.getFrom e.getTo = none → (exGrid 2 1).cost e.getTo e.getFrom = none := by
  decide!

set_option maxRecDepth 100000 in
theorem exSol_feasible_21_rows0 : ∀ r ∈ exRows exP21 0, r.bnd.sat (r.eval exSol) := by decide!

set_option maxRecDepth 100000 in
theorem exSol_feasible_21_rows1 : ∀ r ∈ exRows exP21 1, r.bnd.sat (r.eval exSol) := by decide!

set_option maxRecDepth 100000 in
theorem exSol_feasible_21_rows2 : ∀ r ∈ exRows exP21 2, r.bnd.sat (r.eval exSol) := by decide!

set_option maxRecDepth 100000 in
theorem exSol_feasible_21_rows3 : ∀ r ∈ exRows exP21 3, r.bnd.sat (r.eval exSol) := by decide!

set_option maxRecDepth 100000 in
theorem exSol_feasible_21_rows4 : ∀ r ∈ exRows exP21 4, r.bnd.sat (r.eval exSol) := by decide!

theorem exSol_feasible_21_cols : ∀ c ∈ exP21.cols, c.bnd.sat (exSol c.name) := by decide!

theorem exSol_feasible_21_groups : ∀ r ∈ exP21.rows, exChunk r < 5 := by decide!

theorem exSol_feasible_21 : Feasible exP21 exSol := by
  refine feasible_of_groups _ _ 5 exSol_feasible_21_groups ?_ exSol_feasible_21_cols
  intro k hk
  interval_cases k
  · exact exSol_feasible_21_rows0
  · exact exSol_feasible_21_rows1
  · exact exSol_feasible_21_rows2
  · exact exSol_feasible_21_rows3
  · exact exSol_feasible_21_rows4

theorem exGrid_adj_21 : ∀ n ∈ (exGrid 2 1).getNds,
    (n.getAdjListIn.map fun e => (e.getFrom, e.getTo)).Nodup ∧
    (n.getAdjListOut.map fun e => (e.getFrom, e.getTo)).Nodup ∧
    (∀ e ∈ n.getAdjListIn, e.getTo = n.getId ∧ e.getFrom ≠ n.getId) ∧
    (∀ e ∈ n.getAdjListOut, e.getFrom = n.getId ∧ e.getTo ≠ n.getId) := by
  decide!

theorem exSink0_mem : exSink0 ∈ (exGrid 2 1).getNds := by
  simp [exGrid, exNodes, exSink0, List.range, List.range.loop]

theorem exSink0_nonInf :
    nonInfDeg (openCands (exGrid 2 1) exComb exDist 1) exSink0 ≠ 0 := by decide!

theorem exEdge_mem : exEdge ∈ combEdges exComb := by decide

theorem exProblem_eq_31 : createProblem (exGrid 3 1) exComb none 1 exDist31 = some exP31 := by
  have h : (createProblem (exGrid 3 1) exComb none 1 exDist31).isSome = true := by decide!
  unfold exP31
  revert h
  cases createProblem (exGrid 3 1) exComb none 1 exDist31 <;> simp

set_option maxRecDepth 100000 in
theorem exSol_feasible_31_rows0 : ∀ r ∈ exRows exP31 0, r.bnd.sat (r.eval exSol31) := by decide!

set_option maxRecDepth 100000 in
theorem exSol_feasible_31_rows1 : ∀ r ∈ exRows exP31 1, r.bnd.sat (r.eval exSol31) := by decide!

set_option maxRecDepth 100000 in
theorem exSol_feasible_31_rows2 : ∀ r ∈ exRows exP31 2, r.bnd.sat (r.eval exSol31) := by decide!

set_option maxRecDepth 100000 in
theorem exSol_feasible_31_rows3 : ∀ r ∈ exRows exP31 3, r.bnd.sat (r.eval exSol31) := by decide!

set_option maxRecDepth 100000 in
theorem exSol_feasible_31_rows4 : ∀ r ∈ exRows exP31 4, r.bnd.sat (r.eval exSol31) := by decide!

set_option maxRecDepth 100000 in
theorem exSol_feasible_31_rows5 : ∀ r ∈ exRows exP31 5, r.bnd.sat (r.eval exSol31) := by decide!

theorem exSol_feasible_31_cols : ∀ c ∈ exP31.cols, c.bnd.sat (exSol31 c.name) := by decide!

theorem exSol_feasible_31_groups : ∀ r ∈ exP31.rows, exChunk r < 6 := by decide!

theorem exSol_feasible_31 : Feasible exP31 exSol31 := by
  refine feasible_of_groups _ _ 6 exSol_feasible_31_groups ?_ exSol_feasible_31_cols
  intro k hk
  interval_cases k
  · exact exSol_feasible_31_rows0
  · exact exSol_feasible_31_rows1
  · exact exSol_feasible_31_rows2
  · exact exSol_feasible_31_rows3
  · exact exSol_feasible_31_rows4
  · exact exSol_feasible_31_rows5

theorem exGrid_nodup_31 : ((exGrid 3 1).getNds.map GridNode.getId).Nodup := by decide!

theorem exGrid_ports_31 : ∀ n ∈ (exGrid 3 1).getNds, n.isSink = true →
    ∀ a b, a < 8 → b < 8 → n.getPort a = n.getPort b → a = b := by
  intro n hn _ a b _ _ hab
  simp only [exGrid, exNodes, List.mem_flatMap, List.mem_range, List.mem_cons,
    List.mem_map] at hn
  obtain ⟨y, -, x, -, hn | ⟨q, -, hn⟩⟩ := hn
  · rw [hn] at hab
    simp only [exSink] at hab
    omega
  · rw [← hn] at hab
    simp only [exPort] at hab
    rename_i hs _ _
    rw [← hn] at hs
    simp [exPort] at hs

theorem exGrid_ports_21 : ∀ n ∈ (exGrid 2 1).getNds, n.isSink = true →
    (∀ a b, a < 8 → b < 8 → n.getPort a = n.getPort b → a = b) ∧
    ∀ a, a < 8 → n.getPort a ≠ n.getId := by
  intro n hn hs
  simp only [exGrid, exNodes, List.mem_flatMap, List.mem_range, List.mem_cons,
    List.mem_map] at hn
  obtain ⟨y, -, x, -, hn | ⟨q, -, hn⟩⟩ := hn
  · rw [hn]
    simp only [exSink]
    constructor
    · intro a b _ _ hab; omega
    · intro a _; omega
  · rw [← hn] at hs
    simp [exPort] at hs

theorem exProblem_eq_22 : createProblem (exGrid 2 2) exComb none 1 exDist22 = some exP22 := by
  have h : (createProblem (exGrid 2 2) exComb none 1 exDist22).isSome = true := by decide!
  unfold exP22
  revert h
  cases createProblem (exGrid 2 2) exComb none 1 exDist22 <;> simp

theorem exGrid_nodup_22 : ((exGrid 2 2).getNds.map GridNode.getId).Nodup := by decide!

theorem exSink18_mem : exSink18 ∈ (exGrid 2 2).getNds := by
  simp [exGrid, exNodes, exSink18, List.range, List.range.loop]

theorem exPath_eq : createProblem (exGrid 3 1) exPath none 1 exDist = some exPathP := by
  have h : (createProblem (exGrid 3 1) exPath none 1 exDist).isSome = true := by decide!
  unfold exPathP
  revert h
  cases createProblem (exGrid 3 1) exPath none 1 exDist <;> simp


theorem exPath_nodup : (exPath.getNds.map CombNode.id).Nodup := by decide

theorem exPath_adj_nodup : ∀ nd ∈ exPath.getNds, (nd.getAdjList.map CombEdge.id).Nodup := by
  decide

theorem exMid_mem : exMid ∈ exPath.getNds := by decide

theorem exStar_eq : createProblem (exGrid 2 2) exStar none 1 exDist = some exStarP := by
  have h : (createProblem (exGrid 2 2) exStar none 1 exDist).isSome = true := by decide!
  unfold exStarP
  revert h
  cases createProblem (exGrid 2 2) exStar none 1 exDist <;> simp

theorem exStar_nodup : (exStar.getNds.map CombNode.id).Nodup := by decide

theorem exStar_order : ∀ nd ∈ exStar.getNds, nd.getOrderedSet.length = nd.getDeg := by
  decide

theorem exStar_inj : ∀ nd ∈ exStar.getNds, ∀ e ∈ nd.getAdjList, ∀ nd2 ∈ exStar.getNds,
    ∀ e2 ∈ nd2.getAdjList, e.id = e2.id → e = e2 := by
  decide

theorem exCentre_mem : exCentre ∈ exStar.getNds := by decide

theorem exSink9_mem : exSink9 ∈ (exGrid 3 1).getNds := by
  simp [exGrid, exNodes, exSink9, List.range, List.range.loop]

theorem exComb_nodup : (exComb.getNds.map CombNode.id).Nodup := by decide

theorem exGrid_nodup_21 : ((exGrid 2 1).getNds.map GridNode.getId).Nodup := by decide!

/-! ### getOrdering -/

theorem mem_pqPush {lt : Nat → Nat → Bool} {x y : Nat} :
    ∀ {q : List Nat}, y ∈ pqPush lt x q ↔ y = x ∨ y ∈ q
  | [] => by simp [pqPush]
  | z :: q => by
    unfold pqPush
    split
    · simp
    · simp only [List.mem_cons, mem_pqPush (q := q)]
      tauto

theorem length_pqPush {lt : Nat → Nat → Bool} {x : Nat} :
    ∀ {q : List Nat}, (pqPush lt x q).length = q.length + 1
  | [] => by simp [pqPush]
  | z :: q => by
    unfold pqPush
    split
    · simp
    · simp [length_pqPush (q := q)]

theorem mem_foldl_pqPush {lt : Nat → Nat → Bool} {y : Nat} :
    ∀ {nds : List CombNode} {q : List Nat},
      y ∈ nds.foldl (fun q nd => pqPush lt nd.id q) q ↔ (∃ nd ∈ nds, nd.id = y) ∨ y ∈ q
  | [], q => by simp
  | nd :: nds, q => by
    rw [List.foldl_cons, @mem_foldl_pqPush _ _ nds _, mem_pqPush]
    simp only [List.mem_cons, exists_eq_or_imp]
    constructor
    · rintro (h | h | h)
      · exact Or.inl (Or.inr h)
      · exact Or.inl (Or.inl h.symm)
      · exact Or.inr h
    · rintro ((h | h) | h)
      · exact Or.inr (Or.inl h.symm)
      · exact Or.inl h
      · exact Or.inr (Or.inr h)

theorem find?_id {nd : CombNode} : ∀ {l : List CombNode}, (l.map CombNode.id).Nodup →
    nd ∈ l → l.find? (fun m => m.id == nd.id) = some nd
  | [], _, hnd => by simp at hnd
  | m :: l, hids, hnd => by
    rw [List.map_cons, List.nodup_cons] at hids
    rw [List.find?_cons]
    by_cases hm : m.id = nd.id
    · simp only [hm, beq_self_eq_true]
      rcases List.mem_cons.1 hnd with rfl | h
      · rfl
      · exact absurd (hm ▸ List.mem_map_of_mem CombNode.id h) hids.1
    · have hb : (m.id == nd.id) = false := by simpa using hm
      simp only [hb]
      rcases List.mem_cons.1 hnd with rfl | h
      · exact absurd rfl hm
      · exact find?_id hids.2 h

theorem findNd_some {cg : CombGraph} (hids : (cg.getNds.map CombNode.id).Nodup)
    {nd : CombNode} (hnd : nd ∈ cg.getNds) : findNd cg nd.id = some nd :=
  find?_id hids hnd

/-- Number of ordering entries not yet emitted. -/
theorem countP_done_cons {L : List CombEdge} (hL : L.Nodup) {done : List CombEdge}
    {ee : CombEdge} (hee : ee ∈ L) (hnd : ee ∉ done) :
    L.countP (fun e => !(ee :: done).contains e) + 1 =
      L.countP (fun e => !done.contains e) := by
  induction L with
  | nil => simp at hee
  | cons x L ih =>
    rw [List.nodup_cons] at hL
    rw [List.countP_cons, List.countP_cons]
    by_cases hx : x = ee
    · subst hx
      have h1 : L.countP (fun e => !(x :: done).contains e) =
          L.countP (fun e => !done.contains e) := by
        apply List.countP_congr
        intro e he
        have hne : e ≠ x := fun h => hL.1 (h ▸ he)
        simp [hne]
      rw [h1]
      simp [hnd]
    · have hm : ee ∈ L := by
        rcases List.mem_cons.1 hee with h | h
        · exact absurd h.symm hx
        · exact h
      have := ih hL.2 hm
      have h2 : (!(ee :: done).contains x) = (!done.contains x) := by
        simp [hx]
      rw [h2]
      omega

theorem emitStep_spec {cg : CombGraph} {lt : Nat → Nat → Bool} {nd : CombNode}
    (hnd : nd ∈ cg.getNds)
    (hends : ∀ nd ∈ cg.getNds, ∀ e ∈ nd.getOrderedSet,
      ∃ m ∈ cg.getNds, m.id = e.getOtherNd nd.id)
    {st : OrdState} {ee : CombEdge} (hee : ee ∈ nd.getOrderedSet) (hinv : OrdInv cg st) :
    OrdInv cg (emitStep lt nd.id st ee) ∧
    (emitStep lt nd.id st ee).settled = st.settled ∧
    (emitStep lt nd.id st ee).shuffles = st.shuffles ∧
    (∀ e ∈ st.done, e ∈ (emitStep lt nd.id st ee).done) ∧
    ee ∈ (emitStep lt nd.id st ee).done ∧
    ordMeasure cg (emitStep lt nd.id st ee) ≤ ordMeasure cg st := by
  obtain ⟨h1, h2, h3, h4, h5⟩ := hinv
  unfold emitStep
  by_cases hd : st.done.contains ee = true
  · rw [if_pos hd]
    refine ⟨⟨h1, h2, h3, h4, h5⟩, rfl, rfl, fun e he => he, ?_, le_refl _⟩
    simpa using hd
  · rw [if_neg hd]
    have hd' : ee ∉ st.done := by simpa using hd
    have hU : ee ∈ allOrdered cg := List.mem_flatMap.2 ⟨nd, hnd, hee⟩
    refine ⟨⟨?_, ?_, ?_, ?_, ?_⟩, rfl, rfl, fun e he => List.mem_cons_of_mem _ he,
      List.mem_cons_self _ _, ?_⟩
    · show (st.order ++ [ee]).Nodup
      rw [List.nodup_append]
      refine ⟨h1, List.nodup_singleton _, ?_⟩
      intro a ha hb
      rw [List.mem_singleton] at hb
      subst hb
      exact hd' ((h2 a).1 ha)
    · intro e
      show e ∈ st.order ++ [ee] ↔ e ∈ ee :: st.done
      rw [List.mem_append, List.mem_singleton, List.mem_cons, h2 e]
      tauto
    · intro e he
      rcases List.mem_cons.1 he with rfl | he
      · exact hU
      · exact h3 e he
    · intro n hn
      rcases mem_pqPush.1 hn with rfl | hn
      · exact hends nd hnd ee hee
      · exact h4 n hn
    · intro m hm hs e he
      exact List.mem_cons_of_mem _ (h5 m hm hs e he)
    · show (pqPush lt (ee.getOtherNd nd.id) st.dangling).length +
          (allOrdered cg).dedup.countP (fun e => !(ee :: st.done).contains e) ≤
        st.dangling.length + (allOrdered cg).dedup.countP (fun e => !st.done.contains e)
      have := countP_done_cons (List.nodup_dedup (allOrdered cg))
        (List.mem_dedup.2 hU) hd'
      rw [length_pqPush]
      omega

theorem emitFold_spec {cg : CombGraph} {lt : Nat → Nat → Bool} {nd : CombNode}
    (hnd : nd ∈ cg.getNds)
    (hends : ∀ nd ∈ cg.getNds, ∀ e ∈ nd.getOrderedSet,
      ∃ m ∈ cg.getNds, m.id = e.getOtherNd nd.id) :
    ∀ (l : List CombEdge) (st : OrdState), (∀ ee ∈ l, ee ∈ nd.getOrderedSet) → OrdInv cg st →
      OrdInv cg (l.foldl (emitStep lt nd.id) st) ∧
      (l.foldl (emitStep lt nd.id) st).settled = st.settled ∧
      (∀ e ∈ st.done, e ∈ (l.foldl (emitStep lt nd.id) st).done) ∧
      (∀ ee ∈ l, ee ∈ (l.foldl (emitStep lt nd.id) st).done) ∧
      ordMeasure cg (l.foldl (emitStep lt nd.id) st) ≤ ordMeasure cg st
  | [], st, _, hinv => ⟨hinv, rfl, fun e he => he, by simp, le_refl _⟩
  | ee :: l, st, hl, hinv => by
    obtain ⟨i1, s1, -, d1, m1, le1⟩ :=
      @emitStep_spec _ lt _ hnd hends _ _ (hl ee (List.mem_cons_self _ _)) hinv
    obtain ⟨i2, s2, d2, m2, le2⟩ := emitFold_spec hnd hends l (emitStep lt nd.id st ee)
      (fun e he => hl e (List.mem_cons_of_mem _ he)) i1
    rw [List.foldl_cons]
    refine ⟨i2, s2.trans s1, fun e he => d2 e (d1 e he), ?_, le_trans le2 le1⟩
    intro e he
    rcases List.mem_cons.1 he with rfl | he
    · exact d2 _ m1
    · exact m2 e he

theorem eq_of_id_eq {cg : CombGraph} (hids : (cg.getNds.map CombNode.id).Nodup)
    {a b : CombNode} (ha : a ∈ cg.getNds) (hb : b ∈ cg.getNds) (h : a.id = b.id) : a = b := by
  have h1 := findNd_some hids ha
  have h2 := findNd_some hids hb
  rw [h, h2] at h1
  exact (Option.some.inj h1).symm

theorem emitFold_dangling {lt : Nat → Nat → Bool} {n m : Nat} :
    ∀ (l : List CombEdge) (st : OrdState), m ∈ st.dangling →
      m ∈ (l.foldl (emitStep lt n) st).dangling
  | [], _, h => h
  | ee :: l, st, h => by
    rw [List.foldl_cons]
    apply emitFold_dangling l
    unfold emitStep
    split
    · exact h
    · exact mem_pqPush.2 (Or.inr h)

theorem danglingLoop_spec {cg : CombGraph} {lt : Nat → Nat → Bool}
    {shuffle : Nat → List CombEdge → List CombEdge}
    (hsh : ∀ k l, (shuffle k l).Perm l)
    (hids : (cg.getNds.map CombNode.id).Nodup)
    (hends : ∀ nd ∈ cg.getNds, ∀ e ∈ nd.getOrderedSet,
      ∃ m ∈ cg.getNds, m.id = e.getOtherNd nd.id) :
    ∀ (fuel : Nat) (st : OrdState), OrdInv cg st → ordMeasure cg st < fuel →
      ∃ st1, danglingLoop cg lt shuffle fuel st = some st1 ∧ OrdInv cg st1 ∧
        st1.dangling = [] ∧ (∀ n ∈ st.dangling, n ∈ st1.settled) ∧
        (∀ n ∈ st.settled, n ∈ st1.settled)
  | 0, st, _, hm => absurd hm (Nat.not_lt_zero _)
  | fuel + 1, st, hinv, hm => by
    unfold danglingLoop
    cases hd : st.dangling with
    | nil => exact ⟨st, rfl, hinv, hd, by simp, fun n hn => hn⟩
    | cons n rest =>
      obtain ⟨h1, h2, h3, h4, h5⟩ := hinv
      have hmeas : ordMeasure cg { st with dangling := rest } + 1 = ordMeasure cg st := by
        simp only [ordMeasure, hd, List.length_cons]
        omega
      have hinv0 : OrdInv cg { st with dangling := rest } :=
        ⟨h1, h2, h3, fun m hmem => h4 m (by rw [hd]; exact List.mem_cons_of_mem _ hmem), h5⟩
      simp only
      by_cases hs : st.settled.contains n = true
      · rw [if_pos hs]
        obtain ⟨st1, e1, i1, d1, a1, b1⟩ := danglingLoop_spec hsh hids hends fuel
          { st with dangling := rest } hinv0 (by omega)
        refine ⟨st1, e1, i1, d1, ?_, b1⟩
        intro m hmem
        rcases List.mem_cons.1 hmem with rfl | hmem
        · exact b1 m (by simpa using hs)
        · exact a1 m hmem
      · rw [if_neg hs]
        obtain ⟨nd, hnd, rfl⟩ := h4 n (by rw [hd]; exact List.mem_cons_self _ _)
        rw [findNd_some hids hnd]
        simp only
        have hinv1 : OrdInv cg { st with dangling := rest, shuffles := st.shuffles + 1 } :=
          hinv0
        have hperm := hsh st.shuffles nd.getOrderedSet
        obtain ⟨i2, s2, d2, m2, le2⟩ := @emitFold_spec _ lt _ hnd hends
          (shuffle st.shuffles nd.getOrderedSet)
          { st with dangling := rest, shuffles := st.shuffles + 1 }
          (fun e he => hperm.mem_iff.1 he) hinv1
        obtain ⟨j1, j2, j3, j4, j5⟩ := i2
        have hinv3 : OrdInv cg
            { (List.foldl (emitStep lt nd.id)
                { st with dangling := rest, shuffles := st.shuffles + 1 }
                (shuffle st.shuffles nd.getOrderedSet)) with
              settled := nd.id :: (List.foldl (emitStep lt nd.id)
                { st with dangling := rest, shuffles := st.shuffles + 1 }
                (shuffle st.shuffles nd.getOrderedSet)).settled } := by
          refine ⟨j1, j2, j3, j4, ?_⟩
          intro m hmn hmem e he
          rcases List.mem_cons.1 hmem with hmem | hmem
          · have : m = nd := eq_of_id_eq hids hmn hnd hmem
            subst this
            exact m2 e (hperm.mem_iff.2 he)
          · exact j5 m hmn hmem e he
        have hmeas3 : ordMeasure cg
            { (List.foldl (emitStep lt nd.id)
                { st with dangling := rest, shuffles := st.shuffles + 1 }
                (shuffle st.shuffles nd.getOrderedSet)) with
              settled := nd.id :: (List.foldl (emitStep lt nd.id)
                { st with dangling := rest, shuffles := st.shuffles + 1 }
                (shuffle st.shuffles nd.getOrderedSet)).settled } < fuel := by
          have e0 : ordMeasure cg { st with dangling := rest, shuffles := st.shuffles + 1 } =
              ordMeasure cg { st with dangling := rest } := rfl
          have : ordMeasure cg
            { (List.foldl (emitStep lt nd.id)
                { st with dangling := rest, shuffles := st.shuffles + 1 }
                (shuffle st.shuffles nd.getOrderedSet)) with
              settled := nd.id :: (List.foldl (emitStep lt nd.id)
                { st with dangling := rest, shuffles := st.shuffles + 1 }
                (shuffle st.shuffles nd.getOrderedSet)).settled } =
            ordMeasure cg (List.foldl (emitStep lt nd.id)
                { st with dangling := rest, shuffles := st.shuffles + 1 }
                (shuffle st.shuffles nd.getOrderedSet)) := rfl
          omega
        obtain ⟨st1, e1, i1, d1, a1, b1⟩ := danglingLoop_spec hsh hids hends fuel _ hinv3 hmeas3
        refine ⟨st1, e1, i1, d1, ?_, ?_⟩
        · intro m hmem
          rcases List.mem_cons.1 hmem with rfl | hmem
          · exact b1 _ (List.mem_cons_self _ _)
          · exact a1 m (emitFold_dangling _ _ hmem)
        · intro m hmem
          exact b1 m (List.mem_cons_of_mem _ (by rw [s2]; exact hmem))

theorem globalLoop_spec {cg : CombGraph} {lt : Nat → Nat → Bool}
    {shuffle : Nat → List CombEdge → List CombEdge}
    (hsh : ∀ k l, (shuffle k l).Perm l)
    (hids : (cg.getNds.map CombNode.id).Nodup)
    (hends : ∀ nd ∈ cg.getNds, ∀ e ∈ nd.getOrderedSet,
      ∃ m ∈ cg.getNds, m.id = e.getOtherNd nd.id) :
    ∀ (q : List Nat) (st : OrdState), OrdInv cg st → st.dangling = [] →
      (∀ n ∈ q, ∃ nd ∈ cg.getNds, nd.id = n) →
      ∃ st1, globalLoop cg lt shuffle ((allOrdered cg).length + 2) q st = some st1 ∧
        OrdInv cg st1 ∧ st1.dangling = [] ∧ (∀ n ∈ q, n ∈ st1.settled) ∧
        (∀ n ∈ st.settled, n ∈ st1.settled)
  | [], st, hinv, hd, _ => ⟨st, rfl, hinv, hd, by simp, fun n hn => hn⟩
  | n :: q, st, hinv, hd, hq => by
    unfold globalLoop
    obtain ⟨h1, h2, h3, h4, h5⟩ := hinv
    have hinv0 : OrdInv cg { st with dangling := pqPush lt n st.dangling } := by
      refine ⟨h1, h2, h3, ?_, h5⟩
      intro m hm
      rcases mem_pqPush.1 hm with rfl | hm
      · exact hq m (List.mem_cons_self _ _)
      · exact h4 m hm
    have hmeas : ordMeasure cg { st with dangling := pqPush lt n st.dangling } <
        (allOrdered cg).length + 2 := by
      simp only [ordMeasure, hd, pqPush, List.length_singleton]
      have a1 := List.countP_le_length (fun e => !st.done.contains e)
        (l := (allOrdered cg).dedup)
      have a2 := (List.dedup_sublist (allOrdered cg)).length_le
      omega
    obtain ⟨st1, e1, i1, d1, a1, b1⟩ :=
      @danglingLoop_spec _ lt _ hsh hids hends _ _ hinv0 hmeas
    rw [e1]
    simp only
    obtain ⟨st2, e2, i2, d2, a2, b2⟩ := globalLoop_spec hsh hids hends q st1 i1 d1
      (fun m hm => hq m (List.mem_cons_of_mem _ hm))
    refine ⟨st2, e2, i2, d2, ?_, fun m hm => b2 m (b1 m hm)⟩
    intro m hm
    rcases List.mem_cons.1 hm with rfl | hm
    · exact b2 m (a1 m (mem_pqPush.2 (Or.inl rfl)))
    · exact a2 m hm

/-! ### The retry phase -/

section LocalSearch

variable {D S : Type} {ops : LocalOps D S}

theorem revertEdges_some
    (herase : ∀ d ce ce2, ce2 ≠ ce → ops.drawn d ce2 = true →
      ops.drawn (ops.eraseEdg d ce) ce2 = true) :
    ∀ (l : List CombEdge) (s : S) (cp : D) (test : List CombEdge), l.Nodup →
      (∀ ce ∈ l, ops.drawn cp ce = true) →
      ∃ s1, revertEdges ops l (s, cp, test) = some (s1, l.foldl ops.eraseEdg cp, test ++ l)
  | [], s, cp, test, _, _ => ⟨s, by simp [revertEdges]⟩
  | ce :: rest, s, cp, test, hnd, hdr => by
    obtain ⟨hnot, hnd2⟩ := List.nodup_cons.1 hnd
    obtain ⟨s1, h⟩ := revertEdges_some herase rest (ops.eraseFromGrid s cp ce)
      (ops.eraseEdg cp ce) (test ++ [ce]) hnd2
      (fun ce2 h2 => herase cp ce ce2 (fun e => hnot (e ▸ h2))
        (hdr ce2 (List.mem_cons_of_mem _ h2)))
    refine ⟨s1, ?_⟩
    rw [revertEdges, if_pos (hdr ce (List.mem_cons_self _ _)), h]
    simp

theorem posStep_calls (a : CombNode) (x y : Nat) (cp : D) (test : List CombEdge)
    (st : IterState D S) (pos : Nat) :
    ∃ c : TryCall D, (posStep ops a x y cp test st pos).calls = st.calls ++ [c] ∧
      c.node = a.id ∧ c.test = test ∧ c.pos = forcedPos x y pos ∧
      ∃ s, c.found = (ops.draw s test c.pos a cp).1.1 ∧
        c.run = (ops.draw s test c.pos a cp).1.2 :=
  ⟨_, rfl, rfl, rfl, rfl, st.grid, rfl, rfl⟩

theorem posStep_inv {start : D} (a : CombNode) (x y : Nat) (cp : D) (test : List CombEdge)
    (st : IterState D S) (pos : Nat) (h : BestInv ops start st.best st.calls) :
    BestInv ops start (posStep ops a x y cp test st pos).best
      (posStep ops a x y cp test st pos).calls := by
  obtain ⟨h1, h2, h3⟩ := h
  simp only [posStep]
  by_cases hc : ((ops.draw st.grid test (forcedPos x y pos) a cp).1.1 &&
      decide (ops.score st.best > ops.score (ops.draw st.grid test (forcedPos x y pos) a cp).1.2))
        = true
  · rw [if_pos hc]
    simp only [Bool.and_eq_true, decide_eq_true_eq, gt_iff_lt] at hc
    refine ⟨le_of_lt (lt_of_lt_of_le hc.2 h1), Or.inr ⟨st.calls, _, [], rfl, hc.1, rfl,
      lt_of_lt_of_le hc.2 h1, fun c2 hc2 hf2 => lt_of_lt_of_le hc.2 (h3 c2 hc2 hf2)⟩, ?_⟩
    intro c hmem hf
    rcases List.mem_append.1 hmem with hmem | hmem
    · exact le_trans (le_of_lt hc.2) (h3 c hmem hf)
    · rw [List.mem_singleton] at hmem
      subst hmem
      exact le_refl _
  · rw [if_neg hc]
    refine ⟨h1, ?_, ?_⟩
    · rcases h2 with h2 | ⟨pre, c, post, hsplit, hf, he, hl, hpre⟩
      · exact Or.inl h2
      · exact Or.inr ⟨pre, c, post ++ [⟨a.id, test, forcedPos x y pos,
          (ops.draw st.grid test (forcedPos x y pos) a cp).1.1,
          (ops.draw st.grid test (forcedPos x y pos) a cp).1.2⟩],
          by rw [hsplit]; simp, hf, he, hl, hpre⟩
    · intro c hmem hf
      rcases List.mem_append.1 hmem with hmem | hmem
      · exact h3 c hmem hf
      · rw [List.mem_singleton] at hmem
        subst hmem
        simp only [Bool.and_eq_true, decide_eq_true_eq, gt_iff_lt, not_and, not_lt] at hc
        exact hc hf

theorem posFold_spec {start : D} (a : CombNode) (x y : Nat) (cp : D) (test : List CombEdge) :
    ∀ (l : List Nat) (st : IterState D S),
      (BestInv ops start st.best st.calls →
        BestInv ops start (l.foldl (posStep ops a x y cp test) st).best
          (l.foldl (posStep ops a x y cp test) st).calls) ∧
      ∃ new : List (TryCall D),
        (l.foldl (posStep ops a x y cp test) st).calls = st.calls ++ new ∧
        new.map (fun c => (c.node, c.test, c.pos)) =
          l.map (fun pos => (a.id, test, forcedPos x y pos)) ∧
        ∀ c ∈ new, ∃ s, c.found = (ops.draw s test c.pos a cp).1.1 ∧
          c.run = (ops.draw s test c.pos a cp).1.2
  | [], st => ⟨fun h => h, [], by simp, rfl, by simp⟩
  | pos :: l, st => by
    obtain ⟨c, hc, c1, c2, c3, c4⟩ := @posStep_calls _ _ ops a x y cp test st pos
    obtain ⟨i1, new, hnew, hmap, hrun⟩ := @posFold_spec start a x y cp test l
      (posStep ops a x y cp test st pos)
    rw [List.foldl_cons]
    refine ⟨fun h => i1 (posStep_inv a x y cp test st pos h), c :: new, ?_, ?_, ?_⟩
    · rw [hnew, hc, List.append_assoc, List.singleton_append]
    · rw [List.map_cons, List.map_cons, hmap, c1, c2, c3]
    · intro c2 hc2
      rcases List.mem_cons.1 hc2 with rfl | hc2
      · exact c4
      · exact hrun c2 hc2

end LocalSearch

section LocalSearch2

variable {D S : Type} {ops : LocalOps D S}

theorem nodeStep_skip (drawing : D) (st : IterState D S) (a : CombNode)
    (hdeg : a.getDeg = 0) : nodeStep ops drawing st a = some st := by
  rw [nodeStep, if_pos hdeg]

theorem nodeStep_spec
    (herase : ∀ d ce ce2, ce2 ≠ ce → ops.drawn d ce2 = true →
      ops.drawn (ops.eraseEdg d ce) ce2 = true)
    (drawing : D) (st : IterState D S) (a : CombNode) (x y : Nat) (hdeg : a.getDeg ≠ 0)
    (hxy : ops.getGrNd drawing a.id = some (x, y)) (hnodup : a.getAdjList.Nodup)
    (hdrawn : ∀ ce ∈ a.getAdjList, ops.drawn drawing ce = true) :
    ∃ (st1 : IterState D S) (new : List (TryCall D)),
      nodeStep ops drawing st a = some st1 ∧
      (BestInv ops drawing st.best st.calls → BestInv ops drawing st1.best st1.calls) ∧
      st1.calls = st.calls ++ new ∧
      new.map (fun c => (c.node, c.test, c.pos)) =
        (List.range 9).map (fun pos => (a.id, a.getAdjList, forcedPos x y pos)) ∧
      ∀ c ∈ new, ∃ s,
        c.found = (ops.draw s a.getAdjList c.pos a
          (ops.eraseNd (a.getAdjList.foldl ops.eraseEdg drawing) a.id)).1.1 ∧
        c.run = (ops.draw s a.getAdjList c.pos a
          (ops.eraseNd (a.getAdjList.foldl ops.eraseEdg drawing) a.id)).1.2 := by
  obtain ⟨s1, hrev⟩ := revertEdges_some herase a.getAdjList st.grid drawing [] hnodup hdrawn
  rw [List.nil_append] at hrev
  obtain ⟨i1, new, hnew, hmap, hrun⟩ := @posFold_spec _ _ ops drawing a x y
    (ops.eraseNd (a.getAdjList.foldl ops.eraseEdg drawing) a.id) a.getAdjList (List.range 9)
    { st with grid := ops.unSettleNd s1 a.id }
  rw [nodeStep, if_neg hdeg, hxy]
  simp only [hrev]
  exact ⟨_, new, rfl, i1, hnew, hmap, hrun⟩

theorem nodeLoop_spec (cg : CombGraph)
    (herase : ∀ d ce ce2, ce2 ≠ ce → ops.drawn d ce2 = true →
      ops.drawn (ops.eraseEdg d ce) ce2 = true)
    (hnodup : ∀ a ∈ cg.getNds, a.getAdjList.Nodup)
    (drawing : D) (hcomp : Complete ops cg drawing)
    (hdraw : ∀ a ∈ cg.getNds, ∀ s p,
      (ops.draw s a.getAdjList p a
        (ops.eraseNd (a.getAdjList.foldl ops.eraseEdg drawing) a.id)).1.1 = true →
      Complete ops cg (ops.draw s a.getAdjList p a
        (ops.eraseNd (a.getAdjList.foldl ops.eraseEdg drawing) a.id)).1.2) :
    ∀ (nds : List CombNode) (st : IterState D S),
      (∀ a ∈ nds, a ∈ cg.getNds) →
      BestInv ops drawing st.best st.calls →
      (∀ c ∈ st.calls, c.found = true → Complete ops cg c.run) →
      ∃ st1, nodeLoop ops drawing nds st = some st1 ∧
        BestInv ops drawing st1.best st1.calls ∧
        ∀ c ∈ st1.calls, c.found = true → Complete ops cg c.run
  | [], st, _, h, hc => ⟨st, rfl, h, hc⟩
  | a :: nds, st, hsub, h, hc => by
    have ha : a ∈ cg.getNds := hsub a (List.mem_cons_self _ _)
    by_cases hdeg : a.getDeg = 0
    · obtain ⟨st2, e2, i2⟩ := nodeLoop_spec cg herase hnodup drawing hcomp hdraw nds st
        (fun b hb => hsub b (List.mem_cons_of_mem _ hb)) h hc
      exact ⟨st2, by rw [nodeLoop, nodeStep_skip drawing st a hdeg]; exact e2, i2⟩
    · obtain ⟨hsome, hdrawn⟩ := hcomp a ha hdeg
      obtain ⟨⟨x, y⟩, hxy⟩ := Option.isSome_iff_exists.1 hsome
      obtain ⟨st1, new, e1, i1, hcalls, -, hrun⟩ :=
        nodeStep_spec herase drawing st a x y hdeg hxy (hnodup a ha) hdrawn
      have hc1 : ∀ c ∈ st1.calls, c.found = true → Complete ops cg c.run := by
        intro c hmem hf
        rw [hcalls] at hmem
        rcases List.mem_append.1 hmem with hmem | hmem
        · exact hc c hmem hf
        · obtain ⟨s, e3, e4⟩ := hrun c hmem
          rw [e4]
          rw [e3] at hf
          exact hdraw a ha s c.pos hf
      obtain ⟨st2, e2, i2⟩ := nodeLoop_spec cg herase hnodup drawing hcomp hdraw nds st1
        (fun b hb => hsub b (List.mem_cons_of_mem _ hb)) (i1 h) hc1
      exact ⟨st2, by rw [nodeLoop, e1]; exact e2, i2⟩

theorem bestInv_init (drawing : D) : BestInv ops drawing drawing [] :=
  ⟨le_refl _, Or.inl rfl, by simp⟩

theorem localSearchLoop_spec (cg : CombGraph)
    (herase : ∀ d ce ce2, ce2 ≠ ce → ops.drawn d ce2 = true →
      ops.drawn (ops.eraseEdg d ce) ce2 = true)
    (hnodup : ∀ a ∈ cg.getNds, a.getAdjList.Nodup)
    (hdraw : ∀ d, Complete ops cg d → ∀ a ∈ cg.getNds, ∀ s p,
      (ops.draw s a.getAdjList p a
        (ops.eraseNd (a.getAdjList.foldl ops.eraseEdg d) a.id)).1.1 = true →
      Complete ops cg (ops.draw s a.getAdjList p a
        (ops.eraseNd (a.getAdjList.foldl ops.eraseEdg d) a.id)).1.2) :
    ∀ (k : Nat) (d : D) (s : S), Complete ops cg d →
      ∃ recs final sf, localSearchLoop ops cg k d s = some (recs, final, sf) ∧
        recs.length ≤ k ∧
        (∀ r ∈ recs, BestInv ops r.start r.best r.calls) ∧
        (∀ r, recs.head? = some r → r.start = d) ∧
        recs.Chain' (fun r r2 => 1 / 20 ≤ ops.score r.start - ops.score r.best ∧
          r2.start = r.best) ∧
        (match recs.getLast? with
          | none => final = d
          | some r =>
            (ops.score r.start - ops.score r.best < 1 / 20 ∧ final = r.start) ∨
            (recs.length = k ∧ 1 / 20 ≤ ops.score r.start - ops.score r.best ∧
              final = r.best)) ∧
        ops.score final ≤ ops.score d ∧ (0 < k → recs ≠ []) ∧ Complete ops cg final
  | 0, d, s, hcomp =>
    ⟨[], d, s, rfl, le_refl _, by simp, by simp, List.chain'_nil, rfl, le_refl _, by simp,
      hcomp⟩
  | k + 1, d, s, hcomp => by
    obtain ⟨st, est, ist, hgood⟩ := nodeLoop_spec cg herase hnodup d hcomp (hdraw d hcomp)
      cg.getNds ⟨s, d, []⟩ (fun a ha => ha) (bestInv_init d) (by simp)
    have hbest : Complete ops cg st.best := by
      rcases ist.2.1 with e | ⟨pre, c, post, hsplit, hf, e, -, -⟩
      · rw [e]; exact hcomp
      · rw [e]
        exact hgood c (by rw [hsplit]; simp) hf
    by_cases himp : ops.score d - ops.score st.best < 1 / 20
    · refine ⟨[⟨d, st.best, st.calls⟩], d, st.grid, ?_, by simp, ?_, ?_,
        List.chain'_singleton _, ?_, le_refl _, by simp, hcomp⟩
      · rw [localSearchLoop, est]
        simp only [if_pos himp]
      · intro r hr
        rw [List.mem_singleton] at hr
        subst hr
        exact ist
      · intro r hr
        simp only [List.head?_cons, Option.some.injEq] at hr
        subst hr
        rfl
      · rw [List.getLast?_singleton]
        exact Or.inl ⟨himp, rfl⟩
    · obtain ⟨recs, final, sf, e1, hlen, hinv, hhead, hchain, hlast, hfin, hne, hcf⟩ :=
        localSearchLoop_spec cg herase hnodup hdraw k st.best
          (ops.applyAllToGrid (ops.eraseAllFromGrid st.grid d) st.best) hbest
      have himp2 : 1 / 20 ≤ ops.score d - ops.score st.best := not_lt.1 himp
      refine ⟨⟨d, st.best, st.calls⟩ :: recs, final, sf, ?_, ?_, ?_, ?_, ?_, ?_, ?_, by simp,
        hcf⟩
      · rw [localSearchLoop, est]
        simp only [if_neg himp, e1]
      · simp only [List.length_cons]
        omega
      · intro r hr
        rcases List.mem_cons.1 hr with rfl | hr
        · exact ist
        · exact hinv r hr
      · intro r hr
        simp only [List.head?_cons, Option.some.injEq] at hr
        subst hr
        rfl
      · rw [List.chain'_cons']
        refine ⟨?_, hchain⟩
        intro r hr
        exact ⟨himp2, hhead r hr⟩
      · cases recs with
        | nil =>
          simp only [List.getLast?_nil] at hlast
          simp only [List.getLast?_singleton, List.length_singleton]
          have hk : k = 0 := by
            by_contra hk
            exact hne (Nat.pos_of_ne_zero hk) rfl
          subst hk
          exact Or.inr ⟨rfl, himp2, hlast⟩
        | cons r2 recs2 =>
          rw [List.getLast?_cons_cons]
          cases hl : (r2 :: recs2).getLast? with
          | none => simp at hl
          | some r =>
            rw [hl] at hlast
            simp only at hlast ⊢
            rcases hlast with h | ⟨h1, h2, h3⟩
            · exact Or.inl h
            · exact Or.inr ⟨by simp only [List.length_cons] at h1 ⊢; omega, h2, h3⟩
      · have := ist.1
        linarith

end LocalSearch2

/-! ### The example operations of the local search -/

theorem exLocalOps_erase (w h : Nat) (d : ExDrawing) (ce ce2 : CombEdge) (hne : ce2 ≠ ce)
    (hd : (exLocalOps w h).drawn d ce2 = true) :
    (exLocalOps w h).drawn ((exLocalOps w h).eraseEdg d ce) ce2 = true := by
  simp only [exLocalOps, decide_eq_true_eq, List.mem_filter] at hd ⊢
  exact ⟨hd, by simpa using hne⟩

theorem exLocalOps_foldl (w h : Nat) :
    ∀ (l : List CombEdge) (d : ExDrawing),
      l.foldl (exLocalOps w h).eraseEdg d =
        ⟨d.cells, d.edges.filter fun e => decide (e ∉ l)⟩
  | [], d => by simp
  | ce :: l, d => by
    rw [List.foldl_cons, exLocalOps_foldl w h l]
    simp only [exLocalOps, List.filter_filter, List.mem_cons, not_or]
    congr 1
    apply List.filter_congr
    intro e _
    by_cases h1 : e = ce <;> by_cases h2 : e ∈ l <;> simp [h1, h2]

theorem exLocalOps_draw (w h : Nat) (cg : CombGraph) (d : ExDrawing)
    (hcomp : Complete (exLocalOps w h) cg d) (a : CombNode) (s : Unit)
    (p : Option (Nat × Nat))
    (hf : ((exLocalOps w h).draw s a.getAdjList p a
      ((exLocalOps w h).eraseNd (a.getAdjList.foldl (exLocalOps w h).eraseEdg d) a.id)).1.1
        = true) :
    Complete (exLocalOps w h) cg ((exLocalOps w h).draw s a.getAdjList p a
      ((exLocalOps w h).eraseNd (a.getAdjList.foldl (exLocalOps w h).eraseEdg d) a.id)).1.2 := by
  rw [exLocalOps_foldl] at hf ⊢
  cases p with
  | none => simp [exLocalOps] at hf
  | some c =>
    simp only [exLocalOps] at hf ⊢
    split at hf
    · rename_i hcond
      rw [if_pos hcond]
      intro b hb hdeg
      obtain ⟨h1, h2⟩ := hcomp b hb hdeg
      have h1 : (d.getGrNd b.id).isSome = true := h1
      have h2 : ∀ ce ∈ b.getAdjList, decide (ce ∈ d.edges) = true := h2
      simp only [decide_eq_true_eq] at h2
      refine ⟨?_, ?_⟩
      · show (ExDrawing.getGrNd _ b.id).isSome = true
        rw [ExDrawing.getGrNd, Option.isSome_map', List.find?_isSome] at h1 ⊢
        obtain ⟨o, ho, hob⟩ := h1
        by_cases hab : a.id = b.id
        · exact ⟨(a.id, c), List.mem_cons_self _ _, by simp [hab]⟩
        · refine ⟨o, List.mem_cons_of_mem _ (List.mem_filter.2 ⟨ho, ?_⟩), hob⟩
          have : o.1 = b.id := by simpa using hob
          simp only [decide_eq_true_eq, this]
          exact fun e => hab e.symm
      · intro ce hce
        simp only [decide_eq_true_eq, List.mem_append, List.mem_filter]
        by_cases hmem : ce ∈ a.getAdjList
        · exact Or.inr hmem
        · exact Or.inl ⟨h2 ce hce, by simpa using hmem⟩
    · simp at hf

theorem exDrawing0_complete : Complete (exLocalOps 4 1) exComb exDrawing0 := by
  intro a ha _
  simp only [exComb, List.mem_cons, List.mem_singleton, List.not_mem_nil, or_false] at ha
  rcases ha with rfl | rfl <;> decide

/-! ### The nine forced positions -/

section DrawCalls

variable {G Dr C : Type} {ops : DrawOps G Dr C}

theorem writeNdCosts_calls (st : DrawState G Dr) (n nd : Nat) (e : CombEdge) :
    (writeNdCosts ops st n nd e).calls = st.calls ++ [.addCostVector n nd e] ∧
    (writeNdCosts ops st n nd e).drawing = st.drawing :=
  ⟨rfl, rfl⟩

end DrawCalls

section DrawLoop

variable {G Dr C : Type} {ops : DrawOps G Dr C}

theorem selectNodes_some {settled : Nat → Option (Nat × Nat)} {fuel : Nat} {g : G}
    {e : CombEdge} {sel : Selection} (h : selectNodes ops settled fuel g e = some (some sel)) :
    sel.reversed = (!ops.isSettled g e.getFrom && ops.isSettled g e.getTo) ∧
    sel.frCmbNd = (if sel.reversed then e.getTo else e.getFrom) ∧
    sel.toCmbNd = (if sel.reversed then e.getFrom else e.getTo) ∧
    sel.toGrNds ≠ [] ∧ sel.frGrNd ∉ sel.toGrNds := by
  unfold selectNodes at h
  simp only at h
  split at h
  · exact absurd h (by simp)
  · split at h
    · exact absurd h (by simp)
    · exact absurd h (by simp)
    · split at h
      · exact absurd h (by simp)
      · split at h
        · exact absurd h (by simp)
        · split at h
          · rename_i hlen hall
            simp only [Option.some.injEq] at h
            subst h
            simp only
            refine ⟨?_, ?_, ?_, ?_, ?_⟩
            · cases (!ops.isSettled g e.getFrom && ops.isSettled g e.getTo) <;> rfl
            · cases (!ops.isSettled g e.getFrom && ops.isSettled g e.getTo) <;> rfl
            · cases (!ops.isSettled g e.getFrom && ops.isSettled g e.getTo) <;> rfl
            · intro hnil
              exact hlen (by rw [hnil]; rfl)
            · intro hmem
              have := List.all_eq_true.1 hall _ hmem
              simp at this
          · exact absurd h (by simp)

end DrawLoop

theorem exDrawAfterB_eq :
    draw exDrawOps (fun _ => none) 3 [exEdgeB] exDrawStart = some (true, exDrawAfterB) := by
  decide!

/-! ### Contracting an edge of the line graph -/

section Contract

variable {P : Type}

theorem countP_addEdg_le (g : LineGraph P) (a b : Nat) (pl : P) (q : Nat → Nat → Bool) :
    (g.addEdg a b pl).1.edgs.countP (fun x => q x.getFrom x.getTo) ≤
      g.edgs.countP (fun x => q x.getFrom x.getTo) + (if q a b then 1 else 0) := by
  unfold LineGraph.addEdg
  split
  · exact Nat.le_add_right _ _
  · simp only [List.countP_append, List.countP_cons, List.countP_nil, Nat.zero_add]
    exact le_refl _

theorem countP_addEdg_eq (g : LineGraph P) (a b : Nat) (pl : P) (q : Nat → Nat → Bool)
    (hq : q a b = false) :
    (g.addEdg a b pl).1.edgs.countP (fun x => q x.getFrom x.getTo) =
      g.edgs.countP (fun x => q x.getFrom x.getTo) := by
  unfold LineGraph.addEdg
  split
  · rfl
  · simp [List.countP_append, List.countP_cons, hq]

variable [DecidableEq P]

theorem countP_setPl (g : LineGraph P) (e : LineEdge P) (pl : P) (q : Nat → Nat → Bool) :
    (g.setPl e pl).edgs.countP (fun x => q x.getFrom x.getTo) =
      g.edgs.countP (fun x => q x.getFrom x.getTo) := by
  unfold LineGraph.setPl
  simp only
  rw [List.countP_map]
  apply List.countP_congr
  intro x _
  simp only [Function.comp]
  split <;> rfl

theorem countP_moveOut_le (ops : EdgeOps P) (a b : Nat) (g : LineGraph P) (e : LineEdge P)
    (q : Nat → Nat → Bool) :
    (moveOut ops a b g e).edgs.countP (fun x => q x.getFrom x.getTo) ≤
      g.edgs.countP (fun x => q x.getFrom x.getTo) + (if q b e.getTo then 1 else 0) := by
  unfold moveOut
  simp only
  rw [countP_setPl]
  exact countP_addEdg_le g b e.getTo e.pl q

theorem countP_moveOut_eq (ops : EdgeOps P) (a b : Nat) (g : LineGraph P) (e : LineEdge P)
    (q : Nat → Nat → Bool) (hq : q b e.getTo = false) :
    (moveOut ops a b g e).edgs.countP (fun x => q x.getFrom x.getTo) =
      g.edgs.countP (fun x => q x.getFrom x.getTo) := by
  unfold moveOut
  simp only
  rw [countP_setPl]
  exact countP_addEdg_eq g b e.getTo e.pl q hq

theorem countP_moveIn_le (ops : EdgeOps P) (a b : Nat) (g : LineGraph P) (e : LineEdge P)
    (q : Nat → Nat → Bool) :
    (moveIn ops a b g e).edgs.countP (fun x => q x.getFrom x.getTo) ≤
      g.edgs.countP (fun x => q x.getFrom x.getTo) + (if q e.getFrom b then 1 else 0) := by
  unfold moveIn
  simp only
  rw [countP_setPl]
  exact countP_addEdg_le g e.getFrom b e.pl q

theorem countP_foldl_moveOut (ops : EdgeOps P) (a b : Nat) (q : Nat → Nat → Bool) :
    ∀ (l : List (LineEdge P)) (g : LineGraph P),
      (l.foldl (moveOut ops a b) g).edgs.countP (fun x => q x.getFrom x.getTo) ≤
        g.edgs.countP (fun x => q x.getFrom x.getTo) + l.countP (fun e => q b e.getTo)
  | [], g => by simp
  | e :: l, g => by
    have h1 := countP_foldl_moveOut ops a b q l (moveOut ops a b g e)
    have h2 := countP_moveOut_le ops a b g e q
    rw [List.foldl_cons, List.countP_cons]
    omega

theorem countP_foldl_moveOut_eq (ops : EdgeOps P) (a b : Nat) (q : Nat → Nat → Bool)
    (hq : ∀ x, q b x = false) :
    ∀ (l : List (LineEdge P)) (g : LineGraph P),
      (l.foldl (moveOut ops a b) g).edgs.countP (fun x => q x.getFrom x.getTo) =
        g.edgs.countP (fun x => q x.getFrom x.getTo)
  | [], _ => rfl
  | e :: l, g => by
    rw [List.foldl_cons, countP_foldl_moveOut_eq ops a b q hq l,
      countP_moveOut_eq ops a b g e q (hq _)]

theorem countP_foldl_moveIn (ops : EdgeOps P) (a b : Nat) (q : Nat → Nat → Bool) :
    ∀ (l : List (LineEdge P)) (g : LineGraph P),
      (l.foldl (moveIn ops a b) g).edgs.countP (fun x => q x.getFrom x.getTo) ≤
        g.edgs.countP (fun x => q x.getFrom x.getTo) + l.countP (fun e => q e.getFrom b)
  | [], g => by simp
  | e :: l, g => by
    have h1 := countP_foldl_moveIn ops a b q l (moveIn ops a b g e)
    have h2 := countP_moveIn_le ops a b g e q
    rw [List.foldl_cons, List.countP_cons]
    omega

end Contract

section Contract2

variable {P : Type} [DecidableEq P]

omit [DecidableEq P] in
theorem getEdg_mem {g : LineGraph P} {a b : Nat} {e : LineEdge P}
    (h : g.getEdg a b = some e) : e ∈ g.edgs :=
  List.mem_of_find?_eq_some h

theorem delEdg_length {g : LineGraph P} {a b : Nat} (h : (g.getEdg a b).isSome = true) :
    (g.delEdg a b).edgs.length + 1 = g.edgs.length := by
  obtain ⟨e, he⟩ := Option.isSome_iff_exists.1 h
  unfold LineGraph.delEdg
  rw [he]
  simp only
  rw [List.length_erase_of_mem (getEdg_mem he)]
  have : 0 < g.edgs.length := List.length_pos_of_mem (getEdg_mem he)
  omega

theorem delEdg_nds (g : LineGraph P) (a b : Nat) : (g.delEdg a b).nds = g.nds := by
  unfold LineGraph.delEdg
  split <;> rfl

theorem setPl_nds (g : LineGraph P) (e : LineEdge P) (pl : P) : (g.setPl e pl).nds = g.nds :=
  rfl

omit [DecidableEq P] in
theorem addEdg_nds (g : LineGraph P) (a b : Nat) (pl : P) : (g.addEdg a b pl).1.nds = g.nds := by
  unfold LineGraph.addEdg
  split <;> rfl

theorem foldl_moveOut_nds (ops : EdgeOps P) (a b : Nat) :
    ∀ (l : List (LineEdge P)) (g : LineGraph P), (l.foldl (moveOut ops a b) g).nds = g.nds
  | [], _ => rfl
  | e :: l, g => by
    rw [List.foldl_cons, foldl_moveOut_nds ops a b l]
    simp only [moveOut, setPl_nds, addEdg_nds]

theorem foldl_moveIn_nds (ops : EdgeOps P) (a b : Nat) :
    ∀ (l : List (LineEdge P)) (g : LineGraph P), (l.foldl (moveIn ops a b) g).nds = g.nds
  | [], _ => rfl
  | e :: l, g => by
    rw [List.foldl_cons, foldl_moveIn_nds ops a b l]
    simp only [moveIn, setPl_nds, addEdg_nds]

theorem mergeNds_nds (ops : EdgeOps P) (g : LineGraph P) (a b : Nat) :
    (mergeNds ops g a b).nds = g.nds.erase a := by
  unfold mergeNds
  simp only [LineGraph.delNd, foldl_moveIn_nds, foldl_moveOut_nds]
  split
  · rw [delEdg_nds]
  · rfl

omit [DecidableEq P] in
/-- Two disjoint kinds of edges at a node are at most the edges at the
node. -/
theorem countP_out_in_le (a : Nat) : ∀ l : List (LineEdge P),
    l.countP (fun e => e.getFrom == a && !(e.getTo == a)) +
      l.countP (fun e => e.getTo == a && !(e.getFrom == a)) ≤
    l.countP (fun e => e.touches a)
  | [] => by simp
  | e :: l => by
    have ih := countP_out_in_le a l
    simp only [List.countP_cons, LineEdge.touches] at ih ⊢
    by_cases h1 : e.getFrom = a <;> by_cases h2 : e.getTo = a <;> simp [h1, h2] <;> omega

theorem mergeNds_edges (ops : EdgeOps P) (g : LineGraph P) (a b : Nat)
    (h : (g.getEdg a b).isSome = true) :
    (mergeNds ops g a b).edgs.length < g.edgs.length := by
  have hlen := delEdg_length h
  unfold mergeNds
  simp only [h, if_true]
  generalize g.delEdg a b = g1 at hlen ⊢
  simp only [LineGraph.delNd]
  rw [← List.countP_eq_length_filter]
  have k2 := countP_foldl_moveIn ops a b (fun x y => !(x == a || y == a))
    (((List.foldl (moveOut ops a b) g1
      ((g1.getAdjList a).filter fun e => e.getFrom == a && !(e.getTo == b))).getAdjList a).filter
        fun e => e.getTo == a && !(e.getFrom == b))
    (List.foldl (moveOut ops a b) g1
      ((g1.getAdjList a).filter fun e => e.getFrom == a && !(e.getTo == b)))
  have k1 := countP_foldl_moveOut ops a b (fun x y => !(x == a || y == a))
    ((g1.getAdjList a).filter fun e => e.getFrom == a && !(e.getTo == b)) g1
  have k3 := countP_foldl_moveOut_eq ops a b
    (fun x y => y == a && !(x == a) && !(x == b)) (by intro x; simp)
    ((g1.getAdjList a).filter fun e => e.getFrom == a && !(e.getTo == b)) g1
  have b1 : ((g1.getAdjList a).filter fun e => e.getFrom == a && !(e.getTo == b)).countP
      (fun e => !(b == a || e.getTo == a)) ≤
      g1.edgs.countP (fun e => e.getFrom == a && !(e.getTo == a)) := by
    unfold LineGraph.getAdjList
    rw [List.countP_filter, List.countP_filter]
    apply List.countP_mono_left
    intro x _ hx
    simp only [Bool.and_eq_true, Bool.not_eq_true', Bool.or_eq_false_iff, beq_iff_eq,
      beq_eq_false_iff_ne, ne_eq] at hx ⊢
    exact ⟨hx.1.2.1, hx.1.1.2⟩
  have b2 : (((List.foldl (moveOut ops a b) g1
      ((g1.getAdjList a).filter fun e => e.getFrom == a && !(e.getTo == b))).getAdjList a).filter
        fun e => e.getTo == a && !(e.getFrom == b)).countP
      (fun e => !(e.getFrom == a || b == a)) ≤
      (List.foldl (moveOut ops a b) g1
        ((g1.getAdjList a).filter fun e => e.getFrom == a && !(e.getTo == b))).edgs.countP
        (fun e => e.getTo == a && !(e.getFrom == a) && !(e.getFrom == b)) := by
    unfold LineGraph.getAdjList
    rw [List.countP_filter, List.countP_filter]
    apply List.countP_mono_left
    intro x _ hx
    simp only [Bool.and_eq_true, Bool.not_eq_true', Bool.or_eq_false_iff, beq_iff_eq,
      beq_eq_false_iff_ne, ne_eq] at hx ⊢
    exact ⟨⟨hx.1.2.1, hx.1.1.1⟩, hx.1.2.2⟩
  have b3 : g1.edgs.countP (fun e => e.getTo == a && !(e.getFrom == a) && !(e.getFrom == b)) ≤
      g1.edgs.countP (fun e => e.getTo == a && !(e.getFrom == a)) := by
    apply List.countP_mono_left
    intro x _ hx
    simp only [Bool.and_eq_true, Bool.not_eq_true', beq_iff_eq, beq_eq_false_iff_ne,
      ne_eq] at hx ⊢
    exact hx.1
  have k4 := countP_out_in_le a g1.edgs
  have k5 := List.length_eq_countP_add_countP (fun e : LineEdge P => e.touches a) g1.edgs
  have k6 : g1.edgs.countP (fun e => !e.touches a) =
      g1.edgs.countP (fun e => !(e.getFrom == a || e.getTo == a)) := rfl
  have k7 : g1.edgs.countP (fun e => decide ¬ e.touches a = true) =
      g1.edgs.countP (fun e => !e.touches a) := by
    apply List.countP_congr
    intro x _
    simp
  simp only [LineEdge.touches] at k4 k5 k6 k7 ⊢
  omega

end Contract2

section Contract3

variable {P : Type} [DecidableEq P]

omit [DecidableEq P] in
theorem getEdg_isSome_of_mem {g : LineGraph P} {e : LineEdge P} (he : e ∈ g.edgs) :
    (g.getEdg e.getFrom e.getTo).isSome = true ∧ (g.getEdg e.getTo e.getFrom).isSome = true := by
  unfold LineGraph.getEdg
  constructor
  · rw [List.find?_isSome]
    exact ⟨e, he, by simp [LineEdge.joins]⟩
  · rw [List.find?_isSome]
    exact ⟨e, he, by simp [LineEdge.joins]⟩

theorem contractEdge_edges (ops : EdgeOps P) (g : LineGraph P) (e : LineEdge P)
    (he : e ∈ g.edgs) : (contractEdge ops g e).edgs.length < g.edgs.length := by
  obtain ⟨h1, h2⟩ := getEdg_isSome_of_mem he
  unfold contractEdge
  split
  · exact mergeNds_edges ops g _ _ h1
  · split
    · exact mergeNds_edges ops g _ _ h2
    · exact mergeNds_edges ops g _ _ h2

theorem contractEdge_nds (ops : EdgeOps P) (g : LineGraph P) (e : LineEdge P)
    (h1 : e.getFrom ∈ g.nds) (h2 : e.getTo ∈ g.nds) :
    (contractEdge ops g e).nds.length + 1 = g.nds.length := by
  have l1 := List.length_erase_of_mem h1
  have l2 := List.length_erase_of_mem h2
  have p1 := List.length_pos_of_mem h1
  unfold contractEdge
  split
  · rw [mergeNds_nds]
    omega
  · split
    · rw [mergeNds_nds]
      omega
    · rw [mergeNds_nds]
      omega

omit [DecidableEq P] in
theorem findContractible_mem {ops : EdgeOps P} {g : LineGraph P} {d : ℚ} {flag : Bool}
    {e : LineEdge P} (h : findContractible ops g d flag = some e) : e ∈ g.edgs := by
  unfold findContractible at h
  have hm := List.mem_of_mem_head? h
  obtain ⟨n1, -, hmem⟩ := List.mem_flatMap.1 hm
  exact List.mem_of_mem_filter (List.mem_of_mem_filter hmem)

theorem contractLoop_terminates (ops : EdgeOps P) (d : ℚ) (flag : Bool) :
    ∀ (fuel : Nat) (g : LineGraph P), g.edgs.length < fuel →
      ∃ g1, contractLoop ops d flag fuel g = some g1 ∧
        findContractible ops g1 d flag = none ∧ g1.edgs.length ≤ g.edgs.length
  | 0, _, h => absurd h (Nat.not_lt_zero _)
  | fuel + 1, g, h => by
    unfold contractLoop
    cases hf : findContractible ops g d flag with
    | none => exact ⟨g, rfl, hf, le_refl _⟩
    | some e =>
      have hlt := contractEdge_edges ops g e (findContractible_mem hf)
      obtain ⟨g1, e1, n1, l1⟩ := contractLoop_terminates ops d flag fuel
        (contractEdge ops g e) (by omega)
      exact ⟨g1, e1, n1, by omega⟩

end Contract3

/-! ### The lines of the warm start -/

section Mst

variable {gg : GridGraph} {cg : CombGraph} {maxGrDist : ℚ} {dist : Nat → Nat → ℚ}
  {getSettled : Nat → Option Nat} {getResEdg : GridEdge → Option CombEdge}

theorem collect_of_forall {α : Type} : ∀ {l : List (Option α)},
    (∀ x ∈ l, ∃ y, x = some y) → ∃ r, collect l = some r
  | [], _ => ⟨[], rfl⟩
  | none :: l, h => by
    obtain ⟨y, hy⟩ := h none (List.mem_cons_self _ _)
    simp at hy
  | some a :: l, h => by
    obtain ⟨r, hr⟩ := collect_of_forall (l := l) (fun x hx => h x (List.mem_cons_of_mem _ hx))
    exact ⟨a :: r, by simp [collect, hr]⟩

theorem mem_settledLines {nd : CombNode} {gnd : GridNode} {v : VarName} {k : Int}
    (h : (v, k) ∈ settledLines gg nd gnd) :
    (v = .statpos gnd.getId nd.id ∧ k = 1) ∨ (v.tag = 1 ∧ k = 0) := by
  simp only [settledLines, List.mem_cons, Prod.mk.injEq, List.mem_flatMap, List.mem_range] at h
  rcases h with h | ⟨q, -, h⟩
  · exact Or.inl h
  · right
    split at h
    · simp at h
    · simp only [List.mem_flatMap, List.mem_filter, List.mem_map, Prod.mk.injEq] at h
      obtain ⟨e, -, c, -, rfl, rfl⟩ := h
      exact ⟨rfl, rfl⟩

theorem mem_unsettledLines {nd : CombNode} {gnd : GridNode} {ls : List (VarName × Int)}
    (hl : unsettledLines nd gnd = some ls) {v : VarName} {k : Int} (h : (v, k) ∈ ls) :
    (v = .statpos gnd.getId nd.id ∧ k = 0) ∨ (v.tag = 1 ∧ k = 0) := by
  unfold unsettledLines at hl
  split at hl
  · simp only [Option.some.injEq] at hl
    subst hl
    simp only [List.mem_cons, Prod.mk.injEq, List.mem_flatMap, List.mem_map] at h
    rcases h with h | ⟨e, -, c, -, rfl, rfl⟩
    · exact Or.inl h
    · exact Or.inr ⟨rfl, rfl⟩
  · simp at hl

/-- The lines of one comb node at one candidate: the station line, with 1
when the candidate is the settled grid node and 0 when it is not, and lines
with 0 for edge-use variables. -/
theorem mem_nodeLines {nd : CombNode} {gnd : GridNode} {ls : List (VarName × Int)}
    (hl : nodeLines gg getSettled nd gnd = some ls) {v : VarName} {k : Int}
    (h : (v, k) ∈ ls) :
    (v = .statpos gnd.getId nd.id ∧
      k = if getSettled nd.id = some gnd.getId then 1 else 0) ∨ (v.tag = 1 ∧ k = 0) := by
  unfold nodeLines at hl
  split at hl
  · rename_i hs
    simp only [Option.some.injEq] at hl
    subst hl
    rcases mem_settledLines h with ⟨rfl, rfl⟩ | h2
    · exact Or.inl ⟨rfl, by rw [if_pos hs]⟩
    · exact Or.inr h2
  · rename_i hs
    rcases mem_unsettledLines hl h with ⟨rfl, rfl⟩ | h2
    · exact Or.inl ⟨rfl, by rw [if_neg hs]⟩
    · exact Or.inr h2

/-- The station line of a comb node at a candidate is always written. -/
theorem nodeLines_stat {nd : CombNode} {gnd : GridNode} {ls : List (VarName × Int)}
    (hl : nodeLines gg getSettled nd gnd = some ls) :
    (.statpos gnd.getId nd.id, if getSettled nd.id = some gnd.getId then 1 else 0) ∈ ls := by
  unfold nodeLines at hl
  split at hl
  · rename_i hs
    simp only [Option.some.injEq] at hl
    subst hl
    rw [if_pos hs]
    exact List.mem_cons_self _ _
  · rename_i hs
    unfold unsettledLines at hl
    split at hl
    · simp only [Option.some.injEq] at hl
      subst hl
      rw [if_neg hs]
      exact List.mem_cons_self _ _
    · simp at hl

theorem nodeLines_some {nd : CombNode} {gnd : GridNode}
    (hsec : ∀ e ∈ gnd.getAdjList, e.isSecondary = true) :
    ∃ ls, nodeLines gg getSettled nd gnd = some ls := by
  unfold nodeLines
  split
  · exact ⟨_, rfl⟩
  · unfold unsettledLines
    rw [if_pos (by simpa using hsec)]
    exact ⟨_, rfl⟩

/-- The lines of a primary grid edge: one line with 1 when a comb edge is
routed over it, lines with 0 for every comb edge otherwise. -/
theorem mem_edgeLines {e : GridEdge} {v : VarName} {k : Int}
    (h : (v, k) ∈ edgeLines cg getResEdg e) :
    (k = 1 ∧ ∃ c, getResEdg e = some c ∧ v = .edg e.getFrom e.getTo c.id) ∨
      (k = 0 ∧ getResEdg e = none ∧ v.tag = 1) := by
  unfold edgeLines at h
  split at h
  · rename_i c hc
    simp only [List.mem_singleton, Prod.mk.injEq] at h
    exact Or.inl ⟨h.2, c, hc, h.1⟩
  · rename_i hc
    simp only [List.mem_map, Prod.mk.injEq] at h
    obtain ⟨c, -, rfl, rfl⟩ := h
    exact Or.inr ⟨rfl, hc, rfl⟩

/-- Membership in the lines written by `extractFeasibleSol`. -/
theorem mem_extractFeasibleSol {lines : List (VarName × Int)}
    (h : extractFeasibleSol gg cg maxGrDist dist getSettled getResEdg = some lines)
    (x : VarName × Int) :
    x ∈ lines ↔
      (∃ nd ∈ assignNds cg, ∃ gnd ∈ candNds gg dist maxGrDist nd,
        ∃ ls, nodeLines gg getSettled nd gnd = some ls ∧ x ∈ ls) ∨
      (∃ grNd ∈ gg.getNds, ∃ e ∈ grNd.getAdjListOut, e.isSecondary = false ∧
        x ∈ edgeLines cg getResEdg e) := by
  unfold extractFeasibleSol at h
  split at h
  · simp at h
  · rename_i part1 hp
    simp only [Option.some.injEq] at h
    subst h
    have hp1 := collect_some hp
    simp only [List.mem_append, List.mem_flatten, List.mem_flatMap, List.mem_filter,
      Bool.not_eq_true']
    constructor
    · rintro (⟨ls, hls, hx⟩ | ⟨e, ⟨⟨grNd, hg, he⟩, hsec⟩, hx⟩)
      · left
        have : some ls ∈ part1.map some := List.mem_map_of_mem _ hls
        rw [← hp1] at this
        simp only [List.mem_flatMap, List.mem_map] at this
        obtain ⟨nd, hnd, gnd, hgnd, hnl⟩ := this
        exact ⟨nd, hnd, gnd, hgnd, ls, hnl, hx⟩
      · right
        exact ⟨grNd, hg, e, he, hsec, hx⟩
    · rintro (⟨nd, hnd, gnd, hgnd, ls, hnl, hx⟩ | ⟨grNd, hg, e, he, hsec, hx⟩)
      · left
        have : some ls ∈ part1.map some := by
          rw [← hp1]
          simp only [List.mem_flatMap, List.mem_map]
          exact ⟨nd, hnd, gnd, hgnd, hnl⟩
        obtain ⟨ls', hls', heq⟩ := List.mem_map.1 this
        simp only [Option.some.injEq] at heq
        subst heq
        exact ⟨ls', hls', hx⟩
      · right
        exact ⟨e, ⟨⟨grNd, hg, he⟩, hsec⟩, hx⟩

/-- With every edge at a sink secondary, the assertion of line 889 holds and
the lines are written. -/
theorem extractFeasibleSol_some
    (hsec : ∀ n ∈ gg.getNds, n.isSink = true → ∀ e ∈ n.getAdjList, e.isSecondary = true) :
    ∃ lines, extractFeasibleSol gg cg maxGrDist dist getSettled getResEdg = some lines := by
  have hc : ∃ r, collect ((assignNds cg).flatMap fun nd =>
      (candNds gg dist maxGrDist nd).map (nodeLines gg getSettled nd)) = some r := by
    apply collect_of_forall
    intro x hx
    simp only [List.mem_flatMap, List.mem_map] at hx
    obtain ⟨nd, -, gnd, hgnd, rfl⟩ := hx
    obtain ⟨h1, h2, -⟩ := mem_candNds.1 hgnd
    exact nodeLines_some (hsec gnd h1 h2)
  obtain ⟨r, hr⟩ := hc
  unfold extractFeasibleSol
  rw [hr]
  exact ⟨_, rfl⟩

end Mst

/-! ### The warm start of the example on two cells -/

set_option maxRecDepth 100000 in
theorem exMst_eq :
    extractFeasibleSol (exGrid 2 1) exComb 1 exDist exSettled exResEdg = some exMst := by
  have h : (extractFeasibleSol (exGrid 2 1) exComb 1 exDist exSettled exResEdg).isSome
      = true := by decide!
  unfold exMst
  revert h
  cases extractFeasibleSol (exGrid 2 1) exComb 1 exDist exSettled exResEdg <;> simp

theorem exGrid_sinks_secondary : ∀ n ∈ (exGrid 2 1).getNds, n.isSink = true →
    ∀ e ∈ n.getAdjList, e.isSecondary = true := by decide!

/-! ### A warm start with an edge routed against its direction -/

section StatBend

variable {gg : GridGraph} {cg : CombGraph} {geoPens : Option (Nat → Nat → ℚ)}
  {maxGrDist : ℚ} {dist : Nat → Nat → ℚ} {p : Problem}

end StatBend

section Stations

variable {P : Type} [DecidableEq P]

omit [DecidableEq P] in
theorem addEdg_stops (g : LineGraph P) (a b : Nat) (pl : P) :
    (g.addEdg a b pl).1.stops = g.stops := by
  unfold LineGraph.addEdg
  split <;> rfl

theorem delEdg_stops (g : LineGraph P) (a b : Nat) : (g.delEdg a b).stops = g.stops := by
  unfold LineGraph.delEdg
  split <;> rfl

theorem foldl_moveOut_stops (ops : EdgeOps P) (a b : Nat) :
    ∀ (l : List (LineEdge P)) (g : LineGraph P), (l.foldl (moveOut ops a b) g).stops = g.stops
  | [], _ => rfl
  | e :: l, g => by
    rw [List.foldl_cons, foldl_moveOut_stops ops a b l]
    simp only [moveOut, LineGraph.setPl, addEdg_stops]

theorem foldl_moveIn_stops (ops : EdgeOps P) (a b : Nat) :
    ∀ (l : List (LineEdge P)) (g : LineGraph P), (l.foldl (moveIn ops a b) g).stops = g.stops
  | [], _ => rfl
  | e :: l, g => by
    rw [List.foldl_cons, foldl_moveIn_stops ops a b l]
    simp only [moveIn, LineGraph.setPl, addEdg_stops]

theorem mergeNds_stops (ops : EdgeOps P) (g : LineGraph P) (a b : Nat) :
    (mergeNds ops g a b).stops = g.stops := by
  unfold mergeNds
  simp only [LineGraph.delNd, foldl_moveIn_stops, foldl_moveOut_stops]
  split
  · rw [delEdg_stops]
  · rfl

/-- The node deleted by `contractEdge`: the from-node when the to-node has
stops, the to-node otherwise. -/
theorem contractEdge_deletes (ops : EdgeOps P) (g : LineGraph P) (e : LineEdge P) :
    (contractEdge ops g e).nds =
      g.nds.erase (if 0 < g.stops e.getTo then e.getFrom else e.getTo) ∧
    (contractEdge ops g e).stops = g.stops := by
  unfold contractEdge
  split
  · rename_i h
    rw [mergeNds_nds, mergeNds_stops]
    exact ⟨rfl, rfl⟩
  · rename_i h
    split
    · rw [mergeNds_nds, mergeNds_stops]
      exact ⟨rfl, rfl⟩
    · rw [mergeNds_nds, mergeNds_stops]
      exact ⟨rfl, rfl⟩

omit [DecidableEq P] in
/-- What the test of `contractEdges` asks of the edge it lets through. -/
theorem findContractible_spec {ops : EdgeOps P} {g : LineGraph P} {d : ℚ} {flag : Bool}
    {e : LineEdge P} (h : findContractible ops g d flag = some e) :
    e ∈ g.edgs ∧ ops.dontContract e.pl = false ∧ ops.length e.pl < d ∧
      1 < (g.getAdjList e.getFrom).length ∧ 1 < (g.getAdjList e.getTo).length ∧
      (g.stops e.getFrom = 0 ∨ g.stops e.getTo = 0) ∧
      (flag = true → g.stops e.getFrom = 0 ∧ g.stops e.getTo = 0) := by
  have hmem := findContractible_mem h
  unfold findContractible at h
  have hm := List.mem_of_mem_head? h
  obtain ⟨n1, -, hf⟩ := List.mem_flatMap.1 hm
  have hc := (List.mem_filter.1 hf).2
  unfold contractible at hc
  split at hc
  · simp at hc
  · rename_i hfr
    have hfr' : e.getFrom = n1 := by simpa using hfr
    split at hc
    · simp at hc
    · rename_i hflag
      have hoth : e.getOtherNd n1 = e.getTo := by
        unfold LineEdge.getOtherNd
        rw [if_pos hfr']
      rw [hoth] at hc
      subst hfr'
      simp only [Bool.and_eq_true, Bool.not_eq_true', decide_eq_true_eq, Bool.or_eq_true,
        beq_iff_eq] at hc
      obtain ⟨⟨h1, h2⟩, ⟨h3, h4⟩, h5⟩ := hc
      refine ⟨hmem, h1, h2, h4, h3, h5, ?_⟩
      intro hfl
      subst hfl
      simp only [Bool.true_and, Bool.or_eq_true, bne_iff_ne, ne_eq, not_or, not_not]
        at hflag
      exact hflag

theorem contractLoop_stations (ops : EdgeOps P) (d : ℚ) (flag : Bool) :
    ∀ (fuel : Nat) (g g1 : LineGraph P), contractLoop ops d flag fuel g = some g1 →
      g1.stops = g.stops ∧ ∀ n ∈ g.nds, 0 < g.stops n → n ∈ g1.nds
  | 0, _, _, h => by simp [contractLoop] at h
  | fuel + 1, g, g1, h => by
    unfold contractLoop at h
    cases hf : findContractible ops g d flag with
    | none =>
      rw [hf] at h
      simp only [Option.some.injEq] at h
      subst h
      exact ⟨rfl, fun n hn _ => hn⟩
    | some e =>
      rw [hf] at h
      simp only at h
      obtain ⟨-, -, -, -, -, hst, -⟩ := findContractible_spec hf
      obtain ⟨hnds, hstops⟩ := contractEdge_deletes ops g e
      obtain ⟨ih1, ih2⟩ := contractLoop_stations ops d flag fuel _ _ h
      refine ⟨by rw [ih1, hstops], ?_⟩
      intro n hn hpos
      apply ih2 n
      · rw [hnds]
        apply (List.mem_erase_of_ne ?_).2 hn
        intro hEq
        split at hEq
        · rename_i hto
          rcases hst with h0 | h0
          · rw [hEq, h0] at hpos
            exact absurd hpos (by decide)
          · omega
        · rename_i hto
          rw [hEq] at hpos
          exact hto hpos
      · rw [hstops]
        exact hpos

end Stations

/-! ### One wrap in the circular order -/

theorem sum_range_nonneg (v : Nat → Int) : ∀ k, (∀ i, i < k → v i = 0 ∨ v i = 1) →
    0 ≤ ((List.range k).map v).sum
  | 0, _ => by simp
  | k + 1, h => by
    rw [List.range_succ, List.map_append, List.sum_append]
    have ih := sum_range_nonneg v k (fun i hi => h i (by omega))
    rcases h k (by omega) with hk | hk <;> simp [hk] <;> omega

theorem sum_range_zero (v : Nat → Int) : ∀ k, (∀ i, i < k → v i = 0 ∨ v i = 1) →
    ((List.range k).map v).sum = 0 → ∀ i, i < k → v i = 0
  | 0, _, _, i, hi => absurd hi (Nat.not_lt_zero _)
  | k + 1, h, hs, i, hi => by
    rw [List.range_succ, List.map_append, List.sum_append] at hs
    simp only [List.map_cons, List.map_nil, List.sum_cons, List.sum_nil, add_zero] at hs
    have hnn := sum_range_nonneg v k (fun i hi => h i (by omega))
    have hk : v k = 0 := by
      rcases h k (by omega) with hk | hk
      · exact hk
      · omega
    by_cases hik : i = k
    · rw [hik]; exact hk
    · exact sum_range_zero v k (fun i hi => h i (by omega)) (by omega) i (by omega)

/-- Values 0 or 1 that sum to 1: exactly one of them is 1. -/
theorem one_hot (v : Nat → Int) : ∀ k, (∀ i, i < k → v i = 0 ∨ v i = 1) →
    ((List.range k).map v).sum = 1 →
    ∃ j, j < k ∧ v j = 1 ∧ ∀ i, i < k → i ≠ j → v i = 0
  | 0, _, hs => by simp at hs
  | k + 1, h, hs => by
    rw [List.range_succ, List.map_append, List.sum_append] at hs
    simp only [List.map_cons, List.map_nil, List.sum_cons, List.sum_nil, add_zero] at hs
    rcases h k (by omega) with hk | hk
    · obtain ⟨j, hj, hj1, hj0⟩ := one_hot v k (fun i hi => h i (by omega)) (by omega)
      refine ⟨j, by omega, hj1, ?_⟩
      intro i hi hne
      by_cases hik : i = k
      · rw [hik]; exact hk
      · exact hj0 i (by omega) hne
    · refine ⟨k, by omega, hk, ?_⟩
      intro i hi hne
      exact sum_range_zero v k (fun i hi => h i (by omega)) (by omega) i (by omega)

theorem mod_wrap {a k : Nat} (h1 : k ≤ a) (h2 : a < 2 * k) : a % k = a - k := by
  rw [Nat.mod_eq_sub_mod h1, Nat.mod_eq_of_lt (by omega)]

/-- The arithmetic of the circular-order rows: with one `vuln` value at 1 and
every row `d_i - d_{(i-1) mod k} + 8 * vuln_i >= 1` satisfied, the values
`d` increase strictly when read cyclically from the wrap, and are pairwise
different. -/
theorem cyclic_order (k : Nat) (d v : Nat → Int) (hv : ∀ i, i < k → v i = 0 ∨ v i = 1)
    (hsum : ((List.range k).map v).sum = 1)
    (hrow : ∀ i, i < k → 1 ≤ d i - d ((i + k - 1) % k) + 8 * v i) :
    ∃ j, j < k ∧ v j = 1 ∧ (∀ i, i < k → i ≠ j → v i = 0) ∧
      (∀ s t, s < t → t < k → d ((j + s) % k) < d ((j + t) % k)) ∧
      (∀ a b, a < k → b < k → a ≠ b → d a ≠ d b) := by
  obtain ⟨j, hj, hj1, hj0⟩ := one_hot v k hv hsum
  have hstep : ∀ t, t + 1 < k → d ((j + t) % k) < d ((j + (t + 1)) % k) := by
    intro t ht
    have hi : (j + (t + 1)) % k < k := Nat.mod_lt _ (by omega)
    have hne : (j + (t + 1)) % k ≠ j := by
      by_cases hlt : j + (t + 1) < k
      · rw [Nat.mod_eq_of_lt hlt]; omega
      · rw [mod_wrap (by omega) (by omega)]; omega
    have hpred : ((j + (t + 1)) % k + k - 1) % k = (j + t) % k := by
      by_cases hlt : j + (t + 1) < k
      · rw [Nat.mod_eq_of_lt hlt, Nat.mod_eq_of_lt (show j + t < k by omega)]
        rw [mod_wrap (by omega) (by omega)]
        omega
      · rw [mod_wrap (show k ≤ j + (t + 1) by omega) (by omega)]
        by_cases hlt2 : j + t < k
        · have : j + (t + 1) - k = 0 := by omega
          rw [this, Nat.mod_eq_of_lt hlt2, Nat.mod_eq_of_lt (by omega)]
          omega
        · rw [mod_wrap (show k ≤ j + t by omega) (by omega),
            mod_wrap (by omega) (by omega)]
          omega
    have := hrow _ hi
    rw [hpred, hj0 _ hi hne] at this
    omega
  have hchain : ∀ s t, s < t → t < k → d ((j + s) % k) < d ((j + t) % k) := by
    intro s t hst
    induction t with
    | zero => omega
    | succ t ih =>
      intro ht
      by_cases hs : s = t
      · rw [hs]; exact hstep t ht
      · exact lt_trans (ih (by omega) (by omega)) (hstep t ht)
  refine ⟨j, hj, hj1, hj0, hchain, ?_⟩
  have hidx : ∀ a, a < k → ∃ s, s < k ∧ (j + s) % k = a ∧ (j ≤ a → s = a - j) ∧
      (a < j → s = a + k - j) := by
    intro a ha
    by_cases hja : j ≤ a
    · exact ⟨a - j, by omega, by rw [Nat.mod_eq_of_lt (by omega)]; omega, fun _ => rfl,
        fun h => by omega⟩
    · exact ⟨a + k - j, by omega, by rw [mod_wrap (by omega) (by omega)]; omega,
        fun h => by omega, fun _ => rfl⟩
  intro a b ha hb hab
  obtain ⟨s, hs, hsa, hs1, hs2⟩ := hidx a ha
  obtain ⟨t, ht, htb, ht1, ht2⟩ := hidx b hb
  have hst : s ≠ t := by
    intro h
    rw [h, htb] at hsa
    exact hab hsa.symm
  rw [← hsa, ← htb]
  rcases Nat.lt_or_gt_of_ne hst with h | h
  · exact ne_of_lt (hchain s t h ht)
  · exact ne_of_gt (hchain t s h hs)

section OrderRows

variable {gg : GridGraph} {cg : CombGraph} {geoPens : Option (Nat → Nat → ℚ)}
  {maxGrDist : ℚ} {dist : Nat → Nat → ℚ} {p : Problem}

theorem vulnRow_eval (nd : CombNode) (σ : VarName → Int) :
    (vulnRow nd).eval σ = ((List.range nd.getDeg).map fun i => σ (.vuln nd.id i)).sum := by
  simp only [vulnRow, Row.eval, evalL, List.map_map]
  congr 1
  apply List.map_congr_left
  intro i _
  simp

theorem orderRow_eval (nd : CombNode) (i : Nat) (a b : CombEdge) (σ : VarName → Int) :
    (orderRow nd i a b).eval σ =
      σ (.dir nd.id b.id) - σ (.dir nd.id a.id) + 8 * σ (.vuln nd.id i) := by
  simp only [orderRow, Row.eval, evalL, List.map_cons, List.map_nil, List.sum_cons,
    List.sum_nil]
  ring

/-- The edge before the `i`-th edge of the ordering is the edge at index
`(i - 1) mod k`. -/
theorem orderEdgA_eq (nd : CombNode) (i : Nat) (hi : i < nd.getOrderedSet.length) :
    orderEdgA nd i =
      nd.getOrderedSet.get? ((i + nd.getOrderedSet.length - 1) % nd.getOrderedSet.length) := by
  unfold orderEdgA
  by_cases h0 : i = 0
  · subst h0
    rw [if_pos rfl, Nat.zero_add, Nat.mod_eq_of_lt (by omega), List.getLast?_eq_getElem?]
    simp
  · rw [if_neg h0, mod_wrap (by omega) (by omega)]
    congr 1
    omega

/-- The rows of the order loop for a comb node of degree at least 3 are rows
of the problem, and its `vuln` columns are columns of the problem. -/
theorem order_rows_mem (h : createProblem gg cg geoPens maxGrDist dist = some p)
    {nd : CombNode} (hnd : nd ∈ cg.getNds) (hdeg : 3 ≤ nd.getDeg) :
    vulnRow nd ∈ p.rows ∧
    (∀ i, i < nd.getOrderedSet.length → ∃ a b, orderEdgA nd i = some a ∧
      nd.getOrderedSet.get? i = some b ∧ orderRow nd i a b ∈ p.rows) ∧
    (∀ i, i < nd.getDeg → (Col.add (.vuln nd.id i)).setKind .BV ∈ p.cols) := by
  obtain ⟨ncRows, ordRows, vCols, angs, -, hord, -, hrows, hcols⟩ := createProblem_some h
  obtain ⟨hv, -, h3⟩ := orderLoop_some hord
  obtain ⟨h4, -, h5⟩ := h3 nd hnd (by omega)
  have hsub : ∀ r, r ∈ ordRows → r ∈ p.rows := by
    intro r hr
    rw [hrows]
    simp only [List.mem_append]
    tauto
  refine ⟨hsub _ h4, ?_, ?_⟩
  · intro i hi
    obtain ⟨r, hr, cs, hstep⟩ := h5 i hi
    obtain ⟨a, b, ha, hb, -, -, -, -, rfl⟩ := orderStep_some hstep
    exact ⟨a, b, ha, hb, hsub _ hr⟩
  · intro i hi
    rw [hcols, hv]
    simp only [List.mem_append, List.mem_flatMap, List.mem_filter]
    left; right
    refine ⟨nd, ⟨hnd, by simp; omega⟩, ?_⟩
    simp only [vulnCols, List.mem_map, List.mem_range]
    exact ⟨i, hi, rfl⟩

/-- A row of the problem with a name of the order loop of `v` is the
`vulnconst` row or one of the `orderconst` rows of a comb node with id `v` and
degree at least 3. -/
theorem order_rows_of (h : createProblem gg cg geoPens maxGrDist dist = some p)
    {r : Row} (hr : r ∈ p.rows) {v : Nat} (hname : isOrderName v r.name = true) :
    ∃ nd ∈ cg.getNds, 3 ≤ nd.getDeg ∧ nd.id = v ∧
      (r = vulnRow nd ∨ ∃ i a b, i < nd.getOrderedSet.length ∧ orderEdgA nd i = some a ∧
        nd.getOrderedSet.get? i = some b ∧ r = orderRow nd i a b) := by
  obtain ⟨ordRows, vCols, hloop, hrowsf, -⟩ := filter_order h
  have hf := hrowsf (isOrderName v) (fun m hm => by
    cases m <;> simp [isOrderName] at hm
    · exact Or.inl rfl
    · exact Or.inr rfl)
  have hmem : r ∈ p.rows.filter (fun r => isOrderName v r.name) :=
    List.mem_filter.2 ⟨hr, hname⟩
  rw [hf] at hmem
  have hr2 := (List.mem_filter.1 hmem).1
  obtain ⟨nd, hnd, hdeg, hcase⟩ := (orderLoop_some hloop).2.1 r hr2
  have hid : nd.id = v := by
    rcases hcase with rfl | ⟨i, cs, -, hi⟩
    · simpa [isOrderName, vulnRow] using hname
    · obtain ⟨a, b, -, -, -, -, -, -, rfl⟩ := orderStep_some hi
      simpa [isOrderName, orderRow] using hname
  refine ⟨nd, hnd, by omega, hid, ?_⟩
  rcases hcase with rfl | ⟨i, cs, hi, hstep⟩
  · exact Or.inl rfl
  · obtain ⟨a, b, ha, hb, -, -, -, -, rfl⟩ := orderStep_some hstep
    exact Or.inr ⟨i, a, b, hi, ha, hb, rfl⟩

/-- An assignment that satisfies the rows of the order loop of a comb node,
with its `vuln` variables between 0 and 1, wraps exactly once. -/
theorem order_rows_cyclic (h : createProblem gg cg geoPens maxGrDist dist = some p)
    {nd : CombNode} (hnd : nd ∈ cg.getNds) (hdeg : 3 ≤ nd.getDeg)
    (hord : nd.getOrderedSet.length = nd.getDeg) (σ : VarName → Int)
    (hrows : ∀ r ∈ p.rows, isOrderName nd.id r.name = true → r.bnd.sat (r.eval σ))
    (hv : ∀ i, i < nd.getDeg → 0 ≤ σ (.vuln nd.id i) ∧ σ (.vuln nd.id i) ≤ 1) :
    CyclicOrder σ nd := by
  obtain ⟨h1, h2, -⟩ := order_rows_mem h hnd hdeg
  have hsum : ((List.range nd.getDeg).map fun i => σ (.vuln nd.id i)).sum = 1 := by
    have := hrows _ h1 (by simp [isOrderName, vulnRow])
    rw [vulnRow_eval] at this
    exact this
  have hrow : ∀ i, i < nd.getDeg →
      1 ≤ dirAt σ nd i - dirAt σ nd ((i + nd.getDeg - 1) % nd.getDeg) +
        8 * σ (.vuln nd.id i) := by
    intro i hi
    obtain ⟨a, b, ha, hb, hmem⟩ := h2 i (by omega)
    have := hrows _ hmem (by simp [isOrderName, orderRow])
    rw [orderRow_eval] at this
    rw [orderEdgA_eq nd i (by omega), hord] at ha
    simp only [dirAt, ha, hb]
    exact this
  exact cyclic_order nd.getDeg (dirAt σ nd) (fun i => σ (.vuln nd.id i))
    (fun i hi => by
      have := hv i hi
      show σ (.vuln nd.id i) = 0 ∨ σ (.vuln nd.id i) = 1
      omega) hsum hrow

end OrderRows

theorem exStar_order_rows : ∀ r ∈ exStarP.rows, isOrderName exCentre.id r.name = true →
    r.bnd.sat (r.eval exOrder) := by
  intro r hr hn
  obtain ⟨nd, hnd, hdeg, -, hcase⟩ := order_rows_of exStar_eq hr hn
  have hc : nd = exCentre := by
    simp only [exStar, List.mem_cons, List.mem_singleton, List.not_mem_nil, or_false] at hnd
    rcases hnd with rfl | rfl | rfl | rfl
    · rfl
    · exact absurd hdeg (by decide)
    · exact absurd hdeg (by decide)
    · exact absurd hdeg (by decide)
  subst hc
  rcases hcase with rfl | ⟨i, a, b, hi, ha, hb, rfl⟩
  · decide
  · have hi3 : i < 3 := hi
    interval_cases i
    · simp only [orderEdgA, exCentre, exStarEdges, if_true, List.getLast?_cons_cons,
        List.getLast?_singleton, Option.some.injEq] at ha
      simp only [exCentre, exStarEdges, List.get?_cons_zero, Option.some.injEq] at hb
      subst ha hb
      decide
    · simp only [orderEdgA, exCentre, exStarEdges, one_ne_zero, if_false, Nat.sub_self,
        List.get?_cons_zero, Option.some.injEq] at ha
      simp only [exCentre, exStarEdges, List.get?_cons_succ, List.get?_cons_zero,
        Option.some.injEq] at hb
      subst ha hb
      decide
    · simp only [orderEdgA, exCentre, exStarEdges, OfNat.ofNat_ne_zero, if_false,
        Nat.add_one_sub_one, List.get?_cons_succ, List.get?_cons_zero,
        Option.some.injEq] at ha
      simp only [exCentre, exStarEdges, List.get?_cons_succ, List.get?_cons_zero,
        Option.some.injEq] at hb
      subst ha hb
      decide

/-! ### Simplifying the optimisation graph -/

theorem perm_of_filter_pair {α : Type} [DecidableEq α] (q : α → Bool) :
    ∀ (l : List α) (a b : α), l.filter q = [a, b] → l.Perm (a :: b :: (l.erase a).erase b)
  | [], a, b, h => by simp at h
  | x :: l, a, b, h => by
    by_cases hx : q x = true
    · rw [List.filter_cons_of_pos hx] at h
      simp only [List.cons.injEq] at h
      obtain ⟨rfl, hl⟩ := h
      rw [List.erase_cons_head]
      have hb : b ∈ l := List.mem_of_mem_filter (by rw [hl]; exact List.mem_singleton.2 rfl)
      exact List.Perm.cons _ (List.perm_cons_erase hb)
    · rw [List.filter_cons_of_neg hx] at h
      have ih := perm_of_filter_pair q l a b h
      have hxa : x ≠ a := by
        intro he
        have : a ∈ l.filter q := by rw [h]; exact List.mem_cons_self _ _
        exact hx (he ▸ (List.mem_filter.1 this).2)
      have hxb : x ≠ b := by
        intro he
        have : b ∈ l.filter q := by rw [h]; simp
        exact hx (he ▸ (List.mem_filter.1 this).2)
      rw [List.erase_cons_tail (by simpa using hxa), List.erase_cons_tail (by simpa using hxb)]
      refine (List.Perm.cons x ih).trans ?_
      exact (List.Perm.swap a x _).trans (List.Perm.cons a (List.Perm.swap b x _))

theorem mergedEdge_etgs (n : Nat) (first second : OptEdge) :
    (mergedEdge n first second).etgs.map EtgPart.etg =
      first.etgs.map EtgPart.etg ++ second.etgs.map EtgPart.etg := by
  simp only [mergedEdge, List.map_append, List.map_map]
  congr 1

/-- What a round of the loop of `simplifyStep` does when it returns. -/
theorem simplifyNodes_spec (ops : OptOps)
    (hplace : ∀ l e, (ops.place l e).Perm (e :: l)) (g : OptGraph) :
    ∀ (ns : List Nat) (b : Bool) (g1 : OptGraph), (∀ n ∈ ns, n ∈ g.nodes) →
      simplifyNodes ops g ns = some (b, g1) →
      (b = false → g1 = g) ∧
      (b = true → ∃ n first second, n ∈ g.nodes ∧ g.adjList n = [first, second] ∧
        g1.nodes = g.nodes.erase n ∧
        (mergedEdge n first second).fromNd ≠ n ∧ (mergedEdge n first second).toNd ≠ n ∧
        (mergedEdge n first second).fromNd ≠ (mergedEdge n first second).toNd ∧
        g1.edges.Perm (mergedEdge n first second :: (g.edges.erase first).erase second) ∧
        g1.etgs.Perm g.etgs)
  | [], b, g1, _, h => by
    simp only [simplifyNodes, Option.some.injEq, Prod.mk.injEq] at h
    obtain ⟨rfl, rfl⟩ := h
    exact ⟨fun _ => rfl, fun hb => absurd hb (by decide)⟩
  | n :: ns, b, g1, hns, h => by
    have ih := simplifyNodes_spec ops hplace g ns b g1
      (fun m hm => hns m (List.mem_cons_of_mem _ hm))
    unfold simplifyNodes at h
    split at h
    · rename_i first second hadj
      split at h
      · split at h
        · exact ih h
        · rename_i hne
          split at h
          · exact absurd h (by simp)
          · rename_i hn
            simp only [Option.some.injEq, Prod.mk.injEq] at h
            obtain ⟨rfl, rfl⟩ := h
            refine ⟨fun hb => absurd hb (by decide), fun _ => ?_⟩
            have hperm := perm_of_filter_pair _ g.edges first second hadj
            have hp1 := hplace ((g.edges.erase first).erase second) (mergedEdge n first second)
            refine ⟨n, first, second, hns n (List.mem_cons_self _ _), hadj, rfl,
              fun h1 => hn (Or.inl h1), fun h1 => hn (Or.inr h1), hne, hp1, ?_⟩
            unfold OptGraph.etgs
            refine (List.Perm.flatMap_right _ hp1).trans ?_
            refine List.Perm.trans ?_ (List.Perm.flatMap_right _ hperm).symm
            simp only [List.flatMap_cons, mergedEdge_etgs, List.append_assoc]
            exact List.Perm.refl _
      · exact ih h
    · exact ih h

theorem simplifyLoop_spec (ops : OptOps)
    (hplace : ∀ l e, (ops.place l e).Perm (e :: l)) :
    ∀ (fuel : Nat) (g : OptGraph), g.nodes.length < fuel →
      ∃ r, simplifyLoop ops fuel g = some r ∧
        ∀ g1, r = some g1 → simplifyStep ops g1 = some (false, g1) ∧
          g1.nodes.length ≤ g.nodes.length ∧ g1.etgs.Perm g.etgs
  | 0, _, h => absurd h (Nat.not_lt_zero _)
  | fuel + 1, g, h => by
    unfold simplifyLoop
    cases hs : simplifyStep ops g with
    | none => exact ⟨none, rfl, fun g1 h1 => absurd h1 (by simp)⟩
    | some r =>
      obtain ⟨b, g2⟩ := r
      obtain ⟨hf, ht⟩ := simplifyNodes_spec ops hplace g g.nodes b g2 (fun _ hn => hn) hs
      cases b with
      | false =>
        have hg := hf rfl
        subst hg
        refine ⟨some g2, rfl, ?_⟩
        intro g1 h1
        simp only [Option.some.injEq] at h1
        subst h1
        exact ⟨hs, le_refl _, List.Perm.refl _⟩
      | true =>
        obtain ⟨n, first, second, hn, -, hnodes, -, -, -, -, hetgs⟩ := ht rfl
        have hlen : g2.nodes.length + 1 = g.nodes.length := by
          rw [hnodes, List.length_erase_of_mem hn]
          have := List.length_pos_of_mem hn
          omega
        obtain ⟨r, hr, hrest⟩ := simplifyLoop_spec ops hplace fuel g2 (by omega)
        refine ⟨r, hr, ?_⟩
        intro g1 h1
        obtain ⟨k1, k2, k3⟩ := hrest g1 h1
        exact ⟨k1, by omega, k3.trans hetgs⟩

/-- In a graph without self-loops no assertion of `simplifyStep` fails. -/
theorem simplifyNodes_some (ops : OptOps) (g : OptGraph)
    (hloop : ∀ e ∈ g.edges, e.fromNd ≠ e.toNd) :
    ∀ ns : List Nat, ∃ r, simplifyNodes ops g ns = some r
  | [] => ⟨_, rfl⟩
  | n :: ns => by
    have ih := simplifyNodes_some ops g hloop ns
    unfold simplifyNodes
    split
    · rename_i first second hadj
      split
      · split
        · exact ih
        · split
          · rename_i hn
            exfalso
            have h1 : first ∈ g.adjList n := by rw [hadj]; exact List.mem_cons_self _ _
            have h2 : second ∈ g.adjList n := by rw [hadj]; simp
            simp only [OptGraph.adjList, List.mem_filter, Bool.or_eq_true, beq_iff_eq] at h1 h2
            have l1 := hloop first h1.1
            have l2 := hloop second h2.1
            simp only [mergedEdge] at hn
            rcases hn with hn | hn
            · split at hn
              · rename_i hc
                exact hc hn
              · rename_i hc
                rw [not_not] at hc
                exact l1 (hn.trans hc.symm)
            · split at hn
              · rename_i hc
                exact hc hn
              · rename_i hc
                rw [not_not] at hc
                exact l2 (hn.trans hc.symm)
          · exact ⟨_, rfl⟩
      · exact ih
    · exact ih

theorem simplifyLoop_some (ops : OptOps)
    (hplace : ∀ l e, (ops.place l e).Perm (e :: l)) :
    ∀ (fuel : Nat) (g : OptGraph), g.nodes.length < fuel →
      (∀ e ∈ g.edges, e.fromNd ≠ e.toNd) → ∃ g1, simplifyLoop ops fuel g = some (some g1)
  | 0, _, h, _ => absurd h (Nat.not_lt_zero _)
  | fuel + 1, g, h, hloop => by
    obtain ⟨r, hs⟩ := simplifyNodes_some ops g hloop g.nodes
    obtain ⟨b, g2⟩ := r
    obtain ⟨-, ht⟩ := simplifyNodes_spec ops hplace g g.nodes b g2 (fun _ hn => hn) hs
    unfold simplifyLoop
    rw [show simplifyStep ops g = some (b, g2) from hs]
    cases b with
    | false => exact ⟨g2, rfl⟩
    | true =>
      obtain ⟨n, first, second, hn, -, hnodes, -, -, hne, hperm, -⟩ := ht rfl
      have hlen : g2.nodes.length + 1 = g.nodes.length := by
        rw [hnodes, List.length_erase_of_mem hn]
        have := List.length_pos_of_mem hn
        omega
      apply simplifyLoop_some ops hplace fuel g2 (by omega)
      intro e he
      rcases List.mem_cons.1 (hperm.subset he) with rfl | he1
      · exact hne
      · exact hloop e (List.mem_of_mem_erase (List.mem_of_mem_erase he1))

/-! ### The walk of extractSolution -/

theorem find?_unique {α : Type} (p : α → Bool) (a : α) :
    ∀ l : List α, a ∈ l → p a = true → (∀ x ∈ l, p x = true → x = a) → l.find? p = some a
  | [], h, _, _ => by simp at h
  | y :: l, h, hp, hu => by
    by_cases hy : p y = true
    · have := hu y (List.mem_cons_self _ _) hy
      subst this
      simp [List.find?, hy]
    · have hya : a ≠ y := fun he => hy (he ▸ hp)
      have hal : a ∈ l := by
        rcases List.mem_cons.1 h with h1 | h1
        · exact absurd h1 hya
        · exact h1
      have hy2 : p y = false := by simpa using hy
      simp only [List.find?, hy2]
      exact find?_unique p a l hal hp (fun x hx => hu x (List.mem_cons_of_mem _ hx))

theorem set_replicate_append {α : Type} (x : α) (l : List (Option α)) :
    ∀ n : Nat, (List.replicate (n + 1) none ++ l).set n (some x) =
      List.replicate n none ++ some x :: l
  | 0 => by simp
  | n + 1 => by
    have ih := set_replicate_append x l n
    rw [List.replicate_succ, List.cons_append, List.set_cons_succ, ih]
    rfl

/-- The head of a path: the node is in the graph, the edge is in its
adjacency list, and its end points are the node left and the node reached. -/
theorem isPath_cons {gg : GridGraph} {u v : Nat} {e : GridEdge} {rest : List (GridEdge × Nat)}
    (h : isPath gg u ((e, v) :: rest) = true) :
    (∃ nd, findGridNd gg u = some nd ∧ e ∈ nd.getAdjList ∧
      ∀ x ∈ nd.getAdjList, x.getFrom = u ∨ x.getTo = u) ∧
    e.getOtherNd u = v ∧ (∀ w, (e.getFrom = w ∨ e.getTo = w) → w = u ∨ w = v) ∧
    (e.getFrom = u ∨ e.getTo = u) ∧ isPath gg v rest = true := by
  simp only [isPath, Bool.and_eq_true, beq_iff_eq] at h
  obtain ⟨⟨h1, h2⟩, h3⟩ := h
  split at h1
  · simp at h1
  · rename_i nd hnd
    simp only [Bool.and_eq_true, List.elem_eq_mem, decide_eq_true_eq, List.all_eq_true, Bool.or_eq_true,
      beq_iff_eq] at h1
    have ht := h1.2 e h1.1
    refine ⟨⟨nd, hnd, h1.1, h1.2⟩, h2, ?_, ht, h3⟩
    intro w hw
    unfold GridEdge.getOtherNd at h2
    split at h2
    · rename_i hf
      rcases hw with hw | hw
      · exact Or.inl (hw.symm.trans hf)
      · exact Or.inr (hw.symm.trans h2)
    · rename_i hf
      rcases ht with ht | ht
      · exact absurd ht hf
      · rcases hw with hw | hw
        · exact Or.inr (hw.symm.trans h2)
        · exact Or.inl (hw.symm.trans ht)

/-- An edge of a path touches only nodes of the path. -/
theorem isPath_touch {gg : GridGraph} : ∀ (rest : List (GridEdge × Nat)) (u : Nat),
    isPath gg u rest = true → ∀ x ∈ rest.map Prod.fst, ∀ w,
      (x.getFrom = w ∨ x.getTo = w) → w ∈ u :: rest.map Prod.snd
  | [], _, _, x, hx, _, _ => by simp at hx
  | (e, v) :: rest, u, h, x, hx, w, hw => by
    obtain ⟨-, -, hends, -, hrest⟩ := isPath_cons h
    simp only [List.map_cons, List.mem_cons] at hx ⊢
    rcases hx with rfl | hx
    · rcases hends w hw with h1 | h1
      · exact Or.inl h1
      · exact Or.inr (Or.inl h1)
    · have := isPath_touch rest v hrest x hx w hw
      exact Or.inr (List.mem_cons.1 this)

/-- No edge is met twice on a path that meets no node twice. -/
theorem isPath_nodup {gg : GridGraph} : ∀ (rest : List (GridEdge × Nat)) (u : Nat),
    isPath gg u rest = true → (u :: rest.map Prod.snd).Nodup → (rest.map Prod.fst).Nodup
  | [], _, _, _ => List.nodup_nil
  | (e, v) :: rest, u, h, hnd => by
    obtain ⟨-, -, -, htouch, hrest⟩ := isPath_cons h
    simp only [List.map_cons] at hnd ⊢
    have hu : u ∉ v :: rest.map Prod.snd := (List.nodup_cons.1 hnd).1
    refine List.nodup_cons.2 ⟨?_, isPath_nodup rest v hrest (List.nodup_cons.1 hnd).2⟩
    intro he
    exact hu (isPath_touch rest v hrest e he u htouch)

/-- The walk along a path: from the node `u` with the edges `done` written,
the loop reaches `grEnd` and has written the edges of the rest of the path in
front of them, the last one first. -/
theorem walkLoop_path {gg : GridGraph} {S : List GridEdge} {grEnd : Nat} :
    ∀ (rest : List (GridEdge × Nat)) (u : Nat) (last : Option GridEdge) (done : List GridEdge)
      (fuel : Nat),
      isPath gg u rest = true →
      (u :: rest.map Prod.snd).Nodup →
      (u :: rest.map Prod.snd).getLast? = some grEnd →
      (∀ x ∈ rest.map Prod.fst, x ∈ S) →
      (∀ x ∈ S, x ∉ rest.map Prod.fst → ∀ w ∈ rest.map Prod.snd,
        ¬ (x.getFrom = w ∨ x.getTo = w)) →
      (∀ x ∈ S, (x.getFrom = u ∨ x.getTo = u) → some x = last ∨ x ∈ rest.map Prod.fst) →
      (∀ l, last = some l → l ∉ rest.map Prod.fst) →
      rest.length < fuel →
      ∃ l1, walkLoop gg S grEnd fuel
          ⟨u, last, done.length, List.replicate rest.length none ++ done.map some⟩ =
        some (some ⟨grEnd, l1, done.length + rest.length,
          ((rest.map Prod.fst).reverse ++ done).map some⟩)
  | _, _, _, _, 0, _, _, _, _, _, _, _, hf => absurd hf (Nat.not_lt_zero _)
  | [], u, last, done, fuel + 1, _, _, hend, _, _, _, _, _ => by
    simp only [List.map_nil, List.getLast?_singleton, Option.some.injEq] at hend
    subst hend
    exact ⟨last, by simp [walkLoop]⟩
  | (e, v) :: rest, u, last, done, fuel + 1, hp, hnd, hend, hS, h4, h3, h5, hf => by
    obtain ⟨⟨nd, hfind, hmem, hadj⟩, hoth, hends, htouch, hrest⟩ := isPath_cons hp
    simp only [List.map_cons] at hnd hend hS h4 h3 h5
    have hnd2 : (v :: rest.map Prod.snd).Nodup := (List.nodup_cons.1 hnd).2
    have hu : u ∉ v :: rest.map Prod.snd := (List.nodup_cons.1 hnd).1
    have hv : v ∉ rest.map Prod.snd := (List.nodup_cons.1 hnd2).1
    have huv : u ≠ v := fun h => hu (h ▸ List.mem_cons_self _ _)
    have hend2 : (v :: rest.map Prod.snd).getLast? = some grEnd := by
      rw [List.getLast?_cons_cons] at hend
      exact hend
    have hne : u ≠ grEnd := by
      intro h
      have := List.mem_of_getLast?_eq_some hend2
      exact hu (h ▸ this)
    have he_rest : e ∉ rest.map Prod.fst := by
      intro h
      have := isPath_touch rest v hrest e h u htouch
      exact hu this
    have hfound : (nd.getAdjList.find? fun adj => some adj != last && S.contains adj) =
        some e := by
      apply find?_unique _ e _ hmem
      · simp only [Bool.and_eq_true, bne_iff_ne, ne_eq, List.elem_eq_mem, decide_eq_true_eq]
        refine ⟨?_, hS e (List.mem_cons_self _ _)⟩
        intro hl
        exact h5 e hl.symm (List.mem_cons_self _ _)
      · intro x hx hpx
        simp only [Bool.and_eq_true, bne_iff_ne, ne_eq, List.elem_eq_mem, decide_eq_true_eq] at hpx
        rcases h3 x hpx.2 (hadj x hx) with h1 | h1
        · exact absurd h1 hpx.1
        · rcases List.mem_cons.1 h1 with h2 | h2
          · exact h2
          · exact absurd (isPath_touch rest v hrest x h2 u (hadj x hx)) hu
    have ih := walkLoop_path rest v (some e) (e :: done) fuel hrest hnd2 hend2
      (fun x hx => hS x (List.mem_cons_of_mem _ hx))
      (by
        intro x hx hxr w hw
        by_cases hxe : x = e
        · subst hxe
          intro ht
          rcases hends w ht with h1 | h1
          · exact hu (h1 ▸ List.mem_cons_of_mem _ hw)
          · exact hv (h1 ▸ hw)
        · exact h4 x hx (by simp [hxe, hxr]) w (List.mem_cons_of_mem _ hw))
      (by
        intro x hx ht
        by_cases hxe : x = e
        · exact Or.inl (by rw [hxe])
        · by_cases hxr : x ∈ rest.map Prod.fst
          · exact Or.inr hxr
          · exact absurd ht (h4 x hx (by simp [hxe, hxr]) v (List.mem_cons_self _ _)))
      (by
        intro l hl
        simp only [Option.some.injEq] at hl
        subst hl
        exact he_rest)
      (by simpa using hf)
    obtain ⟨l1, hl1⟩ := ih
    refine ⟨l1, ?_⟩
    unfold walkLoop
    rw [if_neg hne]
    unfold walkStep
    simp only [hfind, hfound, List.length_append, List.length_replicate, List.length_map,
      List.length_cons]
    rw [if_pos (by omega)]
    have hidx : rest.length + 1 + done.length - (done.length + 1) = rest.length := by omega
    simp only [hidx, set_replicate_append, hoth]
    simp only [List.length_cons, List.map_cons] at hl1
    rw [hl1]
    simp
    omega

/-! ### Splitting nodes -/

section Split

theorem joinsQ_comm (a b x y : Nat) : joinsQ a b x y = joinsQ a b y x := by
  simp only [joinsQ]
  rw [Bool.or_comm]
  congr 1 <;> rw [Bool.and_comm]

theorem joinsQ_swap (a b x y : Nat) : joinsQ a b x y = joinsQ b a x y := by
  simp only [joinsQ]
  rw [Bool.or_comm]

theorem joinsQ_iff {a b x y : Nat} :
    joinsQ a b x y = true ↔ (x = a ∧ y = b) ∨ (x = b ∧ y = a) := by
  simp [joinsQ]

theorem touchQ_comm (m x y : Nat) : touchQ m x y = touchQ m y x := by
  simp only [touchQ]
  rw [Bool.or_comm]

/-- A symmetric predicate has the same value on the end points of an edge as
on the pair the edge joins. -/
theorem sym_of_joins {q : Nat → Nat → Bool} (hq : ∀ x y, q x y = q y x) {a b x y : Nat}
    (h : joinsQ a b x y = true) : q x y = q a b := by
  rcases joinsQ_iff.1 h with ⟨rfl, rfl⟩ | ⟨rfl, rfl⟩
  · rfl
  · exact hq _ _

variable {P : Type}

theorem getEdg_none_iff (g : LineGraph P) (a b : Nat) :
    g.getEdg a b = none ↔ g.edgs.countP (fun x => joinsQ a b x.getFrom x.getTo) = 0 := by
  unfold LineGraph.getEdg
  rw [List.find?_eq_none, List.countP_eq_zero]
  rfl

theorem getEdg_of_pos (g : LineGraph P) (a b : Nat)
    (h : 0 < g.edgs.countP (fun x => joinsQ a b x.getFrom x.getTo)) :
    ∃ e, g.getEdg a b = some e ∧ e ∈ g.edgs ∧ joinsQ a b e.getFrom e.getTo = true := by
  cases he : g.getEdg a b with
  | none =>
    rw [(getEdg_none_iff g a b).1 he] at h
    exact absurd h (Nat.lt_irrefl _)
  | some e =>
    refine ⟨e, rfl, getEdg_mem he, ?_⟩
    unfold LineGraph.getEdg at he
    have := List.find?_some he
    exact this

theorem addEdg_none {g : LineGraph P} {a b : Nat} (pl : P) (h : g.getEdg a b = none) :
    g.addEdg a b pl = ({ g with edgs := g.edgs ++ [⟨a, b, pl⟩] }, ⟨a, b, pl⟩) := by
  unfold LineGraph.addEdg
  rw [h]

theorem countP_append_one (l : List (LineEdge P)) (e : LineEdge P) (q : Nat → Nat → Bool) :
    (l ++ [e]).countP (fun x => q x.getFrom x.getTo) =
      l.countP (fun x => q x.getFrom x.getTo) + (if q e.getFrom e.getTo then 1 else 0) := by
  simp [List.countP_append, List.countP_cons]

variable [DecidableEq P]

theorem countP_erase_add (l : List (LineEdge P)) (e : LineEdge P) (he : e ∈ l)
    (q : Nat → Nat → Bool) :
    (l.erase e).countP (fun x => q x.getFrom x.getTo) + (if q e.getFrom e.getTo then 1 else 0) =
      l.countP (fun x => q x.getFrom x.getTo) := by
  rw [(List.perm_cons_erase he).countP_eq, List.countP_cons]

theorem countP_delEdg (g : LineGraph P) (a b : Nat) (q : Nat → Nat → Bool)
    (hq : ∀ x y, q x y = q y x)
    (h : 0 < g.edgs.countP (fun x => joinsQ a b x.getFrom x.getTo)) :
    (g.delEdg a b).edgs.countP (fun x => q x.getFrom x.getTo) + (if q a b then 1 else 0) =
      g.edgs.countP (fun x => q x.getFrom x.getTo) := by
  obtain ⟨e, he, hmem, hj⟩ := getEdg_of_pos g a b h
  unfold LineGraph.delEdg
  rw [he]
  simp only
  rw [← countP_erase_add g.edgs e hmem q, sym_of_joins hq hj]

theorem setPl_edgs (g : LineGraph P) (e : LineEdge P) (pl : P) :
    (g.setPl e pl).edgs = g.edgs.map fun x => if x = e then { x with pl := pl } else x := rfl

end Split

section SplitMove

variable (n cn : Nat) (s : SplitGraph × LineEdge (List LineOcc)) (eo : LineEdge (List LineOcc))

theorem movedEdge_ends :
    joinsQ cn (eo.getOtherNd n) (movedEdge n cn eo).getFrom (movedEdge n cn eo).getTo = true := by
  unfold movedEdge
  split <;> simp [joinsQ]

/-- The graph after one round of the loop, when there is no edge yet between
the new node and the other end point of the edge moved. -/
theorem splitMove_g
    (h0 : s.1.g.edgs.countP (fun x => joinsQ cn (eo.getOtherNd n) x.getFrom x.getTo) = 0) :
    (splitMove n cn s eo).1.g =
      ((({ s.1.g with edgs := s.1.g.edgs ++ [{ movedEdge n cn eo with pl := eo.pl }] } :
          LineGraph (List LineOcc)).setPl { movedEdge n cn eo with pl := eo.pl }
          (nodeRpl eo.pl n cn)).setPl s.2
          (eo.pl.foldl (fun ls lo => addLine ls lo.line none) s.2.pl)).delEdg
        eo.getFrom eo.getTo := by
  unfold splitMove movedEdge LineGraph.nodeRpl
  by_cases h : eo.getFrom = n
  · have hn : s.1.g.getEdg cn (eo.getOtherNd n) = none := (getEdg_none_iff _ _ _).2 h0
    simp only [h, if_true, addEdg_none _ hn]
  · have hn : s.1.g.getEdg (eo.getOtherNd n) cn = none := by
      rw [getEdg_none_iff]
      rw [← h0]
      congr 1
      funext x
      exact joinsQ_swap _ _ _ _
    simp only [h, if_false, addEdg_none _ hn]

theorem splitMove_ce :
    (splitMove n cn s eo).2 =
      { s.2 with pl := eo.pl.foldl (fun ls lo => addLine ls lo.line none) s.2.pl } := rfl

theorem splitMove_nds : (splitMove n cn s eo).1.g.nds = s.1.g.nds := by
  unfold splitMove LineGraph.nodeRpl
  simp only [delEdg_nds, setPl_nds]
  split <;> exact addEdg_nds _ _ _ _

theorem splitMove_connExc (m : Nat) (hn : m ≠ n) (ho : m ≠ eo.getOtherNd n) :
    (splitMove n cn s eo).1.connExc m = s.1.connExc m := by
  unfold splitMove
  simp only [hn, ho, if_false]

/-- What one round of the loop does to the number of edges with a property of
their end points: the edge between `cn` and the other end point comes, the
edge `eo` goes. -/
theorem splitMove_count (q : Nat → Nat → Bool) (hq : ∀ x y, q x y = q y x)
    (h0 : s.1.g.edgs.countP (fun x => joinsQ cn (eo.getOtherNd n) x.getFrom x.getTo) = 0)
    (h1 : 0 < s.1.g.edgs.countP (fun x => joinsQ eo.getFrom eo.getTo x.getFrom x.getTo)) :
    (splitMove n cn s eo).1.g.edgs.countP (fun x => q x.getFrom x.getTo) +
        (if q eo.getFrom eo.getTo then 1 else 0) =
      s.1.g.edgs.countP (fun x => q x.getFrom x.getTo) +
        (if q cn (eo.getOtherNd n) then 1 else 0) := by
  rw [splitMove_g n cn s eo h0, countP_delEdg _ _ _ q hq, countP_setPl, countP_setPl]
  · show (s.1.g.edgs ++ [_]).countP _ = _
    rw [countP_append_one]
    congr 1
    rw [show (({ movedEdge n cn eo with pl := eo.pl } : LineEdge (List LineOcc)).getFrom) =
      (movedEdge n cn eo).getFrom from rfl,
      show (({ movedEdge n cn eo with pl := eo.pl } : LineEdge (List LineOcc)).getTo) =
      (movedEdge n cn eo).getTo from rfl, sym_of_joins hq (movedEdge_ends n cn eo)]
  · rw [countP_setPl, countP_setPl]
    show 0 < (s.1.g.edgs ++ [_]).countP _
    rw [countP_append_one]
    omega

end SplitMove

section SplitFold

theorem getOtherNd_ne {P : Type} {e : LineEdge P} {n m : Nat}
    (h : touchQ m e.getFrom e.getTo = false) : e.getOtherNd n ≠ m := by
  simp only [touchQ, Bool.or_eq_false_iff, beq_eq_false_iff_ne, ne_eq] at h
  unfold LineEdge.getOtherNd
  split
  · exact h.2
  · exact h.1

/-- An edge at `n` that is no self-loop joins `n` and its other end point. -/
theorem joins_other {P : Type} {e : LineEdge P} {n : Nat}
    (ht : touchQ n e.getFrom e.getTo = true) :
    joinsQ n (e.getOtherNd n) e.getFrom e.getTo = true := by
  simp only [touchQ, Bool.or_eq_true, beq_iff_eq] at ht
  unfold LineEdge.getOtherNd
  split
  · rename_i h
    simp [joinsQ, h]
  · rename_i h
    rcases ht with ht | ht
    · exact absurd ht h
    · simp [joinsQ, ht]

theorem other_ne_self {P : Type} {e : LineEdge P} {n : Nat} (hl : e.getFrom ≠ e.getTo) :
    e.getOtherNd n ≠ n := by
  unfold LineEdge.getOtherNd
  split
  · rename_i h
    exact fun h2 => hl (h.trans h2.symm)
  · rename_i h
    exact h

/-- What the loop needs of the edges still to move, and that it holds again
after a round: the edges are in the graph, and there is no edge yet between
the new node and their other end points, which are pairwise distinct. -/
theorem splitMove_hyps (n cn : Nat) (eo : LineEdge (List LineOcc)) (l : List (LineEdge (List LineOcc)))
    (s : SplitGraph × LineEdge (List LineOcc))
    (hA1 : ∀ c ∈ eo :: l, touchQ cn c.getFrom c.getTo = false)
    (hA2 : ∀ a b, (eo :: l).countP (fun c => joinsQ a b c.getFrom c.getTo) ≤
      s.1.g.edgs.countP (fun x => joinsQ a b x.getFrom x.getTo))
    (hA3 : ∀ b, s.1.g.edgs.countP (fun x => joinsQ cn b x.getFrom x.getTo) +
      (eo :: l).countP (fun c => c.getOtherNd n == b) ≤ 1) :
    s.1.g.edgs.countP (fun x => joinsQ cn (eo.getOtherNd n) x.getFrom x.getTo) = 0 ∧
    0 < s.1.g.edgs.countP (fun x => joinsQ eo.getFrom eo.getTo x.getFrom x.getTo) ∧
    (∀ a b, l.countP (fun c => joinsQ a b c.getFrom c.getTo) ≤
      (splitMove n cn s eo).1.g.edgs.countP (fun x => joinsQ a b x.getFrom x.getTo)) ∧
    (∀ b, (splitMove n cn s eo).1.g.edgs.countP (fun x => joinsQ cn b x.getFrom x.getTo) +
      l.countP (fun c => c.getOtherNd n == b) ≤ 1) := by
  have hocn : eo.getOtherNd n ≠ cn := getOtherNd_ne (hA1 eo (List.mem_cons_self _ _))
  have h0 : s.1.g.edgs.countP (fun x => joinsQ cn (eo.getOtherNd n) x.getFrom x.getTo) = 0 := by
    have := hA3 (eo.getOtherNd n)
    rw [List.countP_cons] at this
    simp only [beq_self_eq_true, if_true] at this
    omega
  have h1 : 0 < s.1.g.edgs.countP
      (fun x => joinsQ eo.getFrom eo.getTo x.getFrom x.getTo) := by
    have := hA2 eo.getFrom eo.getTo
    rw [List.countP_cons] at this
    have hj : joinsQ eo.getFrom eo.getTo eo.getFrom eo.getTo = true := by simp [joinsQ]
    simp only [hj, if_true] at this
    omega
  have hstep := fun q hq => splitMove_count n cn s eo q hq h0 h1
  refine ⟨h0, h1, ?_, ?_⟩
  · intro a b
    have h2 := hstep (joinsQ a b) (joinsQ_comm a b)
    have h3 := hA2 a b
    rw [List.countP_cons] at h3
    omega
  · intro b
    have h2 := hstep (joinsQ cn b) (joinsQ_comm cn b)
    have h3 := hA3 b
    rw [List.countP_cons] at h3
    have h4 : (if joinsQ cn b cn (eo.getOtherNd n) = true then 1 else 0) ≤
        (if (eo.getOtherNd n == b) = true then 1 else 0) := by
      by_cases hb : eo.getOtherNd n = b
      · simp only [hb, beq_self_eq_true, if_true]
        split <;> omega
      · have : joinsQ cn b cn (eo.getOtherNd n) = false := by
          simp [joinsQ, hb, hocn]
        simp [this]
    omega

/-- The loop of lines 741-765 and the number of edges with a property of
their end points. -/
theorem splitFold_count (n cn : Nat) :
    ∀ (l : List (LineEdge (List LineOcc))) (s : SplitGraph × LineEdge (List LineOcc)),
      (∀ c ∈ l, touchQ cn c.getFrom c.getTo = false) →
      (∀ a b, l.countP (fun c => joinsQ a b c.getFrom c.getTo) ≤
        s.1.g.edgs.countP (fun x => joinsQ a b x.getFrom x.getTo)) →
      (∀ b, s.1.g.edgs.countP (fun x => joinsQ cn b x.getFrom x.getTo) +
        l.countP (fun c => c.getOtherNd n == b) ≤ 1) →
      ∀ q : Nat → Nat → Bool, (∀ x y, q x y = q y x) →
        (l.foldl (splitMove n cn) s).1.g.edgs.countP (fun x => q x.getFrom x.getTo) +
            l.countP (fun c => q c.getFrom c.getTo) =
          s.1.g.edgs.countP (fun x => q x.getFrom x.getTo) +
            l.countP (fun c => q cn (c.getOtherNd n))
  | [], _, _, _, _, _, _ => by simp
  | eo :: l, s, hA1, hA2, hA3, q, hq => by
    obtain ⟨h0, h1, k2, k3⟩ := splitMove_hyps n cn eo l s hA1 hA2 hA3
    have ih := splitFold_count n cn l (splitMove n cn s eo)
      (fun c hc => hA1 c (List.mem_cons_of_mem _ hc)) k2 k3 q hq
    have h2 := splitMove_count n cn s eo q hq h0 h1
    rw [List.foldl_cons, List.countP_cons, List.countP_cons]
    omega

end SplitFold

section SplitOnce

theorem le_foldl_max : ∀ (l : List Nat) (i : Nat),
    i ≤ l.foldl max i ∧ ∀ m ∈ l, m ≤ l.foldl max i
  | [], i => ⟨le_refl _, fun _ h => absurd h (List.not_mem_nil _)⟩
  | x :: l, i => by
    obtain ⟨h1, h2⟩ := le_foldl_max l (max i x)
    refine ⟨le_trans (le_max_left _ _) h1, ?_⟩
    intro m hm
    rcases List.mem_cons.1 hm with rfl | hm
    · exact le_trans (le_max_right _ _) h1
    · exact h2 m hm

theorem addNd_fresh {P : Type} (g : LineGraph P) : g.addNd.2 ∉ g.nds := by
  intro h
  have := (le_foldl_max g.nds 0).2 _ h
  simp only [LineGraph.addNd] at this
  omega

theorem addNd_edgs {P : Type} (g : LineGraph P) : g.addNd.1.edgs = g.edgs := rfl

theorem addNd_nds {P : Type} (g : LineGraph P) : g.addNd.1.nds = g.nds ++ [g.addNd.2] := rfl

/-- No edge of a graph with the invariants has a node outside the graph as
an end point. -/
theorem LineGraph.Wf.no_touch {P : Type} {g : LineGraph P} (hwf : g.Wf) {m : Nat} (hm : m ∉ g.nds) :
    ∀ e ∈ g.edgs, touchQ m e.getFrom e.getTo = false := by
  intro e he
  obtain ⟨h1, h2⟩ := hwf.closed e he
  simp only [touchQ, Bool.or_eq_false_iff, beq_eq_false_iff_ne, ne_eq]
  exact ⟨fun h => hm (h ▸ h1), fun h => hm (h ▸ h2)⟩

theorem joinsQ_of_no_touch {a b x y : Nat} (h : touchQ a x y = false) :
    joinsQ a b x y = false := by
  simp only [touchQ, Bool.or_eq_false_iff, beq_eq_false_iff_ne, ne_eq] at h
  simp [joinsQ, h.1, h.2]

theorem countP_joins_fresh {P : Type} {g : LineGraph P} (hwf : g.Wf) {m : Nat}
    (hm : m ∉ g.nds) (b : Nat) :
    g.edgs.countP (fun x => joinsQ m b x.getFrom x.getTo) = 0 := by
  rw [List.countP_eq_zero]
  intro e he
  rw [joinsQ_of_no_touch (hwf.no_touch hm e he)]
  exact Bool.false_ne_true

theorem getDeg_eq_countP {P : Type} (g : LineGraph P) (m : Nat) :
    g.getDeg m = g.edgs.countP (fun x => touchQ m x.getFrom x.getTo) := by
  unfold LineGraph.getDeg LineGraph.getAdjList
  rw [List.countP_eq_length_filter]
  rfl

variable (order : LineGraph (List LineOcc) → Nat → List (LineEdge (List LineOcc)))
  (st : SplitGraph) (n maxDeg : Nat)

/-- The loop over `combine` starts on the graph with the new node and the
trunk edge. -/
theorem splitLoop_eq (hwf : st.g.Wf) :
    splitLoop order st n maxDeg =
      ((order st.g n).drop (maxDeg - 1)).foldl (splitMove n st.g.addNd.2)
        (⟨{ st.g.addNd.1 with edgs := st.g.edgs ++ [⟨n, st.g.addNd.2, []⟩] },
          fun m => if m = st.g.addNd.2 then [] else st.connExc m⟩,
          ⟨n, st.g.addNd.2, []⟩) := by
  have hn : st.g.addNd.1.getEdg n st.g.addNd.2 = none := by
    rw [getEdg_none_iff, addNd_edgs, ← countP_joins_fresh hwf (addNd_fresh st.g) n]
    congr 1
    funext x
    exact joinsQ_swap _ _ _ _
  unfold splitLoop
  simp only [addEdg_none _ hn, addNd_edgs]

theorem splitOnce_g (hwf : st.g.Wf) :
    (splitOnce order st n maxDeg).1.g =
      (((order st.g n).drop (maxDeg - 1)).foldl (splitMove n st.g.addNd.2)
        (⟨{ st.g.addNd.1 with edgs := st.g.edgs ++ [⟨n, st.g.addNd.2, []⟩] },
          fun m => if m = st.g.addNd.2 then [] else st.connExc m⟩,
          ⟨n, st.g.addNd.2, []⟩)).1.g := by
  rw [← splitLoop_eq order st n maxDeg hwf]
  rfl

/-- The edges of `combine` are edges at `n`. -/
theorem mem_combine (hord : ∀ g n, (order g n).Perm (g.getAdjList n))
    {c : LineEdge (List LineOcc)} (hc : c ∈ (order st.g n).drop (maxDeg - 1)) :
    c ∈ st.g.edgs ∧ touchQ n c.getFrom c.getTo = true := by
  have h1 : c ∈ st.g.getAdjList n := (hord st.g n).subset (List.mem_of_mem_drop hc)
  unfold LineGraph.getAdjList at h1
  exact List.mem_filter.1 h1

theorem countP_combine_le (hord : ∀ g n, (order g n).Perm (g.getAdjList n))
    (p : LineEdge (List LineOcc) → Bool) :
    ((order st.g n).drop (maxDeg - 1)).countP p ≤ st.g.edgs.countP p := by
  refine le_trans ((List.drop_sublist _ _).countP_le _) ?_
  rw [(hord st.g n).countP_eq]
  exact (List.filter_sublist _).countP_le _

end SplitOnce

section SplitOnceCount

variable (order : LineGraph (List LineOcc) → Nat → List (LineEdge (List LineOcc)))
  (st : SplitGraph) (n maxDeg : Nat)

/-- The other end points of the edges of `combine` are not `n` and are
pairwise distinct. -/
theorem combine_others (hord : ∀ g n, (order g n).Perm (g.getAdjList n)) (hwf : st.g.Wf)
    (b : Nat) :
    (if b = n then 1 else 0) +
      ((order st.g n).drop (maxDeg - 1)).countP (fun c => c.getOtherNd n == b) ≤ 1 := by
  by_cases hb : b = n
  · have : ((order st.g n).drop (maxDeg - 1)).countP (fun c => c.getOtherNd n == b) = 0 := by
      rw [List.countP_eq_zero]
      intro c hc
      have h1 := (mem_combine order st n maxDeg hord hc).1
      have := other_ne_self (n := n) (hwf.loop c h1)
      simp only [beq_iff_eq]
      rw [hb]
      exact this
    rw [this, if_pos hb]
  · rw [if_neg hb, Nat.zero_add]
    refine le_trans ?_ (hwf.par n b)
    refine le_trans ?_ (countP_combine_le order st n maxDeg hord _)
    apply List.countP_mono_left
    intro c hc hcb
    have h2 := joins_other (mem_combine order st n maxDeg hord hc).2
    simp only [beq_iff_eq] at hcb
    rw [hcb] at h2
    exact h2

/-- What the loop needs holds when it starts. -/
theorem splitStart_hyps (hord : ∀ g n, (order g n).Perm (g.getAdjList n)) (hwf : st.g.Wf)
    (hn : n ∈ st.g.nds) :
    (∀ c ∈ (order st.g n).drop (maxDeg - 1), touchQ st.g.addNd.2 c.getFrom c.getTo = false) ∧
    (∀ a b, ((order st.g n).drop (maxDeg - 1)).countP (fun c => joinsQ a b c.getFrom c.getTo) ≤
      (st.g.edgs ++ [(⟨n, st.g.addNd.2, []⟩ : LineEdge (List LineOcc))]).countP
        (fun x => joinsQ a b x.getFrom x.getTo)) ∧
    (∀ b, (st.g.edgs ++ [(⟨n, st.g.addNd.2, []⟩ : LineEdge (List LineOcc))]).countP
        (fun x => joinsQ st.g.addNd.2 b x.getFrom x.getTo) +
      ((order st.g n).drop (maxDeg - 1)).countP (fun c => c.getOtherNd n == b) ≤ 1) := by
  have hfresh := addNd_fresh st.g
  have hncn : n ≠ st.g.addNd.2 := fun h => hfresh (h ▸ hn)
  refine ⟨fun c hc => hwf.no_touch hfresh c (mem_combine order st n maxDeg hord hc).1, ?_, ?_⟩
  · intro a b
    rw [countP_append_one]
    exact le_trans (countP_combine_le order st n maxDeg hord _) (Nat.le_add_right _ _)
  · intro b
    rw [countP_append_one, countP_joins_fresh hwf hfresh b, Nat.zero_add]
    have h1 := combine_others order st n maxDeg hord hwf b
    have h2 : (if joinsQ st.g.addNd.2 b n st.g.addNd.2 = true then 1 else 0) ≤
        (if b = n then 1 else 0) := by
      by_cases hb : b = n
      · rw [if_pos hb]
        split <;> omega
      · have : joinsQ st.g.addNd.2 b n st.g.addNd.2 = false := by
          simp [joinsQ, hncn, Ne.symm hb]
        simp [this]
    exact le_trans (Nat.add_le_add_right h2 _) h1

/-- What `splitOnce` does to the number of edges with a property of their end
points: the trunk edge and the edges at the new node come, the edges of
`combine` go. -/
theorem splitOnce_count (hord : ∀ g n, (order g n).Perm (g.getAdjList n)) (hwf : st.g.Wf)
    (hn : n ∈ st.g.nds) (q : Nat → Nat → Bool) (hq : ∀ x y, q x y = q y x) :
    (splitOnce order st n maxDeg).1.g.edgs.countP (fun x => q x.getFrom x.getTo) +
        ((order st.g n).drop (maxDeg - 1)).countP (fun c => q c.getFrom c.getTo) =
      st.g.edgs.countP (fun x => q x.getFrom x.getTo) + (if q n st.g.addNd.2 then 1 else 0) +
        ((order st.g n).drop (maxDeg - 1)).countP (fun c => q st.g.addNd.2 (c.getOtherNd n)) := by
  obtain ⟨hA1, hA2, hA3⟩ := splitStart_hyps order st n maxDeg hord hwf hn
  rw [splitOnce_g order st n maxDeg hwf]
  have h := splitFold_count n st.g.addNd.2 ((order st.g n).drop (maxDeg - 1))
    (⟨{ st.g.addNd.1 with edgs := st.g.edgs ++ [⟨n, st.g.addNd.2, []⟩] },
      fun m => if m = st.g.addNd.2 then [] else st.connExc m⟩, ⟨n, st.g.addNd.2, []⟩)
    hA1 hA2 hA3 q hq
  rw [h]
  show (st.g.edgs ++ [_]).countP _ + _ = _
  rw [countP_append_one]

end SplitOnceCount

section SplitOnceSpec

variable (order : LineGraph (List LineOcc) → Nat → List (LineEdge (List LineOcc)))
  (st : SplitGraph) (n maxDeg : Nat)

theorem splitFold_nds (n cn : Nat) :
    ∀ (l : List (LineEdge (List LineOcc))) (s : SplitGraph × LineEdge (List LineOcc)),
      (l.foldl (splitMove n cn) s).1.g.nds = s.1.g.nds
  | [], _ => rfl
  | eo :: l, s => by
    rw [List.foldl_cons, splitFold_nds n cn l, splitMove_nds]

theorem splitOnce_nds (hwf : st.g.Wf) :
    (splitOnce order st n maxDeg).1.g.nds = st.g.nds ++ [st.g.addNd.2] := by
  rw [splitOnce_g order st n maxDeg hwf, splitFold_nds]
  rfl

theorem combine_length (hord : ∀ g n, (order g n).Perm (g.getAdjList n)) :
    ((order st.g n).drop (maxDeg - 1)).length = st.g.getDeg n - (maxDeg - 1) := by
  rw [List.length_drop, (hord st.g n).length_eq]
  rfl

/-- After `splitOnce` the node `n` has lost the edges of `combine` and got
the trunk edge. -/
theorem splitOnce_deg_n (hord : ∀ g n, (order g n).Perm (g.getAdjList n)) (hwf : st.g.Wf)
    (hn : n ∈ st.g.nds) :
    (splitOnce order st n maxDeg).1.g.getDeg n + (st.g.getDeg n - (maxDeg - 1)) =
      st.g.getDeg n + 1 := by
  have hfresh := addNd_fresh st.g
  have hncn : n ≠ st.g.addNd.2 := fun h => hfresh (h ▸ hn)
  have h := splitOnce_count order st n maxDeg hord hwf hn (touchQ n) (touchQ_comm n)
  have h1 : ((order st.g n).drop (maxDeg - 1)).countP
      (fun c => touchQ n c.getFrom c.getTo) = st.g.getDeg n - (maxDeg - 1) := by
    rw [← combine_length order st n maxDeg hord, List.countP_eq_length]
    intro c hc
    exact (mem_combine order st n maxDeg hord hc).2
  have h2 : ((order st.g n).drop (maxDeg - 1)).countP
      (fun c => touchQ n st.g.addNd.2 (c.getOtherNd n)) = 0 := by
    rw [List.countP_eq_zero]
    intro c hc
    have := other_ne_self (n := n) (hwf.loop c (mem_combine order st n maxDeg hord hc).1)
    simp [touchQ, Ne.symm hncn, this]
  have h3 : touchQ n n st.g.addNd.2 = true := by simp [touchQ]
  rw [h1, h2, h3] at h
  rw [getDeg_eq_countP, getDeg_eq_countP] at *
  simpa using h

/-- After `splitOnce` the new node has the trunk edge and the edges of
`combine`. -/
theorem splitOnce_deg_cn (hord : ∀ g n, (order g n).Perm (g.getAdjList n)) (hwf : st.g.Wf)
    (hn : n ∈ st.g.nds) :
    (splitOnce order st n maxDeg).1.g.getDeg st.g.addNd.2 =
      1 + (st.g.getDeg n - (maxDeg - 1)) := by
  have hfresh := addNd_fresh st.g
  have h := splitOnce_count order st n maxDeg hord hwf hn (touchQ st.g.addNd.2)
    (touchQ_comm _)
  have h1 : ((order st.g n).drop (maxDeg - 1)).countP
      (fun c => touchQ st.g.addNd.2 c.getFrom c.getTo) = 0 := by
    rw [List.countP_eq_zero]
    intro c hc
    rw [hwf.no_touch hfresh c (mem_combine order st n maxDeg hord hc).1]
    exact Bool.false_ne_true
  have h2 : ((order st.g n).drop (maxDeg - 1)).countP
      (fun c => touchQ st.g.addNd.2 st.g.addNd.2 (c.getOtherNd n)) =
      st.g.getDeg n - (maxDeg - 1) := by
    rw [← combine_length order st n maxDeg hord, List.countP_eq_length]
    intro c _
    simp [touchQ]
  have h3 : touchQ st.g.addNd.2 n st.g.addNd.2 = true := by simp [touchQ]
  have h4 : st.g.edgs.countP (fun x => touchQ st.g.addNd.2 x.getFrom x.getTo) = 0 := by
    rw [List.countP_eq_zero]
    intro c hc
    rw [hwf.no_touch hfresh c hc]
    exact Bool.false_ne_true
  rw [h1, h2, h3, h4] at h
  rw [getDeg_eq_countP]
  simpa using h

/-- The degree of another node is not changed by `splitOnce`. -/
theorem splitOnce_deg_other (hord : ∀ g n, (order g n).Perm (g.getAdjList n)) (hwf : st.g.Wf)
    (hn : n ∈ st.g.nds) (m : Nat) (hmn : m ≠ n) (hmc : m ≠ st.g.addNd.2) :
    (splitOnce order st n maxDeg).1.g.getDeg m = st.g.getDeg m := by
  have h := splitOnce_count order st n maxDeg hord hwf hn (touchQ m) (touchQ_comm m)
  have h1 : ((order st.g n).drop (maxDeg - 1)).countP
      (fun c => touchQ m c.getFrom c.getTo) =
      ((order st.g n).drop (maxDeg - 1)).countP
        (fun c => touchQ m st.g.addNd.2 (c.getOtherNd n)) := by
    apply List.countP_congr
    intro c hc
    have h2 := joinsQ_iff.1 (joins_other (mem_combine order st n maxDeg hord hc).2)
    simp only [touchQ, Bool.or_eq_true, beq_iff_eq]
    rcases h2 with ⟨h3, h4⟩ | ⟨h3, h4⟩
    · rw [h3, h4]
      constructor
      · rintro (h5 | h5)
        · exact absurd h5.symm hmn
        · exact Or.inr h5
      · rintro (h5 | h5)
        · exact absurd h5.symm hmc
        · exact Or.inr h5
    · rw [h3, h4]
      constructor
      · rintro (h5 | h5)
        · exact Or.inr h5
        · exact absurd h5.symm hmn
      · rintro (h5 | h5)
        · exact absurd h5.symm hmc
        · exact Or.inl h5
  have h3 : touchQ m n st.g.addNd.2 = false := by
    simp [touchQ, Ne.symm hmn, Ne.symm hmc]
  rw [h1, h3] at h
  rw [getDeg_eq_countP, getDeg_eq_countP]
  simpa using h

/-- The invariants hold of the graph after `splitOnce`. -/
theorem splitOnce_wf (hord : ∀ g n, (order g n).Perm (g.getAdjList n)) (hwf : st.g.Wf)
    (hn : n ∈ st.g.nds) : (splitOnce order st n maxDeg).1.g.Wf := by
  have hfresh := addNd_fresh st.g
  have hncn : n ≠ st.g.addNd.2 := fun h => hfresh (h ▸ hn)
  have hcount := splitOnce_count order st n maxDeg hord hwf hn
  have hcomb := fun c hc => mem_combine order st n maxDeg hord (c := c) hc
  have hocn : ∀ c ∈ (order st.g n).drop (maxDeg - 1), c.getOtherNd n ≠ st.g.addNd.2 :=
    fun c hc => getOtherNd_ne (hwf.no_touch hfresh c (hcomb c hc).1)
  -- a symmetric property that holds of the old edges, of the trunk edge and of
  -- the edges at the new node holds of every edge
  have hall : ∀ q : Nat → Nat → Bool, (∀ x y, q x y = q y x) →
      (∀ e ∈ st.g.edgs, q e.getFrom e.getTo = false) → q n st.g.addNd.2 = false →
      (∀ c ∈ (order st.g n).drop (maxDeg - 1), q st.g.addNd.2 (c.getOtherNd n) = false) →
      ∀ e ∈ (splitOnce order st n maxDeg).1.g.edgs, q e.getFrom e.getTo = false := by
    intro q hq h1 h2 h3 e he
    have h := hcount q hq
    have h4 : st.g.edgs.countP (fun x => q x.getFrom x.getTo) = 0 := by
      rw [List.countP_eq_zero]
      intro x hx
      rw [h1 x hx]
      exact Bool.false_ne_true
    have h5 : ((order st.g n).drop (maxDeg - 1)).countP
        (fun c => q st.g.addNd.2 (c.getOtherNd n)) = 0 := by
      rw [List.countP_eq_zero]
      intro x hx
      rw [h3 x hx]
      exact Bool.false_ne_true
    rw [h4, h5, h2] at h
    have h6 : (splitOnce order st n maxDeg).1.g.edgs.countP
        (fun x => q x.getFrom x.getTo) = 0 := by
      simp only [Bool.false_eq_true, if_false] at h
      omega
    have := List.countP_eq_zero.1 h6 e he
    simpa using this
  refine ⟨?_, ?_, ?_⟩
  · intro e he
    have := hall (fun x y => x == y) (fun x y => by simp [eq_comm])
      (fun x hx => by simpa using hwf.loop x hx) (by simpa using hncn)
      (fun c hc => by simpa using Ne.symm (hocn c hc)) e he
    simpa using this
  · intro a b
    have h := hcount (joinsQ a b) (joinsQ_comm a b)
    by_cases hab : a = st.g.addNd.2 ∨ b = st.g.addNd.2
    · -- pairs with the new node
      have key : ∀ b, (splitOnce order st n maxDeg).1.g.edgs.countP
          (fun x => joinsQ st.g.addNd.2 b x.getFrom x.getTo) ≤ 1 := by
        intro b
        have h := hcount (joinsQ st.g.addNd.2 b) (joinsQ_comm _ b)
        rw [countP_joins_fresh hwf hfresh b] at h
        have h1 := combine_others order st n maxDeg hord hwf b
        have h2 : (if joinsQ st.g.addNd.2 b n st.g.addNd.2 = true then 1 else 0) ≤
            (if b = n then 1 else 0) := by
          by_cases hb : b = n
          · rw [if_pos hb]
            split <;> omega
          · have : joinsQ st.g.addNd.2 b n st.g.addNd.2 = false := by
              simp [joinsQ, hncn, Ne.symm hb]
            simp [this]
        have h3 : ((order st.g n).drop (maxDeg - 1)).countP
            (fun c => joinsQ st.g.addNd.2 b st.g.addNd.2 (c.getOtherNd n)) ≤
            ((order st.g n).drop (maxDeg - 1)).countP (fun c => c.getOtherNd n == b) := by
          apply List.countP_mono_left
          intro c hc hj
          rcases joinsQ_iff.1 hj with ⟨-, h5⟩ | ⟨-, h5⟩
          · simpa using h5
          · exact absurd h5 (hocn c hc)
        omega
      rcases hab with rfl | rfl
      · exact key b
      · have : (fun x : LineEdge (List LineOcc) => joinsQ a st.g.addNd.2 x.getFrom x.getTo) =
            fun x => joinsQ st.g.addNd.2 a x.getFrom x.getTo := by
          funext x
          exact joinsQ_swap _ _ _ _
        rw [this]
        exact key a
    · -- pairs of old nodes
      have ha : a ≠ st.g.addNd.2 := fun h => hab (Or.inl h)
      have hb : b ≠ st.g.addNd.2 := fun h => hab (Or.inr h)
      have h1 : joinsQ a b n st.g.addNd.2 = false := by
        simp [joinsQ, Ne.symm ha, Ne.symm hb]
      have h2 : ((order st.g n).drop (maxDeg - 1)).countP
          (fun c => joinsQ a b st.g.addNd.2 (c.getOtherNd n)) = 0 := by
        rw [List.countP_eq_zero]
        intro c _
        simp [joinsQ, Ne.symm ha, Ne.symm hb]
      rw [h1, h2] at h
      have := hwf.par a b
      simp only [Bool.false_eq_true, if_false] at h
      omega
  · intro e he
    rw [splitOnce_nds order st n maxDeg hwf]
    have := hall
      (fun x y => !(decide (x ∈ st.g.nds ++ [st.g.addNd.2]) &&
        decide (y ∈ st.g.nds ++ [st.g.addNd.2])))
      (fun x y => by
        show (!(_ && _)) = !(_ && _)
        rw [Bool.and_comm])
      (fun x hx => by
        have := hwf.closed x hx
        simp [this.1, this.2])
      (by simp [hn])
      (fun c hc => by
        have h1 := hwf.closed c (hcomb c hc).1
        have h2 : c.getOtherNd n ∈ st.g.nds := by
          unfold LineEdge.getOtherNd
          split
          · exact h1.2
          · exact h1.1
        simp [h2])
      e he
    simp only [Bool.not_eq_false', Bool.and_eq_true, decide_eq_true_eq] at this
    exact this

end SplitOnceSpec

section SplitNode

variable (order : LineGraph (List LineOcc) → Nat → List (LineEdge (List LineOcc)))
  (maxDeg : Nat)

theorem mem_nds_of_deg {P : Type} {g : LineGraph P} (hwf : g.Wf) {n : Nat}
    (h : 0 < g.getDeg n) : n ∈ g.nds := by
  unfold LineGraph.getDeg at h
  obtain ⟨e, he⟩ := List.exists_mem_of_length_pos h
  unfold LineGraph.getAdjList at he
  obtain ⟨h1, h2⟩ := List.mem_filter.1 he
  have h3 := hwf.closed e h1
  simp only [LineEdge.touches, Bool.or_eq_true, beq_iff_eq] at h2
  rcases h2 with h2 | h2
  · exact h2 ▸ h3.1
  · exact h2 ▸ h3.2

theorem getDeg_le_length {P : Type} (g : LineGraph P) (n : Nat) :
    g.getDeg n ≤ g.edgs.length := by
  rw [getDeg_eq_countP]
  exact List.countP_le_length _

/-- `splitNode` returns: the node has at most `maxDeg` edges afterwards,
exactly `maxDeg` when it had more, the other nodes of the graph keep their
degree, and the new nodes have at most `maxDeg` edges. -/
theorem splitNode_spec (hmax : 2 < maxDeg)
    (hord : ∀ g n, (order g n).Perm (g.getAdjList n)) :
    ∀ (fuel : Nat) (st : SplitGraph) (n : Nat), st.g.Wf → st.g.getDeg n < fuel →
      ∃ st1, splitNode order maxDeg fuel st n = some (some st1) ∧ st1.g.Wf ∧
        (∀ m ∈ st.g.nds, m ∈ st1.g.nds) ∧
        (st1.g.getDeg n = if maxDeg < st.g.getDeg n then maxDeg else st.g.getDeg n) ∧
        (∀ m ∈ st.g.nds, m ≠ n → st1.g.getDeg m = st.g.getDeg m) ∧
        (∀ m ∈ st1.g.nds, m ∉ st.g.nds → st1.g.getDeg m ≤ maxDeg)
  | 0, _, _, _, h => absurd h (Nat.not_lt_zero _)
  | fuel + 1, st, n, hwf, hf => by
    unfold splitNode
    rw [if_neg (not_not.2 hmax)]
    by_cases hd : maxDeg < st.g.getDeg n
    · rw [if_pos (show maxDeg < (st.g.getAdjList n).length from hd)]
      have hn : n ∈ st.g.nds := mem_nds_of_deg hwf (by omega)
      have hfresh := addNd_fresh st.g
      have hncn : n ≠ st.g.addNd.2 := fun h => hfresh (h ▸ hn)
      have h1 := splitOnce_deg_n order st n maxDeg hord hwf hn
      have h2 := splitOnce_deg_cn order st n maxDeg hord hwf hn
      have h3 := splitOnce_deg_other order st n maxDeg hord hwf hn
      have h4 := splitOnce_wf order st n maxDeg hord hwf hn
      have h5 := splitOnce_nds order st n maxDeg hwf
      have hdn : (splitOnce order st n maxDeg).1.g.getDeg n = maxDeg := by omega
      have hcn : (splitOnce order st n maxDeg).2.1 = st.g.addNd.2 := rfl
      rw [if_neg (not_not.2 (by omega)), hcn]
      by_cases hc : maxDeg < (splitOnce order st n maxDeg).1.g.getDeg st.g.addNd.2
      · rw [if_pos hc]
        obtain ⟨st1, k1, k2, k3, k4, k5, k6⟩ := splitNode_spec hmax hord fuel
          (splitOnce order st n maxDeg).1 st.g.addNd.2 h4 (by omega)
        refine ⟨st1, k1, k2, ?_, ?_, ?_, ?_⟩
        · intro m hm
          exact k3 m (by rw [h5]; exact List.mem_append_left _ hm)
        · rw [if_pos hd, k5 n (by rw [h5]; exact List.mem_append_left _ hn) hncn, hdn]
        · intro m hm hmn
          have hmc : m ≠ st.g.addNd.2 := fun h => hfresh (h ▸ hm)
          rw [k5 m (by rw [h5]; exact List.mem_append_left _ hm) hmc, h3 m hmn hmc]
        · intro m hm hm2
          by_cases hmc : m = st.g.addNd.2
          · rw [hmc, k4, if_pos hc]
          · apply k6 m hm
            rw [h5]
            simp only [List.mem_append, List.mem_singleton, not_or]
            exact ⟨hm2, hmc⟩
      · rw [if_neg hc]
        refine ⟨_, rfl, h4, ?_, ?_, ?_, ?_⟩
        · intro m hm
          rw [h5]
          exact List.mem_append_left _ hm
        · rw [if_pos hd, hdn]
        · intro m hm hmn
          exact h3 m hmn (fun h => hfresh (h ▸ hm))
        · intro m hm hm2
          rw [h5] at hm
          simp only [List.mem_append, List.mem_singleton] at hm
          rcases hm with hm | hm
          · exact absurd hm hm2
          · rw [hm]
            omega
    · rw [if_neg (show ¬ maxDeg < (st.g.getAdjList n).length from hd)]
      exact ⟨st, rfl, hwf, fun _ h => h, by rw [if_neg hd], fun _ _ _ => rfl,
        fun m hm hm2 => absurd hm hm2⟩

/-- The loop of `splitNodes` returns: the nodes of the list that had more than
`maxDeg` edges have exactly `maxDeg`, the other nodes of the graph keep their
degree, and the new nodes have at most `maxDeg` edges. -/
theorem splitList_spec (hmax : 2 < maxDeg)
    (hord : ∀ g n, (order g n).Perm (g.getAdjList n)) :
    ∀ (l : List Nat) (st : SplitGraph), st.g.Wf →
      ∃ st1, splitList order maxDeg l st = some (some st1) ∧ st1.g.Wf ∧
        (∀ m ∈ st.g.nds, m ∈ st1.g.nds) ∧
        (∀ m ∈ st.g.nds, st1.g.getDeg m =
          if m ∈ l ∧ maxDeg < st.g.getDeg m then maxDeg else st.g.getDeg m) ∧
        (∀ m ∈ st1.g.nds, m ∉ st.g.nds → st1.g.getDeg m ≤ maxDeg)
  | [], st, hwf =>
    ⟨st, rfl, hwf, fun _ h => h, fun m _ => by simp, fun m hm hm2 => absurd hm hm2⟩
  | n :: ns, st, hwf => by
    obtain ⟨st2, k1, k2, k3, k4, k5, k6⟩ := splitNode_spec order maxDeg hmax hord
      (st.g.edgs.length + 1) st n hwf (Nat.lt_succ_of_le (getDeg_le_length _ _))
    obtain ⟨st1, j1, j2, j3, j4, j5⟩ := splitList_spec hmax hord ns st2 k2
    unfold splitList
    rw [k1]
    refine ⟨st1, j1, j2, fun m hm => j3 m (k3 m hm), ?_, ?_⟩
    · intro m hm
      rw [j4 m (k3 m hm)]
      by_cases hmn : m = n
      · subst hmn
        rw [k4]
        by_cases hd : maxDeg < st.g.getDeg m
        · rw [if_pos hd, if_neg (fun h => Nat.lt_irrefl _ h.2),
            if_pos ⟨List.mem_cons_self _ _, hd⟩]
        · rw [if_neg hd, if_neg (fun h => hd h.2), if_neg (fun h => hd h.2)]
      · rw [k5 m hm hmn]
        simp only [List.mem_cons, hmn, false_or]
    · intro m hm hm2
      by_cases hm3 : m ∈ st2.g.nds
      · rw [j4 m hm3]
        have := k6 m hm3 hm2
        split
        · exact le_refl _
        · exact this
      · exact j5 m hm hm3

/-- A graph in which no two edges join the same two nodes has at most one
edge between two nodes. -/
theorem par_of_pairwise {P : Type} : ∀ (l : List (LineEdge P)),
    l.Pairwise (fun e f => f.joins e.getFrom e.getTo = false) →
    ∀ a b, l.countP (fun x => joinsQ a b x.getFrom x.getTo) ≤ 1
  | [], _, _, _ => by simp
  | e :: l, h, a, b => by
    rw [List.pairwise_cons] at h
    rw [List.countP_cons]
    by_cases he : joinsQ a b e.getFrom e.getTo = true
    · have : l.countP (fun x => joinsQ a b x.getFrom x.getTo) = 0 := by
        rw [List.countP_eq_zero]
        intro f hf hj
        have h1 := h.1 f hf
        have h2 : f.joins e.getFrom e.getTo = true := by
          show joinsQ e.getFrom e.getTo f.getFrom f.getTo = true
          rcases joinsQ_iff.1 he with ⟨h3, h4⟩ | ⟨h3, h4⟩ <;>
            rcases joinsQ_iff.1 hj with ⟨h5, h6⟩ | ⟨h5, h6⟩ <;>
            simp [joinsQ, h3, h4, h5, h6]
        rw [h1] at h2
        exact absurd h2 Bool.false_ne_true
      rw [this, if_pos he]
    · rw [if_neg he]
      exact par_of_pairwise l h.2 a b

end SplitNode

section SplitValues

variable {P : Type} [DecidableEq P]

theorem mem_delEdg {g : LineGraph P} {a b : Nat} {x : LineEdge P}
    (h : x ∈ (g.delEdg a b).edgs) : x ∈ g.edgs := by
  unfold LineGraph.delEdg at h
  split at h
  · exact List.mem_of_mem_erase h
  · exact h

theorem mem_delEdg_of {g : LineGraph P} {a b : Nat} {x : LineEdge P} (h : x ∈ g.edgs)
    (hj : joinsQ a b x.getFrom x.getTo = false) : x ∈ (g.delEdg a b).edgs := by
  unfold LineGraph.delEdg
  split
  · rename_i e he
    unfold LineGraph.getEdg at he
    have h1 : joinsQ a b e.getFrom e.getTo = true := by
      have := List.find?_some he
      exact this
    have hne : x ≠ e := by
      intro hxe
      rw [hxe, h1] at hj
      exact absurd hj (by decide)
    exact (List.mem_erase_of_ne hne).2 h
  · exact h

end SplitValues

section SplitMoveValues

variable (n cn : Nat) (s : SplitGraph × LineEdge (List LineOcc)) (eo : LineEdge (List LineOcc))

theorem movedEdge_touch : touchQ cn (movedEdge n cn eo).getFrom (movedEdge n cn eo).getTo = true := by
  unfold movedEdge
  split <;> simp [touchQ]

theorem joinsQ_false_of_touch {a b m x y : Nat} (h1 : touchQ m x y = true)
    (h2 : touchQ m a b = false) : joinsQ a b x y = false := by
  simp only [touchQ, Bool.or_eq_true, beq_iff_eq, Bool.or_eq_false_iff,
    beq_eq_false_iff_ne, ne_eq] at h1 h2
  cases hj : joinsQ a b x y with
  | false => rfl
  | true =>
    exfalso
    rcases joinsQ_iff.1 hj with ⟨h3, h4⟩ | ⟨h3, h4⟩ <;> rcases h1 with h1 | h1
    · exact h2.1 (h3.symm.trans h1)
    · exact h2.2 (h4.symm.trans h1)
    · exact h2.2 (h3.symm.trans h1)
    · exact h2.1 (h4.symm.trans h1)

/-- An edge of the graph is not the edge added for `eo`, when there is no edge
yet between the new node and the other end point. -/
theorem ne_new_of_count
    (h0 : s.1.g.edgs.countP (fun x => joinsQ cn (eo.getOtherNd n) x.getFrom x.getTo) = 0)
    {x : LineEdge (List LineOcc)} (hx : x ∈ s.1.g.edgs) :
    x ≠ { movedEdge n cn eo with pl := eo.pl } := by
  intro h
  have h1 := List.countP_eq_zero.1 h0 x hx
  rw [h] at h1
  exact h1 (movedEdge_ends n cn eo)

/-- The edges after one round of the loop: the trunk edge, the edge that
took the place of `eo`, and edges that were there. -/
theorem splitMove_mem
    (h0 : s.1.g.edgs.countP (fun x => joinsQ cn (eo.getOtherNd n) x.getFrom x.getTo) = 0) :
    ∀ x ∈ (splitMove n cn s eo).1.g.edgs,
      x = (splitMove n cn s eo).2 ∨ x = movedEdge n cn eo ∨ (x ∈ s.1.g.edgs ∧ x ≠ s.2) := by
  intro x hx
  rw [splitMove_g n cn s eo h0] at hx
  have hx2 := mem_delEdg hx
  rw [setPl_edgs, setPl_edgs] at hx2
  simp only [List.mem_map, List.mem_append, List.mem_singleton] at hx2
  obtain ⟨y, ⟨z, hz, rfl⟩, rfl⟩ := hx2
  rcases hz with hz | rfl
  · rw [if_neg (ne_new_of_count n cn s eo h0 hz)]
    by_cases hc : z = s.2
    · left
      rw [if_pos hc, hc]
      rfl
    · right
      right
      rw [if_neg hc]
      exact ⟨hz, hc⟩
  · rw [if_pos rfl]
    by_cases hc : ({ ({ movedEdge n cn eo with pl := eo.pl } : LineEdge (List LineOcc)) with
        pl := nodeRpl eo.pl n cn } : LineEdge (List LineOcc)) = s.2
    · left
      rw [if_pos hc, splitMove_ce, ← hc]
    · right
      left
      rw [if_neg hc]
      unfold movedEdge
      split <;> rfl

/-- An edge that is not the trunk edge and does not join the end points of
`eo` stays in the graph. -/
theorem splitMove_keeps
    (h0 : s.1.g.edgs.countP (fun x => joinsQ cn (eo.getOtherNd n) x.getFrom x.getTo) = 0)
    {x : LineEdge (List LineOcc)} (hx : x ∈ s.1.g.edgs) (hce : x ≠ s.2)
    (hj : joinsQ eo.getFrom eo.getTo x.getFrom x.getTo = false) :
    x ∈ (splitMove n cn s eo).1.g.edgs := by
  rw [splitMove_g n cn s eo h0]
  apply mem_delEdg_of _ hj
  rw [setPl_edgs, setPl_edgs]
  simp only [List.mem_map, List.mem_append, List.mem_singleton]
  refine ⟨x, ⟨x, Or.inl hx, ?_⟩, ?_⟩
  · rw [if_neg (ne_new_of_count n cn s eo h0 hx)]
  · rw [if_neg hce]

/-- The trunk edge stays in the graph, with the lines of `eo` added. -/
theorem splitMove_trunk
    (h0 : s.1.g.edgs.countP (fun x => joinsQ cn (eo.getOtherNd n) x.getFrom x.getTo) = 0)
    (hce : s.2 ∈ s.1.g.edgs) (htc : touchQ cn s.2.getFrom s.2.getTo = true)
    (hec : touchQ cn eo.getFrom eo.getTo = false) :
    (splitMove n cn s eo).2 ∈ (splitMove n cn s eo).1.g.edgs := by
  rw [splitMove_g n cn s eo h0]
  apply mem_delEdg_of
  · rw [setPl_edgs, setPl_edgs]
    simp only [List.mem_map, List.mem_append, List.mem_singleton]
    refine ⟨s.2, ⟨s.2, Or.inl hce, ?_⟩, ?_⟩
    · rw [if_neg (ne_new_of_count n cn s eo h0 hce)]
    · rw [if_pos rfl]
      rfl
  · exact joinsQ_false_of_touch htc hec

/-- The edge that takes the place of `eo` is in the graph after the round. -/
theorem splitMove_moved
    (h0 : s.1.g.edgs.countP (fun x => joinsQ cn (eo.getOtherNd n) x.getFrom x.getTo) = 0)
    (hne : movedEdge n cn eo ≠ s.2)
    (hec : touchQ cn eo.getFrom eo.getTo = false) :
    movedEdge n cn eo ∈ (splitMove n cn s eo).1.g.edgs := by
  rw [splitMove_g n cn s eo h0]
  apply mem_delEdg_of
  · rw [setPl_edgs, setPl_edgs]
    simp only [List.mem_map, List.mem_append, List.mem_singleton]
    refine ⟨movedEdge n cn eo, ⟨{ movedEdge n cn eo with pl := eo.pl }, Or.inr rfl, ?_⟩, ?_⟩
    · rw [if_pos rfl]
      unfold movedEdge
      split <;> rfl
    · rw [if_neg hne]
  · exact joinsQ_false_of_touch (movedEdge_touch n cn eo) hec

end SplitMoveValues

section SplitFoldValues

variable (n cn : Nat)

/-- The trunk edge after the loop: its end points are as they were, its lines
are those it had with the lines of the edges moved added. -/
theorem splitFold_ce :
    ∀ (l : List (LineEdge (List LineOcc))) (s : SplitGraph × LineEdge (List LineOcc)),
      (l.foldl (splitMove n cn) s).2 =
        { s.2 with
          pl := l.foldl (fun pl c => c.pl.foldl (fun ls lo => addLine ls lo.line none) pl)
            s.2.pl }
  | [], _ => rfl
  | eo :: l, s => by
    rw [List.foldl_cons, splitFold_ce l, splitMove_ce]
    rfl

/-- An edge with other end points than the trunk edge that joins the end
points of no edge moved stays in the graph. -/
theorem splitFold_keeps :
    ∀ (l : List (LineEdge (List LineOcc))) (s : SplitGraph × LineEdge (List LineOcc)),
      (∀ c ∈ l, touchQ cn c.getFrom c.getTo = false) →
      (∀ a b, l.countP (fun c => joinsQ a b c.getFrom c.getTo) ≤
        s.1.g.edgs.countP (fun x => joinsQ a b x.getFrom x.getTo)) →
      (∀ b, s.1.g.edgs.countP (fun x => joinsQ cn b x.getFrom x.getTo) +
        l.countP (fun c => c.getOtherNd n == b) ≤ 1) →
      ∀ x ∈ s.1.g.edgs, (x.getFrom ≠ s.2.getFrom ∨ x.getTo ≠ s.2.getTo) →
        (∀ c ∈ l, joinsQ c.getFrom c.getTo x.getFrom x.getTo = false) →
        x ∈ (l.foldl (splitMove n cn) s).1.g.edgs
  | [], _, _, _, _, _, hx, _, _ => hx
  | eo :: l, s, hA1, hA2, hA3, x, hx, hne, hj => by
    obtain ⟨h0, -, k2, k3⟩ := splitMove_hyps n cn eo l s hA1 hA2 hA3
    rw [List.foldl_cons]
    apply splitFold_keeps l (splitMove n cn s eo)
      (fun c hc => hA1 c (List.mem_cons_of_mem _ hc)) k2 k3 x
    · refine splitMove_keeps n cn s eo h0 hx (fun h => ?_) (hj eo (List.mem_cons_self _ _))
      rcases hne with hne | hne
      · exact hne (h ▸ rfl)
      · exact hne (h ▸ rfl)
    · exact hne
    · exact fun c hc => hj c (List.mem_cons_of_mem _ hc)

/-- The trunk edge is in the graph after the loop. -/
theorem splitFold_trunk :
    ∀ (l : List (LineEdge (List LineOcc))) (s : SplitGraph × LineEdge (List LineOcc)),
      (∀ c ∈ l, touchQ cn c.getFrom c.getTo = false) →
      (∀ a b, l.countP (fun c => joinsQ a b c.getFrom c.getTo) ≤
        s.1.g.edgs.countP (fun x => joinsQ a b x.getFrom x.getTo)) →
      (∀ b, s.1.g.edgs.countP (fun x => joinsQ cn b x.getFrom x.getTo) +
        l.countP (fun c => c.getOtherNd n == b) ≤ 1) →
      s.2 ∈ s.1.g.edgs → touchQ cn s.2.getFrom s.2.getTo = true →
      (l.foldl (splitMove n cn) s).2 ∈ (l.foldl (splitMove n cn) s).1.g.edgs
  | [], _, _, _, _, h, _ => h
  | eo :: l, s, hA1, hA2, hA3, hce, htc => by
    obtain ⟨h0, -, k2, k3⟩ := splitMove_hyps n cn eo l s hA1 hA2 hA3
    rw [List.foldl_cons]
    exact splitFold_trunk l (splitMove n cn s eo)
      (fun c hc => hA1 c (List.mem_cons_of_mem _ hc)) k2 k3
      (splitMove_trunk n cn s eo h0 hce htc (hA1 eo (List.mem_cons_self _ _))) htc

/-- The edges after the loop: the trunk edge, the edges that took the place
of the edges moved, and edges that were there. -/
theorem splitFold_mem :
    ∀ (l : List (LineEdge (List LineOcc))) (s : SplitGraph × LineEdge (List LineOcc)),
      (∀ c ∈ l, touchQ cn c.getFrom c.getTo = false) →
      (∀ a b, l.countP (fun c => joinsQ a b c.getFrom c.getTo) ≤
        s.1.g.edgs.countP (fun x => joinsQ a b x.getFrom x.getTo)) →
      (∀ b, s.1.g.edgs.countP (fun x => joinsQ cn b x.getFrom x.getTo) +
        l.countP (fun c => c.getOtherNd n == b) ≤ 1) →
      ∀ x ∈ (l.foldl (splitMove n cn) s).1.g.edgs,
        x = (l.foldl (splitMove n cn) s).2 ∨ (∃ c ∈ l, x = movedEdge n cn c) ∨
          (x ∈ s.1.g.edgs ∧ x ≠ s.2)
  | [], s, _, _, _, x, hx => by
    by_cases h : x = s.2
    · exact Or.inl h
    · exact Or.inr (Or.inr ⟨hx, h⟩)
  | eo :: l, s, hA1, hA2, hA3, x, hx => by
    obtain ⟨h0, -, k2, k3⟩ := splitMove_hyps n cn eo l s hA1 hA2 hA3
    rw [List.foldl_cons] at hx ⊢
    rcases splitFold_mem l (splitMove n cn s eo)
      (fun c hc => hA1 c (List.mem_cons_of_mem _ hc)) k2 k3 x hx with h | ⟨c, hc, h⟩ | ⟨h, h2⟩
    · exact Or.inl h
    · exact Or.inr (Or.inl ⟨c, List.mem_cons_of_mem _ hc, h⟩)
    · rcases splitMove_mem n cn s eo h0 x h with h3 | h3 | h3
      · exact absurd h3 h2
      · exact Or.inr (Or.inl ⟨eo, List.mem_cons_self _ _, h3⟩)
      · exact Or.inr (Or.inr h3)

/-- The edges that took the place of the edges moved are in the graph after
the loop. -/
theorem splitFold_moved :
    ∀ (l : List (LineEdge (List LineOcc))) (s : SplitGraph × LineEdge (List LineOcc)),
      (∀ c ∈ l, touchQ cn c.getFrom c.getTo = false) →
      (∀ a b, l.countP (fun c => joinsQ a b c.getFrom c.getTo) ≤
        s.1.g.edgs.countP (fun x => joinsQ a b x.getFrom x.getTo)) →
      (∀ b, s.1.g.edgs.countP (fun x => joinsQ cn b x.getFrom x.getTo) +
        l.countP (fun c => c.getOtherNd n == b) ≤ 1) →
      (∀ c ∈ l, (movedEdge n cn c).getFrom ≠ s.2.getFrom) →
      ∀ c ∈ l, movedEdge n cn c ∈ (l.foldl (splitMove n cn) s).1.g.edgs
  | [], _, _, _, _, _, c, hc => absurd hc (List.not_mem_nil _)
  | eo :: l, s, hA1, hA2, hA3, hmv, c, hc => by
    obtain ⟨h0, -, k2, k3⟩ := splitMove_hyps n cn eo l s hA1 hA2 hA3
    have hA1l := fun c hc => hA1 c (List.mem_cons_of_mem _ hc)
    rw [List.foldl_cons]
    rcases List.mem_cons.1 hc with rfl | hc
    · apply splitFold_keeps n cn l (splitMove n cn s c) hA1l k2 k3
      · exact splitMove_moved n cn s c h0
          (fun h => hmv c (List.mem_cons_self _ _) (h ▸ rfl)) (hA1 c (List.mem_cons_self _ _))
      · exact Or.inl (hmv c (List.mem_cons_self _ _))
      · intro d hd
        exact joinsQ_false_of_touch (movedEdge_touch n cn c) (hA1l d hd)
    · exact splitFold_moved l (splitMove n cn s eo) hA1l k2 k3
        (fun d hd => hmv d (List.mem_cons_of_mem _ hd)) c hc

end SplitFoldValues

section SplitOnceValues

theorem splitFold_connExc (n cn : Nat) :
    ∀ (l : List (LineEdge (List LineOcc))) (s : SplitGraph × LineEdge (List LineOcc)) (m : Nat),
      m ≠ n → (∀ c ∈ l, m ≠ c.getOtherNd n) →
      (l.foldl (splitMove n cn) s).1.connExc m = s.1.connExc m
  | [], _, _, _, _ => rfl
  | eo :: l, s, m, hn, ho => by
    rw [List.foldl_cons, splitFold_connExc n cn l _ m hn
      (fun c hc => ho c (List.mem_cons_of_mem _ hc)),
      splitMove_connExc n cn s eo m hn (ho eo (List.mem_cons_self _ _))]

theorem mem_addConnExc (exc : List (Nat × (Nat × Nat) × (Nat × Nat))) (line : Nat)
    (a b : Nat × Nat) (x : Nat × (Nat × Nat) × (Nat × Nat)) :
    x ∈ addConnExc exc line a b ↔ x ∈ exc ∨ x = (line, a, b) ∨ x = (line, b, a) := by
  unfold addConnExc
  simp only [List.elem_eq_mem, decide_eq_true_eq]
  by_cases h1 : (line, a, b) ∈ exc
  · simp only [h1, if_true]
    by_cases h2 : (line, b, a) ∈ exc
    · simp only [h2, if_true]
      constructor
      · exact Or.inl
      · rintro (h | rfl | rfl)
        · exact h
        · exact h1
        · exact h2
    · simp only [h2, if_false, List.mem_append, List.mem_singleton]
      constructor
      · rintro (h | h)
        · exact Or.inl h
        · exact Or.inr (Or.inr h)
      · rintro (h | rfl | h)
        · exact Or.inl h
        · exact Or.inl h1
        · exact Or.inr h
  · simp only [h1, if_false]
    by_cases h2 : (line, b, a) ∈ exc ++ [(line, a, b)]
    · simp only [h2, if_true, List.mem_append, List.mem_singleton]
      constructor
      · rintro (h | h)
        · exact Or.inl h
        · exact Or.inr (Or.inl h)
      · rintro (h | h | rfl)
        · exact Or.inl h
        · exact Or.inr h
        · simpa using h2
    · simp only [h2, if_false, List.mem_append, List.mem_singleton]
      tauto

theorem mem_foldl_addConnExc (x : Nat × (Nat × Nat) × (Nat × Nat)) :
    ∀ (l exc : List (Nat × (Nat × Nat) × (Nat × Nat))),
      x ∈ l.foldl (fun exc t => addConnExc exc t.1 t.2.1 t.2.2) exc ↔
        x ∈ exc ∨ ∃ t ∈ l, x = t ∨ x = (t.1, t.2.2, t.2.1)
  | [], exc => by simp
  | t :: l, exc => by
    rw [List.foldl_cons, mem_foldl_addConnExc x l, mem_addConnExc]
    simp only [List.mem_cons, exists_eq_or_imp]
    constructor
    · rintro ((h | h | h) | h)
      · exact Or.inl h
      · exact Or.inr (Or.inl (Or.inl h))
      · exact Or.inr (Or.inl (Or.inr h))
      · exact Or.inr (Or.inr h)
    · rintro (h | (h | h) | h)
      · exact Or.inl (Or.inl h)
      · exact Or.inl (Or.inr (Or.inl h))
      · exact Or.inl (Or.inr (Or.inr h))
      · exact Or.inr h

theorem mem_trunkExc (adj : List (LineEdge (List LineOcc))) (ce : LineEdge (List LineOcc))
    (t : Nat × (Nat × Nat) × (Nat × Nat)) :
    t ∈ trunkExc adj ce ↔
      ∃ lo ∈ ce.pl, ∃ ea ∈ adj, ∃ eb ∈ adj, ea ≠ ce ∧ eb ≠ ce ∧ ea ≠ eb ∧
        t = (lo.line, ea.key, eb.key) := by
  unfold trunkExc
  simp only [List.mem_flatMap]
  constructor
  · rintro ⟨lo, hlo, ea, hea, h⟩
    split at h
    · simp at h
    · rename_i h1
      simp only [List.mem_flatMap] at h
      obtain ⟨eb, heb, h⟩ := h
      split at h
      · simp at h
      · rename_i h2
        split at h
        · simp at h
        · rename_i h3
          exact ⟨lo, hlo, ea, hea, eb, heb, h1, h2, h3, List.mem_singleton.1 h⟩
  · rintro ⟨lo, hlo, ea, hea, eb, heb, h1, h2, h3, rfl⟩
    refine ⟨lo, hlo, ea, hea, ?_⟩
    rw [if_neg h1]
    simp only [List.mem_flatMap]
    refine ⟨eb, heb, ?_⟩
    rw [if_neg h2, if_neg h3]
    exact List.mem_singleton.2 rfl

/-- Adding a line without direction to lines without direction. -/
theorem mem_addLine_none (ls : List LineOcc) (line : Nat)
    (hinv : ∀ lo ∈ ls, lo.direction = none) (x : LineOcc) :
    x ∈ addLine ls line none ↔ x ∈ ls ∨ x = ⟨line, none⟩ := by
  unfold addLine
  by_cases h : hasLine ls line = true
  · rw [if_pos h]
    have hmap : (ls.map fun lo =>
        if lo.line = line ∧ lo.direction ≠ none ∧ lo.direction ≠ none then
          { lo with direction := none }
        else lo) = ls := by
      conv_rhs => rw [← List.map_id ls]
      apply List.map_congr_left
      intro lo hlo
      have := hinv lo hlo
      simp [this]
    rw [hmap]
    constructor
    · exact Or.inl
    · rintro (h1 | rfl)
      · exact h1
      · unfold hasLine at h
        simp only [List.any_eq_true, beq_iff_eq] at h
        obtain ⟨lo, hlo, hl⟩ := h
        have hd := hinv lo hlo
        have : lo = ⟨line, none⟩ := by
          cases lo
          simp only at hl hd
          rw [hl, hd]
        exact this ▸ hlo
  · rw [if_neg h]
    simp only [List.mem_append, List.mem_singleton]

theorem mem_foldl_addLine (x : LineOcc) :
    ∀ (lines ls : List LineOcc), (∀ lo ∈ ls, lo.direction = none) →
      (x ∈ lines.foldl (fun ls lo => addLine ls lo.line none) ls ↔
        x ∈ ls ∨ ∃ lo ∈ lines, x = ⟨lo.line, none⟩)
  | [], ls, _ => by simp
  | lo :: lines, ls, hinv => by
    have hinv2 : ∀ y ∈ addLine ls lo.line none, y.direction = none := by
      intro y hy
      rcases (mem_addLine_none ls lo.line hinv y).1 hy with h | rfl
      · exact hinv y h
      · rfl
    rw [List.foldl_cons, mem_foldl_addLine x lines _ hinv2, mem_addLine_none ls lo.line hinv]
    simp only [List.mem_cons, exists_eq_or_imp]
    rw [or_assoc]

/-- The lines of the trunk edge after the loop of lines 741-765: the lines of
the edges moved, each without direction. -/
theorem mem_trunk_lines (x : LineOcc) :
    ∀ (l : List (LineEdge (List LineOcc))) (ls : List LineOcc),
      (∀ lo ∈ ls, lo.direction = none) →
      (x ∈ l.foldl (fun pl c => c.pl.foldl (fun ls lo => addLine ls lo.line none) pl) ls ↔
        x ∈ ls ∨ ∃ c ∈ l, ∃ lo ∈ c.pl, x = ⟨lo.line, none⟩)
  | [], ls, _ => by simp
  | c :: l, ls, hinv => by
    have hinv2 : ∀ y ∈ c.pl.foldl (fun ls lo => addLine ls lo.line none) ls,
        y.direction = none := by
      intro y hy
      rcases (mem_foldl_addLine y c.pl ls hinv).1 hy with h | ⟨lo, -, rfl⟩
      · exact hinv y h
      · rfl
    rw [List.foldl_cons, mem_trunk_lines x l _ hinv2, mem_foldl_addLine x c.pl ls hinv]
    simp only [List.mem_cons, exists_eq_or_imp]
    rw [or_assoc]

theorem hasLine_iff (ls : List LineOcc) (line : Nat) :
    hasLine ls line = true ↔ ∃ lo ∈ ls, lo.line = line := by
  simp [hasLine]

theorem hasLine_nodeRpl (ls : List LineOcc) (a b line : Nat) :
    hasLine (nodeRpl ls a b) line = hasLine ls line := by
  unfold hasLine nodeRpl
  rw [List.any_map]
  congr 1
  funext lo
  simp only [Function.comp]
  split <;> rfl

theorem movedEdge_pl (n cn : Nat) (c : LineEdge (List LineOcc)) :
    (movedEdge n cn c).pl = nodeRpl c.pl n cn := by
  unfold movedEdge
  split <;> rfl

end SplitOnceValues

section SplitOnceFacts

variable (order : LineGraph (List LineOcc) → Nat → List (LineEdge (List LineOcc)))
  (st : SplitGraph) (n maxDeg : Nat)

/-- The first edges of the order and the edges of `combine` join different
pairs of nodes. -/
theorem take_not_joins (hord : ∀ g n, (order g n).Perm (g.getAdjList n)) (hwf : st.g.Wf)
    {x c : LineEdge (List LineOcc)} (hx : x ∈ (order st.g n).take (maxDeg - 1))
    (hc : c ∈ (order st.g n).drop (maxDeg - 1)) :
    joinsQ c.getFrom c.getTo x.getFrom x.getTo = false := by
  cases hj : joinsQ c.getFrom c.getTo x.getFrom x.getTo with
  | false => rfl
  | true =>
    exfalso
    have h1 : (order st.g n).countP (fun y => joinsQ c.getFrom c.getTo y.getFrom y.getTo) ≤ 1 := by
      rw [(hord st.g n).countP_eq]
      exact le_trans ((List.filter_sublist _).countP_le _) (hwf.par _ _)
    rw [← List.take_append_drop (maxDeg - 1) (order st.g n), List.countP_append] at h1
    have h2 : 0 < ((order st.g n).take (maxDeg - 1)).countP
        (fun y => joinsQ c.getFrom c.getTo y.getFrom y.getTo) :=
      List.countP_pos_iff.2 ⟨x, hx, hj⟩
    have h3 : 0 < ((order st.g n).drop (maxDeg - 1)).countP
        (fun y => joinsQ c.getFrom c.getTo y.getFrom y.getTo) :=
      List.countP_pos_iff.2 ⟨c, hc, by simp [joinsQ]⟩
    omega

/-- The graph after `splitOnce`: the trunk edge joins `n` and the new node
and carries the lines of the edges of `combine`, without direction; the edges
at the new node are the trunk edge and the edges that took the place of the
edges of `combine`; the first edges of the order are still there; and the
exceptions of the new node are those of lines 768-777. -/
theorem splitOnce_values (hord : ∀ g n, (order g n).Perm (g.getAdjList n)) (hwf : st.g.Wf)
    (hn : n ∈ st.g.nds) :
    ∃ g1 ce, splitOnce order st n maxDeg = (g1, st.g.addNd.2, ce) ∧
      ce ∈ g1.g.edgs ∧ ce.getFrom = n ∧ ce.getTo = st.g.addNd.2 ∧
      (∀ x, x ∈ ce.pl ↔
        ∃ c ∈ (order st.g n).drop (maxDeg - 1), ∃ lo ∈ c.pl, x = ⟨lo.line, none⟩) ∧
      (∀ x ∈ g1.g.edgs, touchQ st.g.addNd.2 x.getFrom x.getTo = true →
        x = ce ∨ ∃ c ∈ (order st.g n).drop (maxDeg - 1), x = movedEdge n st.g.addNd.2 c) ∧
      (∀ c ∈ (order st.g n).drop (maxDeg - 1), movedEdge n st.g.addNd.2 c ∈ g1.g.edgs) ∧
      (∀ x ∈ (order st.g n).take (maxDeg - 1), x ∈ g1.g.edgs) ∧
      (∀ t, t ∈ g1.connExc st.g.addNd.2 ↔
        ∃ u ∈ trunkExc (g1.g.getAdjList st.g.addNd.2) ce,
          t = u ∨ t = (u.1, u.2.2, u.2.1)) := by
  have hfresh := addNd_fresh st.g
  have hncn : n ≠ st.g.addNd.2 := fun h => hfresh (h ▸ hn)
  have hloop := splitLoop_eq order st n maxDeg hwf
  obtain ⟨hA1, hA2, hA3⟩ := splitStart_hyps order st n maxDeg hord hwf hn
  have hcomb := fun c hc => mem_combine order st n maxDeg hord (c := c) hc
  have hce := splitFold_ce n st.g.addNd.2 ((order st.g n).drop (maxDeg - 1))
    (⟨{ st.g.addNd.1 with edgs := st.g.edgs ++ [⟨n, st.g.addNd.2, []⟩] },
      fun m => if m = st.g.addNd.2 then [] else st.connExc m⟩, ⟨n, st.g.addNd.2, []⟩)
  have htrunk := splitFold_trunk n st.g.addNd.2 ((order st.g n).drop (maxDeg - 1))
    (⟨{ st.g.addNd.1 with edgs := st.g.edgs ++ [⟨n, st.g.addNd.2, []⟩] },
      fun m => if m = st.g.addNd.2 then [] else st.connExc m⟩, ⟨n, st.g.addNd.2, []⟩)
    hA1 hA2 hA3 (List.mem_append_right _ (List.mem_singleton.2 rfl)) (by simp [touchQ])
  have hmem := splitFold_mem n st.g.addNd.2 ((order st.g n).drop (maxDeg - 1))
    (⟨{ st.g.addNd.1 with edgs := st.g.edgs ++ [⟨n, st.g.addNd.2, []⟩] },
      fun m => if m = st.g.addNd.2 then [] else st.connExc m⟩, ⟨n, st.g.addNd.2, []⟩)
    hA1 hA2 hA3
  have hmoved := splitFold_moved n st.g.addNd.2 ((order st.g n).drop (maxDeg - 1))
    (⟨{ st.g.addNd.1 with edgs := st.g.edgs ++ [⟨n, st.g.addNd.2, []⟩] },
      fun m => if m = st.g.addNd.2 then [] else st.connExc m⟩, ⟨n, st.g.addNd.2, []⟩)
    hA1 hA2 hA3
    (by
      intro c hc
      show (movedEdge n st.g.addNd.2 c).getFrom ≠ n
      unfold movedEdge
      split
      · exact Ne.symm hncn
      · exact other_ne_self (hwf.loop c (hcomb c hc).1))
  have hkeeps := splitFold_keeps n st.g.addNd.2 ((order st.g n).drop (maxDeg - 1))
    (⟨{ st.g.addNd.1 with edgs := st.g.edgs ++ [⟨n, st.g.addNd.2, []⟩] },
      fun m => if m = st.g.addNd.2 then [] else st.connExc m⟩, ⟨n, st.g.addNd.2, []⟩)
    hA1 hA2 hA3
  have hexc := splitFold_connExc n st.g.addNd.2 ((order st.g n).drop (maxDeg - 1))
    (⟨{ st.g.addNd.1 with edgs := st.g.edgs ++ [⟨n, st.g.addNd.2, []⟩] },
      fun m => if m = st.g.addNd.2 then [] else st.connExc m⟩, ⟨n, st.g.addNd.2, []⟩)
    st.g.addNd.2 (Ne.symm hncn) (fun c hc => Ne.symm (getOtherNd_ne (hA1 c hc)))
  rw [← hloop] at hce htrunk hmem hmoved hkeeps hexc
  refine ⟨(splitOnce order st n maxDeg).1, (splitLoop order st n maxDeg).2, rfl, htrunk,
    ?_, ?_, ?_, ?_, hmoved, ?_, ?_⟩
  · rw [hce]
  · rw [hce]
  · intro x
    rw [hce]
    have := mem_trunk_lines x ((order st.g n).drop (maxDeg - 1)) [] (fun _ h => by simp at h)
    simpa using this
  · intro x hx ht
    rcases hmem x hx with h | h | ⟨h, h2⟩
    · exact Or.inl h
    · exact Or.inr h
    · exfalso
      have h3 : x ∈ st.g.edgs := by
        rcases List.mem_append.1 h with h4 | h4
        · exact h4
        · exact absurd (List.mem_singleton.1 h4) h2
      rw [hwf.no_touch hfresh x h3] at ht
      exact absurd ht (by decide)
  · intro x hx
    have h1 : x ∈ st.g.edgs := by
      have := (hord st.g n).subset (List.mem_of_mem_take hx)
      unfold LineGraph.getAdjList at this
      exact (List.mem_filter.1 this).1
    apply hkeeps x (List.mem_append_left _ h1)
    · right
      have := hwf.no_touch hfresh x h1
      simp only [touchQ, Bool.or_eq_false_iff, beq_eq_false_iff_ne, ne_eq] at this
      exact this.2
    · intro c hc
      exact take_not_joins order st n maxDeg hord hwf hx hc
  · intro t
    show t ∈ (if st.g.addNd.2 = st.g.addNd.2 then _ else _) ↔ _
    rw [if_pos rfl, mem_foldl_addConnExc, hexc]
    simp only [if_true, List.not_mem_nil, false_or]
    rfl

end SplitOnceFacts

section SplitPerm

variable (order : LineGraph (List LineOcc) → Nat → List (LineEdge (List LineOcc)))
  (st : SplitGraph) (n maxDeg : Nat)

/-- No edge is twice in a graph with the invariants. -/
theorem LineGraph.Wf.nodup {P : Type} [DecidableEq P] {g : LineGraph P} (hwf : g.Wf) :
    g.edgs.Nodup := by
  rw [List.nodup_iff_count_le_one]
  intro a
  refine le_trans ?_ (hwf.par a.getFrom a.getTo)
  unfold List.count
  apply List.countP_mono_left
  intro x _ hx
  have : x = a := by simpa using hx
  rw [this]
  simp [joinsQ]

/-- After `splitOnce` the edges of `n` are its first `maxDeg - 1` edges in the
order and the trunk edge. -/
theorem splitOnce_adj (hord : ∀ g n, (order g n).Perm (g.getAdjList n)) (hwf : st.g.Wf)
    (hdeg : maxDeg < st.g.getDeg n) (hmax : 0 < maxDeg) :
    ((splitOnce order st n maxDeg).1.g.getAdjList n).Perm
      ((order st.g n).take (maxDeg - 1) ++ [(splitOnce order st n maxDeg).2.2]) := by
  have hn : n ∈ st.g.nds := mem_nds_of_deg hwf (by omega)
  have hfresh := addNd_fresh st.g
  obtain ⟨g1, ce, heq, hce, hfrom, hto, -, -, -, hkept, -⟩ :=
    splitOnce_values order st n maxDeg hord hwf hn
  have hd := splitOnce_deg_n order st n maxDeg hord hwf hn
  rw [heq] at hd ⊢
  simp only at hd ⊢
  have hsub : ∀ x ∈ (order st.g n).take (maxDeg - 1), x ∈ st.g.edgs ∧ x.touches n = true := by
    intro x hx
    have := (hord st.g n).subset (List.mem_of_mem_take hx)
    unfold LineGraph.getAdjList at this
    exact List.mem_filter.1 this
  have hnd : ((order st.g n).take (maxDeg - 1) ++ [ce]).Nodup := by
    rw [List.nodup_append]
    refine ⟨?_, List.nodup_singleton _, ?_⟩
    · apply List.Nodup.sublist (List.take_sublist _ _)
      rw [(hord st.g n).nodup_iff]
      exact hwf.nodup.filter _
    · intro x hx hx2
      rw [List.mem_singleton] at hx2
      have h1 := hwf.no_touch hfresh x (hsub x hx).1
      rw [hx2] at h1
      simp [touchQ, hto] at h1
  have hss : (order st.g n).take (maxDeg - 1) ++ [ce] ⊆ g1.g.getAdjList n := by
    intro x hx
    unfold LineGraph.getAdjList
    rw [List.mem_filter]
    rcases List.mem_append.1 hx with h | h
    · exact ⟨hkept x h, (hsub x h).2⟩
    · rw [List.mem_singleton.1 h]
      exact ⟨hce, by simp [LineEdge.touches, hfrom]⟩
  have hlen : (g1.g.getAdjList n).length ≤
      ((order st.g n).take (maxDeg - 1) ++ [ce]).length := by
    have h1 : (order st.g n).length = st.g.getDeg n := (hord st.g n).length_eq
    rw [List.length_append, List.length_take, h1, List.length_singleton]
    show g1.g.getDeg n ≤ _
    omega
  exact ((List.subperm_of_subset hnd hss).perm_of_length_le hlen).symm

end SplitPerm

section TrunkCtd

theorem lineOcc_line (ls : List LineOcc) (line : Nat) : (lineOcc ls line).line = line := by
  unfold lineOcc
  cases h : ls.find? fun lo => lo.line == line with
  | none => rfl
  | some lo =>
    have := List.find?_some h
    simpa using this

/-- With the exception recorded at the shared node, the line does not
continue between the two edges. -/
theorem lineCtdLine_of_exc {E : Type} [DecidableEq E] (g : CtdGraph E) (a b : E) (n line : Nat)
    (hs : g.sharedNode a b = some n) (hexc : (line, a, b) ∈ g.connExc n) :
    lineCtdLine g a b line = false := by
  unfold lineCtdLine
  split
  · rfl
  · unfold lineCtd
    rw [if_neg (by rw [lineOcc_line, lineOcc_line]; exact fun h => h rfl), hs]
    simp only
    split
    · rfl
    · have : g.connOccurs n (lineOcc (g.getLines a) line).line a b = false := by
        unfold CtdGraph.connOccurs
        rw [lineOcc_line]
        simpa using hexc
      rw [this, Bool.and_false]

end TrunkCtd

/-! ### The order of getOrdering and the connected components -/

section OrdConn

theorem mem_endsOf {l : List CombEdge} {m : Nat} :
    m ∈ endsOf l ↔ ∃ e ∈ l, e.getFrom = m ∨ e.getTo = m := by
  unfold endsOf
  simp only [List.mem_flatMap, List.mem_cons, List.mem_singleton, List.not_mem_nil, or_false]
  constructor
  · rintro ⟨e, he, h | h⟩
    · exact ⟨e, he, Or.inl h.symm⟩
    · exact ⟨e, he, Or.inr h.symm⟩
  · rintro ⟨e, he, h | h⟩
    · exact ⟨e, he, Or.inl h.symm⟩
    · exact ⟨e, he, Or.inr h.symm⟩

theorem endsOf_append (l : List CombEdge) (e : CombEdge) {m : Nat} :
    m ∈ endsOf (l ++ [e]) ↔ m ∈ endsOf l ∨ m = e.getFrom ∨ m = e.getTo := by
  unfold endsOf
  simp [List.flatMap_append]

theorem getOtherNd_end (e : CombEdge) (n : Nat) :
    e.getOtherNd n = e.getFrom ∨ e.getOtherNd n = e.getTo := by
  unfold CombEdge.getOtherNd
  split
  · exact Or.inr rfl
  · exact Or.inl rfl

variable {cg : CombGraph}

/-- The sequence stays good when an edge is put at its end that has an end
point among the end points so far, or whose connected component holds none of
them. -/
theorem ordGood_append {order : List CombEdge} {e : CombEdge} (h : OrdGood cg order)
    (he : (e.getFrom ∈ endsOf order ∨ e.getTo ∈ endsOf order) ∨
      ∀ m ∈ endsOf order, ¬ cg.Conn m e.getFrom) :
    OrdGood cg (order ++ [e]) := by
  intro pre x post hx
  rcases List.eq_nil_or_concat post with rfl | ⟨L, b, rfl⟩
  · have h1 : order ++ [e] = pre ++ [x] := hx
    obtain ⟨h2, h3⟩ := List.append_inj' h1 rfl
    rw [List.cons.injEq] at h3
    rw [← h2, ← h3.1]
    exact he
  · have h1 : order ++ [e] = (pre ++ x :: L) ++ [b] := by
      rw [hx]
      simp
    obtain ⟨h2, -⟩ := List.append_inj' h1 rfl
    exact h pre x L h2

theorem conn_of_end {nd : CombNode} (hnd : nd ∈ cg.getNds) {ee : CombEdge}
    (hee : ee ∈ nd.getAdjList) (ht : ee.getFrom = nd.id ∨ ee.getTo = nd.id) {m : Nat}
    (h : cg.Conn m ee.getFrom) : cg.Conn m nd.id := by
  rcases ht with ht | ht
  · rw [← ht]
    exact h
  · rw [← ht]
    exact Relation.ReflTransGen.tail h ⟨nd, hnd, ee, hee, Or.inl ⟨rfl, rfl⟩⟩

/-- One edge of the node `nd` and the invariant of the loop of lines
419-425. -/
theorem emitStep_conn {lt : Nat → Nat → Bool} {nd : CombNode} (hnd : nd ∈ cg.getNds)
    {st : OrdState} {ee : CombEdge} (hee : ee ∈ nd.getAdjList)
    (ht : ee.getFrom = nd.id ∨ ee.getTo = nd.id) (hinv : EmitConn cg nd.id st) :
    EmitConn cg nd.id (emitStep lt nd.id st ee) := by
  obtain ⟨h1, h2, h3, h4⟩ := hinv
  unfold emitStep
  split
  · exact ⟨h1, h2, h3, h4⟩
  · have hoth := getOtherNd_end ee nd.id
    have hnend : nd.id = ee.getFrom ∨ nd.id = ee.getTo := by
      rcases ht with ht | ht
      · exact Or.inl ht.symm
      · exact Or.inr ht.symm
    refine ⟨?_, ?_, ?_, ?_⟩
    · intro m hm
      show m ∈ st.settled ∨ m ∈ pqPush lt (ee.getOtherNd nd.id) st.dangling ∨ m = nd.id
      rcases (endsOf_append _ _).1 hm with h | h
      · rcases h1 m h with h | h | h
        · exact Or.inl h
        · exact Or.inr (Or.inl (mem_pqPush.2 (Or.inr h)))
        · exact Or.inr (Or.inr h)
      · by_cases hmn : m = nd.id
        · exact Or.inr (Or.inr hmn)
        · right
          left
          apply mem_pqPush.2
          left
          unfold CombEdge.getOtherNd
          rcases h with h | h
          · rw [if_neg (fun h5 => hmn (h.trans h5))]
            exact h
          · split
            · exact h
            · rename_i h5
              rcases ht with ht | ht
              · exact absurd ht h5
              · exact absurd (h.trans ht) hmn
    · show OrdGood cg (st.order ++ [ee])
      apply ordGood_append h2
      rcases h4 with h4 | h4
      · left
        rcases ht with ht | ht
        · exact Or.inl (ht ▸ h4)
        · exact Or.inr (ht ▸ h4)
      · right
        intro m hm hc
        exact h4 m hm (conn_of_end hnd hee ht hc)
    · intro m hm
      show m ∈ endsOf (st.order ++ [ee])
      rcases mem_pqPush.1 hm with h | h
      · rw [h]
        exact (endsOf_append _ _).2 (Or.inr hoth)
      · exact (endsOf_append _ _).2 (Or.inl (h3 m h))
    · left
      show nd.id ∈ endsOf (st.order ++ [ee])
      exact (endsOf_append _ _).2 (Or.inr hnend)

theorem emitFold_conn {lt : Nat → Nat → Bool} {nd : CombNode} (hnd : nd ∈ cg.getNds) :
    ∀ (l : List CombEdge) (st : OrdState),
      (∀ ee ∈ l, ee ∈ nd.getAdjList ∧ (ee.getFrom = nd.id ∨ ee.getTo = nd.id)) →
      EmitConn cg nd.id st → EmitConn cg nd.id (l.foldl (emitStep lt nd.id) st)
  | [], _, _, h => h
  | ee :: l, st, hl, h => by
    rw [List.foldl_cons]
    exact emitFold_conn hnd l _ (fun e he => hl e (List.mem_cons_of_mem _ he))
      (emitStep_conn hnd (hl ee (List.mem_cons_self _ _)).1
        (hl ee (List.mem_cons_self _ _)).2 h)

theorem findNd_mem {n : Nat} {nd : CombNode} (h : findNd cg n = some nd) :
    nd ∈ cg.getNds ∧ nd.id = n := by
  unfold findNd at h
  refine ⟨List.mem_of_find?_eq_some h, ?_⟩
  have := List.find?_some h
  simpa using this

/-- The inner loop of `getOrdering` keeps the invariant for the sequence. -/
theorem danglingLoop_conn {lt : Nat → Nat → Bool}
    {shuffle : Nat → List CombEdge → List CombEdge}
    (hsh : ∀ k l, (shuffle k l).Perm l)
    (hord : ∀ nd ∈ cg.getNds, ∀ e, e ∈ nd.getOrderedSet ↔ e ∈ nd.getAdjList)
    (htouch : ∀ nd ∈ cg.getNds, ∀ e ∈ nd.getAdjList, e.getFrom = nd.id ∨ e.getTo = nd.id) :
    ∀ (fuel : Nat) (st st1 : OrdState), OrdConn cg st →
      danglingLoop cg lt shuffle fuel st = some st1 →
      (∀ m ∈ endsOf st1.order, m ∈ st1.settled) ∧ OrdGood cg st1.order
  | 0, _, _, _, h => by simp [danglingLoop] at h
  | fuel + 1, st, st1, hinv, h => by
    obtain ⟨h1, h2, h3⟩ := hinv
    unfold danglingLoop at h
    cases hd : st.dangling with
    | nil =>
      rw [hd] at h
      simp only [Option.some.injEq] at h
      subst h
      refine ⟨fun m hm => ?_, h2⟩
      rcases h1 m hm with h | h
      · exact h
      · rw [hd] at h
        exact absurd h (List.not_mem_nil _)
    | cons n rest =>
      rw [hd] at h
      simp only at h
      by_cases hs : st.settled.contains n = true
      · rw [if_pos hs] at h
        have hns : n ∈ st.settled := by simpa using hs
        apply danglingLoop_conn hsh hord htouch fuel _ st1 _ h
        refine ⟨?_, h2, ?_⟩
        · intro m hm
          rcases h1 m hm with h | h
          · exact Or.inl h
          · rw [hd] at h
            rcases List.mem_cons.1 h with rfl | h
            · exact Or.inl hns
            · exact Or.inr h
        · left
          intro m hm
          rcases h3 with h3 | ⟨n0, h3, -⟩
          · exact h3 m (by rw [hd]; exact List.mem_cons_of_mem _ hm)
          · rw [hd] at h3
            simp only [List.cons.injEq] at h3
            rw [h3.2] at hm
            exact absurd hm (List.not_mem_nil _)
      · rw [if_neg hs] at h
        have hns : n ∉ st.settled := by simpa using hs
        cases hf : findNd cg n with
        | none =>
          rw [hf] at h
          simp at h
        | some nd =>
          rw [hf] at h
          simp only at h
          obtain ⟨hnd, rfl⟩ := findNd_mem hf
          have hperm := hsh st.shuffles nd.getOrderedSet
          have hstart : EmitConn cg nd.id
              { st with dangling := rest, shuffles := st.shuffles + 1 } := by
            refine ⟨?_, h2, ?_, ?_⟩
            · intro m hm
              rcases h1 m hm with h | h
              · exact Or.inl h
              · rw [hd] at h
                rcases List.mem_cons.1 h with h | h
                · exact Or.inr (Or.inr h)
                · exact Or.inr (Or.inl h)
            · intro m hm
              rcases h3 with h3 | ⟨n0, h3, -⟩
              · exact h3 m (by rw [hd]; exact List.mem_cons_of_mem _ hm)
              · rw [hd] at h3
                simp only [List.cons.injEq] at h3
                rw [h3.2] at hm
                exact absurd hm (List.not_mem_nil _)
            · rcases h3 with h3 | ⟨n0, h3, h4⟩
              · exact Or.inl (h3 _ (by rw [hd]; exact List.mem_cons_self _ _))
              · rw [hd] at h3
                simp only [List.cons.injEq] at h3
                rw [← h3.1] at h4
                rcases h4 with h4 | h4
                · exact absurd h4 hns
                · exact Or.inr h4
          obtain ⟨k1, k2, k3, -⟩ := @emitFold_conn cg lt nd hnd
            (shuffle st.shuffles nd.getOrderedSet) _
            (fun ee he => by
              have h5 := (hord nd hnd ee).1 (hperm.mem_iff.1 he)
              exact ⟨h5, htouch nd hnd ee h5⟩)
            hstart
          apply danglingLoop_conn hsh hord htouch fuel _ st1 _ h
          refine ⟨?_, k2, Or.inl k3⟩
          intro m hm
          rcases k1 m hm with h | h | h
          · exact Or.inl (List.mem_cons_of_mem _ h)
          · exact Or.inr h
          · exact Or.inl (h ▸ List.mem_cons_self _ _)

/-- Between two rounds of the outer loop the settled nodes are closed under
the edges of the graph: a node in the connected component of a settled node
is settled. -/
theorem settled_closed
    (hends : ∀ nd ∈ cg.getNds, ∀ e ∈ nd.getAdjList,
      ∃ m ∈ cg.getNds, m.id = e.getOtherNd nd.id)
    (hord : ∀ nd ∈ cg.getNds, ∀ e, e ∈ nd.getOrderedSet ↔ e ∈ nd.getAdjList)
    (htouch : ∀ nd ∈ cg.getNds, ∀ e ∈ nd.getAdjList, e.getFrom = nd.id ∨ e.getTo = nd.id)
    (hsym : ∀ nd ∈ cg.getNds, ∀ e ∈ nd.getAdjList, ∀ m ∈ cg.getNds,
      m.id = e.getOtherNd nd.id → e ∈ m.getAdjList)
    {st : OrdState} (hinv : OrdInv cg st) (hD : ∀ m ∈ endsOf st.order, m ∈ st.settled)
    {a b : Nat} (hc : cg.Conn a b) (ha : a ∈ st.settled) : b ∈ st.settled := by
  obtain ⟨-, h2, -, -, h5⟩ := hinv
  induction hc with
  | refl => exact ha
  | @tail x y _ hadj ih =>
    obtain ⟨nd, hnd, e, he, hxy⟩ := hadj
    have hdone : e ∈ st.done := by
      by_cases hid : nd.id = x
      · exact h5 nd hnd (hid ▸ ih) e ((hord nd hnd e).2 he)
      · obtain ⟨m, hm, hmid⟩ := hends nd hnd e he
        have hmx : m.id = x := by
          rw [hmid]
          unfold CombEdge.getOtherNd
          rcases hxy with ⟨h6, h7⟩ | ⟨h6, h7⟩
          · rcases htouch nd hnd e he with h8 | h8
            · exact absurd (h8.symm.trans h6) hid
            · rw [if_neg (fun h9 => hid (h9.symm.trans h6))]
              exact h6
          · split
            · exact h7
            · rename_i h9
              rcases htouch nd hnd e he with h8 | h8
              · exact absurd h8 h9
              · exact absurd (h8.symm.trans h7) hid
        exact h5 m hm (hmx ▸ ih) e ((hord m hm e).2 (hsym nd hnd e he m hm hmid))
    apply hD
    rw [mem_endsOf]
    refine ⟨e, (h2 e).2 hdone, ?_⟩
    rcases hxy with ⟨-, h7⟩ | ⟨h6, -⟩
    · exact Or.inr h7
    · exact Or.inl h6

/-- The outer loop of `getOrdering` keeps the sequence good. -/
theorem globalLoop_conn {lt : Nat → Nat → Bool}
    {shuffle : Nat → List CombEdge → List CombEdge}
    (hsh : ∀ k l, (shuffle k l).Perm l)
    (hids : (cg.getNds.map CombNode.id).Nodup)
    (hends : ∀ nd ∈ cg.getNds, ∀ e ∈ nd.getAdjList,
      ∃ m ∈ cg.getNds, m.id = e.getOtherNd nd.id)
    (hord : ∀ nd ∈ cg.getNds, ∀ e, e ∈ nd.getOrderedSet ↔ e ∈ nd.getAdjList)
    (htouch : ∀ nd ∈ cg.getNds, ∀ e ∈ nd.getAdjList, e.getFrom = nd.id ∨ e.getTo = nd.id)
    (hsym : ∀ nd ∈ cg.getNds, ∀ e ∈ nd.getAdjList, ∀ m ∈ cg.getNds,
      m.id = e.getOtherNd nd.id → e ∈ m.getAdjList) :
    ∀ (q : List Nat) (st st1 : OrdState), OrdInv cg st → st.dangling = [] →
      (∀ m ∈ endsOf st.order, m ∈ st.settled) → OrdGood cg st.order →
      (∀ n ∈ q, ∃ nd ∈ cg.getNds, nd.id = n) →
      globalLoop cg lt shuffle ((allOrdered cg).length + 2) q st = some st1 →
      OrdGood cg st1.order
  | [], st, st1, _, _, _, hg, _, h => by
    simp only [globalLoop, Option.some.injEq] at h
    exact h ▸ hg
  | n :: q, st, st1, hinv, hd, hD, hg, hq, h => by
    have hends2 : ∀ nd ∈ cg.getNds, ∀ e ∈ nd.getOrderedSet,
        ∃ m ∈ cg.getNds, m.id = e.getOtherNd nd.id :=
      fun nd hnd e he => hends nd hnd e ((hord nd hnd e).1 he)
    obtain ⟨h1, h2, h3, h4, h5⟩ := hinv
    have hinv0 : OrdInv cg { st with dangling := pqPush lt n st.dangling } := by
      refine ⟨h1, h2, h3, ?_, h5⟩
      intro m hm
      rcases mem_pqPush.1 hm with rfl | hm
      · exact hq m (List.mem_cons_self _ _)
      · exact h4 m hm
    have hmeas : ordMeasure cg { st with dangling := pqPush lt n st.dangling } <
        (allOrdered cg).length + 2 := by
      simp only [ordMeasure, hd, pqPush, List.length_singleton]
      have a1 := List.countP_le_length (fun e => !st.done.contains e)
        (l := (allOrdered cg).dedup)
      have a2 := (List.dedup_sublist (allOrdered cg)).length_le
      omega
    obtain ⟨s1, e1, i1, d1, -, -⟩ :=
      @danglingLoop_spec _ lt _ hsh hids hends2 _ _ hinv0 hmeas
    unfold globalLoop at h
    rw [e1] at h
    simp only at h
    have hconn : OrdConn cg { st with dangling := pqPush lt n st.dangling } := by
      refine ⟨fun m hm => Or.inl (hD m hm), hg, Or.inr ⟨n, ?_, ?_⟩⟩
      · show pqPush lt n st.dangling = [n]
        rw [hd]
        rfl
      · by_cases hn : n ∈ st.settled
        · exact Or.inl hn
        · right
          intro m hm hc
          exact hn (settled_closed hends hord htouch hsym ⟨h1, h2, h3, h4, h5⟩ hD hc (hD m hm))
    obtain ⟨k1, k2⟩ := danglingLoop_conn hsh hord htouch _ _ s1 hconn e1
    exact globalLoop_conn hsh hids hends hord htouch hsym q s1 st1 i1 d1 k1 k2
      (fun m hm => hq m (List.mem_cons_of_mem _ hm)) h

end OrdConn

section DrawSettled

variable {G Dr C : Type} {ops : DrawOps G Dr C}

theorem openFold_settled (hs : SettleSpec ops) (pen : ℚ) (nd v : Nat) :
    ∀ (l : List Nat) (st : DrawState G Dr),
      ops.isSettled (l.foldl (openNode ops pen nd) st).gg v = ops.isSettled st.gg v
  | [], _ => rfl
  | n :: l, st => by
    rw [List.foldl_cons, openFold_settled hs pen nd v l]
    exact hs.openNodeSink _ _ _ _

theorem openSinks_settled (hs : SettleSpec ops) (c_0 : ℚ) (e : CombEdge) (sel : Selection)
    (st : DrawState G Dr) (v : Nat) :
    ops.isSettled (openSinks ops c_0 e sel st).gg v = ops.isSettled st.gg v := by
  have hw : ∀ (s : DrawState G Dr) (n nd : Nat),
      ops.isSettled (writeNdCosts ops s n nd e).gg v = ops.isSettled s.gg v :=
    fun s n nd => hs.addCostVector _ _ _ _
  have hsrc : ∀ s : DrawState G Dr,
      ops.isSettled (writeSource ops e sel s).gg v = ops.isSettled s.gg v := by
    intro s
    unfold writeSource
    split
    · exact hw _ _ _
    · rfl
  have htgt : ∀ s : DrawState G Dr,
      ops.isSettled (writeTarget ops e sel s).gg v = ops.isSettled s.gg v := by
    intro s
    unfold writeTarget
    split
    · split
      · exact hw _ _ _
      · rfl
    · rfl
  unfold openSinks
  simp only
  rw [htgt, hsrc]
  show ops.isSettled (ops.openNodeSink _ _ _) v = _
  rw [hs.openNodeSink, openFold_settled hs]

theorem closeFold_settled (hs : SettleSpec ops) (v : Nat) :
    ∀ (l : List Nat) (st : DrawState G Dr),
      ops.isSettled (l.foldl (closeNode ops) st).gg v = ops.isSettled st.gg v
  | [], _ => rfl
  | n :: l, st => by
    rw [List.foldl_cons, closeFold_settled hs v l]
    exact hs.closeNodeSink _ _ _

theorem closeSinks_settled (hs : SettleSpec ops) (sel : Selection) (st : DrawState G Dr)
    (v : Nat) : ops.isSettled (closeSinks ops sel st).gg v = ops.isSettled st.gg v := by
  unfold closeSinks
  show ops.isSettled (ops.closeNodeSink _ _) v = _
  rw [hs.closeNodeSink, closeFold_settled hs]

theorem settleFold_settled (hs : SettleSpec ops) (e : CombEdge) (v : Nat) :
    ∀ (res : List GridEdge) (st : DrawState G Dr),
      ops.isSettled (res.foldl (settleStep ops e) st).gg v = ops.isSettled st.gg v
  | [], _ => rfl
  | f :: res, st => by
    rw [List.foldl_cons, settleFold_settled hs e v res]
    unfold settleStep
    split
    · rfl
    · exact hs.settleEdg _ _ _ _ _

theorem settleRes_settled (hs : SettleSpec ops) (st : DrawState G Dr)
    (frGrNd toGrNd frCmbNd toCmbNd : Nat) (res : List GridEdge) (e : CombEdge) (v : Nat) :
    ops.isSettled (settleRes ops st frGrNd toGrNd frCmbNd toCmbNd res e).gg v =
      (v == frCmbNd || (v == toCmbNd || ops.isSettled st.gg v)) := by
  unfold settleRes
  simp only
  rw [settleFold_settled hs]
  show ops.isSettled (ops.settleNd (ops.settleNd st.gg toGrNd toCmbNd) frGrNd frCmbNd) v = _
  rw [hs.settleNd, hs.settleNd]

/-- After a comb edge was routed both its end points are settled, and what
was settled stays settled. -/
theorem routeEdge_settled (hs : SettleSpec ops) {settled : Nat → Option (Nat × Nat)}
    {fuel : Nat} {c_0 : ℚ} {st st1 : DrawState G Dr} {e : CombEdge}
    (h : routeEdge ops settled fuel c_0 st e = some (true, st1)) (v : Nat) :
    ops.isSettled st1.gg v = true ↔
      v = e.getFrom ∨ v = e.getTo ∨ ops.isSettled st.gg v = true := by
  unfold routeEdge at h
  split at h
  · exact absurd h (by simp)
  · exact absurd h (by simp)
  · rename_i sel hsel
    obtain ⟨-, r2, r3, -, -⟩ := selectNodes_some hsel
    simp only at h
    split at h
    · exact absurd h (by simp)
    · simp only [Option.some.injEq, Prod.mk.injEq, true_and] at h
      rw [← h, settleRes_settled hs, closeSinks_settled hs]
      show (v == sel.frCmbNd || (v == sel.toCmbNd ||
        ops.isSettled (openSinks ops c_0 e sel st).gg v)) = true ↔ _
      rw [openSinks_settled hs, r2, r3]
      simp only [Bool.or_eq_true, beq_iff_eq]
      split <;> tauto

/-- After the comb edges of a list were routed their end points are
settled. -/
theorem drawLoop_settled (hs : SettleSpec ops) {settled : Nat → Option (Nat × Nat)}
    {fuel : Nat} {c_0 : ℚ} :
    ∀ (pre : List CombEdge) (st0 st : DrawState G Dr),
      drawLoop ops settled fuel c_0 pre st0 = some (true, st) →
      ∀ v, ops.isSettled st.gg v = true ↔ v ∈ endsOf pre ∨ ops.isSettled st0.gg v = true
  | [], st0, st, h, v => by
    simp only [drawLoop, Option.some.injEq, Prod.mk.injEq, true_and] at h
    rw [h]
    simp [endsOf]
  | e :: pre, st0, st, h, v => by
    rw [drawLoop] at h
    split at h
    · exact absurd h (by simp)
    · exact absurd h (by simp)
    · rename_i st1 hr
      rw [drawLoop_settled hs pre st1 st h v, routeEdge_settled hs hr v]
      simp only [endsOf, List.flatMap_cons, List.mem_append, List.mem_cons, List.mem_singleton,
        List.not_mem_nil, or_false]
      tauto

end DrawSettled

/-! ## Claims -/

/-- C1. In the problem built by `createProblem`, every comb node of degree
greater than zero has exactly one row `oneass(v)`, fixed to 1, whose
coefficient is 1 on every station-position variable of `v` that exists and 0
on every other variable; a variable `statpos(n,v)` exists exactly for the
sinks `n` whose distance to `v` is strictly less than `maxGrDist * cellSize`
(and `v` of degree greater than zero); a comb node of degree 0 has neither a
row nor a station-position variable. Comb nodes and grid nodes are distinct
objects: their ids are pairwise different. -/
theorem createProblem_assignment (gg : GridGraph) (cg : CombGraph)
    (geoPens : Option (Nat → Nat → ℚ)) (maxGrDist : ℚ) (dist : Nat → Nat → ℚ) (p : Problem)
    (h : createProblem gg cg geoPens maxGrDist dist = some p)
    (hcg : (cg.getNds.map CombNode.id).Nodup)
    (hgg : (gg.getNds.map GridNode.getId).Nodup) :
    (∀ nd ∈ cg.getNds, 0 < nd.getDeg →
      ∃ r, p.rows.filter (fun r => decide (r.name = .oneass nd.id)) = [r] ∧
        r.bnd = ⟨.FX, 1, 1⟩ ∧
        (∀ n, hasCol p.cols (.statpos n nd.id) = true → r.coef (.statpos n nd.id) = 1) ∧
        (∀ x, r.coef x ≠ 0 → ∃ n, x = .statpos n nd.id ∧ hasCol p.cols x = true)) ∧
    (∀ n v, hasCol p.cols (.statpos n v) = true ↔
      ∃ nd ∈ cg.getNds, nd.id = v ∧ 0 < nd.getDeg ∧
        ∃ gn ∈ gg.getNds, gn.getId = n ∧ gn.isSink = true ∧
          dist n v < maxGrDist * gg.getCellSize) ∧
    (∀ nd ∈ cg.getNds, nd.getDeg = 0 →
      (∀ r ∈ p.rows, r.name ≠ .oneass nd.id) ∧
      ∀ n, hasCol p.cols (.statpos n nd.id) = false) := by
  have hcol : ∀ n v, hasCol p.cols (.statpos n v) = true ↔
      ∃ nd ∈ cg.getNds, nd.id = v ∧ 0 < nd.getDeg ∧
        ∃ gn ∈ gg.getNds, gn.getId = n ∧ gn.isSink = true ∧
          dist n v < maxGrDist * gg.getCellSize := by
    intro n v
    rw [hasCol_problem_base h _ (by simp [VarName.tag]), hasCol_base_statpos,
      hasCol_statPosCols]
  have hid : ∀ nd ∈ cg.getNds, ∀ nd' ∈ cg.getNds, nd'.id = nd.id → nd' = nd := by
    intro nd hnd nd' hnd' hid
    exact List.inj_on_of_nodup_map hcg hnd' hnd hid
  have hfil : ∀ v, p.rows.filter (fun r => decide (r.name = .oneass v)) =
      (oneassRows gg cg dist maxGrDist).filter (fun r => decide (r.name = .oneass v)) := by
    intro v
    obtain ⟨_, -, hf⟩ := rows_filter h (fun m => decide (m = .oneass v)) 0 (by omega)
      (fun m hm => by
        have : m = .oneass v := by simpa using hm
        rw [this]; rfl)
    simpa using hf
  refine ⟨?_, hcol, ?_⟩
  · intro nd hnd hdeg
    refine ⟨oneassRow gg dist maxGrDist nd, ?_, rfl, ?_, ?_⟩
    · rw [hfil, oneassRows, List.filter_map]
      have hmem : nd ∈ assignNds cg := by
        rw [assignNds, List.mem_filter]
        exact ⟨hnd, by simp; omega⟩
      have hnd2 : ((assignNds cg).map CombNode.id).Nodup :=
        hcg.sublist (List.Sublist.map _ (List.filter_sublist _))
      have := filter_eq_singleton CombNode.id _ hnd2 nd hmem
      have h2 : ((fun r : Row => decide (r.name = RowName.oneass nd.id)) ∘
          oneassRow gg dist maxGrDist) = fun x => decide (x.id = nd.id) := by
        funext x
        simp [oneassRow]
      rw [h2, this]
      rfl
    · intro n hn
      obtain ⟨nd', hnd', hid', -, gn, hgn, rfl, hs, hd⟩ := (hcol n nd.id).1 hn
      exact oneassRow_coef_one hgg nd (mem_candNds.2 ⟨hgn, hs, hd⟩)
    · intro x hx
      obtain ⟨n, hn, rfl⟩ := oneassRow_coef_ne_zero nd hx
      obtain ⟨h1, h2, h3⟩ := mem_candNds.1 hn
      exact ⟨n.getId, rfl, (hcol _ _).2 ⟨nd, hnd, rfl, hdeg, n, h1, rfl, h2, h3⟩⟩
  · intro nd hnd hdeg
    constructor
    · intro r hr hname
      have hr2 : r ∈ p.rows.filter (fun r => decide (r.name = .oneass nd.id)) := by
        rw [List.mem_filter]
        exact ⟨hr, by simpa using hname⟩
      rw [hfil, List.mem_filter] at hr2
      obtain ⟨nd', hnd', hdeg', rfl⟩ := mem_oneassRows.1 hr2.1
      have hid' : nd'.id = nd.id := by simpa [oneassRow] using hr2.2
      rw [hid nd hnd nd' hnd' hid'] at hdeg'
      exact hdeg' hdeg
    · intro n
      rw [← Bool.not_eq_true, hcol]
      rintro ⟨nd', hnd', hid', hdeg', -⟩
      rw [hid nd hnd nd' hnd' hid'] at hdeg'
      omega

/-- Witness for C1 on the grid of two cells. -/
theorem createProblem_assignment_witness :
    (∀ nd ∈ exComb.getNds, 0 < nd.getDeg →
      ∃ r, exP21.rows.filter
          (fun r => decide (r.name = .oneass nd.id)) = [r] ∧
        r.bnd = ⟨.FX, 1, 1⟩ ∧
        (∀ n, hasCol exP21.cols (.statpos n nd.id) = true →
          r.coef (.statpos n nd.id) = 1) ∧
        (∀ x, r.coef x ≠ 0 → ∃ n, x = .statpos n nd.id ∧
          hasCol exP21.cols x = true)) ∧
    (∀ n v, hasCol exP21.cols (.statpos n v) = true ↔
      ∃ nd ∈ exComb.getNds, nd.id = v ∧ 0 < nd.getDeg ∧
        ∃ gn ∈ (exGrid 2 1).getNds, gn.getId = n ∧ gn.isSink = true ∧
          exDist n v < 1 * (exGrid 2 1).getCellSize) ∧
    (∀ nd ∈ exComb.getNds, nd.getDeg = 0 →
      (∀ r ∈ exP21.rows, r.name ≠ .oneass nd.id) ∧
      ∀ n, hasCol exP21.cols (.statpos n nd.id) = false) :=
  createProblem_assignment (exGrid 2 1) exComb none 1 exDist _ exProblem_eq_21
    exComb_nodup exGrid_nodup_21

/-- C2. For every primary grid edge the problem has exactly one row named
`uniqedge` after the edge or its reverse, with upper bound 1, whose
coefficient is 1 on every existing edge-use variable of the edge and of its
reverse (for every comb edge) and 0 elsewhere; hence in a feasible solution
no two different edge-use variables of the edge or its reverse are 1: no two
comb edges share it and no comb edge uses both directions. Assumed of the
input: comb edges are listed once, primary edges join two different port
nodes, and a primary edge of infinite cost has a reverse of infinite cost. -/
theorem createProblem_uniqedge (gg : GridGraph) (cg : CombGraph)
    (geoPens : Option (Nat → Nat → ℚ)) (maxGrDist : ℚ) (dist : Nat → Nat → ℚ) (p : Problem)
    (h : createProblem gg cg geoPens maxGrDist dist = some p)
    (hce : ((combEdges cg).map CombEdge.id).Nodup)
    (hprim : ∀ e ∈ allAdj gg, e.isSecondary = false →
      e.getFrom ≠ e.getTo ∧
      ∀ n ∈ gg.getNds, n.isSink = true → e.getFrom ≠ n.getId ∧ e.getTo ≠ n.getId)
    (hsym : ∀ e ∈ allAdj gg, e.isSecondary = false →
      gg.cost e.getFrom e.getTo = none → gg.cost e.getTo e.getFrom = none) :
    ∀ e ∈ allAdj gg, e.isSecondary = false →
      ∃ r, p.rows.filter (fun r => decide (r.name = .uniqedge e.getFrom e.getTo ∨
            r.name = .uniqedge e.getTo e.getFrom)) = [r] ∧
        r.bnd = ⟨.UP, 1, 1⟩ ∧
        (∀ c, hasCol p.cols (.edg e.getFrom e.getTo c) = true →
          r.coef (.edg e.getFrom e.getTo c) = 1) ∧
        (∀ c, hasCol p.cols (.edg e.getTo e.getFrom c) = true →
          r.coef (.edg e.getTo e.getFrom c) = 1) ∧
        (∀ x, r.coef x ≠ 0 → hasCol p.cols x = true ∧
          ∃ c, x = .edg e.getFrom e.getTo c ∨ x = .edg e.getTo e.getFrom c) ∧
        (∀ σ, Feasible p σ → ∀ x y,
          (∃ c, x = .edg e.getFrom e.getTo c ∨ x = .edg e.getTo e.getFrom c) →
          (∃ c, y = .edg e.getFrom e.getTo c ∨ y = .edg e.getTo e.getFrom c) →
          x ≠ y → hasCol p.cols x = true → hasCol p.cols y = true →
          ¬ (σ x = 1 ∧ σ y = 1)) := by
  intro e he hsec
  -- the rows named after the edge
  obtain ⟨_, -, hf⟩ := rows_filter h
    (fun m => decide (m = .uniqedge e.getFrom e.getTo ∨ m = .uniqedge e.getTo e.getFrom))
    1 (by omega) (fun m hm => by
      have : m = .uniqedge e.getFrom e.getTo ∨ m = .uniqedge e.getTo e.getFrom := by
        simpa using hm
      rcases this with rfl | rfl <;> rfl)
  simp only [one_ne_zero, ↓reduceIte] at hf
  rw [uniqEdgeRows, allAdj_openCands,
    uniqEdgeLoop_filter e.getFrom e.getTo (allAdj gg) [] (by simp)] at hf
  simp only [List.not_mem_nil, ↓reduceIte] at hf
  -- the first primary edge with these end points
  have hfind : ∃ e', (allAdj gg).find? (fun e' => !e'.isSecondary &&
      (decide (e'.getFrom = e.getFrom ∧ e'.getTo = e.getTo) ||
        decide (e'.getFrom = e.getTo ∧ e'.getTo = e.getFrom))) = some e' := by
    rw [← Option.isSome_iff_exists, List.find?_isSome]
    exact ⟨e, he, by simp [hsec]⟩
  obtain ⟨e', hfe⟩ := hfind
  rw [hfe] at hf
  have he' : e' ∈ allAdj gg := List.mem_of_find?_eq_some hfe
  have hpe' := List.find?_some hfe
  simp only [Bool.and_eq_true, Bool.not_eq_eq_eq_not, Bool.not_true, Bool.or_eq_true,
    decide_eq_true_eq] at hpe'
  obtain ⟨hsec', hkey⟩ := hpe'
  obtain ⟨hne', hport'⟩ := hprim e' he' hsec'
  have hcost' : (openCands gg cg dist maxGrDist).cost e'.getFrom e'.getTo =
      gg.cost e'.getFrom e'.getTo := openCands_cost hport'
  have hcostr' : (openCands gg cg dist maxGrDist).cost e'.getTo e'.getFrom =
      gg.cost e'.getTo e'.getFrom :=
    openCands_cost (fun n hn hs => ⟨(hport' n hn hs).2, (hport' n hn hs).1⟩)
  -- lookups in the problem are lookups in the base columns
  have hbase : ∀ a b c, hasCol p.cols (.edg a b c) =
      hasCol (baseCols gg cg geoPens maxGrDist dist) (.edg a b c) :=
    fun a b c => hasCol_problem_base h _ (by simp [VarName.tag])
  -- an existing variable has a comb edge and a finite cost
  have hex : ∀ a b c, hasCol (baseCols gg cg geoPens maxGrDist dist) (.edg a b c) = true →
      ∃ edg ∈ combEdges cg, edg.id = c ∧
        (openCands gg cg dist maxGrDist).cost a b ≠ none := by
    intro a b c hc
    rw [hasCol_base_edg, hasCol_edgeUseCols] at hc
    obtain ⟨edg, hedg, hid, n, -, e0, -, -, -, -, hcost, -, -⟩ := hc
    exact ⟨edg, hedg, hid, hcost⟩
  -- the row's own cost is finite as soon as one of the two variables exists
  have hfin : ∀ c, (hasCol (baseCols gg cg geoPens maxGrDist dist)
        (.edg e'.getFrom e'.getTo c) = true ∨
      hasCol (baseCols gg cg geoPens maxGrDist dist) (.edg e'.getTo e'.getFrom c) = true) →
      ∃ edg ∈ combEdges cg, edg.id = c ∧
        (openCands gg cg dist maxGrDist).cost e'.getFrom e'.getTo ≠ none := by
    intro c hc
    rcases hc with hc | hc
    · exact hex _ _ _ hc
    · obtain ⟨edg, hedg, hid, hcost⟩ := hex _ _ _ hc
      refine ⟨edg, hedg, hid, ?_⟩
      rw [hcost']
      intro hnone
      exact hcost (by rw [hcostr']; exact hsym e' he' hsec' hnone)
  have hfwd : ∀ c, hasCol (baseCols gg cg geoPens maxGrDist dist)
        (.edg e'.getFrom e'.getTo c) = true →
      (uniqEdgeRow (openCands gg cg dist maxGrDist)
        (baseCols gg cg geoPens maxGrDist dist) cg e').coef (.edg e'.getFrom e'.getTo c) = 1 := by
    intro c hc
    obtain ⟨edg, hedg, rfl, hcost⟩ := hfin c (Or.inl hc)
    exact uniqEdgeRow_coef_fwd hce hne' hedg hcost hc
  have hbwd : ∀ c, hasCol (baseCols gg cg geoPens maxGrDist dist)
        (.edg e'.getTo e'.getFrom c) = true →
      (uniqEdgeRow (openCands gg cg dist maxGrDist)
        (baseCols gg cg geoPens maxGrDist dist) cg e').coef (.edg e'.getTo e'.getFrom c) = 1 := by
    intro c hc
    obtain ⟨edg, hedg, rfl, hcost⟩ := hfin c (Or.inr hc)
    exact uniqEdgeRow_coef_bwd hce hne' hedg hcost hc
  -- coefficient one on every existing variable of the edge or its reverse
  have hone : ∀ x, (∃ c, x = .edg e.getFrom e.getTo c ∨ x = .edg e.getTo e.getFrom c) →
      hasCol p.cols x = true →
      (uniqEdgeRow (openCands gg cg dist maxGrDist)
        (baseCols gg cg geoPens maxGrDist dist) cg e').coef x = 1 := by
    rintro x ⟨c, rfl | rfl⟩ hx <;> rw [hbase] at hx <;>
      rcases hkey with ⟨h1, h2⟩ | ⟨h1, h2⟩
    · rw [← h1, ← h2] at hx ⊢; exact hfwd c hx
    · rw [← h1, ← h2] at hx ⊢; exact hbwd c hx
    · rw [← h1, ← h2] at hx ⊢; exact hbwd c hx
    · rw [← h1, ← h2] at hx ⊢; exact hfwd c hx
  refine ⟨_, hf, rfl, fun c hc => hone _ ⟨c, Or.inl rfl⟩ hc,
    fun c hc => hone _ ⟨c, Or.inr rfl⟩ hc, ?_, ?_⟩
  · intro x hx
    obtain ⟨y, hy, rfl⟩ := coefL_ne_zero hx
    obtain ⟨h1, -, c, h3⟩ := mem_uniqEdgeRow_entries hy
    have hx1 : hasCol p.cols y.1 = true := by
      rcases h3 with h3 | h3 <;> rw [h3, hbase, ← h3] <;> exact h1
    refine ⟨hx1, c, ?_⟩
    rcases hkey with ⟨k1, k2⟩ | ⟨k1, k2⟩
    · rw [← k1, ← k2]; exact h3
    · rw [← k1, ← k2]; exact h3.symm
  · intro σ hσ x y hx hy hxy hcx hcy hboth
    have hrow : (uniqEdgeRow (openCands gg cg dist maxGrDist)
        (baseCols gg cg geoPens maxGrDist dist) cg e') ∈ p.rows := by
      have : (uniqEdgeRow (openCands gg cg dist maxGrDist)
          (baseCols gg cg geoPens maxGrDist dist) cg e') ∈
          p.rows.filter (fun r => (fun m => decide (m = .uniqedge e.getFrom e.getTo ∨
            m = .uniqedge e.getTo e.getFrom)) r.name) := by
        rw [hf]; exact List.mem_singleton_self _
      exact (List.mem_filter.1 this).1
    have hle : (uniqEdgeRow (openCands gg cg dist maxGrDist)
        (baseCols gg cg geoPens maxGrDist dist) cg e').eval σ ≤ 1 := hσ.1 _ hrow
    have hnn : ∀ en ∈ (uniqEdgeRow (openCands gg cg dist maxGrDist)
        (baseCols gg cg geoPens maxGrDist dist) cg e').entries, 0 ≤ en.2 ∧ 0 ≤ σ en.1 := by
      intro en hen
      obtain ⟨h1, h2, -⟩ := mem_uniqEdgeRow_entries hen
      exact ⟨by rw [h2]; decide, (feasible_binary h hσ h1).1⟩
    have h2 := evalL_two_le hxy _ hnn
    have hx1 := hone x hx hcx
    have hy1 := hone y hy hcy
    simp only [Row.coef] at hx1 hy1
    rw [hx1, hy1, hboth.1, hboth.2] at h2
    simp only [Row.eval] at hle
    omega

/-- Witness for C2: the primary edge between the two cells of the example
grid, with a feasible drawing of the example. -/
theorem createProblem_uniqedge_witness :
    (∃ r, exP21.rows.filter (fun r => decide (r.name = .uniqedge exPrimary.getFrom exPrimary.getTo ∨
            r.name = .uniqedge exPrimary.getTo exPrimary.getFrom)) = [r] ∧
        r.bnd = ⟨.UP, 1, 1⟩ ∧
        (∀ c, hasCol exP21.cols (.edg exPrimary.getFrom exPrimary.getTo c) = true →
          r.coef (.edg exPrimary.getFrom exPrimary.getTo c) = 1) ∧
        (∀ c, hasCol exP21.cols (.edg exPrimary.getTo exPrimary.getFrom c) = true →
          r.coef (.edg exPrimary.getTo exPrimary.getFrom c) = 1) ∧
        (∀ x, r.coef x ≠ 0 → hasCol exP21.cols x = true ∧
          ∃ c, x = .edg exPrimary.getFrom exPrimary.getTo c ∨
            x = .edg exPrimary.getTo exPrimary.getFrom c) ∧
        (∀ σ, Feasible exP21 σ → ∀ x y,
          (∃ c, x = .edg exPrimary.getFrom exPrimary.getTo c ∨
            x = .edg exPrimary.getTo exPrimary.getFrom c) →
          (∃ c, y = .edg exPrimary.getFrom exPrimary.getTo c ∨
            y = .edg exPrimary.getTo exPrimary.getFrom c) →
          x ≠ y → hasCol exP21.cols x = true → hasCol exP21.cols y = true →
          ¬ (σ x = 1 ∧ σ y = 1))) ∧
    Feasible exP21 exSol :=
  ⟨createProblem_uniqedge (exGrid 2 1) exComb none 1 exDist exP21 exProblem_eq_21
    exComb_edges_nodup exGrid_primary_21 exGrid_sym_21 exPrimary exPrimary_mem rfl,
    exSol_feasible_21⟩

/-- C3, as claimed, fails: the row `adjsum(0,0)` of the example problem (sink
0, the one comb edge) is not an equality. Its bound type is `GLP_UP` with
upper bound 0, and the assignment that only sets `statpos(0,0)` satisfies
the row with value -2. -/
theorem adjsum_not_an_equality :
    ∃ r ∈ exP21.rows, r.name = .adjsum 0 0 ∧ r.bnd = ⟨.UP, 0, 0⟩ ∧
      r.bnd.sat (r.eval exStat) ∧ r.eval exStat = -2 := by
  decide!

/-- C3, amended. For every grid node `n` with at least one adjacent edge of
finite cost and every comb edge `c` there is exactly one row `adjsum(n,c)`;
it is an upper bound, value at most 0 (not an equality). Its coefficient is
-1 on every existing edge-use variable of `c` on an edge entering `n`, and on
those of edges leaving `n` it is 2 when `n` is a sink and 1 otherwise; at a
sink the source term `statpos(n,from(c))` has coefficient -2 and the target
term `statpos(n,to(c))` coefficient 1; at a port node no station variable
appears; every other coefficient is 0. A grid node all of whose adjacent
edges are infinite has no such row. Assumed of the input: grid nodes and
comb edges are listed once, and the in- and out-lists of a node hold its
entering and leaving edges, each once, none a self-loop. -/
theorem createProblem_adjsum (gg : GridGraph) (cg : CombGraph)
    (geoPens : Option (Nat → Nat → ℚ)) (maxGrDist : ℚ) (dist : Nat → Nat → ℚ) (p : Problem)
    (h : createProblem gg cg geoPens maxGrDist dist = some p)
    (hgg : (gg.getNds.map GridNode.getId).Nodup)
    (hce : ((combEdges cg).map CombEdge.id).Nodup)
    (hadj : ∀ n ∈ gg.getNds,
      (n.getAdjListIn.map fun e => (e.getFrom, e.getTo)).Nodup ∧
      (n.getAdjListOut.map fun e => (e.getFrom, e.getTo)).Nodup ∧
      (∀ e ∈ n.getAdjListIn, e.getTo = n.getId ∧ e.getFrom ≠ n.getId) ∧
      (∀ e ∈ n.getAdjListOut, e.getFrom = n.getId ∧ e.getTo ≠ n.getId)) :
    (∀ n ∈ gg.getNds, nonInfDeg (openCands gg cg dist maxGrDist) n ≠ 0 →
      ∀ c ∈ combEdges cg,
      ∃ r, p.rows.filter (fun r => decide (r.name = .adjsum n.getId c.id)) = [r] ∧
        r.bnd = ⟨.UP, 0, 0⟩ ∧
        (∀ e ∈ n.getAdjListIn, hasCol p.cols (.edg e.getFrom e.getTo c.id) = true →
          r.coef (.edg e.getFrom e.getTo c.id) = -1) ∧
        (∀ e ∈ n.getAdjListOut, hasCol p.cols (.edg e.getFrom e.getTo c.id) = true →
          r.coef (.edg e.getFrom e.getTo c.id) = if n.isSink then 2 else 1) ∧
        (n.isSink = true → c.getFrom ≠ c.getTo →
          hasCol p.cols (.statpos n.getId c.getFrom) = true →
          r.coef (.statpos n.getId c.getFrom) = -2) ∧
        (n.isSink = true → c.getFrom ≠ c.getTo →
          hasCol p.cols (.statpos n.getId c.getTo) = true →
          r.coef (.statpos n.getId c.getTo) = 1) ∧
        (n.isSink = false → ∀ m v, r.coef (.statpos m v) = 0) ∧
        (∀ x, r.coef x ≠ 0 → hasCol p.cols x = true ∧
          ((n.isSink = true ∧
              (x = .statpos n.getId c.getFrom ∨ x = .statpos n.getId c.getTo)) ∨
            ∃ e, (e ∈ n.getAdjListIn ∨ e ∈ n.getAdjListOut) ∧
              x = .edg e.getFrom e.getTo c.id)) ∧
        (∀ σ, Feasible p σ → r.eval σ ≤ 0)) ∧
    (∀ n ∈ gg.getNds, nonInfDeg (openCands gg cg dist maxGrDist) n = 0 →
      ∀ r ∈ p.rows, ∀ c, r.name ≠ .adjsum n.getId c) := by
  have hbase : ∀ v : VarName, v.tag ≤ 1 → hasCol p.cols v =
      hasCol (baseCols gg cg geoPens maxGrDist dist) v :=
    fun v hv => hasCol_problem_base h v hv
  constructor
  · intro n hn hdeg c hc
    obtain ⟨hin, hout, hinE, houtE⟩ := hadj n hn
    obtain ⟨_, -, hf⟩ := rows_filter h (fun m => decide (m = .adjsum n.getId c.id)) 2
      (by omega) (fun m hm => by
        have : m = .adjsum n.getId c.id := by simpa using hm
        rw [this]; rfl)
    simp only [OfNat.ofNat_ne_zero, ↓reduceIte, OfNat.ofNat_ne_one] at hf
    have hsing : (adjsumRows (openCands gg cg dist maxGrDist)
        (baseCols gg cg geoPens maxGrDist dist) cg).filter
        (fun r => decide (r.name = .adjsum n.getId c.id)) =
        [adjsumRow (baseCols gg cg geoPens maxGrDist dist) n c] := by
      unfold adjsumRows
      rw [openCands_getNds]
      apply filter_flatMap_map (adjsumRow (baseCols gg cg geoPens maxGrDist dist))
        (fun r => decide (r.name = .adjsum n.getId c.id)) GridNode.getId CombEdge.id
        (fun _ => combEdges cg) n c hc hce
      · rw [List.mem_filter]
        exact ⟨hn, by simpa using hdeg⟩
      · exact hgg.sublist (List.Sublist.map _ (List.filter_sublist _))
      · intro a' _ b' _
        simp [adjsumRow]
    rw [hsing] at hf
    refine ⟨_, hf, rfl, ?_, ?_, ?_, ?_, ?_, ?_, ?_⟩
    · intro e he hcol
      rw [hbase _ (by simp [VarName.tag])] at hcol
      exact adjsumRow_coef_in hin houtE he (hinE e he) hcol
    · intro e he hcol
      rw [hbase _ (by simp [VarName.tag])] at hcol
      exact adjsumRow_coef_out hout hinE he (houtE e he) hcol
    · intro hs hne hcol
      rw [hbase _ (by simp [VarName.tag])] at hcol
      rw [adjsumRow_coef_statpos]
      simp [hs, hcol, hne.symm]
    · intro hs hne hcol
      rw [hbase _ (by simp [VarName.tag])] at hcol
      rw [adjsumRow_coef_statpos]
      simp [hs, hcol, hne]
    · intro hs m v
      rw [adjsumRow_coef_statpos]
      simp [hs]
    · intro x hx
      obtain ⟨y, hy, rfl⟩ := coefL_ne_zero hx
      obtain ⟨h1, h2⟩ := mem_adjsumRow_entries hy
      refine ⟨?_, h2⟩
      rw [hbase]
      · exact h1
      · rcases h2 with ⟨-, h2 | h2⟩ | ⟨e, -, h2⟩ <;> rw [h2] <;> simp [VarName.tag]
    · intro σ hσ
      have hrow : adjsumRow (baseCols gg cg geoPens maxGrDist dist) n c ∈ p.rows := by
        have : adjsumRow (baseCols gg cg geoPens maxGrDist dist) n c ∈
            p.rows.filter (fun r => (fun m => decide (m = .adjsum n.getId c.id)) r.name) := by
          rw [hf]; exact List.mem_singleton_self _
        exact (List.mem_filter.1 this).1
      exact hσ.1 _ hrow
  · intro n hn hdeg r hr c hname
    obtain ⟨_, -, hmem⟩ := mem_rows_of_tag h hr 2 (by omega) (by rw [hname]; rfl)
    simp only [OfNat.ofNat_ne_zero, ↓reduceIte, OfNat.ofNat_ne_one] at hmem
    obtain ⟨n', hn', hdeg', c', -, rfl⟩ := mem_adjsumRows.1 hmem
    rw [openCands_getNds] at hn'
    simp only [adjsumRow, RowName.adjsum.injEq] at hname
    have : n' = n := List.inj_on_of_nodup_map hgg hn' hn hname.1
    rw [this] at hdeg'
    exact hdeg' hdeg

/-- Witness for C3 (amended): the flow row of sink 0 and the comb edge of the
example, with a feasible drawing. -/
theorem createProblem_adjsum_witness :
    (∃ r, exP21.rows.filter (fun r => decide (r.name = .adjsum exSink0.getId exEdge.id)) = [r] ∧
      r.bnd = ⟨.UP, 0, 0⟩ ∧ (∀ σ, Feasible exP21 σ → r.eval σ ≤ 0)) ∧
    Feasible exP21 exSol := by
  refine ⟨?_, exSol_feasible_21⟩
  obtain ⟨r, h1, h2, -, -, -, -, -, -, h9⟩ :=
    (createProblem_adjsum (exGrid 2 1) exComb none 1 exDist exP21 exProblem_eq_21
      exGrid_nodup_21 exComb_edges_nodup exGrid_adj_21).1 exSink0 exSink0_mem exSink0_nonInf
      exEdge exEdge_mem
  exact ⟨r, h1, h2, h9⟩

/-- C4, amended. For every sink `n` there is exactly one row `inneruse(n)`,
with upper bound 1, whose coefficient is 1 on every existing station
variable `statpos(n,v)` and on every existing edge-use variable of a bend
edge between two different ports of `n` (for every comb edge), and 0
elsewhere. So in a feasible solution no two of these variables are 1: the
sink is the station of exactly one comb node, or carries exactly one active
bend edge (one pass-through, not a pair of active bend edges), or none of
these variables is 1. Assumed of the input: grid nodes, comb nodes and comb
edges are listed once and the eight ports of a sink are different nodes. -/
theorem createProblem_inneruse (gg : GridGraph) (cg : CombGraph)
    (geoPens : Option (Nat → Nat → ℚ)) (maxGrDist : ℚ) (dist : Nat → Nat → ℚ) (p : Problem)
    (h : createProblem gg cg geoPens maxGrDist dist = some p)
    (hgg : (gg.getNds.map GridNode.getId).Nodup)
    (hcg : (cg.getNds.map CombNode.id).Nodup)
    (hce : ((combEdges cg).map CombEdge.id).Nodup)
    (hport : ∀ n ∈ gg.getNds, n.isSink = true →
      ∀ a b, a < 8 → b < 8 → n.getPort a = n.getPort b → a = b) :
    ∀ n ∈ gg.getNds, n.isSink = true →
      ∃ r, p.rows.filter (fun r => decide (r.name = .inneruse n.getId)) = [r] ∧
        r.bnd = ⟨.UP, 0, 1⟩ ∧
        (∀ x, (isStatVar n x = true ∨ isBendVar n x = true) → hasCol p.cols x = true →
          r.coef x = 1) ∧
        (∀ x, r.coef x ≠ 0 →
          hasCol p.cols x = true ∧ (isStatVar n x = true ∨ isBendVar n x = true)) ∧
        (∀ σ, Feasible p σ →
          (∀ x y, (isStatVar n x = true ∨ isBendVar n x = true) →
            (isStatVar n y = true ∨ isBendVar n y = true) → x ≠ y →
            hasCol p.cols x = true → hasCol p.cols y = true → ¬ (σ x = 1 ∧ σ y = 1)) ∧
          ((∃ x, isStatVar n x = true ∧ hasCol p.cols x = true ∧ σ x = 1 ∧
              ∀ y, (isStatVar n y = true ∨ isBendVar n y = true) → y ≠ x →
                hasCol p.cols y = true → σ y = 0) ∨
           (∃ x, isBendVar n x = true ∧ hasCol p.cols x = true ∧ σ x = 1 ∧
              ∀ y, (isStatVar n y = true ∨ isBendVar n y = true) → y ≠ x →
                hasCol p.cols y = true → σ y = 0) ∨
           (∀ y, (isStatVar n y = true ∨ isBendVar n y = true) →
              hasCol p.cols y = true → σ y = 0))) := by
  intro n hn hs
  have hbase : ∀ v : VarName, v.tag ≤ 1 → hasCol p.cols v =
      hasCol (baseCols gg cg geoPens maxGrDist dist) v :=
    fun v hv => hasCol_problem_base h v hv
  have htag : ∀ x, (isStatVar n x = true ∨ isBendVar n x = true) → x.tag ≤ 1 := by
    intro x hx
    rcases hx with hx | hx
    · obtain ⟨w, rfl⟩ := isStatVar_iff.1 hx; simp [VarName.tag]
    · obtain ⟨pf, pt, c, -, -, -, rfl⟩ := isBendVar_iff.1 hx; simp [VarName.tag]
  obtain ⟨_, -, hf⟩ := rows_filter h (fun m => decide (m = .inneruse n.getId)) 4
    (by omega) (fun m hm => by
      have : m = .inneruse n.getId := by simpa using hm
      rw [this]; rfl)
  simp only [OfNat.ofNat_ne_zero, ↓reduceIte, OfNat.ofNat_ne_one, Nat.reduceEqDiff] at hf
  have hsing : (innerUseRows (openCands gg cg dist maxGrDist)
      (baseCols gg cg geoPens maxGrDist dist) cg).filter
      (fun r => decide (r.name = .inneruse n.getId)) =
      [innerUseRow (baseCols gg cg geoPens maxGrDist dist) cg n] := by
    unfold innerUseRows
    rw [sinks_openCands, List.filter_map]
    have hmem : n ∈ sinks gg := by
      rw [sinks, List.mem_filter]; exact ⟨hn, hs⟩
    have hnd : ((sinks gg).map GridNode.getId).Nodup :=
      hgg.sublist (List.Sublist.map _ (List.filter_sublist _))
    have h2 : ((fun r : Row => decide (r.name = RowName.inneruse n.getId)) ∘
        innerUseRow (baseCols gg cg geoPens maxGrDist dist) cg) =
        fun x => decide (x.getId = n.getId) := by
      funext x
      simp [innerUseRow]
    rw [h2, filter_eq_singleton GridNode.getId _ hnd n hmem]
    rfl
  rw [hsing] at hf
  have hone : ∀ x, (isStatVar n x = true ∨ isBendVar n x = true) → hasCol p.cols x = true →
      (innerUseRow (baseCols gg cg geoPens maxGrDist dist) cg n).coef x = 1 := by
    intro x hx hcol
    rw [hbase x (htag x hx)] at hcol
    rcases hx with hx | hx
    · obtain ⟨w, rfl⟩ := isStatVar_iff.1 hx
      have hcol' := hcol
      rw [hasCol_base_statpos, hasCol_statPosCols] at hcol'
      obtain ⟨nd, hnd, rfl, -⟩ := hcol'
      exact innerUseRow_coef_stat hcg hnd hcol
    · obtain ⟨pf, pt, c, hpf, hpt, hne, rfl⟩ := isBendVar_iff.1 hx
      have hcol' := hcol
      rw [hasCol_base_edg, hasCol_edgeUseCols] at hcol'
      obtain ⟨edg, hedg, rfl, -⟩ := hcol'
      exact innerUseRow_coef_bend hce (hport n hn hs) hpf hpt
        (fun hh => hne (by rw [hh])) hedg hcol
  have hrow : innerUseRow (baseCols gg cg geoPens maxGrDist dist) cg n ∈ p.rows := by
    have : innerUseRow (baseCols gg cg geoPens maxGrDist dist) cg n ∈
        p.rows.filter (fun r => (fun m => decide (m = .inneruse n.getId)) r.name) := by
      rw [hf]; exact List.mem_singleton_self _
    exact (List.mem_filter.1 this).1
  have hexcl : ∀ σ, Feasible p σ → ∀ x y, (isStatVar n x = true ∨ isBendVar n x = true) →
      (isStatVar n y = true ∨ isBendVar n y = true) → x ≠ y →
      hasCol p.cols x = true → hasCol p.cols y = true → ¬ (σ x = 1 ∧ σ y = 1) := by
    intro σ hσ x y hx hy hxy hcx hcy hboth
    have hle : (innerUseRow (baseCols gg cg geoPens maxGrDist dist) cg n).eval σ ≤ 1 :=
      hσ.1 _ hrow
    have hnn : ∀ en ∈ (innerUseRow (baseCols gg cg geoPens maxGrDist dist) cg n).entries,
        0 ≤ en.2 ∧ 0 ≤ σ en.1 := by
      intro en hen
      obtain ⟨h1, h2, -⟩ := mem_innerUseRow_entries hen
      exact ⟨by rw [h2]; decide, (feasible_binary h hσ h1).1⟩
    have h2 := evalL_two_le hxy _ hnn
    have hx1 := hone x hx hcx
    have hy1 := hone y hy hcy
    simp only [Row.coef] at hx1 hy1
    rw [hx1, hy1, hboth.1, hboth.2] at h2
    simp only [Row.eval] at hle
    omega
  refine ⟨_, hf, rfl, hone, ?_, ?_⟩
  · intro x hx
    obtain ⟨y, hy, rfl⟩ := coefL_ne_zero hx
    obtain ⟨h1, -, h3⟩ := mem_innerUseRow_entries hy
    have hkind : isStatVar n y.1 = true ∨ isBendVar n y.1 = true := by
      rcases h3 with ⟨nd, -, h3⟩ | ⟨pf, pt, hpf, hpt, hne, c, -, h3⟩
      · exact Or.inl (isStatVar_iff.2 ⟨nd.id, h3⟩)
      · exact Or.inr (isBendVar_iff.2 ⟨pf, pt, c.id, hpf, hpt, hne, h3⟩)
    refine ⟨?_, hkind⟩
    rw [hbase _ (htag _ hkind)]
    exact h1
  · intro σ hσ
    refine ⟨hexcl σ hσ, ?_⟩
    have hbin : ∀ y, (isStatVar n y = true ∨ isBendVar n y = true) →
        hasCol p.cols y = true → σ y = 0 ∨ σ y = 1 := by
      intro y hy hcy
      rw [hbase y (htag y hy)] at hcy
      have := feasible_binary h hσ hcy
      omega
    by_cases hex : ∃ x, (isStatVar n x = true ∨ isBendVar n x = true) ∧
        hasCol p.cols x = true ∧ σ x = 1
    · obtain ⟨x, hx, hcx, hx1⟩ := hex
      have hrest : ∀ y, (isStatVar n y = true ∨ isBendVar n y = true) → y ≠ x →
          hasCol p.cols y = true → σ y = 0 := by
        intro y hy hyx hcy
        rcases hbin y hy hcy with h0 | h1
        · exact h0
        · exact absurd ⟨hx1, h1⟩ (hexcl σ hσ x y hx hy (fun hh => hyx hh.symm) hcx hcy)
      rcases hx with hx | hx
      · exact Or.inl ⟨x, hx, hcx, hx1, hrest⟩
      · exact Or.inr (Or.inl ⟨x, hx, hcx, hx1, hrest⟩)
    · refine Or.inr (Or.inr ?_)
      intro y hy hcy
      rcases hbin y hy hcy with h0 | h1
      · exact h0
      · exact absurd ⟨y, hy, hcy, h1⟩ hex

/-- C4, as claimed, fails: in the example on three cells the drawing is
feasible and passes through the middle sink; that sink is no station and is
not unused, and it carries exactly one active bend edge, not a pair. -/
theorem inneruse_single_bend_edge :
    createProblem (exGrid 3 1) exComb none 1 exDist31 = some exP31 ∧
    Feasible exP31 exSol31 ∧
    (exP31.cols.filter (fun c => isBendVar exSink9 c.name && decide (exSol31 c.name = 1))).map
      Col.name = [.edg 16 12 0] ∧
    (exP31.cols.filter (fun c => isStatVar exSink9 c.name && decide (exSol31 c.name = 1))).map
      Col.name = [] :=
  ⟨exProblem_eq_31, exSol_feasible_31, by decide!, by decide!⟩

/-- Witness for C4 (amended): the middle sink of the example on three cells,
with a feasible drawing that passes through it. -/
theorem createProblem_inneruse_witness :
    (∃ r, exP31.rows.filter (fun r => decide (r.name = .inneruse exSink9.getId)) = [r] ∧
        r.bnd = ⟨.UP, 0, 1⟩ ∧
        (∀ x, (isStatVar exSink9 x = true ∨ isBendVar exSink9 x = true) →
          hasCol exP31.cols x = true → r.coef x = 1) ∧
        (∀ x, r.coef x ≠ 0 → hasCol exP31.cols x = true ∧
          (isStatVar exSink9 x = true ∨ isBendVar exSink9 x = true))) ∧
    Feasible exP31 exSol31 := by
  refine ⟨?_, exSol_feasible_31⟩
  obtain ⟨r, h1, h2, h3, h4, -⟩ :=
    createProblem_inneruse (exGrid 3 1) exComb none 1 exDist31 exP31 exProblem_eq_31
      exGrid_nodup_31 exComb_nodup exComb_edges_nodup exGrid_ports_31 exSink9 exSink9_mem rfl
  exact ⟨r, h1, h2, h3, h4⟩

/-- C5. For every sink `n` and comb edge `c` (with two different end nodes)
there is exactly one row `singlesink(n,c)`, fixed to 0, whose coefficient is
1 on each existing edge-use variable of `c` on the 16 edges between `n` and
its ports 0..7, -1 on `statpos(n,from(c))` and on `statpos(n,to(c))` where
the variable exists (that is, where `n` is a candidate), and 0 elsewhere. So
in a feasible solution the number of active sink edges of `n` for `c` equals
the sum of these two station variables and, by the inner-use row, is at most
one. Assumed of the input: grid nodes, comb nodes and comb edges are listed
once and the eight ports of a sink are different nodes, none the sink. -/
theorem createProblem_singlesink (gg : GridGraph) (cg : CombGraph)
    (geoPens : Option (Nat → Nat → ℚ)) (maxGrDist : ℚ) (dist : Nat → Nat → ℚ) (p : Problem)
    (h : createProblem gg cg geoPens maxGrDist dist = some p)
    (hgg : (gg.getNds.map GridNode.getId).Nodup)
    (hcg : (cg.getNds.map CombNode.id).Nodup)
    (hce : ((combEdges cg).map CombEdge.id).Nodup)
    (hport : ∀ n ∈ gg.getNds, n.isSink = true →
      (∀ a b, a < 8 → b < 8 → n.getPort a = n.getPort b → a = b) ∧
      ∀ a, a < 8 → n.getPort a ≠ n.getId) :
    ∀ n ∈ gg.getNds, n.isSink = true → ∀ c ∈ combEdges cg, c.getFrom ≠ c.getTo →
      ∃ r, p.rows.filter (fun r => decide (r.name = .singlesink n.getId c.id)) = [r] ∧
        r.bnd = ⟨.FX, 0, 0⟩ ∧
        (∀ q, q < 8 → ∀ x, (x = .edg (n.getPort q) n.getId c.id ∨
            x = .edg n.getId (n.getPort q) c.id) → hasCol p.cols x = true → r.coef x = 1) ∧
        (hasCol p.cols (.statpos n.getId c.getFrom) = true →
          r.coef (.statpos n.getId c.getFrom) = -1) ∧
        (hasCol p.cols (.statpos n.getId c.getTo) = true →
          r.coef (.statpos n.getId c.getTo) = -1) ∧
        (∀ x, r.coef x ≠ 0 → hasCol p.cols x = true ∧
          (x = .statpos n.getId c.getTo ∨ x = .statpos n.getId c.getFrom ∨
            ∃ q, q < 8 ∧ (x = .edg (n.getPort q) n.getId c.id ∨
              x = .edg n.getId (n.getPort q) c.id))) ∧
        (∀ σ, Feasible p σ →
          sinkEdgeUse p.cols n c.id σ =
            statUse p.cols n c.getFrom σ + statUse p.cols n c.getTo σ ∧
          sinkEdgeUse p.cols n c.id σ ≤ 1) := by
  intro n hn hs c hc hft
  have hbase : ∀ v : VarName, v.tag ≤ 1 → hasCol p.cols v =
      hasCol (baseCols gg cg geoPens maxGrDist dist) v :=
    fun v hv => hasCol_problem_base h v hv
  have hbe : ∀ a b c, hasCol p.cols (.edg a b c) =
      hasCol (baseCols gg cg geoPens maxGrDist dist) (.edg a b c) :=
    fun a b c => hbase _ (by simp [VarName.tag])
  have hbs : ∀ a b, hasCol p.cols (.statpos a b) =
      hasCol (baseCols gg cg geoPens maxGrDist dist) (.statpos a b) :=
    fun a b => hbase _ (by simp [VarName.tag])
  obtain ⟨hinj, hself⟩ := hport n hn hs
  obtain ⟨_, -, hf⟩ := rows_filter h (fun m => decide (m = .singlesink n.getId c.id)) 3
    (by omega) (fun m hm => by
      have : m = .singlesink n.getId c.id := by simpa using hm
      rw [this]; rfl)
  simp only [OfNat.ofNat_ne_zero, ↓reduceIte, OfNat.ofNat_ne_one, Nat.reduceEqDiff] at hf
  have hsing : (singleSinkRows (openCands gg cg dist maxGrDist)
      (baseCols gg cg geoPens maxGrDist dist) (candPairs gg cg dist maxGrDist) cg).filter
      (fun r => decide (r.name = .singlesink n.getId c.id)) =
      [singleSinkRow (baseCols gg cg geoPens maxGrDist dist)
        (candPairs gg cg dist maxGrDist) n c] := by
    unfold singleSinkRows
    rw [sinks_openCands]
    apply filter_flatMap_map (singleSinkRow (baseCols gg cg geoPens maxGrDist dist)
        (candPairs gg cg dist maxGrDist))
      (fun r => decide (r.name = .singlesink n.getId c.id)) GridNode.getId CombEdge.id
      (fun _ => combEdges cg) n c hc hce
    · rw [sinks, List.mem_filter]
      exact ⟨hn, hs⟩
    · exact hgg.sublist (List.Sublist.map _ (List.filter_sublist _))
    · intro a' _ b' _
      simp [singleSinkRow]
  rw [hsing] at hf
  have hrow : singleSinkRow (baseCols gg cg geoPens maxGrDist dist)
      (candPairs gg cg dist maxGrDist) n c ∈ p.rows := by
    have : singleSinkRow (baseCols gg cg geoPens maxGrDist dist)
        (candPairs gg cg dist maxGrDist) n c ∈
        p.rows.filter (fun r => (fun m => decide (m = .singlesink n.getId c.id)) r.name) := by
      rw [hf]; exact List.mem_singleton_self _
    exact (List.mem_filter.1 this).1
  refine ⟨_, hf, rfl, ?_, ?_, ?_, ?_, ?_⟩
  · intro q hq x hx hcol
    rw [hbase x (by rcases hx with rfl | rfl <;> simp [VarName.tag])] at hcol
    exact singleSinkRow_coef_edge hinj hself hq hx hcol
  · intro hcol
    rw [hbs] at hcol
    rw [singleSinkRow_coef_stat]
    simp [hcol, hft.symm]
  · intro hcol
    rw [hbs] at hcol
    rw [singleSinkRow_coef_stat]
    simp [hcol, hft]
  · intro x hx
    obtain ⟨y, hy, rfl⟩ := coefL_ne_zero hx
    obtain ⟨h1, h2⟩ := mem_singleSinkRow_entries hy
    refine ⟨?_, h2⟩
    rw [hbase]
    · exact h1
    · rcases h2 with h2 | h2 | ⟨q, -, h2 | h2⟩ <;> rw [h2] <;> simp [VarName.tag]
  · intro σ hσ
    have h0 : (singleSinkRow (baseCols gg cg geoPens maxGrDist dist)
        (candPairs gg cg dist maxGrDist) n c).eval σ = 0 := hσ.1 _ hrow
    rw [singleSinkRow_eval] at h0
    have hpair := innerUse_stat_pair h hcg hσ hn hs hft
    have e1 : sinkEdgeUse p.cols n c.id σ =
        sinkEdgeUse (baseCols gg cg geoPens maxGrDist dist) n c.id σ := by
      simp only [sinkEdgeUse, hbe]
    have e2 : ∀ v, statUse p.cols n v σ =
        statUse (baseCols gg cg geoPens maxGrDist dist) n v σ := by
      intro v
      simp only [statUse, hbs]
    rw [e1, e2, e2]
    constructor <;> omega

/-- Witness for C5: sink 0 and the comb edge of the example on two cells, with
a feasible drawing. -/
theorem createProblem_singlesink_witness :
    (∃ r, exP21.rows.filter
          (fun r => decide (r.name = .singlesink exSink0.getId exEdge.id)) = [r] ∧
        r.bnd = ⟨.FX, 0, 0⟩ ∧
        (∀ σ, Feasible exP21 σ →
          sinkEdgeUse exP21.cols exSink0 exEdge.id σ =
            statUse exP21.cols exSink0 exEdge.getFrom σ +
              statUse exP21.cols exSink0 exEdge.getTo σ ∧
          sinkEdgeUse exP21.cols exSink0 exEdge.id σ ≤ 1)) ∧
    Feasible exP21 exSol := by
  refine ⟨?_, exSol_feasible_21⟩
  obtain ⟨r, h1, h2, -, -, -, -, h7⟩ :=
    createProblem_singlesink (exGrid 2 1) exComb none 1 exDist exP21 exProblem_eq_21
      exGrid_nodup_21 exComb_nodup exComb_edges_nodup exGrid_ports_21 exSink0 exSink0_mem rfl
      exEdge exEdge_mem (by decide)
  exact ⟨r, h1, h2, h7⟩

/-- C6. The problem has exactly one row `nocross(n)` for every sink `n`, with
upper bound 1. When `n` has the neighbours of directions 2, 3 and 4 and the
grid edges between `n` and the direction-3 neighbour (`eOr`, `fOr`) and
between the direction-2 and direction-4 neighbours (`e`, `f`), the row has
coefficient 1 on every existing edge-use variable of these four directed
edges, for every comb edge, and 0 elsewhere; so in a feasible solution no two
of these variables are 1: the two diagonals of the cell exclude each other.
Assumed of the input: grid nodes and comb edges are listed once and the four
directed edges are different. -/
theorem createProblem_nocross (gg : GridGraph) (cg : CombGraph)
    (geoPens : Option (Nat → Nat → ℚ)) (maxGrDist : ℚ) (dist : Nat → Nat → ℚ) (p : Problem)
    (h : createProblem gg cg geoPens maxGrDist dist = some p)
    (hgg : (gg.getNds.map GridNode.getId).Nodup)
    (hce : ((combEdges cg).map CombEdge.id).Nodup) :
    ∀ n ∈ gg.getNds, n.isSink = true →
      ∃ r, p.rows.filter (fun r => decide (r.name = .nocross n.getId)) = [r] ∧
        r.bnd = ⟨.UP, 0, 1⟩ ∧
        ∀ (eOr fOr e f : Nat × Nat) (na nb : Nat),
          gg.getNEdg (some n.getId) (gg.getNeighbor n.getX n.getY 3) = some eOr →
          gg.getNEdg (gg.getNeighbor n.getX n.getY 3) (some n.getId) = some fOr →
          gg.getNeighbor n.getX n.getY 2 = some na →
          gg.getNeighbor n.getX n.getY 4 = some nb →
          gg.getNEdg (some na) (some nb) = some e →
          gg.getNEdg (some nb) (some na) = some f →
          [eOr, fOr, e, f].Nodup →
          (∀ k ∈ [eOr, fOr, e, f], ∀ c, hasCol p.cols (.edg k.1 k.2 c) = true →
            r.coef (.edg k.1 k.2 c) = 1) ∧
          (∀ x, r.coef x ≠ 0 → hasCol p.cols x = true ∧
            ∃ k ∈ [eOr, fOr, e, f], ∃ c, x = .edg k.1 k.2 c) ∧
          (∀ σ, Feasible p σ → ∀ x y,
            (∃ k ∈ [eOr, fOr, e, f], ∃ c, x = .edg k.1 k.2 c) →
            (∃ k ∈ [eOr, fOr, e, f], ∃ c, y = .edg k.1 k.2 c) →
            x ≠ y → hasCol p.cols x = true → hasCol p.cols y = true →
            ¬ (σ x = 1 ∧ σ y = 1)) := by
  intro n hn hs
  have hbe : ∀ a b c, hasCol p.cols (.edg a b c) =
      hasCol (baseCols gg cg geoPens maxGrDist dist) (.edg a b c) :=
    fun a b c => hasCol_problem_base h _ (by simp [VarName.tag])
  obtain ⟨ncRows, hnc, hf⟩ := rows_filter h (fun m => decide (m = .nocross n.getId)) 5
    (by omega) (fun m hm => by
      have : m = .nocross n.getId := by simpa using hm
      rw [this]; rfl)
  simp only [OfNat.ofNat_ne_zero, ↓reduceIte, OfNat.ofNat_ne_one, Nat.reduceEqDiff] at hf
  have hmem : n ∈ sinks (openCands gg cg dist maxGrDist) := by
    rw [sinks_openCands, sinks, List.mem_filter]; exact ⟨hn, hs⟩
  obtain ⟨r, hr, hnr⟩ := collect_map_mem_of hnc hmem
  have hsing : ncRows.filter (fun x => decide (x.name = .nocross n.getId)) = [r] := by
    refine collect_filter_singleton _ GridNode.getId RowName.nocross
      (fun k k' hk => by simpa using hk) (fun a r' ha => (nocrossRow_name ha).1) _ _ hnc ?_
      n hmem r hnr
    rw [sinks_openCands]
    exact hgg.sublist (List.Sublist.map _ (List.filter_sublist _))
  rw [hsing] at hf
  have hrow : r ∈ p.rows := by
    have : r ∈ p.rows.filter (fun r => (fun m => decide (m = .nocross n.getId)) r.name) := by
      rw [hf]; exact List.mem_singleton_self _
    exact (List.mem_filter.1 this).1
  refine ⟨r, hf, (nocrossRow_name hnr).2, ?_⟩
  intro eOr fOr e f na nb hE hF hna hnb he hf' hd
  have hent := nocrossRow_entries hnr (by simpa using hE) (by simpa using hF)
    (by simpa using hna) (by simpa using hnb) (by simpa using he) (by simpa using hf')
  have hone : ∀ x, (∃ k ∈ [eOr, fOr, e, f], ∃ c, x = .edg k.1 k.2 c) →
      hasCol p.cols x = true → r.coef x = 1 := by
    rintro x ⟨k, hk, c, rfl⟩ hcol
    rw [hbe] at hcol
    have hcol' := hcol
    rw [hasCol_base_edg, hasCol_edgeUseCols] at hcol'
    obtain ⟨edg, hedg, rfl, -⟩ := hcol'
    rw [Row.coef, hent]
    exact nocrossEntries_coef hd hce hk hedg hcol
  have hments : ∀ x ∈ r.entries, hasCol (baseCols gg cg geoPens maxGrDist dist) x.1 = true ∧
      x.2 = 1 ∧ ∃ k ∈ [eOr, fOr, e, f], ∃ c, x.1 = .edg k.1 k.2 c := by
    intro x hx
    rw [hent] at hx
    obtain ⟨c, -, hx⟩ := List.mem_flatMap.1 hx
    obtain ⟨h1, h2, k, hk, h3⟩ := mem_nocrossEntries hx
    exact ⟨h1, h2, k, hk, c.id, h3⟩
  refine ⟨fun k hk c hcol => hone _ ⟨k, hk, c, rfl⟩ hcol, ?_, ?_⟩
  · intro x hx
    obtain ⟨y, hy, rfl⟩ := coefL_ne_zero hx
    obtain ⟨h1, -, k, hk, c, h3⟩ := hments y hy
    refine ⟨?_, k, hk, c, h3⟩
    rw [h3, hbe, ← h3]
    exact h1
  · intro σ hσ x y hx hy hxy hcx hcy hboth
    have hle : r.eval σ ≤ 1 := by
      have := hσ.1 _ hrow
      rw [(nocrossRow_name hnr).2] at this
      exact this
    have hnn : ∀ en ∈ r.entries, 0 ≤ en.2 ∧ 0 ≤ σ en.1 := by
      intro en hen
      obtain ⟨h1, h2, -⟩ := hments en hen
      exact ⟨by rw [h2]; decide, (feasible_binary h hσ h1).1⟩
    have h2 := evalL_two_le hxy _ hnn
    have hx1 := hone x hx hcx
    have hy1 := hone y hy hcy
    simp only [Row.coef] at hx1 hy1
    rw [hx1, hy1, hboth.1, hboth.2] at h2
    simp only [Row.eval] at hle
    omega

/-- Witness for C6: the sink of cell `(0, 1)` of the example on two by two
cells, whose diagonals are the edges between the ports 22 and 17 and between
the ports 33 and 2. -/
theorem createProblem_nocross_witness :
    (∃ r, exP22.rows.filter (fun r => decide (r.name = .nocross exSink18.getId)) = [r] ∧
        r.bnd = ⟨.UP, 0, 1⟩ ∧
        (∀ k ∈ [((22 : Nat), (17 : Nat)), (17, 22), (33, 2), (2, 33)], ∀ c,
          hasCol exP22.cols (.edg k.1 k.2 c) = true → r.coef (.edg k.1 k.2 c) = 1) ∧
        (∀ σ, Feasible exP22 σ → ∀ x y,
          (∃ k ∈ [((22 : Nat), (17 : Nat)), (17, 22), (33, 2), (2, 33)], ∃ c,
            x = .edg k.1 k.2 c) →
          (∃ k ∈ [((22 : Nat), (17 : Nat)), (17, 22), (33, 2), (2, 33)], ∃ c,
            y = .edg k.1 k.2 c) →
          x ≠ y → hasCol exP22.cols x = true → hasCol exP22.cols y = true →
          ¬ (σ x = 1 ∧ σ y = 1))) := by
  obtain ⟨r, h1, h2, h3⟩ :=
    createProblem_nocross (exGrid 2 2) exComb none 1 exDist22 exP22 exProblem_eq_22
      exGrid_nodup_22 exComb_edges_nodup exSink18 exSink18_mem rfl
  obtain ⟨h4, -, h6⟩ := h3 (22, 17) (17, 22) (33, 2) (2, 33) 27 0
    (by decide) (by decide) (by decide) (by decide) (by decide) (by decide) (by decide)
  exact ⟨r, h1, h2, h4, h6⟩

/-- C7. For every comb node `v` of degree at least 2 and every comb edge `c`
in its adjacency list the problem has a column `dir(v,c)`, integer, bounded
above by 7, and exactly one row `dirconst(v,c)`, fixed to 0. When `v` is the
from-node of `c`, the linear form of the row is the sum over all sinks `n`
and `i = 1..7` of `i` times the edge-use variable of `c` on the grid edge from
`n` to its port `i`, minus `dir(v,c)`; otherwise it is the same sum over the
grid edges from port `i` to `n`. So in a feasible solution `dir(v,c)` equals
that sum and lies in `0..7`. Comb nodes of degree below 2 have no direction
variable. Assumed of the input: comb nodes are listed once and so are the
edges of an adjacency list. -/
theorem createProblem_dir (gg : GridGraph) (cg : CombGraph)
    (geoPens : Option (Nat → Nat → ℚ)) (maxGrDist : ℚ) (dist : Nat → Nat → ℚ) (p : Problem)
    (h : createProblem gg cg geoPens maxGrDist dist = some p)
    (hcg : (cg.getNds.map CombNode.id).Nodup)
    (hadj : ∀ nd ∈ cg.getNds, (nd.getAdjList.map CombEdge.id).Nodup) :
    (∀ nd ∈ cg.getNds, 2 ≤ nd.getDeg → ∀ c ∈ nd.getAdjList,
      hasCol p.cols (.dir nd.id c.id) = true ∧
      (∀ col ∈ p.cols, col.name = .dir nd.id c.id →
        col.kind = .IV ∧ col.bnd = ⟨.UP, 0, 7⟩) ∧
      ∃ r, p.rows.filter (fun r => decide (r.name = .dirconst nd.id c.id)) = [r] ∧
        r.bnd = ⟨.FX, 0, 0⟩ ∧
        (c.getFrom = nd.id →
          (∀ σ, r.eval σ =
            portSum p.cols gg (fun n i => .edg n.getId (n.getPort i) c.id) σ -
              σ (.dir nd.id c.id)) ∧
          (∀ σ, Feasible p σ → σ (.dir nd.id c.id) =
            portSum p.cols gg (fun n i => .edg n.getId (n.getPort i) c.id) σ)) ∧
        (c.getFrom ≠ nd.id →
          (∀ σ, r.eval σ =
            portSum p.cols gg (fun n i => .edg (n.getPort i) n.getId c.id) σ -
              σ (.dir nd.id c.id)) ∧
          (∀ σ, Feasible p σ → σ (.dir nd.id c.id) =
            portSum p.cols gg (fun n i => .edg (n.getPort i) n.getId c.id) σ)) ∧
        (∀ σ, Feasible p σ → 0 ≤ σ (.dir nd.id c.id) ∧ σ (.dir nd.id c.id) ≤ 7)) ∧
    (∀ nd ∈ cg.getNds, nd.getDeg < 2 → ∀ c, hasCol p.cols (.dir nd.id c) = false) := by
  have hbase : ∀ v : VarName, v.tag ≤ 1 → hasCol p.cols v =
      hasCol (baseCols gg cg geoPens maxGrDist dist) v :=
    fun v hv => hasCol_problem_base h v hv
  have hds : ∀ nd c σ, dirSum p.cols gg nd c σ =
      dirSum (baseCols gg cg geoPens maxGrDist dist) gg nd c σ := by
    intro nd c σ
    unfold dirSum
    congr 1
    apply List.map_congr_left
    intro n _
    congr 1
    apply List.map_congr_left
    intro i _
    rw [hbase _ (by rw [dirSinkEdge_tag])]
  constructor
  · intro nd hnd hdeg c hc
    have hcolmem : dirCol nd c ∈ p.cols :=
      dirCols_sub h (mem_dirCols.2 ⟨nd, hnd, hdeg, c, hc, rfl⟩)
    obtain ⟨_, -, hf⟩ := rows_filter h (fun m => decide (m = .dirconst nd.id c.id)) 6
      (by omega) (fun m hm => by
        have : m = .dirconst nd.id c.id := by simpa using hm
        rw [this]; rfl)
    simp only [OfNat.ofNat_ne_zero, ↓reduceIte, OfNat.ofNat_ne_one, Nat.reduceEqDiff] at hf
    have hsing : (dirRows (openCands gg cg dist maxGrDist)
        (baseCols gg cg geoPens maxGrDist dist) cg).filter
        (fun r => decide (r.name = .dirconst nd.id c.id)) =
        [dirRow (openCands gg cg dist maxGrDist)
          (baseCols gg cg geoPens maxGrDist dist) nd c] := by
      unfold dirRows
      apply filter_flatMap_map (dirRow (openCands gg cg dist maxGrDist)
          (baseCols gg cg geoPens maxGrDist dist))
        (fun r => decide (r.name = .dirconst nd.id c.id)) CombNode.id CombEdge.id
        (fun nd => nd.getAdjList) nd c hc (hadj nd hnd)
      · rw [dirNds, List.mem_filter]
        exact ⟨hnd, by simpa using hdeg⟩
      · exact hcg.sublist (List.Sublist.map _ (List.filter_sublist _))
      · intro a' _ b' _
        simp [dirRow]
    rw [hsing] at hf
    have hrow : dirRow (openCands gg cg dist maxGrDist)
        (baseCols gg cg geoPens maxGrDist dist) nd c ∈ p.rows := by
      have : dirRow (openCands gg cg dist maxGrDist)
          (baseCols gg cg geoPens maxGrDist dist) nd c ∈
          p.rows.filter (fun r => (fun m => decide (m = .dirconst nd.id c.id)) r.name) := by
        rw [hf]; exact List.mem_singleton_self _
      exact (List.mem_filter.1 this).1
    have hev : ∀ σ, (dirRow (openCands gg cg dist maxGrDist)
        (baseCols gg cg geoPens maxGrDist dist) nd c).eval σ =
        dirSum p.cols gg nd c σ - σ (.dir nd.id c.id) := by
      intro σ
      rw [dirRow_eval, hds]
      simp only [dirSum, sinks_openCands]
    have hfeas : ∀ σ, Feasible p σ →
        σ (.dir nd.id c.id) = dirSum p.cols gg nd c σ ∧
        0 ≤ σ (.dir nd.id c.id) ∧ σ (.dir nd.id c.id) ≤ 7 := by
      intro σ hσ
      have h0 : (dirRow (openCands gg cg dist maxGrDist)
          (baseCols gg cg geoPens maxGrDist dist) nd c).eval σ = 0 := hσ.1 _ hrow
      rw [hev] at h0
      have hnn := dirSum_nonneg h hσ nd c
      rw [← hds] at hnn
      have hub : σ (dirCol nd c).name ≤ 7 := hσ.2 _ hcolmem
      have hname : (dirCol nd c).name = .dir nd.id c.id := rfl
      rw [hname] at hub
      refine ⟨by omega, by omega, hub⟩
    refine ⟨hasCol_iff.2 ⟨_, hcolmem, rfl⟩, ?_, _, hf, rfl, ?_, ?_, ?_⟩
    · intro col hcol hname
      have hd := mem_cols_dir h hcol (by rw [hname]; rfl)
      obtain ⟨nd', -, -, e', -, rfl⟩ := mem_dirCols.1 hd
      exact ⟨rfl, rfl⟩
    · intro hfrom
      refine ⟨fun σ => ?_, fun σ hσ => ?_⟩
      · rw [hev, dirSum_from hfrom]
      · rw [← dirSum_from hfrom]
        exact (hfeas σ hσ).1
    · intro hfrom
      refine ⟨fun σ => ?_, fun σ hσ => ?_⟩
      · rw [hev, dirSum_to hfrom]
      · rw [← dirSum_to hfrom]
        exact (hfeas σ hσ).1
    · intro σ hσ
      exact (hfeas σ hσ).2
  · intro nd hnd hdeg c
    rw [← Bool.not_eq_true, hasCol_iff]
    rintro ⟨col, hcol, hname⟩
    have hd := mem_cols_dir h hcol (by rw [hname]; rfl)
    obtain ⟨nd', hnd', hdeg', e', -, rfl⟩ := mem_dirCols.1 hd
    simp only [dirCol, Col.setBnds, Col.setKind, Col.add, VarName.dir.injEq] at hname
    have : nd' = nd := List.inj_on_of_nodup_map hcg hnd' hnd hname.1
    rw [this] at hdeg'
    omega

/-- Witness for C7: the middle node of the path, which is the to-node of its
first edge. -/
theorem createProblem_dir_witness :
    (hasCol exPathP.cols (.dir exMid.id exEdgeA.id) = true ∧
      (∀ col ∈ exPathP.cols, col.name = .dir exMid.id exEdgeA.id →
        col.kind = .IV ∧ col.bnd = ⟨.UP, 0, 7⟩) ∧
      ∃ r, exPathP.rows.filter
          (fun r => decide (r.name = .dirconst exMid.id exEdgeA.id)) = [r] ∧
        r.bnd = ⟨.FX, 0, 0⟩ ∧
        (exEdgeA.getFrom = exMid.id →
          (∀ σ, r.eval σ =
            portSum exPathP.cols (exGrid 3 1)
                (fun n i => .edg n.getId (n.getPort i) exEdgeA.id) σ -
              σ (.dir exMid.id exEdgeA.id)) ∧
          (∀ σ, Feasible exPathP σ → σ (.dir exMid.id exEdgeA.id) =
            portSum exPathP.cols (exGrid 3 1)
              (fun n i => .edg n.getId (n.getPort i) exEdgeA.id) σ)) ∧
        (exEdgeA.getFrom ≠ exMid.id →
          (∀ σ, r.eval σ =
            portSum exPathP.cols (exGrid 3 1)
                (fun n i => .edg (n.getPort i) n.getId exEdgeA.id) σ -
              σ (.dir exMid.id exEdgeA.id)) ∧
          (∀ σ, Feasible exPathP σ → σ (.dir exMid.id exEdgeA.id) =
            portSum exPathP.cols (exGrid 3 1)
              (fun n i => .edg (n.getPort i) n.getId exEdgeA.id) σ)) ∧
        (∀ σ, Feasible exPathP σ →
          0 ≤ σ (.dir exMid.id exEdgeA.id) ∧ σ (.dir exMid.id exEdgeA.id) ≤ 7)) ∧
    exEdgeA.getFrom ≠ exMid.id :=
  ⟨(createProblem_dir (exGrid 3 1) exPath none 1 exDist exPathP exPath_eq exPath_nodup
    exPath_adj_nodup).1 exMid exMid_mem (by decide) exEdgeA (by decide), by decide⟩

/-- C8. For every comb node `v` of degree at least 3 with edge ordering
`e_0..e_{k-1}` the problem has exactly the `k` columns `vuln(v,0..k-1)`, all
binary, exactly one row `vulnconst(v)` fixing their sum to 1 and, for every
`i < k`, exactly one row `orderconst(v,i)` with lower bound 1 and linear form
`dir(v,e_i) - dir(v,e_{(i-1) mod k}) + 8 * vuln(v,i)`. Comb nodes of degree
below 3 have no `vuln` column and no such row. Assumed of the input: comb
nodes are listed once and the ordering of a node has as many edges as its
adjacency list. -/
theorem createProblem_order (gg : GridGraph) (cg : CombGraph)
    (geoPens : Option (Nat → Nat → ℚ)) (maxGrDist : ℚ) (dist : Nat → Nat → ℚ) (p : Problem)
    (h : createProblem gg cg geoPens maxGrDist dist = some p)
    (hcg : (cg.getNds.map CombNode.id).Nodup)
    (hord : ∀ nd ∈ cg.getNds, nd.getOrderedSet.length = nd.getDeg) :
    (∀ nd ∈ cg.getNds, 3 ≤ nd.getDeg →
      (p.cols.filter (fun c => isVulnName nd.id c.name)).map
          (fun c => (c.name, c.kind, c.bnd)) =
        (List.range nd.getOrderedSet.length).map
          (fun i => (VarName.vuln nd.id i, ColKind.BV, (⟨.DB, 0, 1⟩ : Bnd))) ∧
      (∃ r, p.rows.filter (fun r => decide (r.name = .vulnconst nd.id)) = [r] ∧
        r.bnd = ⟨.FX, 1, 1⟩ ∧
        ∀ σ, r.eval σ =
          ((List.range nd.getOrderedSet.length).map fun i => σ (.vuln nd.id i)).sum) ∧
      (∀ i, i < nd.getOrderedSet.length →
        ∃ r a b, p.rows.filter (fun r => decide (r.name = .orderconst nd.id i)) = [r] ∧
          nd.getOrderedSet.get? i = some b ∧
          nd.getOrderedSet.get?
            ((i + nd.getOrderedSet.length - 1) % nd.getOrderedSet.length) = some a ∧
          r.bnd = ⟨.LO, 1, 1⟩ ∧
          ∀ σ, r.eval σ =
            σ (.dir nd.id b.id) - σ (.dir nd.id a.id) + 8 * σ (.vuln nd.id i))) ∧
    (∀ nd ∈ cg.getNds, nd.getDeg < 3 →
      (∀ i, hasCol p.cols (.vuln nd.id i) = false) ∧
      ∀ r ∈ p.rows, isOrderName nd.id r.name = false) := by
  obtain ⟨ordRows, vCols, hloop, hrowsf, hcolsf⟩ := filter_order h
  have hvuln : ∀ nd ∈ cg.getNds, p.cols.filter (fun c => isVulnName nd.id c.name) =
      if nd.getDeg < 3 then [] else vulnCols nd := by
    intro nd hnd
    rw [hcolsf (isVulnName nd.id) (fun m hm => by
      cases m <;> simp [isVulnName] at hm
      rfl)]
    exact vulnCols_filter hloop hcg hnd
  constructor
  · intro nd hnd hdeg
    have hdeg' : ¬ nd.getDeg < 3 := by omega
    obtain ⟨rs, cs, hrs, hfil⟩ := orderLoop_filter hloop hcg nd hnd hdeg'
    refine ⟨?_, ?_, ?_⟩
    · rw [hvuln nd hnd, if_neg hdeg', hord nd hnd, vulnCols, List.map_map]
      rfl
    · refine ⟨vulnRow nd, ?_, rfl, ?_⟩
      · have h1 := hrowsf (fun m => decide (m = .vulnconst nd.id)) (fun m hm => by
          have : m = .vulnconst nd.id := by simpa using hm
          rw [this]; exact Or.inl rfl)
        have h2 := hfil (fun m => decide (m = .vulnconst nd.id)) (fun m hm => by
          have : m = .vulnconst nd.id := by simpa using hm
          rw [this]; simp [isOrderName])
        rw [h1, h2, List.filter_cons_of_pos (by simp [vulnRow])]
        congr 1
        rw [List.filter_eq_nil_iff]
        intro r hr
        obtain ⟨i, -, -, hname⟩ := orderRowsOf_names hrs hr
        simp [hname]
      · intro σ
        simp only [Row.eval, vulnRow, evalL, List.map_map, hord nd hnd]
        congr 1
        apply List.map_congr_left
        intro i _
        simp
    · intro i hi
      obtain ⟨-, hcoll⟩ := orderRowsOf_some hrs
      obtain ⟨r, hr, hstep⟩ := collect_map_mem_of hcoll (List.mem_range.2 hi)
      obtain ⟨a, b, hA, hB, -, -, -, -, rfl⟩ := orderStep_some hstep
      refine ⟨orderRow nd i a b, a, b, ?_, hB, ?_, rfl, ?_⟩
      · have h1 := hrowsf (fun m => decide (m = .orderconst nd.id i)) (fun m hm => by
          have : m = .orderconst nd.id i := by simpa using hm
          rw [this]; exact Or.inr rfl)
        have h2 := hfil (fun m => decide (m = .orderconst nd.id i)) (fun m hm => by
          have : m = .orderconst nd.id i := by simpa using hm
          rw [this]; simp [isOrderName])
        rw [h1, h2, List.filter_cons_of_neg (by simp [vulnRow])]
        exact collect_filter_singleton (orderStep cs nd) id (RowName.orderconst nd.id)
          (fun k k' hk => by simpa using hk)
          (fun j r' hj => by
            obtain ⟨a', b', -, -, -, -, -, -, rfl⟩ := orderStep_some hj
            rfl)
          _ _ hcoll (by simpa using List.nodup_range _) i (List.mem_range.2 hi) _ hstep
      · unfold orderEdgA at hA
        by_cases h0 : i = 0
        · subst h0
          rw [if_pos rfl, List.getLast?_eq_getElem?] at hA
          rw [List.get?_eq_getElem?]
          have : (0 + nd.getOrderedSet.length - 1) % nd.getOrderedSet.length =
              nd.getOrderedSet.length - 1 := by
            rw [Nat.zero_add]
            exact Nat.mod_eq_of_lt (by omega)
          rw [this]
          exact hA
        · rw [if_neg h0] at hA
          have : (i + nd.getOrderedSet.length - 1) % nd.getOrderedSet.length = i - 1 := by
            have h3 : i + nd.getOrderedSet.length - 1 = (i - 1) + nd.getOrderedSet.length := by
              omega
            rw [h3, Nat.add_mod_right]
            exact Nat.mod_eq_of_lt (by omega)
          rw [this]
          exact hA
      · intro σ
        simp only [Row.eval, orderRow, evalL, List.map_cons, List.map_nil, List.sum_cons,
          List.sum_nil]
        ring
  · intro nd hnd hdeg
    have hnil := hvuln nd hnd
    rw [if_pos hdeg] at hnil
    constructor
    · intro i
      rw [← Bool.not_eq_true, hasCol_iff]
      rintro ⟨c, hc, hname⟩
      have : c ∈ p.cols.filter (fun c => isVulnName nd.id c.name) := by
        rw [List.mem_filter]
        exact ⟨hc, by simp [hname, isVulnName]⟩
      rw [hnil] at this
      exact absurd this (List.not_mem_nil _)
    · intro r hr
      rw [← Bool.not_eq_true]
      intro hname
      have hmem : r ∈ p.rows.filter (fun r => isOrderName nd.id r.name) := by
        rw [List.mem_filter]
        exact ⟨hr, hname⟩
      rw [hrowsf (isOrderName nd.id) (fun m hm => by
        cases m <;> simp [isOrderName] at hm
        · exact Or.inl rfl
        · exact Or.inr rfl)] at hmem
      obtain ⟨nd', hnd', hdeg', hid⟩ := orderLoop_isOrderName hloop (List.mem_filter.1 hmem).1
      have : nd' = nd := List.inj_on_of_nodup_map hcg hnd' hnd (hid nd.id hname)
      rw [this] at hdeg'
      exact hdeg' hdeg

/-- Witness for C8: the centre of the star on the grid of two by two cells. -/
theorem createProblem_order_witness :
    (exStarP.cols.filter (fun c => isVulnName exCentre.id c.name)).map
        (fun c => (c.name, c.kind, c.bnd)) =
      (List.range exCentre.getOrderedSet.length).map
        (fun i => (VarName.vuln exCentre.id i, ColKind.BV, (⟨.DB, 0, 1⟩ : Bnd))) ∧
    (∃ r, exStarP.rows.filter (fun r => decide (r.name = .vulnconst exCentre.id)) = [r] ∧
      r.bnd = ⟨.FX, 1, 1⟩ ∧
      ∀ σ, r.eval σ =
        ((List.range exCentre.getOrderedSet.length).map
          fun i => σ (.vuln exCentre.id i)).sum) ∧
    (∀ i, i < exCentre.getOrderedSet.length →
      ∃ r a b, exStarP.rows.filter
          (fun r => decide (r.name = .orderconst exCentre.id i)) = [r] ∧
        exCentre.getOrderedSet.get? i = some b ∧
        exCentre.getOrderedSet.get?
          ((i + exCentre.getOrderedSet.length - 1) % exCentre.getOrderedSet.length) = some a ∧
        r.bnd = ⟨.LO, 1, 1⟩ ∧
        ∀ σ, r.eval σ =
          σ (.dir exCentre.id b.id) - σ (.dir exCentre.id a.id) +
            8 * σ (.vuln exCentre.id i)) :=
  (createProblem_order (exGrid 2 2) exStar none 1 exDist exStarP exStar_eq exStar_nodup
    exStar_order).1 exCentre exCentre_mem (by decide)

/-- C9. For a pair `(a, b)` of the pair loop at a comb node `nd` (two distinct
entries of its adjacency list) that shares a line, the problem has the binary
columns `negdist(a,b)` and the seven indicators, and rows `negconst`
(`0 ≤ d_a - d_b + 8 negdist ≤ 7`), `angconst`
(`d_a - d_b + 8 negdist - Σ (k+1) ind_k = 0`) and `angsumconst`
(`Σ ind_k ≤ 1`); whenever both directions are in `0..7`, `negdist` and the
indicators are binary and the three rows hold, indicator number `k` (counted
from 0) is 1 exactly when `(d_a - d_b) mod 8 = k + 1`, no two indicators are
1, and all are 0 exactly when `d_a = d_b`. A pair sharing no line has neither
a `negdist` column nor an indicator column. -/
theorem createProblem_angles (gg : GridGraph) (cg : CombGraph)
    (geoPens : Option (Nat → Nat → ℚ)) (maxGrDist : ℚ) (dist : Nat → Nat → ℚ) (p : Problem)
    (h : createProblem gg cg geoPens maxGrDist dist = some p)
    (hinj : ∀ nd ∈ cg.getNds, ∀ e ∈ nd.getAdjList, ∀ nd2 ∈ cg.getNds,
      ∀ e2 ∈ nd2.getAdjList, e.id = e2.id → e = e2)
    (nd : CombNode) (hnd : nd ∈ cg.getNds) (a b : CombEdge)
    (hab : (a, b) ∈ pairsOf nd.getAdjList) :
    (sharedLines a b ≠ 0 →
      hasCol p.cols (.negdist a.id b.id) = true ∧
      (∀ k, k < 7 → hasCol p.cols (.ang k a.id b.id) = true) ∧
      (∀ c ∈ p.cols, (c.name = .negdist a.id b.id ∨ ∃ k, c.name = .ang k a.id b.id) →
        c.kind = .BV ∧ c.bnd = ⟨.DB, 0, 1⟩) ∧
      ∃ rNeg ∈ p.rows, ∃ rAng ∈ p.rows, ∃ rSum ∈ p.rows,
        rNeg.name = .negconst a.id b.id ∧ rNeg.bnd = ⟨.DB, 0, 7⟩ ∧
        rAng.name = .angconst a.id b.id ∧ rAng.bnd = ⟨.FX, 0, 0⟩ ∧
        rSum.name = .angsumconst a.id b.id ∧ rSum.bnd = ⟨.UP, 0, 1⟩ ∧
        (∀ σ, rNeg.eval σ =
          σ (.dir nd.id a.id) - σ (.dir nd.id b.id) + 8 * σ (.negdist a.id b.id)) ∧
        (∀ σ, rAng.eval σ =
          σ (.dir nd.id a.id) - σ (.dir nd.id b.id) + 8 * σ (.negdist a.id b.id) -
            ((List.range 7).map fun (k : Nat) => ((k : Int) + 1) * σ (.ang k a.id b.id)).sum) ∧
        (∀ σ, rSum.eval σ = ((List.range 7).map fun k => σ (.ang k a.id b.id)).sum) ∧
        ∀ σ : VarName → Int,
          (0 ≤ σ (.dir nd.id a.id) ∧ σ (.dir nd.id a.id) ≤ 7) →
          (0 ≤ σ (.dir nd.id b.id) ∧ σ (.dir nd.id b.id) ≤ 7) →
          (σ (.negdist a.id b.id) = 0 ∨ σ (.negdist a.id b.id) = 1) →
          (∀ k, k < 7 → σ (.ang k a.id b.id) = 0 ∨ σ (.ang k a.id b.id) = 1) →
          rNeg.bnd.sat (rNeg.eval σ) → rAng.bnd.sat (rAng.eval σ) →
          rSum.bnd.sat (rSum.eval σ) →
          (∀ k, k < 7 → (σ (.ang k a.id b.id) = 1 ↔
            (σ (.dir nd.id a.id) - σ (.dir nd.id b.id)) % 8 = (k : Int) + 1)) ∧
          (∀ k l, k < 7 → l < 7 → k ≠ l →
            ¬ (σ (.ang k a.id b.id) = 1 ∧ σ (.ang l a.id b.id) = 1)) ∧
          ((∀ k, k < 7 → σ (.ang k a.id b.id) = 0) ↔
            σ (.dir nd.id a.id) = σ (.dir nd.id b.id))) ∧
    (sharedLines a b = 0 →
      hasCol p.cols (.negdist a.id b.id) = false ∧
      ∀ k, hasCol p.cols (.ang k a.id b.id) = false) := by
  obtain ⟨vCols, angs, hang, hrows, hcols, hcols2⟩ := angs_sub h
  obtain ⟨ha, hb⟩ := mem_pairsOf hab
  refine ⟨fun hs => ?_, fun hs => ?_⟩
  · obtain ⟨res, hres, hp⟩ := anglePhase_mem hang hnd hab
    rcases (anglePair_some hp).2 with ⟨h0, -⟩ | ⟨-, -, -, rfl⟩
    · exact absurd h0 hs
    have hr : ∀ r ∈ [negRow nd a b, angRow nd a b, angSumRow a b], r ∈ p.rows :=
      fun r hr => hrows r (List.mem_flatMap.2 ⟨_, hres, hr⟩)
    have hc : ∀ c ∈ negCol a b :: (List.range 7).map (angCol a b), c ∈ p.cols :=
      fun c hc => hcols c (List.mem_flatMap.2 ⟨_, hres, hc⟩)
    refine ⟨hasCol_iff.2 ⟨negCol a b, hc _ (List.mem_cons_self _ _), rfl⟩, ?_, ?_,
      negRow nd a b, hr _ (by simp), angRow nd a b, hr _ (by simp),
      angSumRow a b, hr _ (by simp), rfl, rfl, rfl, rfl, rfl, rfl, ?_, ?_, ?_, ?_⟩
    · intro k hk
      exact hasCol_iff.2 ⟨angCol a b k, hc _ (List.mem_cons_of_mem _
        (List.mem_map.2 ⟨k, List.mem_range.2 hk, rfl⟩)), rfl⟩
    · intro c hc hn
      have ht : 4 ≤ c.name.tag := by
        rcases hn with hn | ⟨k, hn⟩ <;> rw [hn] <;> simp [VarName.tag]
      obtain ⟨nd2, -, ab2, -, -, hc2⟩ := angCols_mem hang (hcols2 c hc ht)
      rcases hc2 with rfl | ⟨k, -, rfl⟩ <;> exact ⟨rfl, rfl⟩
    · intro σ
      exact negRow_eval nd a b σ
    · intro σ
      rw [angRow_eval]
      simp only [List.range, List.range.loop, List.map_cons, List.map_nil, List.sum_cons,
        List.sum_nil]
      push_cast
      ring
    · intro σ
      rw [angSumRow_eval]
      simp only [List.range, List.range.loop, List.map_cons, List.map_nil, List.sum_cons,
        List.sum_nil]
      ring
    · intro σ hx hy hn hi hneg hangc hsum
      rw [negRow_eval] at hneg
      rw [angRow_eval] at hangc
      rw [angSumRow_eval] at hsum
      exact angle_arith _ _ _ (fun k => σ (.ang k a.id b.id)) hx hy hn hi hneg hangc hsum
  · have key : ∀ c ∈ p.cols,
        ¬ (c.name = .negdist a.id b.id ∨ ∃ k, c.name = .ang k a.id b.id) := by
      intro c hc hn
      have ht : 4 ≤ c.name.tag := by
        rcases hn with hn | ⟨k, hn⟩ <;> rw [hn] <;> simp [VarName.tag]
      obtain ⟨nd2, hnd2, ab2, hab2, hs2, hc2⟩ := angCols_mem hang (hcols2 c hc ht)
      obtain ⟨ha2, hb2⟩ := mem_pairsOf (show (ab2.1, ab2.2) ∈ pairsOf nd2.getAdjList from hab2)
      have hids : ab2.1.id = a.id ∧ ab2.2.id = b.id := by
        rcases hc2 with rfl | ⟨k, -, rfl⟩
        · rcases hn with hn | ⟨k, hn⟩
          · simpa [negCol, Col.add, Col.setKind] using hn
          · simp [negCol, Col.add, Col.setKind] at hn
        · rcases hn with hn | ⟨l, hn⟩
          · simp [angCol, Col.add, Col.setKind, Col.setObj] at hn
          · have := hn
            simp only [angCol, Col.add, Col.setKind, Col.setObj, VarName.ang.injEq] at this
            exact ⟨this.2.1, this.2.2⟩
      have e1 := hinj nd2 hnd2 _ ha2 nd hnd a ha hids.1
      have e2 := hinj nd2 hnd2 _ hb2 nd hnd b hb hids.2
      rw [e1, e2] at hs2
      exact hs2 hs
    refine ⟨?_, fun k => ?_⟩
    · rw [← Bool.not_eq_true, hasCol_iff]
      rintro ⟨c, hc, hn⟩
      exact key c hc (Or.inl hn)
    · rw [← Bool.not_eq_true, hasCol_iff]
      rintro ⟨c, hc, hn⟩
      exact key c hc (Or.inr ⟨k, hn⟩)

/-- Witness for C9: at the centre of the star on the grid of two by two
cells, the first two edges share line 7 and get the columns and rows, which
the directions 6 and 2 with indicator `d180` satisfy; the first and the third
edge share no line and get no column. -/
theorem createProblem_angles_witness :
    (sharedLines exStarA exStarB ≠ 0 ∧
      hasCol exStarP.cols (.negdist exStarA.id exStarB.id) = true ∧
      (∀ k, k < 7 → hasCol exStarP.cols (.ang k exStarA.id exStarB.id) = true) ∧
      (∀ c ∈ exStarP.cols,
        (c.name = .negdist exStarA.id exStarB.id ∨
          ∃ k, c.name = .ang k exStarA.id exStarB.id) →
        c.kind = .BV ∧ c.bnd = ⟨.DB, 0, 1⟩) ∧
      ∃ rNeg ∈ exStarP.rows, ∃ rAng ∈ exStarP.rows, ∃ rSum ∈ exStarP.rows,
        rNeg.name = .negconst exStarA.id exStarB.id ∧ rNeg.bnd = ⟨.DB, 0, 7⟩ ∧
        rAng.name = .angconst exStarA.id exStarB.id ∧ rAng.bnd = ⟨.FX, 0, 0⟩ ∧
        rSum.name = .angsumconst exStarA.id exStarB.id ∧ rSum.bnd = ⟨.UP, 0, 1⟩ ∧
        (∀ σ, rNeg.eval σ =
          σ (.dir exCentre.id exStarA.id) - σ (.dir exCentre.id exStarB.id) +
            8 * σ (.negdist exStarA.id exStarB.id)) ∧
        (∀ σ, rAng.eval σ =
          σ (.dir exCentre.id exStarA.id) - σ (.dir exCentre.id exStarB.id) +
            8 * σ (.negdist exStarA.id exStarB.id) -
            ((List.range 7).map fun (k : Nat) =>
              ((k : Int) + 1) * σ (.ang k exStarA.id exStarB.id)).sum) ∧
        (∀ σ, rSum.eval σ = ((List.range 7).map fun k => σ (.ang k exStarA.id exStarB.id)).sum) ∧
        ∀ σ : VarName → Int,
          (0 ≤ σ (.dir exCentre.id exStarA.id) ∧ σ (.dir exCentre.id exStarA.id) ≤ 7) →
          (0 ≤ σ (.dir exCentre.id exStarB.id) ∧ σ (.dir exCentre.id exStarB.id) ≤ 7) →
          (σ (.negdist exStarA.id exStarB.id) = 0 ∨ σ (.negdist exStarA.id exStarB.id) = 1) →
          (∀ k, k < 7 → σ (.ang k exStarA.id exStarB.id) = 0 ∨ σ (.ang k exStarA.id exStarB.id) = 1) →
          rNeg.bnd.sat (rNeg.eval σ) → rAng.bnd.sat (rAng.eval σ) →
          rSum.bnd.sat (rSum.eval σ) →
          (∀ k, k < 7 → (σ (.ang k exStarA.id exStarB.id) = 1 ↔
            (σ (.dir exCentre.id exStarA.id) - σ (.dir exCentre.id exStarB.id)) % 8 = (k : Int) + 1)) ∧
          (∀ k l, k < 7 → l < 7 → k ≠ l →
            ¬ (σ (.ang k exStarA.id exStarB.id) = 1 ∧ σ (.ang l exStarA.id exStarB.id) = 1)) ∧
          ((∀ k, k < 7 → σ (.ang k exStarA.id exStarB.id) = 0) ↔
            σ (.dir exCentre.id exStarA.id) = σ (.dir exCentre.id exStarB.id))) ∧
    (sharedLines exStarA exStarC = 0 ∧
      hasCol exStarP.cols (.negdist exStarA.id exStarC.id) = false ∧
      ∀ k, hasCol exStarP.cols (.ang k exStarA.id exStarC.id) = false) ∧
    ((negRow exCentre exStarA exStarB).bnd.sat ((negRow exCentre exStarA exStarB).eval exAngles) ∧
      (angRow exCentre exStarA exStarB).bnd.sat
        ((angRow exCentre exStarA exStarB).eval exAngles) ∧
      (angSumRow exStarA exStarB).bnd.sat ((angSumRow exStarA exStarB).eval exAngles)) :=
  ⟨⟨by decide, (createProblem_angles (exGrid 2 2) exStar none 1 exDist exStarP exStar_eq
      exStar_inj exCentre exCentre_mem exStarA exStarB (by decide)).1 (by decide)⟩,
    ⟨by decide, (createProblem_angles (exGrid 2 2) exStar none 1 exDist exStarP exStar_eq
      exStar_inj exCentre exCentre_mem exStarA exStarC (by decide)).2 (by decide)⟩,
    by decide⟩

/-- C10. The problem built by createProblem is a minimisation, and the
objective coefficient of every column is: `ndMovePen(v, n)` on `statpos(n,v)`;
on `edg(e,c)` the cost of the grid edge `e` (read after the first loop has
opened the candidate sinks; for an edge touching no sink this is its cost in
the grid handed in), plus `geoPen(c,e)` exactly when a geo-penalty map is
given and `e` is not a secondary edge; 0 on every `dir`, `vuln` and `negdist`
column; and 3, 2.5, 2, 1, 2, 2.5, 3 on the indicators number 0 to 6, whatever
the arguments. -/
theorem createProblem_objective (gg : GridGraph) (cg : CombGraph)
    (geoPens : Option (Nat → Nat → ℚ)) (maxGrDist : ℚ) (dist : Nat → Nat → ℚ) (p : Problem)
    (h : createProblem gg cg geoPens maxGrDist dist = some p) :
    p.objDir = .MIN ∧
    ∀ c ∈ p.cols,
      (∀ n v, c.name = .statpos n v → c.obj = gg.ndMovePen v n) ∧
      (∀ a b id, c.name = .edg a b id →
        ∃ edg ∈ combEdges cg, ∃ n ∈ gg.getNds, ∃ e ∈ n.getAdjList,
          e.getFrom = a ∧ e.getTo = b ∧ edg.id = id ∧
          ∃ q, (openCands gg cg dist maxGrDist).cost a b = some q ∧
            ((∀ m ∈ gg.getNds, m.isSink = true → a ≠ m.getId ∧ b ≠ m.getId) →
              gg.cost a b = some q) ∧
            c.obj = q + (match geoPens with
              | some gp => if e.isSecondary = true then 0 else gp id e.getId
              | none => 0)) ∧
      (∀ v e, c.name = .dir v e → c.obj = 0) ∧
      (∀ v i, c.name = .vuln v i → c.obj = 0) ∧
      (∀ a b, c.name = .negdist a b → c.obj = 0) ∧
      (∀ k a b, c.name = .ang k a b →
        k < 7 ∧ c.obj = ([3, 5 / 2, 2, 1, 2, 5 / 2, 3] : List ℚ).getD k 0) := by
  obtain ⟨ncRows, ordRows, vCols, angs, -, hord, hang, -, hcols⟩ := createProblem_some h
  constructor
  · unfold createProblem at h
    simp only at h
    split at h
    · exact absurd h (by simp)
    · split at h
      · exact absurd h (by simp)
      · split at h
        · exact absurd h (by simp)
        · simp only [Option.some.injEq] at h
          rw [← h]
  intro c hc
  rw [hcols, baseCols] at hc
  simp only [List.mem_append] at hc
  rcases hc with (((hc | hc) | hc) | hc) | hc
  · simp only [statPosCols, List.mem_flatMap, List.mem_map] at hc
    obtain ⟨nd, -, n, -, rfl⟩ := hc
    refine ⟨?_, ?_, ?_, ?_, ?_, ?_⟩
    · intro n2 v hn
      simp only [statPosCol, Col.add, Col.setKind, Col.setObj, VarName.statpos.injEq] at hn
      rw [← hn.1, ← hn.2]
      rfl
    all_goals
      intros
      rename_i hn
      simp [statPosCol, Col.add, Col.setKind, Col.setObj] at hn
  · simp only [edgeUseCols, List.mem_flatMap, List.mem_filterMap, List.mem_filter,
      openCands_getNds] at hc
    obtain ⟨edg, hedg, n, hn, e, ⟨he, -⟩, hcol⟩ := hc
    obtain ⟨q, hq, -, -, rfl⟩ := edgeUseCol?_some hcol
    refine ⟨?_, ?_, ?_, ?_, ?_, ?_⟩
    · intros
      rename_i hn
      simp [Col.add, Col.setKind, Col.setObj] at hn
    · intro a b id hnm
      simp only [Col.add, Col.setKind, Col.setObj, VarName.edg.injEq] at hnm
      obtain ⟨rfl, rfl, rfl⟩ := hnm
      refine ⟨edg, hedg, n, hn, e, he, rfl, rfl, rfl, q, hq, ?_, ?_⟩
      · intro hs
        rw [← openCands_cost hs]
        exact hq
      · cases geoPens with
        | none => simp [Col.setObj, edgeObj]
        | some gp =>
          simp only [Col.setObj, edgeObj]
          cases e.isSecondary <;> simp
    all_goals
      intros
      rename_i hn
      simp [Col.add, Col.setKind, Col.setObj] at hn
  · simp only [dirCols, List.mem_flatMap, List.mem_map] at hc
    obtain ⟨nd, -, e, -, rfl⟩ := hc
    refine ⟨?_, ?_, ?_, ?_, ?_, ?_⟩
    · intros
      rename_i hn
      simp [dirCol, Col.add, Col.setKind, Col.setBnds] at hn
    · intros
      rename_i hn
      simp [dirCol, Col.add, Col.setKind, Col.setBnds] at hn
    · intros
      rfl
    all_goals
      intros
      rename_i hn
      simp [dirCol, Col.add, Col.setKind, Col.setBnds] at hn
  · rw [(orderLoop_some hord).1] at hc
    simp only [List.mem_flatMap, vulnCols, List.mem_map] at hc
    obtain ⟨nd, -, i, -, rfl⟩ := hc
    refine ⟨?_, ?_, ?_, ?_, ?_, ?_⟩
    · intros
      rename_i hn
      simp [Col.add, Col.setKind] at hn
    · intros
      rename_i hn
      simp [Col.add, Col.setKind] at hn
    · intros
      rename_i hn
      simp [Col.add, Col.setKind] at hn
    · intros
      rfl
    all_goals
      intros
      rename_i hn
      simp [Col.add, Col.setKind] at hn
  · obtain ⟨nd, -, ab, -, -, hc2⟩ := angCols_mem hang hc
    rcases hc2 with rfl | ⟨k, hk, rfl⟩
    · refine ⟨?_, ?_, ?_, ?_, ?_, ?_⟩
      · intros
        rename_i hn
        simp [negCol, Col.add, Col.setKind] at hn
      · intros
        rename_i hn
        simp [negCol, Col.add, Col.setKind] at hn
      · intros
        rename_i hn
        simp [negCol, Col.add, Col.setKind] at hn
      · intros
        rename_i hn
        simp [negCol, Col.add, Col.setKind] at hn
      · intros
        rfl
      · intros
        rename_i hn
        simp [negCol, Col.add, Col.setKind] at hn
    · refine ⟨?_, ?_, ?_, ?_, ?_, ?_⟩
      · intros
        rename_i hn
        simp [angCol, Col.add, Col.setKind, Col.setObj] at hn
      · intros
        rename_i hn
        simp [angCol, Col.add, Col.setKind, Col.setObj] at hn
      · intros
        rename_i hn
        simp [angCol, Col.add, Col.setKind, Col.setObj] at hn
      · intros
        rename_i hn
        simp [angCol, Col.add, Col.setKind, Col.setObj] at hn
      · intros
        rename_i hn
        simp [angCol, Col.add, Col.setKind, Col.setObj] at hn
      · intro k2 a b hn
        simp only [angCol, Col.add, Col.setKind, Col.setObj, VarName.ang.injEq] at hn
        rw [← hn.1]
        exact ⟨hk, rfl⟩

/-- Witness for C10: the problem built for the star on the grid of two by two
cells, without a geo-penalty map. -/
theorem createProblem_objective_witness :
    exStarP.objDir = .MIN ∧
    ∀ c ∈ exStarP.cols,
      (∀ n v, c.name = .statpos n v → c.obj = (exGrid 2 2).ndMovePen v n) ∧
      (∀ a b id, c.name = .edg a b id →
        ∃ edg ∈ combEdges exStar, ∃ n ∈ (exGrid 2 2).getNds, ∃ e ∈ n.getAdjList,
          e.getFrom = a ∧ e.getTo = b ∧ edg.id = id ∧
          ∃ q, (openCands (exGrid 2 2) exStar exDist 1).cost a b = some q ∧
            ((∀ m ∈ (exGrid 2 2).getNds, m.isSink = true → a ≠ m.getId ∧ b ≠ m.getId) →
              (exGrid 2 2).cost a b = some q) ∧
            c.obj = q + (match (none : Option (Nat → Nat → ℚ)) with
              | some gp => if e.isSecondary = true then 0 else gp id e.getId
              | none => 0)) ∧
      (∀ v e, c.name = .dir v e → c.obj = 0) ∧
      (∀ v i, c.name = .vuln v i → c.obj = 0) ∧
      (∀ a b, c.name = .negdist a b → c.obj = 0) ∧
      (∀ k a b, c.name = .ang k a b →
        k < 7 ∧ c.obj = ([3, 5 / 2, 2, 1, 2, 5 / 2, 3] : List ℚ).getD k 0) :=
  createProblem_objective (exGrid 2 2) exStar none 1 exDist exStarP exStar_eq

/-- C11. The problem has the edge-use column `edg(a,b,c)` if and only if `c`
is a comb edge of the graph and the grid has an edge `e` from `a` to `b`
(listed at its from-node) whose cost, read when the second loop runs, is
finite, and, when `e` starts at a sink, that sink is a candidate of the
from-node of `c`, and, when `e` ends at a sink, that sink is a candidate of
the to-node of `c`. In particular an edge of infinite cost has no column. -/
theorem createProblem_edge_vars (gg : GridGraph) (cg : CombGraph)
    (geoPens : Option (Nat → Nat → ℚ)) (maxGrDist : ℚ) (dist : Nat → Nat → ℚ) (p : Problem)
    (h : createProblem gg cg geoPens maxGrDist dist = some p) (a b c : Nat) :
    (hasCol p.cols (.edg a b c) = true ↔
      ∃ edg ∈ combEdges cg, edg.id = c ∧ ∃ n ∈ gg.getNds, ∃ e ∈ n.getAdjList,
        e.getFrom = n.getId ∧ e.getFrom = a ∧ e.getTo = b ∧
        (openCands gg cg dist maxGrDist).cost a b ≠ none ∧
        (e.fromIsSink = true → (edg.getFrom, a) ∈ candPairs gg cg dist maxGrDist) ∧
        (e.toIsSink = true → (edg.getTo, b) ∈ candPairs gg cg dist maxGrDist)) ∧
    ((openCands gg cg dist maxGrDist).cost a b = none →
      hasCol p.cols (.edg a b c) = false) := by
  have key : hasCol p.cols (.edg a b c) = true ↔
      ∃ edg ∈ combEdges cg, edg.id = c ∧ ∃ n ∈ gg.getNds, ∃ e ∈ n.getAdjList,
        e.getFrom = n.getId ∧ e.getFrom = a ∧ e.getTo = b ∧
        (openCands gg cg dist maxGrDist).cost a b ≠ none ∧
        (e.fromIsSink = true → (edg.getFrom, a) ∈ candPairs gg cg dist maxGrDist) ∧
        (e.toIsSink = true → (edg.getTo, b) ∈ candPairs gg cg dist maxGrDist) := by
    rw [hasCol_problem_base h _ (by simp [VarName.tag]), hasCol_base_edg, hasCol_edgeUseCols]
    simp only [openCands_getNds]
  refine ⟨key, fun hc => ?_⟩
  rw [← Bool.not_eq_true, key]
  rintro ⟨edg, -, -, n, -, e, -, -, -, -, hne, -⟩
  exact hne hc

/-- Witness for C11: on the grid of two cells the primary edge from port 2 of
sink 0 to port 6 of sink 9 is settled by the equivalence; on the grid of
three cells the middle sink 9 is no candidate, its sink edges keep their
infinite cost and have no column. -/
theorem createProblem_edge_vars_witness :
    ((hasCol exP21.cols (.edg 3 16 0) = true ↔
      ∃ edg ∈ combEdges exComb, edg.id = 0 ∧ ∃ n ∈ (exGrid 2 1).getNds, ∃ e ∈ n.getAdjList,
        e.getFrom = n.getId ∧ e.getFrom = 3 ∧ e.getTo = 16 ∧
        (openCands (exGrid 2 1) exComb exDist 1).cost 3 16 ≠ none ∧
        (e.fromIsSink = true → (edg.getFrom, 3) ∈ candPairs (exGrid 2 1) exComb exDist 1) ∧
        (e.toIsSink = true → (edg.getTo, 16) ∈ candPairs (exGrid 2 1) exComb exDist 1)) ∧
      ((openCands (exGrid 2 1) exComb exDist 1).cost 3 16 = none →
        hasCol exP21.cols (.edg 3 16 0) = false)) ∧
    ((openCands (exGrid 3 1) exComb exDist31 1).cost 9 10 = none ∧
      hasCol exP31.cols (.edg 9 10 0) = false) :=
  ⟨createProblem_edge_vars (exGrid 2 1) exComb none 1 exDist exP21 exProblem_eq_21 3 16 0,
    by decide!,
    (createProblem_edge_vars (exGrid 3 1) exComb none 1 exDist31 exP31 exProblem_eq_31
      9 10 0).2 (by decide!)⟩

/-- C14. getOrdering returns, whatever the comparator of the queues and
whatever permutations the shuffles produce, a sequence without duplicates
whose elements are exactly the comb edges of the graph (the entries of the
adjacency lists of its nodes), provided the nodes are told apart by their
ids, the edges lead to nodes of the graph, and each node's edge ordering
lists exactly its incident comb edges. -/
theorem getOrdering_complete (cg : CombGraph) (lt : Nat → Nat → Bool)
    (shuffle : Nat → List CombEdge → List CombEdge)
    (hsh : ∀ k l, (shuffle k l).Perm l)
    (hids : (cg.getNds.map CombNode.id).Nodup)
    (hends : ∀ nd ∈ cg.getNds, ∀ e ∈ nd.getAdjList,
      ∃ m ∈ cg.getNds, m.id = e.getOtherNd nd.id)
    (hord : ∀ nd ∈ cg.getNds, ∀ e, e ∈ nd.getOrderedSet ↔ e ∈ nd.getAdjList) :
    ∃ order, getOrdering cg lt shuffle = some order ∧ order.Nodup ∧
      ∀ e, e ∈ order ↔ ∃ nd ∈ cg.getNds, e ∈ nd.getAdjList := by
  have hends2 : ∀ nd ∈ cg.getNds, ∀ e ∈ nd.getOrderedSet,
      ∃ m ∈ cg.getNds, m.id = e.getOtherNd nd.id :=
    fun nd hnd e he => hends nd hnd e ((hord nd hnd e).1 he)
  have hinv0 : OrdInv cg ⟨[], [], [], [], 0⟩ :=
    ⟨List.nodup_nil, fun e => Iff.rfl, by simp, by simp, by simp⟩
  obtain ⟨st, e1, ⟨h1, h2, h3, -, h5⟩, -, a1, -⟩ :=
    @globalLoop_spec _ lt _ hsh hids hends2
      (cg.getNds.foldl (fun q nd => pqPush lt nd.id q) []) ⟨[], [], [], [], 0⟩ hinv0 rfl
      (fun n hn => by
        rcases mem_foldl_pqPush.1 hn with h | h
        · exact h
        · simp at h)
  refine ⟨st.order, ?_, h1, ?_⟩
  · unfold getOrdering
    simp only [e1, Option.map_some']
  · intro e
    rw [h2 e]
    constructor
    · intro he
      obtain ⟨nd, hnd, hmem⟩ := List.mem_flatMap.1 (h3 e he)
      exact ⟨nd, hnd, (hord nd hnd e).1 hmem⟩
    · rintro ⟨nd, hnd, hmem⟩
      exact h5 nd hnd (a1 nd.id (mem_foldl_pqPush.2 (Or.inl ⟨nd, hnd, rfl⟩))) e
        ((hord nd hnd e).2 hmem)

/-- Witness for C14: the path of three nodes, the queue ordered by id, every
shuffle reversing its list; the ordering is the second edge, then the
first. -/
theorem getOrdering_complete_witness :
    (∃ order, getOrdering exPath (fun a b => decide (a < b)) (fun _ l => l.reverse)
        = some order ∧ order.Nodup ∧
      ∀ e, e ∈ order ↔ ∃ nd ∈ exPath.getNds, e ∈ nd.getAdjList) ∧
    getOrdering exPath (fun a b => decide (a < b)) (fun _ l => l.reverse)
      = some [exEdgeB, exEdgeA] :=
  ⟨getOrdering_complete exPath (fun a b => decide (a < b)) (fun _ l => l.reverse)
      (fun _ l => List.reverse_perm l) exPath_nodup (by decide)
      (by
        intro nd hnd e
        simp only [exPath, List.mem_cons, List.mem_singleton, List.not_mem_nil,
          or_false] at hnd
        rcases hnd with rfl | rfl | rfl <;> exact Iff.rfl),
    by decide⟩

/-- C17. The local search executes at most 100 iterations. In every executed
iteration the best drawing costs at most as much as the drawing the iteration
started from; it is that drawing itself or the drawing of a successful call
that is strictly cheaper than the start drawing and than the drawing of every
successful call made before it in the iteration; no successful call of the
iteration yielded a cheaper drawing than the best one; and the best drawing
is the start drawing when no successful call was strictly cheaper. Every iteration but the last
improved by at least 0.05 and handed its best drawing to the next one; the
last one improved by less than 0.05 and left the drawing as it was, or was
the 100th and handed on its best drawing. So the score never increases from
one iteration to the next, and the final score is at most the initial one.
Assumed: no adjacency list holds an edge twice, erasing a comb edge from a
drawing leaves the other drawn edges drawn, the initial drawing is complete,
and a successful call of `draw` for the edges of a node, on the copy of a
complete drawing from which the node and these edges were erased, yields a
complete drawing. -/
theorem localSearch_monotone {D S : Type} (ops : LocalOps D S) (cg : CombGraph) (d : D)
    (s : S)
    (herase : ∀ d ce ce2, ce2 ≠ ce → ops.drawn d ce2 = true →
      ops.drawn (ops.eraseEdg d ce) ce2 = true)
    (hnodup : ∀ a ∈ cg.getNds, a.getAdjList.Nodup)
    (hcomp : Complete ops cg d)
    (hdraw : ∀ d, Complete ops cg d → ∀ a ∈ cg.getNds, ∀ s p,
      (ops.draw s a.getAdjList p a
        (ops.eraseNd (a.getAdjList.foldl ops.eraseEdg d) a.id)).1.1 = true →
      Complete ops cg (ops.draw s a.getAdjList p a
        (ops.eraseNd (a.getAdjList.foldl ops.eraseEdg d) a.id)).1.2) :
    ∃ recs final sf, localSearch ops cg d s = some (recs, final, sf) ∧
      recs.length ≤ 100 ∧
      (∀ r ∈ recs, ops.score r.best ≤ ops.score r.start ∧
        (r.best = r.start ∨ ∃ pre c post, r.calls = pre ++ c :: post ∧ c.found = true ∧
          r.best = c.run ∧ ops.score c.run < ops.score r.start ∧
          ∀ c2 ∈ pre, c2.found = true → ops.score c.run < ops.score c2.run) ∧
        (∀ c ∈ r.calls, c.found = true → ops.score r.best ≤ ops.score c.run) ∧
        ((∀ c ∈ r.calls, c.found = true → ops.score r.start ≤ ops.score c.run) →
          r.best = r.start)) ∧
      (∀ r, recs.head? = some r → r.start = d) ∧
      recs.Chain' (fun r r2 => 1 / 20 ≤ ops.score r.start - ops.score r.best ∧
        r2.start = r.best ∧ ops.score r2.start ≤ ops.score r.start) ∧
      (∃ r, recs.getLast? = some r ∧
        ((ops.score r.start - ops.score r.best < 1 / 20 ∧ final = r.start) ∨
          (recs.length = 100 ∧ 1 / 20 ≤ ops.score r.start - ops.score r.best ∧
            final = r.best))) ∧
      ops.score final ≤ ops.score d := by
  obtain ⟨recs, final, sf, e1, hlen, hinv, hhead, hchain, hlast, hfin, hne, -⟩ :=
    @localSearchLoop_spec _ _ ops cg herase hnodup hdraw 100 d s hcomp
  refine ⟨recs, final, sf, e1, hlen, ?_, hhead, ?_, ?_, hfin⟩
  · intro r hr
    obtain ⟨h1, h2, h3⟩ := hinv r hr
    refine ⟨h1, h2, h3, ?_⟩
    intro hall
    rcases h2 with h2 | ⟨pre, c, post, hsplit, hf, -, hlt, -⟩
    · exact h2
    · exact absurd (hall c (by rw [hsplit]; simp) hf) (not_le.2 hlt)
  · refine hchain.imp ?_
    intro r r2 h
    refine ⟨h.1, h.2, ?_⟩
    rw [h.2]
    linarith [h.1]
  · cases hl : recs.getLast? with
    | none =>
      rw [List.getLast?_eq_none_iff] at hl
      exact absurd hl (hne (by norm_num))
    | some r =>
      rw [hl] at hlast
      exact ⟨r, rfl, hlast⟩

/-- Witness for C17: the two nodes of `exComb` drawn three cells apart on a
row of four cells, score 3. The first two iterations move the first node one
cell towards the second, the third finds nothing cheaper; the search ends
after three iterations with score 1. -/
theorem localSearch_monotone_witness :
    (∃ recs final sf,
      localSearch (exLocalOps 4 1) exComb exDrawing0 () = some (recs, final, sf) ∧
      recs.length ≤ 100 ∧
      (∀ r ∈ recs, (exLocalOps 4 1).score r.best ≤ (exLocalOps 4 1).score r.start ∧
        (r.best = r.start ∨ ∃ pre c post, r.calls = pre ++ c :: post ∧ c.found = true ∧
          r.best = c.run ∧ (exLocalOps 4 1).score c.run < (exLocalOps 4 1).score r.start ∧
          ∀ c2 ∈ pre, c2.found = true →
            (exLocalOps 4 1).score c.run < (exLocalOps 4 1).score c2.run) ∧
        (∀ c ∈ r.calls, c.found = true →
          (exLocalOps 4 1).score r.best ≤ (exLocalOps 4 1).score c.run) ∧
        ((∀ c ∈ r.calls, c.found = true →
            (exLocalOps 4 1).score r.start ≤ (exLocalOps 4 1).score c.run) →
          r.best = r.start)) ∧
      (∀ r, recs.head? = some r → r.start = exDrawing0) ∧
      recs.Chain' (fun r r2 =>
        1 / 20 ≤ (exLocalOps 4 1).score r.start - (exLocalOps 4 1).score r.best ∧
        r2.start = r.best ∧
        (exLocalOps 4 1).score r2.start ≤ (exLocalOps 4 1).score r.start) ∧
      (∃ r, recs.getLast? = some r ∧
        (((exLocalOps 4 1).score r.start - (exLocalOps 4 1).score r.best < 1 / 20 ∧
            final = r.start) ∨
          (recs.length = 100 ∧
            1 / 20 ≤ (exLocalOps 4 1).score r.start - (exLocalOps 4 1).score r.best ∧
            final = r.best))) ∧
      (exLocalOps 4 1).score final ≤ (exLocalOps 4 1).score exDrawing0) ∧
    (exLocalOps 4 1).score exDrawing0 = 3 ∧
    (localSearch (exLocalOps 4 1) exComb exDrawing0 ()).map
        (fun r => (r.1.length, (exLocalOps 4 1).score r.2.1)) = some (3, 1) :=
  ⟨localSearch_monotone (exLocalOps 4 1) exComb exDrawing0 () (exLocalOps_erase 4 1)
      (by decide) exDrawing0_complete
      (fun d hd a _ s p hf => exLocalOps_draw 4 1 exComb d hd a s p hf),
    by decide!, by decide!⟩

/-- C20. Contracting an edge of the line graph (`contractEdge`, through
`mergeNds`) leaves strictly fewer edges, and one node less when the end points
of the edge are nodes of the graph. Hence `contractEdges` terminates on every
line graph: with one round more than the graph has edges the loop ends, in a
graph in which the scan finds no edge to contract. -/
theorem contractEdges_terminates {P : Type} [DecidableEq P] (ops : EdgeOps P)
    (g : LineGraph P) (d : ℚ) (onlyNonStatConns : Bool) :
    (∀ e ∈ g.edgs, (contractEdge ops g e).edgs.length < g.edgs.length ∧
      (e.getFrom ∈ g.nds → e.getTo ∈ g.nds →
        (contractEdge ops g e).nds.length + 1 = g.nds.length)) ∧
    ∃ g1, contractEdges ops g d onlyNonStatConns = some g1 ∧
      findContractible ops g1 d onlyNonStatConns = none ∧
      g1.edgs.length ≤ g.edgs.length :=
  ⟨fun e he => ⟨contractEdge_edges ops g e he, contractEdge_nds ops g e⟩,
    contractLoop_terminates ops d onlyNonStatConns (g.edgs.length + 1) g (Nat.lt_succ_self _)⟩

/-- C13 (as stated, refuted): the warm start does not give a value to every
station-position and edge-use variable of the problem. On the grid of two
cells with the comb edge drawn from sink 0 over the primary edge from port 2
of sink 0 to sink 9, the bend edge from port 0 to port 1 of sink 9 has an
edge-use variable in the problem, the statement asks for the value 0, and
the lines written hold no line for it. -/
theorem extractFeasibleSol_partial :
    createProblem (exGrid 2 1) exComb none 1 exDist = some exP21 ∧
    extractFeasibleSol (exGrid 2 1) exComb 1 exDist exSettled exResEdg = some exMst ∧
    specMst (exGrid 2 1) exP21 exSettled exResEdg (.edg 10 11 0) = some 0 ∧
    VarName.edg 10 11 0 ∉ exMst.map Prod.fst :=
  ⟨exProblem_eq_21, exMst_eq, by decide!, by decide!⟩

/-- C13 (amended): when every edge at a sink is secondary, `extractFeasibleSol`
writes its lines, each with the value 0 or 1 and each for a station-position
or edge-use variable. Every station-position variable of the problem has a
line, and the lines for `x_{n,v}` carry 1 when `n` is the settled grid node of
`v` and 0 otherwise. A line with 1 for an edge-use variable `y_{e,c}` is
written exactly when `e` is a grid edge that is not secondary and `c` is the
comb edge routed over it. (Edge-use variables need not have a line.) -/
theorem extractFeasibleSol_lines (gg : GridGraph) (cg : CombGraph)
    (geoPens : Option (Nat → Nat → ℚ)) (maxGrDist : ℚ) (dist : Nat → Nat → ℚ) (p : Problem)
    (getSettled : Nat → Option Nat) (getResEdg : GridEdge → Option CombEdge)
    (h : createProblem gg cg geoPens maxGrDist dist = some p)
    (hsec : ∀ n ∈ gg.getNds, n.isSink = true → ∀ e ∈ n.getAdjList, e.isSecondary = true) :
    ∃ lines, extractFeasibleSol gg cg maxGrDist dist getSettled getResEdg = some lines ∧
      (∀ v k, (v, k) ∈ lines →
        (k = 0 ∨ k = 1) ∧ ((∃ n c, v = .statpos n c) ∨ ∃ a b c, v = .edg a b c)) ∧
      (∀ n c, hasCol p.cols (.statpos n c) = true →
        (.statpos n c, if getSettled c = some n then 1 else 0) ∈ lines) ∧
      (∀ n c k, (.statpos n c, k) ∈ lines →
        hasCol p.cols (.statpos n c) = true ∧ k = if getSettled c = some n then 1 else 0) ∧
      (∀ a b c, (.edg a b c, 1) ∈ lines ↔
        ∃ grNd ∈ gg.getNds, ∃ e ∈ grNd.getAdjListOut, e.isSecondary = false ∧
          e.getFrom = a ∧ e.getTo = b ∧ ∃ r, getResEdg e = some r ∧ r.id = c) := by
  have hex : ∃ lines, extractFeasibleSol gg cg maxGrDist dist getSettled getResEdg =
      some lines := extractFeasibleSol_some hsec
  obtain ⟨lines, hl⟩ := hex
  have hmem := mem_extractFeasibleSol hl
  have hcolStat : ∀ n c, hasCol p.cols (.statpos n c) = true ↔
      ∃ nd ∈ assignNds cg, ∃ gnd ∈ candNds gg dist maxGrDist nd,
        gnd.getId = n ∧ nd.id = c := by
    intro n c
    rw [hasCol_problem_base h _ (by simp [VarName.tag]), hasCol_base_statpos,
      hasCol_statPosCols]
    constructor
    · rintro ⟨nd, hnd, rfl, hdeg, gn, hgn, rfl, hs, hd⟩
      refine ⟨nd, ?_, gn, mem_candNds.2 ⟨hgn, hs, hd⟩, rfl, rfl⟩
      simp only [assignNds, List.mem_filter]
      exact ⟨hnd, by simp; omega⟩
    · rintro ⟨nd, hnd, gn, hgn, rfl, rfl⟩
      simp only [assignNds, List.mem_filter] at hnd
      obtain ⟨h1, h2, h3⟩ := mem_candNds.1 hgn
      refine ⟨nd, hnd.1, rfl, ?_, gn, h1, rfl, h2, h3⟩
      have : nd.getDeg ≠ 0 := by simpa using hnd.2
      omega
  refine ⟨lines, hl, ?_, ?_, ?_, ?_⟩
  · intro v k hv
    rcases (hmem (v, k)).1 hv with ⟨nd, -, gnd, -, ls, hls, hx⟩ | ⟨grNd, -, e, -, -, hx⟩
    · rcases mem_nodeLines hls hx with ⟨rfl, rfl⟩ | ⟨ht, rfl⟩
      · refine ⟨?_, Or.inl ⟨_, _, rfl⟩⟩
        split
        · exact Or.inr rfl
        · exact Or.inl rfl
      · refine ⟨Or.inl rfl, ?_⟩
        cases v <;> simp [VarName.tag] at ht
        exact Or.inr ⟨_, _, _, rfl⟩
    · rcases mem_edgeLines hx with ⟨rfl, c, -, rfl⟩ | ⟨rfl, -, ht⟩
      · exact ⟨Or.inr rfl, Or.inr ⟨_, _, _, rfl⟩⟩
      · refine ⟨Or.inl rfl, ?_⟩
        cases v <;> simp [VarName.tag] at ht
        exact Or.inr ⟨_, _, _, rfl⟩
  · intro n c hc
    obtain ⟨nd, hnd, gnd, hgnd, rfl, rfl⟩ := (hcolStat n c).1 hc
    obtain ⟨h1, h2, -⟩ := mem_candNds.1 hgnd
    have hnl : ∃ ls, nodeLines gg getSettled nd gnd = some ls :=
      nodeLines_some (hsec gnd h1 h2)
    obtain ⟨ls, hls⟩ := hnl
    exact (hmem _).2 (Or.inl ⟨nd, hnd, gnd, hgnd, ls, hls, nodeLines_stat hls⟩)
  · intro n c k hv
    rcases (hmem _).1 hv with ⟨nd, hnd, gnd, hgnd, ls, hls, hx⟩ | ⟨grNd, -, e, -, -, hx⟩
    · rcases mem_nodeLines hls hx with ⟨hv, hk⟩ | ⟨ht, -⟩
      · simp only [VarName.statpos.injEq] at hv
        obtain ⟨rfl, rfl⟩ := hv
        exact ⟨(hcolStat _ _).2 ⟨nd, hnd, gnd, hgnd, rfl, rfl⟩, hk⟩
      · simp [VarName.tag] at ht
    · rcases mem_edgeLines hx with ⟨-, c, -, hv⟩ | ⟨-, -, ht⟩
      · simp at hv
      · simp [VarName.tag] at ht
  · intro a b c
    constructor
    · intro hv
      rcases (hmem _).1 hv with ⟨nd, -, gnd, -, ls, hls, hx⟩ | ⟨grNd, hg, e, he, hs, hx⟩
      · rcases mem_nodeLines hls hx with ⟨hv, -⟩ | ⟨-, hk⟩
        · simp at hv
        · simp at hk
      · rcases mem_edgeLines hx with ⟨-, r, hr, hv⟩ | ⟨hk, -, -⟩
        · simp only [VarName.edg.injEq] at hv
          obtain ⟨rfl, rfl, rfl⟩ := hv
          exact ⟨grNd, hg, e, he, hs, rfl, rfl, r, hr, rfl⟩
        · simp at hk
    · rintro ⟨grNd, hg, e, he, hs, rfl, rfl, r, hr, rfl⟩
      refine (hmem _).2 (Or.inr ⟨grNd, hg, e, he, hs, ?_⟩)
      unfold edgeLines
      rw [hr]
      exact List.mem_singleton.2 rfl

/-- C13 (amended), witness: the grid of two cells with the comb edge drawn
from sink 0 to sink 9. -/
theorem extractFeasibleSol_lines_witness :
    createProblem (exGrid 2 1) exComb none 1 exDist = some exP21 ∧
    (∀ n ∈ (exGrid 2 1).getNds, n.isSink = true → ∀ e ∈ n.getAdjList, e.isSecondary = true) ∧
    ∃ lines, extractFeasibleSol (exGrid 2 1) exComb 1 exDist exSettled exResEdg = some lines ∧
      (∀ v k, (v, k) ∈ lines →
        (k = 0 ∨ k = 1) ∧ ((∃ n c, v = .statpos n c) ∨ ∃ a b c, v = .edg a b c)) ∧
      (∀ n c, hasCol exP21.cols (.statpos n c) = true →
        (.statpos n c, if exSettled c = some n then 1 else 0) ∈ lines) ∧
      (∀ n c k, (.statpos n c, k) ∈ lines →
        hasCol exP21.cols (.statpos n c) = true ∧ k = if exSettled c = some n then 1 else 0) ∧
      (∀ a b c, (.edg a b c, 1) ∈ lines ↔
        ∃ grNd ∈ (exGrid 2 1).getNds, ∃ e ∈ grNd.getAdjListOut, e.isSecondary = false ∧
          e.getFrom = a ∧ e.getTo = b ∧ ∃ r, exResEdg e = some r ∧ r.id = c) :=
  ⟨exProblem_eq_21, exGrid_sinks_secondary,
    extractFeasibleSol_lines (exGrid 2 1) exComb none 1 exDist exP21 exSettled exResEdg
      exProblem_eq_21 exGrid_sinks_secondary⟩

/-- C28. In every round of `contractEdges` the edge contracted is not marked
`dontContract`, its polyline is shorter than `d`, both end points have more
than one edge and at least one end point has no stops. `contractEdge` deletes
the from-node when the to-node has stops and the to-node otherwise, so of an
edge with stops at one end only the node without stops is deleted. Hence
`contractEdges` returns a graph in which every node that had stops is still
present, with its stops. -/
theorem contractEdges_keeps_stations {P : Type} [DecidableEq P] (ops : EdgeOps P)
    (g : LineGraph P) (d : ℚ) (onlyNonStatConns : Bool) :
    (∀ (g0 : LineGraph P) (e : LineEdge P),
      findContractible ops g0 d onlyNonStatConns = some e →
        e ∈ g0.edgs ∧ ops.dontContract e.pl = false ∧ ops.length e.pl < d ∧
        1 < (g0.getAdjList e.getFrom).length ∧ 1 < (g0.getAdjList e.getTo).length ∧
        (g0.stops e.getFrom = 0 ∨ g0.stops e.getTo = 0)) ∧
    (∀ (g0 : LineGraph P) (e : LineEdge P),
      (contractEdge ops g0 e).stops = g0.stops ∧
      (0 < g0.stops e.getTo → g0.stops e.getFrom = 0 →
        (contractEdge ops g0 e).nds = g0.nds.erase e.getFrom) ∧
      (0 < g0.stops e.getFrom → g0.stops e.getTo = 0 →
        (contractEdge ops g0 e).nds = g0.nds.erase e.getTo)) ∧
    ∃ g1, contractEdges ops g d onlyNonStatConns = some g1 ∧ g1.stops = g.stops ∧
      ∀ n ∈ g.nds, 0 < g.stops n → n ∈ g1.nds := by
  refine ⟨?_, ?_, ?_⟩
  · intro g0 e h
    obtain ⟨h1, h2, h3, h4, h5, h6, -⟩ := findContractible_spec h
    exact ⟨h1, h2, h3, h4, h5, h6⟩
  · intro g0 e
    obtain ⟨hn, hs⟩ := contractEdge_deletes ops g0 e
    refine ⟨hs, ?_, ?_⟩
    · intro hto _
      rw [hn, if_pos hto]
    · intro _ hto
      rw [hn, if_neg (by omega)]
  · obtain ⟨g1, h1, -, -⟩ := contractLoop_terminates ops d onlyNonStatConns
      (g.edgs.length + 1) g (Nat.lt_succ_self _)
    obtain ⟨h2, h3⟩ := contractLoop_stations ops d onlyNonStatConns _ _ _ h1
    exact ⟨g1, h1, h2, h3⟩

/-- C24 (the code at a failing input): a `Point` with id `a` and a
`LineString` from `a` to the unknown id `b`. No problem is reported and
`addEdg` is called with a null pointer for the to-node. With the unknown id
in `from` instead, the problem is reported and no edge is added. -/
theorem readFromGeoJson_unknown_to :
    (readFromGeoJson [.point "a", .lineString true "a" "b"]).edges = [(some 0, none)] ∧
    (readFromGeoJson [.point "a", .lineString true "a" "b"]).errors = [] ∧
    (readFromGeoJson [.point "a", .lineString true "b" "a"]).edges = [] ∧
    (readFromGeoJson [.point "a", .lineString true "b" "a"]).errors = ["b"] := by
  decide

/-- C21 (the code at a failing input): two crossing edges `a` from 1 to 2 and
`b` from 3 to 4, both with a line directed to the to-node and a line directed
to the from-node, and the new node 5. On the halves of `b` the directions to
the far end point are redirected to 5. On the halves of `a` they are not:
line 7 on the half from 1 to 5 is still directed to node 2 and line 9 on the
half from 5 to 2 is still directed to node 1. -/
theorem topologizeIsects_asymmetric :
    (topologizeStep exIsect exIsectA exIsectB 5).edgs =
      [⟨3, 5, [⟨8, some 5⟩, ⟨10, some 3⟩]⟩, ⟨5, 4, [⟨8, some 4⟩, ⟨10, some 5⟩]⟩,
        ⟨1, 5, [⟨7, some 2⟩, ⟨9, some 1⟩]⟩, ⟨5, 2, [⟨7, some 2⟩, ⟨9, some 1⟩]⟩] ∧
    nodeRpl exIsectA.pl exIsectA.getTo 5 = [⟨7, some 5⟩, ⟨9, some 1⟩] ∧
    nodeRpl exIsectA.pl exIsectA.getFrom 5 = [⟨7, some 2⟩, ⟨9, some 5⟩] := by
  decide

/-- C23. `lineCtd(frEdg, frLn, toEdg, toLn)` is true exactly when the two
occurrences are of the same line, the edges have a shared node `n` whose
degree is not 1, one of the occurrences has no direction or exactly one of
the two directions is `n`, and the exception (line, `frEdg`, `toEdg`) is not
recorded at `n`. `lineCtd(frEdg, toEdg, line)` is true exactly when both
edges have the line and the former holds of its two occurrences; it is false
when one of the edges does not have the line. -/
theorem lineCtd_iff {E : Type} [DecidableEq E] (g : CtdGraph E) (frEdg toEdg : E)
    (frLn toLn : LineOcc) (line : Nat) :
    (lineCtd g frEdg frLn toEdg toLn = true ↔
      frLn.line = toLn.line ∧
      ∃ n, g.sharedNode frEdg toEdg = some n ∧ g.getDeg n ≠ 1 ∧
        (frLn.direction = none ∨ toLn.direction = none ∨
          (frLn.direction = some n ∧ toLn.direction ≠ some n) ∨
          (frLn.direction ≠ some n ∧ toLn.direction = some n)) ∧
        (frLn.line, frEdg, toEdg) ∉ g.connExc n) ∧
    (lineCtdLine g frEdg toEdg line = true ↔
      hasLine (g.getLines frEdg) line = true ∧ hasLine (g.getLines toEdg) line = true ∧
      lineCtd g frEdg (lineOcc (g.getLines frEdg) line) toEdg
        (lineOcc (g.getLines toEdg) line) = true) ∧
    (hasLine (g.getLines frEdg) line = false ∨ hasLine (g.getLines toEdg) line = false →
      lineCtdLine g frEdg toEdg line = false) := by
  refine ⟨?_, ?_, ?_⟩
  · unfold lineCtd
    by_cases hl : frLn.line = toLn.line
    · rw [if_neg (not_not.2 hl)]
      cases hs : g.sharedNode frEdg toEdg with
      | none => simp
      | some n =>
        by_cases hd : g.getDeg n = 1
        · simp [hd]
        · simp only [hd, if_false, hl, true_and, Option.some.injEq, exists_eq_left',
            CtdGraph.connOccurs, Bool.and_eq_true, Bool.or_eq_true, beq_iff_eq, bne_iff_ne,
            ne_eq, Bool.not_eq_true', List.contains_eq_any_beq, List.any_eq_false,
            Prod.forall, not_false_eq_true]
          constructor
          · rintro ⟨h1, h2⟩
            refine ⟨by tauto, ?_⟩
            intro hmem
            have := h2 _ _ _ hmem
            simp at this
          · rintro ⟨h1, h2⟩
            refine ⟨by tauto, ?_⟩
            intro a b c hmem
            by_contra hc
            simp only [Bool.not_eq_false, beq_iff_eq, Prod.mk.injEq] at hc
            obtain ⟨rfl, rfl, rfl⟩ := hc
            exact h2 hmem
    · simp [hl]
  · unfold lineCtdLine
    by_cases h1 : hasLine (g.getLines frEdg) line = true
    · by_cases h2 : hasLine (g.getLines toEdg) line = true
      · simp [h1, h2]
      · simp [h1, h2]
    · simp [h1]
  · intro h
    unfold lineCtdLine
    rcases h with h | h <;> simp [h]

/-- C25. For a comb node `v` of degree `k >= 3` whose ordering lists `k`
edges, take the rows `vulnconst(v)` and `orderconst(v,i)` of the problem
built by `createProblem`. Every integral assignment that satisfies these rows
and has the `vuln` variables of `v` between 0 and 1 has exactly one `vuln`
variable at 1, and the direction variables of the edges of `v`, read
cyclically in the order of the edge ordering from that index, increase
strictly; so they are pairwise different. This holds in particular of every
feasible solution of the problem. -/
theorem createProblem_order_cyclic (gg : GridGraph) (cg : CombGraph)
    (geoPens : Option (Nat → Nat → ℚ)) (maxGrDist : ℚ) (dist : Nat → Nat → ℚ) (p : Problem)
    (h : createProblem gg cg geoPens maxGrDist dist = some p)
    (nd : CombNode) (hnd : nd ∈ cg.getNds) (hdeg : 3 ≤ nd.getDeg)
    (hord : nd.getOrderedSet.length = nd.getDeg) :
    (∀ σ : VarName → Int,
      (∀ r ∈ p.rows, isOrderName nd.id r.name = true → r.bnd.sat (r.eval σ)) →
      (∀ i, i < nd.getDeg → 0 ≤ σ (.vuln nd.id i) ∧ σ (.vuln nd.id i) ≤ 1) →
      CyclicOrder σ nd) ∧
    (∀ σ : VarName → Int, Feasible p σ → CyclicOrder σ nd) := by
  refine ⟨fun σ hrows hv => order_rows_cyclic h hnd hdeg hord σ hrows hv, ?_⟩
  intro σ hσ
  refine order_rows_cyclic h hnd hdeg hord σ (fun r hr _ => hσ.1 r hr) ?_
  intro i hi
  obtain ⟨-, -, hc⟩ := order_rows_mem h hnd hdeg
  exact hσ.2 _ (hc i hi)

/-- C25, witness: the centre of the star on the grid of two by two cells,
with the directions 2, 0, 1 of its three edges and the wrap at the second
edge. -/
theorem createProblem_order_cyclic_witness :
    createProblem (exGrid 2 2) exStar none 1 exDist = some exStarP ∧
    exCentre ∈ exStar.getNds ∧ 3 ≤ exCentre.getDeg ∧
    exCentre.getOrderedSet.length = exCentre.getDeg ∧
    (∀ r ∈ exStarP.rows, isOrderName exCentre.id r.name = true →
      r.bnd.sat (r.eval exOrder)) ∧
    CyclicOrder exOrder exCentre :=
  ⟨exStar_eq, exCentre_mem, by decide, by decide, exStar_order_rows,
    (createProblem_order_cyclic (exGrid 2 2) exStar none 1 exDist exStarP exStar_eq exCentre
      exCentre_mem (by decide) (by decide)).1 exOrder exStar_order_rows
      (fun i _ => by
        simp only [exOrder]
        split <;> omega)⟩

/-- C30 (as stated, refuted): the parts of the new edge are not the two lists
of parts put together as they are. On the path of three nodes with the transit
edge 10 from 1 to 2 and the transit edge 11 from 3 to 2, both with the flag
true, `simplifyStep` removes node 2; the second edge ends at the node removed
and is reverted, and its part gets the flag false. -/
theorem simplifyStep_flips_direction :
    exOpt.adjList 2 = [⟨1, 2, [⟨10, true⟩]⟩, ⟨3, 2, [⟨11, true⟩]⟩] ∧
    simplifyStep exOptOps exOpt =
      some (true, ⟨[1, 3], [⟨1, 3, [⟨10, true⟩, ⟨11, false⟩]⟩]⟩) ∧
    ([⟨10, true⟩, ⟨11, false⟩] : List EtgPart) ≠ [⟨10, true⟩] ++ [⟨11, true⟩] := by
  decide

/-- C30 (amended). Whatever place the new edge gets among the edges: a call
of `simplifyStep` that returns true has removed one node `n` with exactly two
edges `first`, `second` and replaced these by one edge between end points of
`first` and `second` other than `n`, whose parts are the parts of `first`
followed by the parts of `second`, each with its transit edge and with its
direction flag flipped when its edge is reverted (`first` when it does not end
at `n`, `second` when it ends at `n`), so the transit edges under the edges of
the graph are the same; a call that returns false has left the graph as it
was. `simplify` ends after at most as many rounds as there are nodes,
and when no assertion fails no node of the graph it ends with can be merged
and the transit edges are the same as at the start. In a graph without
self-loops no assertion fails. -/
theorem simplify_terminates (ops : OptOps)
    (hplace : ∀ l e, (ops.place l e).Perm (e :: l)) (g : OptGraph) :
    (∀ g0 g1, simplifyStep ops g0 = some (true, g1) →
      ∃ n first second, n ∈ g0.nodes ∧ g0.adjList n = [first, second] ∧
        g1.nodes = g0.nodes.erase n ∧ g1.nodes.length + 1 = g0.nodes.length ∧
        ∃ newEdge, g1.edges.Perm (newEdge :: (g0.edges.erase first).erase second) ∧
          (newEdge.fromNd = first.fromNd ∨ newEdge.fromNd = first.toNd) ∧
          (newEdge.toNd = second.fromNd ∨ newEdge.toNd = second.toNd) ∧
          newEdge.fromNd ≠ n ∧ newEdge.toNd ≠ n ∧
          newEdge.etgs.map EtgPart.etg =
            first.etgs.map EtgPart.etg ++ second.etgs.map EtgPart.etg ∧
          newEdge.etgs =
            (first.etgs.map fun p => ⟨p.etg, xor p.dir (decide (first.toNd ≠ n))⟩) ++
            (second.etgs.map fun p => ⟨p.etg, xor p.dir (decide (second.toNd = n))⟩) ∧
          g1.etgs.Perm g0.etgs) ∧
    (∀ g0 g1, simplifyStep ops g0 = some (false, g1) → g1 = g0) ∧
    (∃ r, simplify ops g = some r ∧
      ∀ g1, r = some g1 → simplifyStep ops g1 = some (false, g1) ∧
        g1.nodes.length ≤ g.nodes.length ∧ g1.etgs.Perm g.etgs) ∧
    ((∀ e ∈ g.edges, e.fromNd ≠ e.toNd) → ∃ g1, simplify ops g = some (some g1)) := by
  refine ⟨?_, ?_, ?_, ?_⟩
  · intro g0 g1 h
    obtain ⟨-, ht⟩ := simplifyNodes_spec ops hplace g0 g0.nodes true g1 (fun _ hn => hn) h
    obtain ⟨n, first, second, hn, hadj, hnodes, h1, h2, -, hperm, hetgs⟩ := ht rfl
    refine ⟨n, first, second, hn, hadj, hnodes, ?_, mergedEdge n first second, hperm,
      ?_, ?_, h1, h2, mergedEdge_etgs n first second, ?_, hetgs⟩
    · rw [hnodes, List.length_erase_of_mem hn]
      have := List.length_pos_of_mem hn
      omega
    · simp only [mergedEdge]
      split
      · exact Or.inr rfl
      · exact Or.inl rfl
    · simp only [mergedEdge]
      split
      · exact Or.inr rfl
      · exact Or.inl rfl
    · simp [mergedEdge]
  · intro g0 g1 h
    exact (simplifyNodes_spec ops hplace g0 g0.nodes false g1 (fun _ hn => hn) h).1 rfl
  · exact simplifyLoop_spec ops hplace (g.nodes.length + 1) g (Nat.lt_succ_self _)
  · exact simplifyLoop_some ops hplace (g.nodes.length + 1) g (Nat.lt_succ_self _)

/-- C30 (amended), witness: a path of three nodes whose middle node is merged
away. -/
theorem simplify_terminates_witness :
    (∀ (l : List OptEdge) (e : OptEdge), (exOptOps.place l e).Perm (e :: l)) ∧
    simplify exOptOps exOpt = some (some ⟨[1, 3], [⟨1, 3, [⟨10, true⟩, ⟨11, false⟩]⟩]⟩) ∧
    ∃ r, simplify exOptOps exOpt = some r ∧
      ∀ g1, r = some g1 → simplifyStep exOptOps g1 = some (false, g1) ∧
        g1.nodes.length ≤ exOpt.nodes.length ∧ g1.etgs.Perm exOpt.etgs :=
  ⟨fun _ _ => List.Perm.refl _, by decide,
    (simplify_terminates exOptOps (fun _ _ => List.Perm.refl _) exOpt).2.2.1⟩

/-- C26. Let the set `S` of grid edges used by a comb edge be the edges of a
simple path from `grStart` to `grEnd`: the edges `steps` lead from `grStart`
to `grEnd`, each in the adjacency list of the node it leaves, no node is met
twice, and every edge in the adjacency list of a node on the way has that
node as an end point. Then with more fuel than the path has edges the walk
ends, the assertion `i == edges.size()` holds, and `Drawing::draw` is handed
the edges of the path in reverse order, the edge reaching `grEnd` first and
the edge leaving `grStart` last; each edge of `S` is in this vector once. -/
theorem extractSolution_walk (gg : GridGraph) (S : List GridEdge) (grStart grEnd : Nat)
    (steps : List (GridEdge × Nat))
    (hpath : isPath gg grStart steps = true)
    (hnodup : (grStart :: steps.map Prod.snd).Nodup)
    (hend : (grStart :: steps.map Prod.snd).getLast? = some grEnd)
    (hS : S.Perm (steps.map Prod.fst)) (fuel : Nat) (hfuel : steps.length < fuel) :
    extractSolutionEdge gg S grStart grEnd fuel =
      some (some ((steps.map Prod.fst).reverse.map some)) ∧
    (steps.map Prod.fst).reverse.Perm S ∧ S.Nodup ∧
    ((steps.map Prod.fst).reverse.length = S.length) := by
  have hlen : S.length = steps.length := by rw [hS.length_eq, List.length_map]
  have hw := @walkLoop_path gg S grEnd steps grStart none [] fuel
    hpath hnodup hend (fun x hx => hS.symm.subset hx)
    (fun x hx hxr => absurd (hS.subset hx) hxr)
    (fun x hx _ => Or.inr (hS.subset hx))
    (fun l hl => by simp at hl) hfuel
  obtain ⟨l1, hl1⟩ := hw
  simp only [List.length_nil, List.map_nil, List.append_nil, Nat.zero_add] at hl1
  have hnd : (steps.map Prod.fst).Nodup := isPath_nodup steps grStart hpath hnodup
  refine ⟨?_, (List.reverse_perm _).trans hS.symm, hS.nodup_iff.2 hnd, ?_⟩
  · unfold extractSolutionEdge
    rw [hlen, hl1]
    simp
  · rw [List.length_reverse, List.length_map, hlen]

/-- C26, witness: on the grid of two cells the path from sink 0 over its
port 2 and port 6 of sink 9 into sink 9, the set given in another order. -/
theorem extractSolution_walk_witness :
    isPath (exGrid 2 1) 0 exWalk = true ∧
    extractSolutionEdge (exGrid 2 1)
        [exPrimary, ⟨16, 9, false, true, true, 0⟩, ⟨0, 3, true, false, true, 0⟩] 0 9 4 =
      some (some [some ⟨16, 9, false, true, true, 0⟩, some exPrimary,
        some ⟨0, 3, true, false, true, 0⟩]) :=
  ⟨by decide!,
    (extractSolution_walk (exGrid 2 1)
      [exPrimary, ⟨16, 9, false, true, true, 0⟩, ⟨0, 3, true, false, true, 0⟩] 0 9 exWalk
      (by decide!) (by decide) (by decide) (by decide) 4 (by decide)).1⟩

/-- C22. On a line graph without self-loops, with at most one edge between
two nodes and all end points among its nodes, for `maxDeg > 2` and an order
of the edges at a node that lists each of them once: `splitNodes(maxDeg)`
returns (no assertion fails, the fuel is enough), afterwards every node of
the graph has at most `maxDeg` edges, every node that was in the graph is
still there, with exactly `maxDeg` edges if it had more and with the degree
it had otherwise. One split of a node `n` with more than `maxDeg` edges
leaves `n` with its first `maxDeg - 1` edges in the order and the trunk edge
to the new node, gives the new node the other edges of `n` and the trunk
edge, and keeps the degree of every other node. -/
theorem splitNodes_maxDeg
    (order : LineGraph (List LineOcc) → Nat → List (LineEdge (List LineOcc)))
    (st : SplitGraph) (maxDeg : Nat) (hmax : 2 < maxDeg)
    (hord : ∀ g n, (order g n).Perm (g.getAdjList n))
    (hloop : ∀ e ∈ st.g.edgs, e.getFrom ≠ e.getTo)
    (hpar : st.g.edgs.Pairwise fun e f => f.joins e.getFrom e.getTo = false)
    (hnds : ∀ e ∈ st.g.edgs, e.getFrom ∈ st.g.nds ∧ e.getTo ∈ st.g.nds) :
    (∃ st1, splitNodes order st maxDeg = some (some st1) ∧
      (∀ m ∈ st1.g.nds, st1.g.getDeg m ≤ maxDeg) ∧
      (∀ m ∈ st.g.nds, m ∈ st1.g.nds ∧
        st1.g.getDeg m = if maxDeg < st.g.getDeg m then maxDeg else st.g.getDeg m)) ∧
    (∀ n, maxDeg < st.g.getDeg n →
      (splitOnce order st n maxDeg).2.1 ∉ st.g.nds ∧
      (splitOnce order st n maxDeg).2.2.getFrom = n ∧
      (splitOnce order st n maxDeg).2.2.getTo = (splitOnce order st n maxDeg).2.1 ∧
      ((splitOnce order st n maxDeg).1.g.getAdjList n).Perm
        ((order st.g n).take (maxDeg - 1) ++ [(splitOnce order st n maxDeg).2.2]) ∧
      (splitOnce order st n maxDeg).1.g.getDeg n = maxDeg ∧
      (splitOnce order st n maxDeg).1.g.getDeg (splitOnce order st n maxDeg).2.1 =
        st.g.getDeg n - maxDeg + 2 ∧
      ∀ m, m ≠ n → m ≠ (splitOnce order st n maxDeg).2.1 →
        (splitOnce order st n maxDeg).1.g.getDeg m = st.g.getDeg m) := by
  have hwf : st.g.Wf := ⟨hloop, par_of_pairwise _ hpar, hnds⟩
  constructor
  · obtain ⟨st1, k1, -, k3, k4, k5⟩ := splitList_spec order maxDeg hmax hord
      (st.g.nds.filter fun n => decide (maxDeg < st.g.getDeg n)) st hwf
    have hdeg : ∀ m ∈ st.g.nds,
        st1.g.getDeg m = if maxDeg < st.g.getDeg m then maxDeg else st.g.getDeg m := by
      intro m hm
      rw [k4 m hm]
      by_cases hd : maxDeg < st.g.getDeg m
      · rw [if_pos hd, if_pos ⟨List.mem_filter.2 ⟨hm, by simpa using hd⟩, hd⟩]
      · rw [if_neg hd, if_neg (fun h => hd h.2)]
    refine ⟨st1, k1, ?_, fun m hm => ⟨k3 m hm, hdeg m hm⟩⟩
    intro m hm
    by_cases hm2 : m ∈ st.g.nds
    · rw [hdeg m hm2]
      split
      · exact le_refl _
      · omega
    · exact k5 m hm hm2
  · intro n hd
    have hn : n ∈ st.g.nds := mem_nds_of_deg hwf (by omega)
    obtain ⟨g1, ce, heq, -, hfrom, hto, -⟩ := splitOnce_values order st n maxDeg hord hwf hn
    have h1 := splitOnce_deg_n order st n maxDeg hord hwf hn
    have h2 := splitOnce_deg_cn order st n maxDeg hord hwf hn
    have h3 := splitOnce_deg_other order st n maxDeg hord hwf hn
    have h4 := splitOnce_adj order st n maxDeg hord hwf hd (by omega)
    have hce : (splitOnce order st n maxDeg).2.2 = ce := by rw [heq]
    refine ⟨addNd_fresh st.g, by rw [hce]; exact hfrom, by rw [hce]; exact hto, h4, by omega,
      ?_, h3⟩
    show (splitOnce order st n maxDeg).1.g.getDeg st.g.addNd.2 = _
    omega

/-- C22, witness: node 0 with four edges and `maxDeg = 3`; the edges to the
nodes 3 and 4 are moved to the new node 5. -/
theorem splitNodes_maxDeg_witness :
    (∀ (g : LineGraph (List LineOcc)) (n : Nat), (exSplitOrder g n).Perm (g.getAdjList n)) ∧
    (splitNodes exSplitOrder exSplit 3).map (Option.map fun st1 => (st1.g.nds, st1.g.edgs)) =
      some (some ([0, 1, 2, 3, 4, 5],
        [⟨0, 1, [⟨7, none⟩]⟩, ⟨0, 2, [⟨8, some 2⟩]⟩, ⟨0, 5, [⟨9, none⟩, ⟨7, none⟩]⟩,
          ⟨3, 5, [⟨9, some 5⟩]⟩, ⟨5, 4, [⟨7, some 5⟩]⟩])) ∧
    ∃ st1, splitNodes exSplitOrder exSplit 3 = some (some st1) ∧
      (∀ m ∈ st1.g.nds, st1.g.getDeg m ≤ 3) ∧
      (∀ m ∈ exSplit.g.nds, m ∈ st1.g.nds ∧
        st1.g.getDeg m = if 3 < exSplit.g.getDeg m then 3 else exSplit.g.getDeg m) :=
  ⟨fun _ _ => List.Perm.refl _, by decide,
    (splitNodes_maxDeg exSplitOrder exSplit 3 (by decide) (fun _ _ => List.Perm.refl _)
      (by decide) (by decide) (by decide)).1⟩

/-- C29. On a line graph without self-loops, with at most one edge between
two nodes and all end points among its nodes, let `n` have more than `maxDeg`
edges. After lines 715-777 of `splitNode` the trunk edge `ce` joins `n` and
the new node `cn`; the edges at `cn` are `ce` and the edges that took the
place of the edges of `combine`; `ce` carries every line of every such edge,
each without direction, and no other line; for every line of `ce` and every
two distinct edges `ea`, `eb` at `cn` other than `ce` the exception
(line, `ea`, `eb`) is recorded at `cn`, and no exception recorded at `cn`
names `ce`. So in `lineCtd`, whatever else the graph holds, no line continues
at `cn` between two edges other than the trunk edge. -/
theorem splitNode_trunk
    (order : LineGraph (List LineOcc) → Nat → List (LineEdge (List LineOcc)))
    (st : SplitGraph) (n maxDeg : Nat)
    (hord : ∀ g n, (order g n).Perm (g.getAdjList n))
    (hloop : ∀ e ∈ st.g.edgs, e.getFrom ≠ e.getTo)
    (hpar : st.g.edgs.Pairwise fun e f => f.joins e.getFrom e.getTo = false)
    (hnds : ∀ e ∈ st.g.edgs, e.getFrom ∈ st.g.nds ∧ e.getTo ∈ st.g.nds)
    (hdeg : maxDeg < st.g.getDeg n) :
    ∃ g1 cn ce, splitOnce order st n maxDeg = (g1, cn, ce) ∧ cn ∉ st.g.nds ∧
      ce.getFrom = n ∧ ce.getTo = cn ∧
      (∀ x, x ∈ g1.g.getAdjList cn ↔
        x = ce ∨ ∃ c ∈ (order st.g n).drop (maxDeg - 1), x = movedEdge n cn c) ∧
      (∀ x ∈ g1.g.getAdjList cn, x ≠ ce → ∀ lo ∈ x.pl, ⟨lo.line, none⟩ ∈ ce.pl) ∧
      (∀ lo ∈ ce.pl, lo.direction = none ∧
        ∃ x ∈ g1.g.getAdjList cn, x ≠ ce ∧ hasLine x.pl lo.line = true) ∧
      (∀ lo ∈ ce.pl, ∀ ea ∈ g1.g.getAdjList cn, ∀ eb ∈ g1.g.getAdjList cn,
        ea ≠ ce → eb ≠ ce → ea ≠ eb → (lo.line, ea.key, eb.key) ∈ g1.connExc cn) ∧
      (∀ t ∈ g1.connExc cn, t.2.1 ≠ ce.key ∧ t.2.2 ≠ ce.key) ∧
      (∀ cg : CtdGraph (Nat × Nat), cg.connExc cn = g1.connExc cn →
        ∀ ea ∈ g1.g.getAdjList cn, ∀ eb ∈ g1.g.getAdjList cn, ea ≠ ce → eb ≠ ce → ea ≠ eb →
          cg.sharedNode ea.key eb.key = some cn →
          cg.getLines ea.key = ea.pl → cg.getLines eb.key = eb.pl →
          ∀ line, lineCtdLine cg ea.key eb.key line = false) := by
  have hwf : st.g.Wf := ⟨hloop, par_of_pairwise _ hpar, hnds⟩
  have hn : n ∈ st.g.nds := mem_nds_of_deg hwf (by omega)
  have hfresh := addNd_fresh st.g
  have hncn : n ≠ st.g.addNd.2 := fun h => hfresh (h ▸ hn)
  obtain ⟨g1, ce, heq, hce, hfrom, hto, hlines, hat, hmoved, -, hexc⟩ :=
    splitOnce_values order st n maxDeg hord hwf hn
  have hcomb := fun c hc => mem_combine order st n maxDeg hord (c := c) hc
  -- the edges at the new node
  have hadj : ∀ x, x ∈ g1.g.getAdjList st.g.addNd.2 ↔
      x = ce ∨ ∃ c ∈ (order st.g n).drop (maxDeg - 1), x = movedEdge n st.g.addNd.2 c := by
    intro x
    unfold LineGraph.getAdjList
    rw [List.mem_filter]
    constructor
    · rintro ⟨h1, h2⟩
      exact hat x h1 h2
    · rintro (rfl | ⟨c, hc, rfl⟩)
      · exact ⟨hce, by simp [LineEdge.touches, hto]⟩
      · exact ⟨hmoved c hc, movedEdge_touch n _ c⟩
  -- an edge that took the place of an edge of `combine` is not the trunk edge
  have hmne : ∀ c ∈ (order st.g n).drop (maxDeg - 1),
      (movedEdge n st.g.addNd.2 c).getFrom ≠ n := by
    intro c hc
    unfold movedEdge
    split
    · exact Ne.symm hncn
    · exact other_ne_self (hwf.loop c (hcomb c hc).1)
  have hother : ∀ x ∈ g1.g.getAdjList st.g.addNd.2, x ≠ ce →
      ∃ c ∈ (order st.g n).drop (maxDeg - 1), x = movedEdge n st.g.addNd.2 c := by
    intro x hx hne
    rcases (hadj x).1 hx with h | h
    · exact absurd h hne
    · exact h
  have hkey : ∀ x ∈ g1.g.getAdjList st.g.addNd.2, x ≠ ce → x.key ≠ ce.key := by
    intro x hx hne hk
    obtain ⟨c, hc, rfl⟩ := hother x hx hne
    have : (movedEdge n st.g.addNd.2 c).getFrom = ce.getFrom := congrArg Prod.fst hk
    rw [hfrom] at this
    exact hmne c hc this
  have hon : ∀ x ∈ g1.g.getAdjList st.g.addNd.2, x ≠ ce →
      ∀ lo ∈ x.pl, (⟨lo.line, none⟩ : LineOcc) ∈ ce.pl := by
    intro x hx hne lo hlo
    obtain ⟨c, hc, rfl⟩ := hother x hx hne
    have h1 : hasLine (movedEdge n st.g.addNd.2 c).pl lo.line = true :=
      (hasLine_iff _ _).2 ⟨lo, hlo, rfl⟩
    rw [movedEdge_pl, hasLine_nodeRpl] at h1
    obtain ⟨lo2, hlo2, hl⟩ := (hasLine_iff _ _).1 h1
    exact (hlines _).2 ⟨c, hc, lo2, hlo2, by rw [hl]⟩
  have hrec : ∀ lo ∈ ce.pl, ∀ ea ∈ g1.g.getAdjList st.g.addNd.2,
      ∀ eb ∈ g1.g.getAdjList st.g.addNd.2, ea ≠ ce → eb ≠ ce → ea ≠ eb →
        (lo.line, ea.key, eb.key) ∈ g1.connExc st.g.addNd.2 := by
    intro lo hlo ea hea eb heb h1 h2 h3
    exact (hexc _).2 ⟨_, (mem_trunkExc _ _ _).2 ⟨lo, hlo, ea, hea, eb, heb, h1, h2, h3, rfl⟩,
      Or.inl rfl⟩
  refine ⟨g1, st.g.addNd.2, ce, heq, hfresh, hfrom, hto, hadj, hon, ?_, hrec, ?_, ?_⟩
  · intro lo hlo
    obtain ⟨c, hc, lo2, hlo2, rfl⟩ := (hlines lo).1 hlo
    refine ⟨rfl, movedEdge n st.g.addNd.2 c, (hadj _).2 (Or.inr ⟨c, hc, rfl⟩), ?_, ?_⟩
    · intro h
      exact hmne c hc (by rw [h, hfrom])
    · rw [movedEdge_pl, hasLine_nodeRpl]
      exact (hasLine_iff _ _).2 ⟨lo2, hlo2, rfl⟩
  · intro t ht
    obtain ⟨u, hu, h⟩ := (hexc t).1 ht
    obtain ⟨lo, -, ea, hea, eb, heb, h1, h2, -, rfl⟩ := (mem_trunkExc _ _ _).1 hu
    rcases h with rfl | rfl
    · exact ⟨hkey ea hea h1, hkey eb heb h2⟩
    · exact ⟨hkey eb heb h2, hkey ea hea h1⟩
  · intro cg hcg ea hea eb heb h1 h2 h3 hs hla hlb line
    by_cases hl : hasLine ea.pl line = true
    · obtain ⟨lo, hlo, rfl⟩ := (hasLine_iff _ _).1 hl
      have h4 := hrec _ (hon ea hea h1 lo hlo) ea hea eb heb h1 h2 h3
      apply lineCtdLine_of_exc cg ea.key eb.key st.g.addNd.2 lo.line hs
      rw [hcg]
      exact h4
    · unfold lineCtdLine
      rw [hla]
      simp [hl]

/-- C29, witness: node 0 with four edges and `maxDeg = 3`; the edges from
node 3 and to node 4 are moved to the new node 5, the trunk edge from 0 to 5
carries the lines 9 and 7 without direction, and the exceptions for these two
lines between the two edges moved are recorded at node 5. -/
theorem splitNode_trunk_witness :
    3 < exSplit.g.getDeg 0 ∧
    (splitOnce exSplitOrder exSplit 0 3).2 = (5, ⟨0, 5, [⟨9, none⟩, ⟨7, none⟩]⟩) ∧
    (splitOnce exSplitOrder exSplit 0 3).1.g.getAdjList 5 =
      [⟨0, 5, [⟨9, none⟩, ⟨7, none⟩]⟩, ⟨3, 5, [⟨9, some 5⟩]⟩, ⟨5, 4, [⟨7, some 5⟩]⟩] ∧
    (splitOnce exSplitOrder exSplit 0 3).1.connExc 5 =
      [(9, (3, 5), (5, 4)), (9, (5, 4), (3, 5)), (7, (3, 5), (5, 4)), (7, (5, 4), (3, 5))] ∧
    ∃ g1 cn ce, splitOnce exSplitOrder exSplit 0 3 = (g1, cn, ce) ∧ cn ∉ exSplit.g.nds ∧
      ce.getFrom = 0 ∧ ce.getTo = cn ∧
      (∀ x, x ∈ g1.g.getAdjList cn ↔
        x = ce ∨ ∃ c ∈ (exSplitOrder exSplit.g 0).drop (3 - 1), x = movedEdge 0 cn c) ∧
      (∀ x ∈ g1.g.getAdjList cn, x ≠ ce → ∀ lo ∈ x.pl, ⟨lo.line, none⟩ ∈ ce.pl) ∧
      (∀ lo ∈ ce.pl, lo.direction = none ∧
        ∃ x ∈ g1.g.getAdjList cn, x ≠ ce ∧ hasLine x.pl lo.line = true) ∧
      (∀ lo ∈ ce.pl, ∀ ea ∈ g1.g.getAdjList cn, ∀ eb ∈ g1.g.getAdjList cn,
        ea ≠ ce → eb ≠ ce → ea ≠ eb → (lo.line, ea.key, eb.key) ∈ g1.connExc cn) ∧
      (∀ t ∈ g1.connExc cn, t.2.1 ≠ ce.key ∧ t.2.2 ≠ ce.key) ∧
      (∀ cg : CtdGraph (Nat × Nat), cg.connExc cn = g1.connExc cn →
        ∀ ea ∈ g1.g.getAdjList cn, ∀ eb ∈ g1.g.getAdjList cn, ea ≠ ce → eb ≠ ce → ea ≠ eb →
          cg.sharedNode ea.key eb.key = some cn →
          cg.getLines ea.key = ea.pl → cg.getLines eb.key = eb.pl →
          ∀ line, lineCtdLine cg ea.key eb.key line = false) :=
  ⟨by decide, by decide, by decide, by decide,
    splitNode_trunk exSplitOrder exSplit 0 3 (fun _ _ => List.Perm.refl _) (by decide)
      (by decide) (by decide) (by decide)⟩

/-- C27. Whatever the comparator of the queues and whatever permutations the
shuffles produce, in the sequence that `getOrdering` returns every comb edge
that has an edge of its connected component before it in the sequence (every
edge but the first of its component) has an end point that is an end point of
an edge before it; provided the nodes are told apart by their ids, each
node's edge ordering lists exactly its incident comb edges, and each comb
edge is in the adjacency lists of both its end points, which are nodes of the
graph. So when `draw` has routed the edges before it, one of its end points
is settled, `settleNd` and `isSettled` being as the spec describes them. -/
theorem getOrdering_connected {G Dr C : Type} (ops : DrawOps G Dr C) (cg : CombGraph)
    (lt : Nat → Nat → Bool) (shuffle : Nat → List CombEdge → List CombEdge)
    (hsh : ∀ k l, (shuffle k l).Perm l)
    (hids : (cg.getNds.map CombNode.id).Nodup)
    (hends : ∀ nd ∈ cg.getNds, ∀ e ∈ nd.getAdjList,
      ∃ m ∈ cg.getNds, m.id = e.getOtherNd nd.id)
    (hord : ∀ nd ∈ cg.getNds, ∀ e, e ∈ nd.getOrderedSet ↔ e ∈ nd.getAdjList)
    (htouch : ∀ nd ∈ cg.getNds, ∀ e ∈ nd.getAdjList, e.getFrom = nd.id ∨ e.getTo = nd.id)
    (hsym : ∀ nd ∈ cg.getNds, ∀ e ∈ nd.getAdjList, ∀ m ∈ cg.getNds,
      m.id = e.getOtherNd nd.id → e ∈ m.getAdjList) :
    ∃ order, getOrdering cg lt shuffle = some order ∧
      ∀ pre e post, order = pre ++ e :: post →
        (∃ e1 ∈ pre, cg.Conn e1.getFrom e.getFrom) →
        (∃ e1 ∈ pre, e.getFrom = e1.getFrom ∨ e.getFrom = e1.getTo ∨
          e.getTo = e1.getFrom ∨ e.getTo = e1.getTo) ∧
        ∀ (settled : Nat → Option (Nat × Nat)) (fuel : Nat) (st0 st : DrawState G Dr),
          SettleSpec ops → draw ops settled fuel pre st0 = some (true, st) →
          ops.isSettled st.gg e.getFrom = true ∨ ops.isSettled st.gg e.getTo = true := by
  have hends2 : ∀ nd ∈ cg.getNds, ∀ e ∈ nd.getOrderedSet,
      ∃ m ∈ cg.getNds, m.id = e.getOtherNd nd.id :=
    fun nd hnd e he => hends nd hnd e ((hord nd hnd e).1 he)
  have hinv0 : OrdInv cg ⟨[], [], [], [], 0⟩ :=
    ⟨List.nodup_nil, fun e => Iff.rfl, by simp, by simp, by simp⟩
  have hq : ∀ n ∈ cg.getNds.foldl (fun q nd => pqPush lt nd.id q) [],
      ∃ nd ∈ cg.getNds, nd.id = n := by
    intro n hn
    rcases mem_foldl_pqPush.1 hn with h | h
    · exact h
    · simp at h
  obtain ⟨st, e1, -⟩ :=
    @globalLoop_spec _ lt _ hsh hids hends2
      (cg.getNds.foldl (fun q nd => pqPush lt nd.id q) []) ⟨[], [], [], [], 0⟩ hinv0 rfl hq
  have hgood := globalLoop_conn hsh hids hends hord htouch hsym _ _ st hinv0 rfl
    (by simp [endsOf])
    (by
      intro pre e post h
      simp at h)
    hq e1
  refine ⟨st.order, ?_, ?_⟩
  · unfold getOrdering
    simp only [e1, Option.map_some']
  · intro pre e post hsplit ⟨e2, he2, hc⟩
    have hend : e.getFrom ∈ endsOf pre ∨ e.getTo ∈ endsOf pre := by
      rcases hgood pre e post hsplit with h | h
      · exact h
      · exact absurd hc (h _ (mem_endsOf.2 ⟨e2, he2, Or.inl rfl⟩))
    constructor
    · rcases hend with h | h
      · obtain ⟨x, hx, hx2⟩ := mem_endsOf.1 h
        rcases hx2 with hx2 | hx2
        · exact ⟨x, hx, Or.inl hx2.symm⟩
        · exact ⟨x, hx, Or.inr (Or.inl hx2.symm)⟩
      · obtain ⟨x, hx, hx2⟩ := mem_endsOf.1 h
        rcases hx2 with hx2 | hx2
        · exact ⟨x, hx, Or.inr (Or.inr (Or.inl hx2.symm))⟩
        · exact ⟨x, hx, Or.inr (Or.inr (Or.inr hx2.symm))⟩
    · intro settled fuel st0 st2 hs hd
      unfold draw at hd
      have hset := drawLoop_settled hs pre st0 st2 hd
      rcases hend with h | h
      · exact Or.inl ((hset _).2 (Or.inl h))
      · exact Or.inr ((hset _).2 (Or.inl h))

/-- C27, witness: the path of three nodes, the queue ordered by id, every
shuffle reversing its list; the second edge of the sequence has the middle
node in common with the first, and this node is settled after the first edge
was routed. -/
theorem getOrdering_connected_witness :
    getOrdering exPath (fun a b => decide (a < b)) (fun _ l => l.reverse)
      = some [exEdgeB, exEdgeA] ∧
    SettleSpec exDrawOps ∧
    draw exDrawOps (fun _ => none) 3 [exEdgeB] exDrawStart = some (true, exDrawAfterB) ∧
    exDrawOps.isSettled exDrawAfterB.gg exEdgeA.getTo = true ∧
    ∃ order, getOrdering exPath (fun a b => decide (a < b)) (fun _ l => l.reverse)
        = some order ∧
      ∀ pre e post, order = pre ++ e :: post →
        (∃ e1 ∈ pre, exPath.Conn e1.getFrom e.getFrom) →
        (∃ e1 ∈ pre, e.getFrom = e1.getFrom ∨ e.getFrom = e1.getTo ∨
          e.getTo = e1.getFrom ∨ e.getTo = e1.getTo) ∧
        ∀ (settled : Nat → Option (Nat × Nat)) (fuel : Nat)
          (st0 st : DrawState (List (Nat × Nat)) (List (CombEdge × Bool))),
          SettleSpec exDrawOps → draw exDrawOps settled fuel pre st0 = some (true, st) →
          exDrawOps.isSettled st.gg e.getFrom = true ∨
            exDrawOps.isSettled st.gg e.getTo = true :=
  ⟨by decide,
    ⟨fun g n nd v => by simp only [exDrawOps, List.any_cons]; congr 1; exact BEq.comm,
      fun _ _ _ _ => rfl, fun _ _ _ => rfl,
      fun _ _ _ _ => rfl, fun _ _ _ _ _ => rfl⟩,
    exDrawAfterB_eq, by decide!,
    getOrdering_connected exDrawOps exPath (fun a b => decide (a < b)) (fun _ l => l.reverse)
      (fun _ l => List.reverse_perm l) exPath_nodup (by decide)
      (by
        intro nd hnd e
        simp only [exPath, List.mem_cons, List.mem_singleton, List.not_mem_nil,
          or_false] at hnd
        rcases hnd with rfl | rfl | rfl <;> exact Iff.rfl)
      (by decide) (by decide)⟩

end Loom
